import Mathlib

/-!
# Verification development for the storage engines of `ssd-vs-pm`

Shallow embedding of

* `src/HashTable/File.h` (`HtFile`: header page, in-file free list),
* `src/HashTable/BufferManager.h` (`HtBufferManager`: CLOCK pool with pin counts),
* `src/HashTable/HashTable.h` (`HashTable`: directory page, chained bucket pages),
* `src/Btree/buffer_manager.cc` (`BufferManager`: CLOCK pool of the B-tree),
* `src/Btree/node.h`, `src/Btree/btree.hpp` (`Node`, `Btree`),
* `src/Bztree/mwcas.cc`, `src/Bztree/include/mwcas.h` (the persistent multi-word
  compare-and-swap),
* `src/Ycsb/core/counter_generator.h`, `src/Ycsb/core/core_workload.h` (the key
  sequences of the YCSB driver).

Conventions.  A page of the hash-table file is the natural number whose
little-endian representation is the `PAGE_SIZE = 4096` bytes of the page (the
layout `HashTable.h` documents), so that the 64-bit word at byte offset `8 i`
is `pg / 2 ^ (64 i) % 2 ^ 64`.  System
calls are assumed to succeed (the source asserts it), except
`posix_fallocate` in `HtFile::AllocatePage`, whose failure is visible in the
result and is an input of the model.  A loop that may not terminate, and a
failing `assert`, make the modelled operation return `none`.
-/

set_option autoImplicit false

/-! ## `HashTable/File.h` -/

namespace HtFile

/-- Size of a page in bytes. -/
def PAGE_SIZE : Nat := 4096

/-- Chunk by which the file is grown: `#define EXPAND_SIZE 1024 * PAGE_SIZE`. -/
def EXPAND_SIZE : Nat := 1024 * PAGE_SIZE

/-- A page image: the number whose little-endian bytes are the bytes of the
page. -/
abbrev Page := Nat

/-- The all-zero page `dummy_page`. -/
def dummy_page : Page := 0

/-- Word `i` of a page (`*reinterpret_cast<size_t*>(buf + 8 * i)`). -/
def word (pg : Page) (i : Nat) : Nat := pg / 2 ^ (64 * i) % 2 ^ 64

/-- State of an `HtFile`: the three used words of the in-memory header
`first_page`, the preallocated length `flen`, the length `st_size` in bytes
of the file on disk and the pages on disk (a page that was never written reads
as zeros).  The counter `fsize` is not wrapped at `2 ^ 64`: the theorems assume
that the file has fewer than `2 ^ 64` pages. -/
structure File where
  first_free_page : Nat
  fsize : Nat
  third_field : Nat
  flen : Nat
  st_size : Nat
  disk : Nat → Page

/-- Constructor `HtFile(path, init_size, trunc = true)`: zero header, file
preallocated to `max(PAGE_SIZE, init_size)` zero bytes. -/
def create (init_size : Nat) : File where
  first_free_page := 0
  fsize := 0
  third_field := 0
  flen := max PAGE_SIZE init_size
  st_size := max PAGE_SIZE init_size
  disk := fun _ => dummy_page

/-- Length of the file after `pwrite` of `PAGE_SIZE` bytes at page `page_id`:
a write past the end extends the file. -/
def extend (st_size page_id : Nat) : Nat := max st_size (PAGE_SIZE * page_id + PAGE_SIZE)

/-- `HtFile::SetThirdField`. -/
def SetThirdField (f : File) (x : Nat) : File :=
  { f with third_field := x }

/-- `HtFile::ReadPage`; `none` when `assert(res == PAGE_SIZE)` fails: `pread`
returns fewer than `PAGE_SIZE` bytes for a page that is not wholly within the
file. -/
def ReadPage (f : File) (page_id : Nat) : Option Page :=
  if PAGE_SIZE * page_id + PAGE_SIZE ≤ f.st_size then some (f.disk page_id) else none

/-- `HtFile::WritePage`. -/
def WritePage (f : File) (page_id : Nat) (buf : Page) : File :=
  { f with
    disk := Function.update f.disk page_id buf
    st_size := extend f.st_size page_id }

/-- `HtFile::AllocatePage`.  `falloc_ok` tells whether a needed
`posix_fallocate` succeeds; on failure the function returns 0.  The head of
the free list is a page that `FreePage` wrote, so it is read as a whole page. -/
def AllocatePage (f : File) (falloc_ok : Bool) : Nat × File :=
  if f.first_free_page ≠ 0 then
    let next_free_page := word (f.disk f.first_free_page) 0
    (f.first_free_page, { f with first_free_page := next_free_page })
  else if f.fsize + 1 ≥ f.flen / PAGE_SIZE then
    if falloc_ok then
      (f.fsize + 1,
        { f with
          flen := f.flen + EXPAND_SIZE
          st_size := max f.st_size (f.flen + EXPAND_SIZE)
          fsize := f.fsize + 1 })
    else (0, f)
  else (f.fsize + 1, { f with fsize := f.fsize + 1 })

/-- `HtFile::FreePage`: the page is overwritten with zeros except for its first
word, which receives the old free-list head; the page becomes the head. -/
def FreePage (f : File) (page_id : Nat) : File :=
  { f with
    disk := Function.update f.disk page_id (f.first_free_page % 2 ^ 64)
    st_size := extend f.st_size page_id
    first_free_page := page_id }

/-- `HtFile::TruncPage`. -/
def TruncPage (f : File) (page_id : Nat) : File :=
  { f with
    disk := Function.update f.disk page_id dummy_page
    st_size := extend f.st_size page_id }

/-- Walk of the in-file free list from page `head`: `none` when `fuel` links
do not reach the terminating 0. -/
def freeWalk (disk : Nat → Page) : Nat → Nat → Option (List Nat)
  | 0, head => if head = 0 then some [] else none
  | fuel + 1, head =>
    if head = 0 then some []
    else (freeWalk disk fuel (word (disk head) 0)).map (fun l => head :: l)

/-- A call on the file. -/
inductive Op where
  | alloc (falloc_ok : Bool)
  | free (page_id : Nat)

/-- One call, with the list of live pages kept alongside: a page is live from
the `AllocatePage` that returned it (0 is the failure code, not a page) to the
`FreePage` applied to it. -/
def step (s : File × List Nat) : Op → File × List Nat
  | .alloc ok =>
    let r := AllocatePage s.1 ok
    (r.2, if r.1 = 0 then s.2 else r.1 :: s.2)
  | .free p => (FreePage s.1 p, s.2.erase p)

/-- State and live pages after a sequence of calls. -/
def run (s : File × List Nat) (ops : List Op) : File × List Nat :=
  ops.foldl step s

/-- The calls respect the contract of `FreePage`: it is only applied to a page
that is live at that moment. -/
def Valid (s : File × List Nat) : List Op → Prop
  | [] => True
  | .alloc ok :: ops => Valid (step s (.alloc ok)) ops
  | .free p :: ops => p ∈ s.2 ∧ Valid (step s (.free p)) ops

end HtFile

namespace HtFile

/-- The pages `fl` are exactly the pages linked from `head` through the first
word of each page, ending with the null link. -/
def IsFreeList (disk : Nat → Page) : Nat → List Nat → Prop
  | head, [] => head = 0
  | head, p :: ps => head = p ∧ p ≠ 0 ∧ IsFreeList disk (word (disk p) 0) ps

/-- Invariant of a file together with its live pages: the free list is a
duplicate-free chain, disjoint from the live pages, and both together are the
page numbers `1 .. fsize`. -/
def Inv (s : File × List Nat) : Prop :=
  ∃ fl, IsFreeList s.1.disk s.1.first_free_page fl ∧ fl.Nodup ∧ s.2.Nodup ∧
    (∀ p, p ∈ fl → p ∉ s.2) ∧ (∀ p, (p ∈ s.2 ∨ p ∈ fl) ↔ (1 ≤ p ∧ p ≤ s.1.fsize))

end HtFile

namespace HtFile

/-- The pages returned by `k` successive calls of `AllocatePage`, every needed
`posix_fallocate` succeeding, and the file afterwards. -/
def allocMany : Nat → File → List Nat × File
  | 0, f => ([], f)
  | k + 1, f =>
    let r := AllocatePage f true
    let rest := allocMany k r.2
    (r.1 :: rest.1, rest.2)

end HtFile

/-! ## `HashTable/BufferManager.h` -/

namespace HtBufferManager

open HtFile (Page File)

/-- The hash map `lookup_table` (page id to frame id) as an association list. -/
abbrev Table := List (Nat × Nat)

/-- `lookup_table.find(k)`. -/
def Table.find : Table → Nat → Option Nat
  | [], _ => none
  | (k', v) :: t, k => if k' = k then some v else Table.find t k

/-- `lookup_table.erase(k)`. -/
def Table.erase : Table → Nat → Table
  | [], _ => []
  | (k', v) :: t, k => if k' = k then Table.erase t k else (k', v) :: Table.erase t k

/-- `lookup_table.emplace(k, v)`: inserts only when `k` has no entry. -/
def Table.emplace (t : Table) (k v : Nat) : Table :=
  match Table.find t k with
  | some _ => t
  | none => (k, v) :: t

/-- `struct BufferMeta`. -/
structure BufferMeta where
  page_id : Nat
  pin_count : Nat
  clock_count : Nat
  dirty : Bool
  deriving DecidableEq, Repr

/-- State of an `HtBufferManager`, the `HtFile` it points to included. -/
structure Pool where
  file : File
  n : Nat
  clock_hand : Nat
  metas : List BufferMeta
  buffer_frames : List Page
  lookup_table : Table

/-- Constructor `HtBufferManager(hpf, buffer_size)`; `none` when
`assert(buffer_size % 4 == 0)` fails. -/
def create (hpf : File) (buffer_size : Nat) : Option Pool :=
  if buffer_size % 4 = 0 then
    some
      { file := hpf
        n := buffer_size
        clock_hand := 0
        metas := List.replicate buffer_size ⟨0, 0, 0, false⟩
        buffer_frames := List.replicate buffer_size HtFile.dummy_page
        lookup_table := [] }
  else none

/-- The `while` loop of `GetFreeFrame`: a frame that is pinned or has a
positive clock count is passed over (an unpinned one has its clock count
decremented) and the hand advances, wrapping at `n`.  The result is the
metadata, the hand at the exit and the number of advances; `none` when `fuel`
iterations do not reach the exit or the hand is outside the array. -/
def clockLoop : Nat → Nat → List BufferMeta → Nat → Nat → Option (List BufferMeta × Nat × Nat)
  | 0, _, _, _, _ => none
  | fuel + 1, n, metas, hand, adv =>
    match metas[hand]? with
    | none => none
    | some m =>
      if m.pin_count > 0 ∨ m.clock_count > 0 then
        clockLoop fuel n
          (if m.pin_count = 0 then metas.set hand { m with clock_count := m.clock_count - 1 }
            else metas)
          (if hand + 1 ≥ n then 0 else hand + 1) (adv + 1)
      else some (metas, hand, adv)

/-- Iterations granted to the loop of `GetFreeFrame`: with 16-bit clock counts
the loop exits within `65536 * n` advances whenever a frame is unpinned, so
running out of this fuel is the loop not terminating. -/
def clockFuel (n : Nat) : Nat := 65536 * n + 1

/-- `HtBufferManager::GetFreeFrame`: returns the victim frame; its table entry
is erased and, if it is dirty, its bytes are written to the file. -/
def GetFreeFrame (b : Pool) : Option (Nat × Pool) :=
  match clockLoop (clockFuel b.n) b.n b.metas b.clock_hand 0 with
  | none => none
  | some (metas, hand, _) =>
    match metas[hand]? with
    | none => none
    | some m =>
      some (hand,
        { b with
          metas := metas
          clock_hand := hand
          lookup_table := Table.erase b.lookup_table m.page_id
          file := if m.dirty then HtFile.WritePage b.file m.page_id (b.buffer_frames.getD hand 0)
                  else b.file })

/-- `HtBufferManager::PinPage`: returns the frame id (the frame pointer
`*frame` is `buffer_frames + frame_id * PAGE_SIZE`); `pin_count++` is on a
32-bit unsigned counter.  `none` when `GetFreeFrame` does not return or the
assertion of `HtFile::ReadPage` fails. -/
def PinPage (b : Pool) (page_id : Nat) : Option (Nat × Pool) :=
  match Table.find b.lookup_table page_id with
  | none =>
    match GetFreeFrame b with
    | none => none
    | some (frame_id, b1) =>
      match HtFile.ReadPage b1.file page_id with
      | none => none
      | some pg =>
        some (frame_id,
          { b1 with
            buffer_frames := b1.buffer_frames.set frame_id pg
            lookup_table := Table.emplace b1.lookup_table page_id frame_id
            metas := b1.metas.set frame_id ⟨page_id, 1, 1, false⟩ })
  | some frame_id =>
    some (frame_id,
      { b with
        metas := b.metas.modify
          (fun m => { m with pin_count := (m.pin_count + 1) % 2 ^ 32, clock_count := 1 })
          frame_id })

/-- `HtBufferManager::UnpinPage`: `--metas[frame_id].pin_count` on a 32-bit
unsigned counter. -/
def UnpinPage (b : Pool) (frame_id : Nat) : Pool :=
  { b with
    metas := b.metas.modify
      (fun m => { m with pin_count := if m.pin_count = 0 then 2 ^ 32 - 1 else m.pin_count - 1 })
      frame_id }

/-- `HtBufferManager::MarkDirty`. -/
def MarkDirty (b : Pool) (frame_id : Nat) : Pool :=
  { b with metas := b.metas.modify (fun m => { m with dirty := true }) frame_id }

/-- `HtBufferManager::FreePage`; `none` when `assert(pin_count == 1)` fails. -/
def FreePage (b : Pool) (frame_id : Nat) : Option Pool :=
  match b.metas[frame_id]? with
  | none => none
  | some m =>
    if m.pin_count = 1 then
      some
        { b with
          lookup_table := Table.erase b.lookup_table m.page_id
          file := HtFile.FreePage b.file m.page_id
          metas := b.metas.set frame_id ⟨0, 0, 0, false⟩ }
    else none

/-- The loop of `HtBufferManager::Flush` from frame `i` on. -/
def flushFrom : List BufferMeta → List Page → Nat → File → File × List BufferMeta
  | [], _, _, f => (f, [])
  | m :: ms, frames, i, f =>
    let r := flushFrom ms frames (i + 1)
      (if m.dirty then HtFile.WritePage f m.page_id (frames.getD i 0) else f)
    (r.1, { m with dirty := false } :: r.2)

/-- `HtBufferManager::Flush` (the header write of `file->Flush()` does not
change the modelled state). -/
def Flush (b : Pool) : Pool :=
  let r := flushFrom b.metas b.buffer_frames 0 b.file
  { b with file := r.1, metas := r.2 }

/-- The caller stores `pg` through the frame pointer returned by `PinPage`. -/
def writeFrame (b : Pool) (frame_id : Nat) (pg : Page) : Pool :=
  { b with buffer_frames := b.buffer_frames.set frame_id pg }

/-- The bytes of a frame. -/
def frame (b : Pool) (frame_id : Nat) : Page := b.buffer_frames.getD frame_id 0

end HtBufferManager

namespace HtBufferManager

open HtFile (Page File)

/-- A call made by a user of the pool; `write f pg` is an in-frame
modification through the pointer of frame `f`. -/
inductive Call where
  | pin (page_id : Nat)
  | unpin (frame_id : Nat)
  | markDirty (frame_id : Nat)
  | write (frame_id : Nat) (pg : Page)

/-- The pool together with what its user knows: the outstanding pins as
(frame, page) pairs, the last bytes written for each page through the pool,
and the frames modified since their last `MarkDirty`. -/
structure Session where
  pool : Pool
  pins : List (Nat × Nat)
  written : Nat → Option Page
  unmarked : List Nat

/-- Session on a new pool. -/
def Session.init (b : Pool) : Session :=
  { pool := b, pins := [], written := fun _ => none, unmarked := [] }

/-- Removes the first outstanding pin of frame `f`. -/
def dropPin : List (Nat × Nat) → Nat → List (Nat × Nat)
  | [], _ => []
  | (f', p) :: t, f => if f' = f then t else (f', p) :: dropPin t f

/-- The page a pinned frame was pinned for. -/
def pageOf : List (Nat × Nat) → Nat → Option Nat
  | [], _ => none
  | (f', p) :: t, f => if f' = f then some p else pageOf t f

/-- Effect of one call; `none` when `PinPage` does not return. -/
def Session.step (g : Session) : Call → Option Session
  | .pin p =>
    match PinPage g.pool p with
    | none => none
    | some (f, b) => some { g with pool := b, pins := (f, p) :: g.pins }
  | .unpin f => some { g with pool := UnpinPage g.pool f, pins := dropPin g.pins f }
  | .markDirty f =>
    some { g with pool := MarkDirty g.pool f, unmarked := g.unmarked.filter (fun x => x ≠ f) }
  | .write f pg =>
    some
      { g with
        pool := writeFrame g.pool f pg
        written :=
          match pageOf g.pins f with
          | some p => Function.update g.written p (some pg)
          | none => g.written
        unmarked := f :: g.unmarked }

/-- Effect of a sequence of calls. -/
def Session.run (g : Session) : List Call → Option Session
  | [] => some g
  | c :: cs =>
    match g.step c with
    | none => none
    | some g1 => Session.run g1 cs

/-- The discipline of the pool's user for one call: frames are used, marked
and unpinned only while pinned, a modified frame is marked dirty before it is
unpinned, and a pin leaves at most `n - 1` pages pinned. -/
def Session.Ok (g : Session) : Call → Prop
  | .pin p => ((p :: g.pins.map Prod.snd).dedup).length + 1 ≤ g.pool.n
  | .unpin f => (pageOf g.pins f).isSome ∧ f ∉ g.unmarked
  | .markDirty f => (pageOf g.pins f).isSome
  | .write f _ => (pageOf g.pins f).isSome

/-- Every call of the sequence respects the discipline in the state in which it
is made. -/
def Session.Valid (g : Session) : List Call → Prop
  | [] => True
  | c :: cs =>
    g.Ok c ∧
      match g.step c with
      | some g1 => Session.Valid g1 cs
      | none => True

/-- The bytes the user expects in page `p`: the last bytes written through the
pool, or the contents of the file `hpf` the pool was created on. -/
def Session.expected (g : Session) (hpf : File) (p : Nat) : Page :=
  (g.written p).getD (hpf.disk p)

instance Session.decOk (g : Session) (c : Call) : Decidable (g.Ok c) := by
  cases c <;> unfold Session.Ok <;> infer_instance

/-- Deciding `Session.Valid` by running the calls. -/
def Session.decValid : (g : Session) → (cs : List Call) → Decidable (g.Valid cs)
  | _, [] => isTrue trivial
  | g, c :: cs =>
    match hs : g.step c with
    | some g1 =>
      match Session.decOk g c, Session.decValid g1 cs with
      | isTrue h1, isTrue h2 => isTrue ⟨h1, by rw [hs]; exact h2⟩
      | isFalse h1, _ => isFalse (fun h => h1 h.1)
      | _, isFalse h2 => isFalse (fun h => h2 (by have := h.2; rw [hs] at this; exact this))
    | none =>
      match Session.decOk g c with
      | isTrue h1 => isTrue ⟨h1, by rw [hs]; trivial⟩
      | isFalse h1 => isFalse (fun h => h1 h.1)

instance (g : Session) (cs : List Call) : Decidable (g.Valid cs) := Session.decValid g cs

/-- The limits of one call: a pinned page is not page 0, it lies wholly within
the file, and fewer than `2 ^ 32` pins are outstanding. -/
def Session.Lim (g : Session) : Call → Prop
  | .pin p => p ≠ 0 ∧ HtFile.PAGE_SIZE * p + HtFile.PAGE_SIZE ≤ g.pool.file.st_size ∧
      g.pins.length + 1 < 2 ^ 32
  | _ => True

/-- Every call of the sequence is within the limits in the state in which it
is made. -/
def Session.Within (g : Session) : List Call → Prop
  | [] => True
  | c :: cs =>
    g.Lim c ∧
      match g.step c with
      | some g1 => Session.Within g1 cs
      | none => True

instance Session.decLim (g : Session) (c : Call) : Decidable (g.Lim c) := by
  cases c <;> unfold Session.Lim <;> infer_instance

/-- Deciding `Session.Within` by running the calls. -/
def Session.decWithin : (g : Session) → (cs : List Call) → Decidable (g.Within cs)
  | _, [] => isTrue trivial
  | g, c :: cs =>
    match hs : g.step c with
    | some g1 =>
      match Session.decLim g c, Session.decWithin g1 cs with
      | isTrue h1, isTrue h2 => isTrue ⟨h1, by rw [hs]; exact h2⟩
      | isFalse h1, _ => isFalse (fun h => h1 h.1)
      | _, isFalse h2 => isFalse (fun h => h2 (by have := h.2; rw [hs] at this; exact this))
    | none =>
      match Session.decLim g c with
      | isTrue h1 => isTrue ⟨h1, by rw [hs]; trivial⟩
      | isFalse h1 => isFalse (fun h => h1 h.1)

instance (g : Session) (cs : List Call) : Decidable (g.Within cs) := Session.decWithin g cs

/-- Consistency of the pool's bookkeeping: the lookup table maps a page to a
frame exactly when the frame's `page_id` is that page, page 0 standing for
"no page". -/
structure Pool.WF (b : Pool) : Prop where
  hand_lt : b.clock_hand < b.n ∨ b.n = 0
  metas_len : b.metas.length = b.n
  frames_len : b.buffer_frames.length = b.n
  clock_le : ∀ (f : Nat) (m : BufferMeta), b.metas[f]? = some m → m.clock_count ≤ 1
  table_sound : ∀ (p f : Nat), Table.find b.lookup_table p = some f →
    p ≠ 0 ∧ ∃ m : BufferMeta, b.metas[f]? = some m ∧ m.page_id = p
  table_complete : ∀ (f : Nat) (m : BufferMeta), b.metas[f]? = some m → m.page_id ≠ 0 →
    Table.find b.lookup_table m.page_id = some f

/-- Invariant relating the pool to its user's view: pin counts are the
outstanding pins, a cached page's frame holds the expected bytes, and the file
holds the expected bytes of every page that is not cached or is cached clean. -/
structure Session.Inv (hpf : File) (g : Session) : Prop where
  wf : g.pool.WF
  pins_meta : ∀ (f p : Nat), (f, p) ∈ g.pins →
    p ≠ 0 ∧ ∃ m : BufferMeta, g.pool.metas[f]? = some m ∧ m.page_id = p
  pin_count : ∀ (f : Nat) (m : BufferMeta), g.pool.metas[f]? = some m →
    m.pin_count = (g.pins.filter (fun e => e.1 = f)).length
  cached : ∀ (p f : Nat), Table.find g.pool.lookup_table p = some f →
    frame g.pool f = g.expected hpf p ∧
    ((∀ m : BufferMeta, g.pool.metas[f]? = some m → m.dirty = false) → f ∉ g.unmarked →
      g.pool.file.disk p = g.expected hpf p)
  uncached : ∀ (p : Nat), p ≠ 0 → Table.find g.pool.lookup_table p = none →
    g.pool.file.disk p = g.expected hpf p
  unmarked_pinned : ∀ (f : Nat), f ∈ g.unmarked → (pageOf g.pins f).isSome

end HtBufferManager

namespace HtBufferManager

/-- Relation between the metadata before and after the CLOCK loop: only clock
counts may have decreased. -/
def ClockRel (metas metas1 : List BufferMeta) : Prop :=
  metas1.length = metas.length ∧
  ∀ (f : Nat) (m : BufferMeta), metas[f]? = some m → ∃ m1 : BufferMeta, metas1[f]? = some m1 ∧
    m1.page_id = m.page_id ∧ m1.pin_count = m.pin_count ∧ m1.dirty = m.dirty ∧
    m1.clock_count ≤ m.clock_count

end HtBufferManager

namespace HtBufferManager

/-- A page image whose first word is 7. -/
def sevens : HtFile.Page := 7

/-- Calls that write page 0 through the pool, unpin it, and pin page 5. -/
def zeroPageCalls : List Call :=
  [.pin 0, .write 0 sevens, .markDirty 0, .unpin 0, .pin 5]

/-- Calls that write page 5 through the pool and then pin four other pages, so
that page 5 is evicted from a pool of four frames. -/
def evictCalls : List Call :=
  [.pin 5, .write 0 sevens, .markDirty 0, .unpin 0, .pin 6, .unpin 1, .pin 7, .unpin 2,
   .pin 8, .unpin 3, .pin 9, .unpin 0]

/-- The pool of four frames on a new file of 4 MiB. -/
def pool4 : Pool :=
  { file := HtFile.create HtFile.EXPAND_SIZE
    n := 4
    clock_hand := 0
    metas := List.replicate 4 ⟨0, 0, 0, false⟩
    buffer_frames := List.replicate 4 HtFile.dummy_page
    lookup_table := [] }

/-- The pool `pool4` with page 1 in frame 0 and the pin count `c`. -/
def wrapPool (c : Nat) : Pool :=
  { file := HtFile.create HtFile.EXPAND_SIZE
    n := 4
    clock_hand := 0
    metas := [⟨1, c, 1, false⟩, ⟨0, 0, 0, false⟩, ⟨0, 0, 0, false⟩, ⟨0, 0, 0, false⟩]
    buffer_frames := [0, 0, 0, 0]
    lookup_table := [(1, 0)] }

/-- The session on `wrapPool c` with the outstanding pins `pins` and nothing
written. -/
def wrapSession (c : Nat) (pins : List (Nat × Nat)) : Session :=
  { pool := wrapPool c, pins := pins, written := fun _ => none, unmarked := [] }

/-- A session on a pool of four frames over the new file of 4 MiB, all frames
zero, with nothing written. -/
def tailSession (hand : Nat) (metas : List BufferMeta) (table : Table)
    (pins : List (Nat × Nat)) : Session :=
  { pool :=
      { file := HtFile.create HtFile.EXPAND_SIZE
        n := 4
        clock_hand := hand
        metas := metas
        buffer_frames := [0, 0, 0, 0]
        lookup_table := table }
    pins := pins
    written := fun _ => none
    unmarked := [] }

/-- Calls that pin the pages 2, 3, 4 and 5 one at a time, which brings the
CLOCK hand back to frame 0; then the user unpins page 5 and modifies the frame
through a pointer obtained for an earlier pin of frame 0. -/
def wrapTail : List Call :=
  [.pin 2, .unpin 1, .pin 3, .unpin 2, .pin 4, .unpin 3, .pin 5, .unpin 0,
   .write 0 sevens, .markDirty 0]

/-- The calls `PinPage(1)`, `2 ^ 32` times, followed by `wrapTail`. -/
def wrapCalls : List Call := List.replicate (2 ^ 32) (.pin 1) ++ wrapTail

end HtBufferManager

namespace HtBufferManager

/-- A call of the interface of the pool. -/
inductive PoolOp where
  | pin (page_id : Nat)
  | unpin (frame_id : Nat)
  | markDirty (frame_id : Nat)
  | free (frame_id : Nat)
  deriving DecidableEq

/-- One call on the pool; `none` when the call does not return. -/
def poolStep (b : Pool) : PoolOp → Option Pool
  | .pin p => (PinPage b p).map Prod.snd
  | .unpin f => some (UnpinPage b f)
  | .markDirty f => some (MarkDirty b f)
  | .free f => FreePage b f

/-- A sequence of calls on the pool. -/
def poolRun (b : Pool) : List PoolOp → Option Pool
  | [] => some b
  | op :: ops =>
    match poolStep b op with
    | none => none
    | some b1 => poolRun b1 ops

/-- The part of the state the CLOCK loop depends on: one metadata record for
each of the `n` frames, the hand inside the array, clock counts at most 1. -/
structure Pool.Basic (b : Pool) : Prop where
  metas_len : b.metas.length = b.n
  hand_lt : b.clock_hand < b.n ∨ b.n = 0
  clock_le : ∀ (f : Nat) (m : BufferMeta), b.metas[f]? = some m → m.clock_count ≤ 1

end HtBufferManager

/-! ## `HashTable/HashTable.h` -/

namespace HashTable

open HtFile (Page File word)
open HtBufferManager (Pool PinPage UnpinPage MarkDirty FreePage frame writeFrame)

/-- `N_BUCKETS_PER_DIR = PAGE_SIZE / 8`. -/
def N_BUCKETS_PER_DIR : Nat := HtFile.PAGE_SIZE / 8

/-- `ENTRY_OFFSET`, in bytes. -/
def ENTRY_OFFSET : Nat := 48

/-- `ENTRIES_PER_BUCKET`. -/
def ENTRIES_PER_BUCKET : Nat := 253

/-- A page with word `i` replaced by the 64-bit value `v`
(`*reinterpret_cast<size_t*>(p + 8 * i) = v`): the bytes below the word, the
word, and the bytes above it. -/
def setWord (pg : Page) (i v : Nat) : Page :=
  2 ^ (64 * i) * (2 ^ 64 * (pg / 2 ^ (64 * (i + 1))) + v % 2 ^ 64) + pg % 2 ^ (64 * i)

/-- Field `next_bucket_page` of a bucket page (bytes 0 to 7). -/
def next (pg : Page) : Nat := word pg 0

/-- Field `n_entries` of a bucket page (bytes 8 to 15). -/
def n_entries (pg : Page) : Nat := word pg 1

/-- Bit `i` of the bitmap of a bucket page: byte `16 + i / 8`, mask
`1 << (i % 8)`, which is bit `128 + i` of the page. -/
def occupied (pg : Page) (i : Nat) : Bool := pg.testBit (128 + i)

/-- Key of entry slot `i` (bytes `48 + 16 i` to `48 + 16 i + 7`). -/
def slotKey (pg : Page) (i : Nat) : Nat := word pg (6 + 2 * i)

/-- Value of entry slot `i`. -/
def slotValue (pg : Page) (i : Nat) : Nat := word pg (7 + 2 * i)

/-- `*bitmap |= bitmask` for slot `i`. -/
def setBit (pg : Page) (i : Nat) : Page := pg ||| 2 ^ (128 + i)

/-- `*bitmap &= ~bitmask` for slot `i`: the bit is removed if it is set. -/
def clearBit (pg : Page) (i : Nat) : Page := pg ^^^ (pg &&& 2 ^ (128 + i))

/-- `struct EntrySlot`: a slot of the page held by frame `frame_id`; the
pointers `entry`, `bitmap`, `n_entry` and the mask `bitmask` of the source all
point into that frame and are determined by the slot index. -/
structure EntrySlot where
  frame_id : Nat
  index : Nat
  deriving DecidableEq, Repr

/-- The members of a `HashTable` that never change after construction: the
bucket count and the hash function `std::hash<uint64_t>`.  The remaining
member, the buffer manager with the file `hpf` it points to, is the state the
operations transform. -/
structure Config where
  n_buckets : Nat
  hash : Nat → Nat

/-- The page held by frame `f`. -/
def page (h : Pool) (f : Nat) : Page := frame h f

/-- Store of word `i` through the pointer of frame `f`. -/
def store (h : Pool) (f i v : Nat) : Pool := writeFrame h f (setWord (frame h f) i v)

/-- `auto page_no = hpf.AllocatePage(); hpf.TruncPage(page_no);`
(`posix_fallocate` is taken to succeed). -/
def allocZeroed (h : Pool) : Nat × Pool :=
  let r := HtFile.AllocatePage h.file true
  (r.1, { h with file := HtFile.TruncPage r.2 r.1 })

/-- The loop of the creating constructors:
`for (i = 0; i < n; ++i) { res = hpf.AllocatePage(); hpf.TruncPage(res); }`. -/
def allocDirectory : Nat → File → Nat → Nat × File
  | 0, f, res => (res, f)
  | n + 1, f, _ =>
    let r := HtFile.AllocatePage f true
    allocDirectory n (HtFile.TruncPage r.2 r.1) r.1

/-- Constructor `HashTable(path, n_buckets, buffer_cap)` on a new file; `none`
when an `assert` fails. -/
def create (n_buckets buffer_cap : Nat) : Option Pool :=
  match HtBufferManager.create (HtFile.create HtFile.EXPAND_SIZE) buffer_cap with
  | none => none
  | some b =>
    let r := allocDirectory (n_buckets / N_BUCKETS_PER_DIR + 1)
      (HtFile.SetThirdField b.file n_buckets) 0
    if r.1 = n_buckets / N_BUCKETS_PER_DIR + 1 then some { b with file := r.2 }
    else none

/-- Outcome of the scan of one page in `GetFreeSlotWithProbe`. -/
inductive Probe where
  | dup
  | done (slot : Option EntrySlot)
  deriving DecidableEq, Repr

/-- The `for` loop over the slots of the page `pg` held by frame `cur` in
`GetFreeSlotWithProbe`: `cnt` iterations remain, `i` is the slot index, `slot`
the remembered free slot (`free_slot` is `slot.isSome`). -/
def probeLoop (key : Nat) (pg : Page) (cur : Nat) :
    Nat → Nat → Nat → Option EntrySlot → Probe
  | 0, _, _, slot => .done slot
  | cnt + 1, i, scanned, slot =>
    if occupied pg i ∧ slotKey pg i = key then .dup
    else
      let scanned := if occupied pg i then scanned + 1 else scanned
      let slot := if ¬ occupied pg i ∧ slot.isNone then some ⟨cur, i⟩ else slot
      if slot.isSome ∧ scanned = n_entries pg then .done slot
      else probeLoop key pg cur cnt (i + 1) scanned slot

/-- The tail shared by the paths of `GetFreeSlotWithProbe` that end a chain
with a new page: the page is allocated and zeroed, its number is stored in
word `i` of frame `f`, which is marked dirty and unpinned, and the new page is
pinned; the slot is its first. -/
def appendPage (h : Pool) (f i : Nat) : Option (EntrySlot × Pool) :=
  let r := allocZeroed h
  let h := store r.2 f i r.1
  let h := UnpinPage (MarkDirty h f) f
  match PinPage h r.1 with
  | none => none
  | some (g, h) => some (⟨g, 0⟩, h)

/-- The compaction loop at the head of a chain (in both `GetFreeSlotWithProbe`
and `ProbeAndCompress`): while the page in frame `cur` is empty it is unlinked
from directory slot `d` of frame `dir` and freed.  The result is `inl h` when
the chain ended (`next == 0`), `inr (cur, h)` when a non-empty page is
reached. -/
def compactHead (dir d : Nat) : Nat → Nat → Pool → Option (Pool ⊕ (Nat × Pool))
  | 0, _, _ => none
  | fuel + 1, cur, h =>
    if n_entries (page h cur) = 0 then
      let nxt := next (page h cur)
      let h := MarkDirty (store h dir d nxt) dir
      match FreePage h cur with
      | none => none
      | some h =>
        if nxt = 0 then some (.inl h)
        else
          match PinPage h nxt with
          | none => none
          | some (cur, h) => compactHead dir d fuel cur h
    else some (.inr (cur, h))

/-- Outcome of the inner compaction loop of `GetFreeSlotWithProbe`. -/
inductive Compacted where
  | ret (slot : EntrySlot) (h : Pool)
  | cont (next_frame_id : Nat) (h : Pool)

/-- The inner loop of `GetFreeSlotWithProbe`: while the page in frame `nf`,
the successor of the page in frame `cur`, is empty, it is unlinked and freed;
`ret` stands for the two `return true` inside the loop. -/
def compactNext (cur : Nat) (slot : Option EntrySlot) : Nat → Nat → Pool → Option Compacted
  | 0, _, _ => none
  | fuel + 1, nf, h =>
    if n_entries (page h nf) = 0 then
      let tmp_next := next (page h nf)
      let h := MarkDirty (store h cur 0 tmp_next) cur
      match FreePage h nf with
      | none => none
      | some h =>
        match slot with
        | none =>
          if tmp_next = 0 then
            (appendPage h cur 0).map (fun r => .ret r.1 r.2)
          else
            match PinPage h tmp_next with
            | none => none
            | some (nf, h) => compactNext cur slot fuel nf h
        | some s => some (.ret s h)
    else some (.cont nf h)

/-- The `do ... while (true)` loop of `GetFreeSlotWithProbe` from the page in
frame `cur`; `fuel0` is the fuel of each inner loop.  The result is `none` for
a run that does not end, otherwise the returned flag with the slot. -/
def probeChain (key fuel0 : Nat) : Nat → Nat → Option EntrySlot → Pool →
    Option (Option EntrySlot × Pool)
  | 0, _, _, _ => none
  | fuel + 1, cur, slot, h =>
    match probeLoop key (page h cur) cur ENTRIES_PER_BUCKET 0 0 slot with
    | .dup => some (none, UnpinPage h cur)
    | .done slot =>
      if next (page h cur) ≠ 0 then
        match PinPage h (next (page h cur)) with
        | none => none
        | some (nf, h) =>
          match compactNext cur slot fuel0 nf h with
          | none => none
          | some (.ret s h) => some (some s, h)
          | some (.cont nf h) =>
            let h :=
              match slot with
              | none => UnpinPage h cur
              | some s => if cur ≠ s.frame_id then UnpinPage h cur else h
            probeChain key fuel0 fuel nf slot h
      else
        match slot with
        | none => (appendPage h cur 0).map (fun r => (some r.1, r.2))
        | some s => some (some s, h)

/-- `HashTable::GetFreeSlotWithProbe`: the slot when the function returns
true, `none` for false. -/
def GetFreeSlotWithProbe (c : Config) (h : Pool) (key fuel : Nat) : Option (Option EntrySlot × Pool) :=
  let bucket := c.hash key % c.n_buckets
  let dir_page_no := bucket / N_BUCKETS_PER_DIR + 1
  let d := bucket % N_BUCKETS_PER_DIR
  match PinPage h dir_page_no with
  | none => none
  | some (dir, h) =>
    if word (page h dir) d = 0 then
      (appendPage h dir d).map (fun r => (some r.1, r.2))
    else
      match PinPage h (word (page h dir) d) with
      | none => none
      | some (cur, h) =>
        match compactHead dir d fuel cur h with
        | none => none
        | some (.inl h) => (appendPage h dir d).map (fun r => (some r.1, r.2))
        | some (.inr (cur, h)) => probeChain key fuel fuel cur none (UnpinPage h dir)

/-- `HashTable::Insert`. -/
def Insert (c : Config) (h : Pool) (key value fuel : Nat) : Option (Bool × Pool) :=
  match GetFreeSlotWithProbe c h key fuel with
  | none => none
  | some (none, h) => some (false, h)
  | some (some slot, h) =>
    let f := slot.frame_id
    let h := store h f (6 + 2 * slot.index) key
    let h := store h f (7 + 2 * slot.index) value
    let h := store h f 1 (n_entries (page h f) + 1)
    let h := writeFrame h f (setBit (page h f) slot.index)
    some (true, UnpinPage (MarkDirty h f) f)

/-- The `for` loop over the slots in `ProbeAndCompress`: the index of the
occupied slot holding `key`, if one is met before the loop ends. -/
def findLoop (key : Nat) (pg : Page) : Nat → Nat → Nat → Option Nat
  | 0, _, _ => none
  | cnt + 1, i, scanned =>
    if occupied pg i then
      if slotKey pg i = key then some i
      else if scanned + 1 = n_entries pg then none
      else findLoop key pg cnt (i + 1) (scanned + 1)
    else findLoop key pg cnt (i + 1) scanned

/-- The inner loop of `ProbeAndCompress`: empty successors of the page in
frame `cur` are unlinked and freed; `inl h` when the chain ended (the function
then returns false), `inr (nf, h)` when a non-empty page is reached. -/
def compactNextP (cur : Nat) : Nat → Nat → Pool → Option (Pool ⊕ (Nat × Pool))
  | 0, _, _ => none
  | fuel + 1, nf, h =>
    if n_entries (page h nf) = 0 then
      let tmp_next := next (page h nf)
      let h := MarkDirty (store h cur 0 tmp_next) cur
      match FreePage h nf with
      | none => none
      | some h =>
        if tmp_next = 0 then some (.inl (UnpinPage h cur))
        else
          match PinPage h tmp_next with
          | none => none
          | some (nf, h) => compactNextP cur fuel nf h
    else some (.inr (nf, h))

/-- The `do ... while (true)` loop of `ProbeAndCompress`. -/
def findChain (key fuel0 : Nat) : Nat → Nat → Pool → Option (Option EntrySlot × Pool)
  | 0, _, _ => none
  | fuel + 1, cur, h =>
    match findLoop key (page h cur) ENTRIES_PER_BUCKET 0 0 with
    | some i => some (some ⟨cur, i⟩, h)
    | none =>
      if next (page h cur) ≠ 0 then
        match PinPage h (next (page h cur)) with
        | none => none
        | some (nf, h) =>
          match compactNextP cur fuel0 nf h with
          | none => none
          | some (.inl h) => some (none, h)
          | some (.inr (nf, h)) => findChain key fuel0 fuel nf (UnpinPage h cur)
      else some (none, UnpinPage h cur)

/-- `HashTable::ProbeAndCompress`. -/
def ProbeAndCompress (c : Config) (h : Pool) (key fuel : Nat) : Option (Option EntrySlot × Pool) :=
  let bucket := c.hash key % c.n_buckets
  let dir_page_no := bucket / N_BUCKETS_PER_DIR + 1
  let d := bucket % N_BUCKETS_PER_DIR
  match PinPage h dir_page_no with
  | none => none
  | some (dir, h) =>
    if word (page h dir) d = 0 then some (none, UnpinPage h dir)
    else
      match PinPage h (word (page h dir) d) with
      | none => none
      | some (cur, h) =>
        match compactHead dir d fuel cur h with
        | none => none
        | some (.inl h) => some (none, UnpinPage h dir)
        | some (.inr (cur, h)) => findChain key fuel fuel cur (UnpinPage h dir)

/-- `HashTable::Search`: the value when the function returns true. -/
def Search (c : Config) (h : Pool) (key fuel : Nat) : Option (Option Nat × Pool) :=
  match ProbeAndCompress c h key fuel with
  | none => none
  | some (none, h) => some (none, h)
  | some (some slot, h) =>
    some (some (slotValue (page h slot.frame_id) slot.index), UnpinPage h slot.frame_id)

/-- `HashTable::Erase`. -/
def Erase (c : Config) (h : Pool) (key fuel : Nat) : Option (Bool × Pool) :=
  match ProbeAndCompress c h key fuel with
  | none => none
  | some (none, h) => some (false, h)
  | some (some slot, h) =>
    let f := slot.frame_id
    let h := store h f (6 + 2 * slot.index) 0
    let h := store h f (7 + 2 * slot.index) 0
    let h := store h f 1 (n_entries (page h f) + 2 ^ 64 - 1)
    let h := writeFrame h f (clearBit (page h f) slot.index)
    some (true, UnpinPage (MarkDirty h f) f)

end HashTable

namespace HashTable

open HtFile (Page File word)
open HtBufferManager (Pool)

/-- A call of the public interface. -/
inductive Cmd where
  | insert (key value : Nat)
  | search (key : Nat)
  | erase (key : Nat)
  deriving DecidableEq, Repr

/-- One call: the result flag and the new state; `none` when the call does not
return. -/
def step (c : Config) (fuel : Nat) (h : Pool) : Cmd → Option (Bool × Pool)
  | .insert k v => Insert c h k v fuel
  | .search k => (Search c h k fuel).map (fun r => (r.1.isSome, r.2))
  | .erase k => Erase c h k fuel

/-- A sequence of calls. -/
def run (c : Config) (fuel : Nat) : Pool → List Cmd → Option Pool
  | h, [] => some h
  | h, x :: xs =>
    match step c fuel h x with
    | none => none
    | some (_, h1) => run c fuel h1 xs

/-- The current bytes of page `p`: those of its frame when the page is in the
pool, those in the file otherwise. -/
def logical (h : Pool) (p : Nat) : Page :=
  match HtBufferManager.Table.find h.lookup_table p with
  | some f => HtBufferManager.frame h f
  | none => h.file.disk p

/-- Calls `Insert(k, k + 1000)` for `k = from, ..., from + n - 1`. -/
def insertRange (start n : Nat) : List Cmd :=
  (List.range n).map (fun i => Cmd.insert (start + i) (start + i + 1000))

/-- Calls `Erase(k)` for `k = from, ..., from + n - 1`. -/
def eraseRange (start n : Nat) : List Cmd :=
  (List.range n).map (fun i => Cmd.erase (start + i))

/-- A table with a single bucket; `std::hash<uint64_t>` is taken to be the
identity, as in libstdc++. -/
def oneBucket : Config := ⟨1, id⟩

/-- A bucket page for the examples: `next_bucket_page = nxt`, one entry, the
pair `(key, key + 1000)` in slot `i`. -/
def onePair (nxt i key : Nat) : Page :=
  nxt + 2 ^ 64 + 2 ^ (128 + i) + key * 2 ^ (64 * (6 + 2 * i)) +
    (key + 1000) * 2 ^ (64 * (7 + 2 * i))

/-- A file for the examples, with one bucket whose chain has three pages: the
directory page 1 points to page 2; page 2 holds key 5 in slot 1, its slot 0 is
free and its successor is page 3; page 3 is empty and its successor is page 4;
page 4 holds key 9 and ends the chain. -/
def chainFile : File :=
  { first_free_page := 0
    fsize := 4
    third_field := 1
    flen := HtFile.EXPAND_SIZE
    st_size := HtFile.EXPAND_SIZE
    disk := fun p =>
      if p = 1 then 2 else if p = 2 then onePair 3 1 5 else if p = 3 then 4
      else if p = 4 then onePair 0 0 9 else 0 }

/-- A pool of four frames on `chainFile` with no page loaded. -/
def chainPool : Pool :=
  { file := chainFile
    n := 4
    clock_hand := 0
    metas := List.replicate 4 ⟨0, 0, 0, false⟩
    buffer_frames := List.replicate 4 HtFile.dummy_page
    lookup_table := [] }

/-- The pool on `chainFile` with page 2 pinned in frame 0. -/
def chainScan : Pool :=
  { file := chainFile
    n := 4
    clock_hand := 0
    metas := [⟨2, 1, 1, false⟩, ⟨0, 0, 0, false⟩, ⟨0, 0, 0, false⟩, ⟨0, 0, 0, false⟩]
    buffer_frames := [onePair 3 1 5, 0, 0, 0]
    lookup_table := [(2, 0)] }

end HashTable

/-! ## `HashTable`: pages and pool states of a run on one bucket -/

namespace HashTable

open HtFile (Page File word)
open HtBufferManager (Pool)

/-- The page after the stores of `Insert` in slot `i`: key, value, the
incremented `n_entries`, and the bit of the slot. -/
def insPage (pg : Page) (i key value : Nat) : Page :=
  setBit
    (setWord (setWord (setWord pg (6 + 2 * i) key) (7 + 2 * i) value) 1
      (n_entries (setWord (setWord pg (6 + 2 * i) key) (7 + 2 * i) value) + 1))
    i

/-- The page after the stores of `Erase` in slot `i`: the zeroed entry, the
decremented `n_entries`, and the cleared bit of the slot. -/
def erasePage (pg : Page) (i : Nat) : Page :=
  clearBit
    (setWord (setWord (setWord pg (6 + 2 * i) 0) (7 + 2 * i) 0) 1
      (n_entries (setWord (setWord pg (6 + 2 * i) 0) (7 + 2 * i) 0) + 2 ^ 64 - 1))
    i

/-- The pool of a table with one bucket whose chain is the single page 2: the
directory page 1 is in frame 0 and page 2, with the bytes `pg`, in frame 1;
`r0` and `r1` are the pin counts of the two frames and `c0` is the clock count
of frame 0. -/
def pool1 (f : File) (r0 c0 r1 : Nat) (pg : Page) : Pool :=
  { file := f
    n := 4
    clock_hand := 1
    metas := [⟨1, r0, c0, true⟩, ⟨2, r1, 1, true⟩, ⟨0, 0, 0, false⟩, ⟨0, 0, 0, false⟩]
    buffer_frames := [2, pg, 0, 0]
    lookup_table := [(2, 1), (1, 0)] }

/-- The pool of a table with one bucket whose chain is page 2, with the bytes
`pg`, followed by page 3, with the bytes `q`, in the frames 1 and 2; `r0`,
`r1` and `r2` are the pin counts of the frames 0, 1 and 2 and `c1` is the
clock count of frame 1. -/
def pool2 (f : File) (r0 r1 c1 r2 : Nat) (pg q : Page) : Pool :=
  { file := f
    n := 4
    clock_hand := 2
    metas := [⟨1, r0, 1, true⟩, ⟨2, r1, c1, true⟩, ⟨3, r2, 1, true⟩, ⟨0, 0, 0, false⟩]
    buffer_frames := [2, pg, q, 0]
    lookup_table := [(3, 2), (2, 1), (1, 0)] }

/-- The file of a new table with one bucket: the header and the directory
page 1. -/
def file0 : File :=
  (allocDirectory 1 (HtFile.SetThirdField (HtFile.create HtFile.EXPAND_SIZE) 1) 0).2

/-- The file after `AllocatePage` and `TruncPage` of the page it returns. -/
def grow (f : File) : File :=
  HtFile.TruncPage (HtFile.AllocatePage f true).2 (HtFile.AllocatePage f true).1

/-- The pool of a new table with one bucket and four frames. -/
def pool0 : Pool :=
  { file := file0
    n := 4
    clock_hand := 0
    metas := List.replicate 4 ⟨0, 0, 0, false⟩
    buffer_frames := List.replicate 4 HtFile.dummy_page
    lookup_table := [] }

/-- What the run relies on when `Insert(k + 1, _)` meets the page `pg` that
holds the keys `1, ..., k` in its first `k` slots: the page is not empty, the
scan meets no duplicate and returns slot `k`, and the page ends the chain. -/
def fillOk (k : Nat) (pg : Page) : Bool :=
  decide (n_entries pg ≠ 0 ∧
    probeLoop (k + 1) pg 1 ENTRIES_PER_BUCKET 0 0 none = .done (some ⟨1, k⟩) ∧ next pg = 0)

/-- The checks `fillOk` along `n` insertions from the page `pg` with `k`
keys. -/
def fillCheck : Nat → Nat → Page → Bool
  | 0, _, _ => true
  | n + 1, k, pg => fillOk k pg && fillCheck n (k + 1) (insPage pg k (k + 1) (k + 1 + 1000))

/-- The page after `n` insertions from the page `pg` with `k` keys. -/
def fillFrom : Nat → Nat → Page → Page
  | 0, _, pg => pg
  | n + 1, k, pg => fillFrom n (k + 1) (insPage pg k (k + 1) (k + 1 + 1000))

/-- What the run relies on when `Erase(j + 1)` meets the page `pg` whose first
`j` slots have been vacated: the page is not empty and the scan finds the key
in slot `j`. -/
def drainOk (j : Nat) (pg : Page) : Bool :=
  decide (n_entries pg ≠ 0 ∧ findLoop (j + 1) pg ENTRIES_PER_BUCKET 0 0 = some j)

/-- The checks `drainOk` along `n` erasures from the page `pg` with `j`
vacated slots. -/
def drainCheck : Nat → Nat → Page → Bool
  | 0, _, _ => true
  | n + 1, j, pg => drainOk j pg && drainCheck n (j + 1) (erasePage pg j)

/-- The page after `n` erasures from the page `pg` with `j` vacated slots. -/
def drainFrom : Nat → Nat → Page → Page
  | 0, _, pg => pg
  | n + 1, j, pg => drainFrom n (j + 1) (erasePage pg j)

/-- Page 2 of the run when it is full and page 3 has been appended. -/
def fullPage : Page := setWord (fillFrom 252 1 (insPage 0 0 1 1001)) 0 3

/-- Page 3 of the run, with key 254. -/
def lastPage : Page := insPage 0 0 254 1254

end HashTable

/-! ## `include/types.hpp`, `Btree/node.h`, `Btree/btree.hpp` -/

namespace Btree

/-- `struct ycsbc::Pair`; it is ordered and compared by `key` alone. -/
structure Pair where
  key : Nat
  record_number : Nat
  deriving DecidableEq, Repr

/-- `MAX_CHILDREN = BTREE_ORDER + 2`. -/
def MAX_CHILDREN (order : Nat) : Nat := order + 2

/-- `MAX_DATA = BTREE_ORDER + 1`. -/
def MAX_DATA (order : Nat) : Nat := order + 1

/-- `MIN_NUM_CHILDREN`: `BTREE_ORDER / 2`, plus one when the order is odd. -/
def MIN_NUM_CHILDREN (order : Nat) : Nat :=
  if order % 2 ≠ 0 then order / 2 + 1 else order / 2

/-- `ROOT_PAGE_NUM`. -/
def ROOT_PAGE_NUM : Nat := 1

/-- `Btree::MAX_LEVEL`, the size of the descent stack. -/
def MAX_LEVEL : Nat := 8

/-- `struct Node<Pair>`: `data` has `MAX_DATA` entries and `children` has
`MAX_CHILDREN` entries; entries at and after `count` are left-over values. -/
structure Node where
  data : List Pair
  page_id : Nat
  right : Nat
  children : List Nat
  count : Nat
  deriving DecidableEq, Repr

/-- `data[i]`. -/
def Node.dataAt (n : Node) (i : Nat) : Pair := n.data.getD i ⟨0, 0⟩

/-- `children[i]`. -/
def Node.child (n : Node) (i : Nat) : Nat := n.children.getD i 0

/-- Constructor `Node(page_id)`: no keys, all children 0. -/
def Node.new (order : Nat) (page_id : Nat) : Node :=
  { data := List.replicate (MAX_DATA order) ⟨0, 0⟩
    page_id := page_id
    right := 0
    children := List.replicate (MAX_CHILDREN order) 0
    count := 0 }

/-- The `while (j > pos)` loop of `insert_in_node`, run for `j - pos`
iterations from `j = pos + k` down. -/
def shiftLoop (pos : Nat) : Nat → List Pair → List Nat → List Pair × List Nat
  | 0, data, children => (data, children)
  | k + 1, data, children =>
    shiftLoop pos k (data.set (pos + k + 1) (data.getD (pos + k) ⟨0, 0⟩))
      (children.set (pos + k + 2) (children.getD (pos + k + 1) 0))

/-- `Node::insert_in_node(pos, value)`. -/
def Node.insert_in_node (n : Node) (pos : Nat) (value : Pair) : Node :=
  let r := shiftLoop pos (n.count - pos) n.data n.children
  { n with
    data := r.1.set pos value
    children := r.2.set (pos + 1) (r.2.getD pos 0)
    count := n.count + 1 }

/-- `Node::is_overflow`. -/
def Node.is_overflow (order : Nat) (n : Node) : Bool := decide (n.count > order)

/-- The scan `while (pos < count && data[pos] < value) pos++` started at `pos`,
for at most `fuel` steps. -/
def scanLt (n : Node) (value : Pair) : Nat → Nat → Nat
  | 0, pos => pos
  | fuel + 1, pos =>
    if pos < n.count ∧ (n.dataAt pos).key < value.key then scanLt n value fuel (pos + 1)
    else pos

/-- The scan `while (pos < count && data[pos] <= object) pos++`. -/
def scanLe (n : Node) (value : Pair) : Nat → Nat → Nat
  | 0, pos => pos
  | fuel + 1, pos =>
    if pos < n.count ∧ (n.dataAt pos).key ≤ value.key then scanLe n value fuel (pos + 1)
    else pos

/-- State of a `Btree` between two top-level operations: the header page
(`Metadata::count`, the number of the last page created, and `record_count`)
and the node stored in every page.  Under the assumption that no page touched
by an operation is evicted during it, a node pointer obtained from `read_node`
stands for the page it was read from. -/
structure Tree where
  order : Nat
  count : Nat
  record_count : Nat
  nodes : Nat → Node

/-- Constructor `Btree(file, page_count)` on an empty file. -/
def Tree.create (order : Nat) : Tree :=
  { order := order
    count := 1
    record_count := 0
    nodes := Function.update (fun _ => ⟨[], 0, 0, [], 0⟩) ROOT_PAGE_NUM
      (Node.new order ROOT_PAGE_NUM) }

/-- The loop of `Btree::find` from the node in page `page`: `none` when `fuel`
levels do not reach a leaf. -/
def findFrom (t : Tree) (object : Pair) : Nat → Nat → Option Pair
  | 0, _ => none
  | fuel + 1, page =>
    let node_cur := t.nodes page
    if node_cur.child 0 ≠ 0 then
      findFrom t object fuel (node_cur.child (scanLe node_cur object node_cur.count 0))
    else
      some (node_cur.dataAt (scanLt node_cur object node_cur.count 0))

/-- `Btree::find`.  The outer option is `none` when the descent does not reach
a leaf within `count + 1` levels (it then revisits a page and never ends); the
inner option is the returned `std::optional`, which the code always engages. -/
def Tree.find (t : Tree) (object : Pair) : Option (Option Pair) :=
  (findFrom t object (t.count + 1) ROOT_PAGE_NUM).map some

/-- An assignment through a node pointer: the node in page `page` becomes
`f` of itself. -/
def Tree.modify (t : Tree) (page : Nat) (f : Node → Node) : Tree :=
  { t with nodes := Function.update t.nodes page (f (t.nodes page)) }

/-- `Btree::new_node`: takes the next page number from the header and
initialises the page as an empty node. -/
def Tree.new_node (t : Tree) : Nat × Tree :=
  (t.count + 1,
    { t with
      count := t.count + 1
      nodes := Function.update t.nodes (t.count + 1) (Node.new t.order (t.count + 1)) })

/-- The copying loop of `split` and `split_root`, from the node in page `src`
to the node in page `dst`:
`for (i = 0; iter < bound; i++) { dst.children[i] = src.children[iter];
dst.data[i] = src.data[iter]; dst.count++; iter++; }`, for `k` iterations. -/
def copyLoop (src dst : Nat) : Nat → Nat → Nat → Tree → Tree
  | 0, _, _, t => t
  | k + 1, i, iter, t =>
    let t := t.modify dst (fun n => { n with children := n.children.set i ((t.nodes src).child iter) })
    let t := t.modify dst (fun n => { n with data := n.data.set i ((t.nodes src).dataAt iter) })
    let t := t.modify dst (fun n => { n with count := n.count + 1 })
    copyLoop src dst k (i + 1) (iter + 1) t

/-- `Btree::split(parent, pos)`, `parent` being the page of the parent node. -/
def Tree.split (t : Tree) (parent : Nat) (pos : Nat) : Tree :=
  let child1 := (t.nodes parent).child pos
  let r := t.new_node
  let child2 := r.1
  let t := r.2
  let is_leaf := decide ((t.nodes child1).child 0 = 0)
  let iter := MIN_NUM_CHILDREN t.order
  let t := t.modify child1 (fun n => { n with count := iter })
  let t := t.modify parent (fun n => n.insert_in_node pos ((t.nodes child1).dataAt iter))
  let t :=
    if is_leaf then
      let t := t.modify child2 (fun n => { n with right := (t.nodes child1).right })
      let t := t.modify child1 (fun n => { n with right := (t.nodes child2).page_id })
      t.modify parent (fun n =>
        { n with children := n.children.set (pos + 1) (t.nodes child2).page_id })
    else t
  let iter := if is_leaf then iter else iter + 1
  let t := copyLoop child1 child2 (t.order + 1 - iter) 0 iter t
  let t := t.modify child2 (fun n =>
    { n with children := n.children.set (t.order + 1 - iter) ((t.nodes child1).child (t.order + 1)) })
  let t := t.modify parent (fun n =>
    { n with children := n.children.set pos (t.nodes child1).page_id })
  t.modify parent (fun n =>
    { n with children := n.children.set (pos + 1) (t.nodes child2).page_id })

/-- `Btree::split_root`. -/
def Tree.split_root (t : Tree) : Tree :=
  let root := ROOT_PAGE_NUM
  let r1 := t.new_node
  let child1 := r1.1
  let r2 := r1.2.new_node
  let child2 := r2.1
  let t := r2.2
  let m := MIN_NUM_CHILDREN t.order
  let t := copyLoop root child1 m 0 0 t
  let t := t.modify child1 (fun n =>
    { n with children := n.children.set m ((t.nodes root).child m) })
  let t := t.modify root (fun n => { n with data := n.data.set 0 (n.dataAt m) })
  let t := t.modify child1 (fun n => { n with right := (t.nodes child2).page_id })
  let iter := if (t.nodes root).child 0 ≠ 0 then m + 1 else m
  let t := copyLoop root child2 (t.order + 1 - iter) 0 iter t
  let t := t.modify child2 (fun n =>
    { n with children := n.children.set (t.order + 1 - iter) ((t.nodes root).child (t.order + 1)) })
  let t := t.modify root (fun n =>
    { n with children := n.children.set 0 (t.nodes child1).page_id })
  let t := t.modify root (fun n =>
    { n with children := n.children.set 1 (t.nodes child2).page_id })
  t.modify root (fun n => { n with count := 1 })

/-- Step 1 of `Btree::insert`: the descent from the node on top of the stack.
`stack` lists the pages of `stack[stack_idx], ..., stack[0]` and `ipos` the
entries `insert_pos[stack_idx - 1], ..., insert_pos[0]`; the result also has
the position of the leaf on top.  `none` when the stack of `MAX_LEVEL` entries
is exhausted (`DCHECK(stack_idx < MAX_LEVEL)`). -/
def descend (t : Tree) (value : Pair) : Nat → List Nat → List Nat →
    Option (Tree × List Nat × List Nat)
  | 0, _, _ => none
  | fuel + 1, stack, ipos =>
    match stack with
    | [] => none
    | page :: _ =>
      let node_cur := t.nodes page
      let pos := scanLt node_cur value node_cur.count 0
      if node_cur.child pos ≠ 0 then
        descend t value fuel (node_cur.child pos :: stack) (pos :: ipos)
      else
        some (t.modify page (fun n => n.insert_in_node pos value), stack, pos :: ipos)

/-- Step 2 of `Btree::insert`: `while (stack_idx > 0)`, splitting every
overflowing node of the stack below the root. -/
def unwind (t : Tree) : List Nat → List Nat → Tree
  | node_cur :: parent :: stack, _ :: pos :: ipos =>
    unwind (if (t.nodes node_cur).is_overflow t.order then t.split parent pos else t)
      (parent :: stack) (pos :: ipos)
  | _, _ => t

/-- `Btree::insert`; `none` when the descent needs more than `MAX_LEVEL` stack
entries. -/
def Tree.insert (t : Tree) (value : Pair) : Option Tree :=
  match descend t value MAX_LEVEL [ROOT_PAGE_NUM] [] with
  | none => none
  | some (t1, stack, ipos) =>
    let t2 := unwind t1 stack ipos
    let t3 := if (t2.nodes ROOT_PAGE_NUM).is_overflow t2.order then t2.split_root else t2
    some { t3 with record_count := t3.record_count + 1 }

/-- A sequence of `insert` calls. -/
def Tree.insertAll (t : Tree) : List Pair → Option Tree
  | [] => some t
  | v :: vs =>
    match t.insert v with
    | none => none
    | some t1 => Tree.insertAll t1 vs

end Btree

namespace Btree

/-- The keys of scenario S1, with the record numbers `DbBtree::Insert` gives
them (the number of records inserted before). -/
def s1Pairs : List Pair :=
  [⟨1, 0⟩, ⟨3, 1⟩, ⟨5, 2⟩, ⟨7, 3⟩, ⟨9, 4⟩, ⟨2, 5⟩, ⟨4, 6⟩, ⟨6, 7⟩, ⟨8, 8⟩, ⟨10, 9⟩]

end Btree

/-! ### Invariants of the B-tree -/

namespace Btree

/-- The pair `x` is stored in a leaf of the subtree rooted at page `p`; a node
is a leaf when its `children[0]` is 0, as `Btree::find` decides it. -/
inductive Tree.Stored (t : Tree) : Nat → Pair → Prop
  | leaf {p i : Nat} : (t.nodes p).child 0 = 0 → i < (t.nodes p).count →
      Tree.Stored t p ((t.nodes p).dataAt i)
  | node {p i : Nat} {x : Pair} : (t.nodes p).child 0 ≠ 0 → i ≤ (t.nodes p).count →
      Tree.Stored t ((t.nodes p).child i) x → Tree.Stored t p x

/-- The page `p` holds a node of the tree: the root, or one of the children
`children[0..count]` of an internal node of the tree. -/
inductive Tree.Reachable (t : Tree) : Nat → Prop
  | root : Tree.Reachable t ROOT_PAGE_NUM
  | child {p i : Nat} : Tree.Reachable t p → (t.nodes p).child 0 ≠ 0 → i ≤ (t.nodes p).count →
      Tree.Reachable t ((t.nodes p).child i)

/-- The pair `x` is an entry `data[i]`, `i < count`, of a node of the subtree
rooted at page `p`: of the node in `p` itself, leaf or internal, or of a node
below one of its children `children[0..count]`. -/
inductive Tree.Within (t : Tree) : Nat → Pair → Prop
  | here {p i : Nat} : i < (t.nodes p).count → Tree.Within t p ((t.nodes p).dataAt i)
  | under {p i : Nat} {x : Pair} : (t.nodes p).child 0 ≠ 0 → i ≤ (t.nodes p).count →
      Tree.Within t ((t.nodes p).child i) x → Tree.Within t p x

/-- Order between keys: strict when `strict`, weak otherwise. -/
def rel (strict : Bool) (a b : Nat) : Prop := if strict then a < b else a ≤ b

/-- The key `k` respects the inclusive lower bound `lo`. -/
def inLo (lo : Option Nat) (k : Nat) : Prop := ∀ l, lo = some l → l ≤ k

/-- The key `k` respects the upper bound `hi`. -/
def inHi (strict : Bool) (hi : Option Nat) (k : Nat) : Prop := ∀ u, hi = some u → rel strict k u

/-- Lower bound of the keys below `children[i]`: the separator before it. -/
def lob (n : Node) (lo : Option Nat) (i : Nat) : Option Nat :=
  if i = 0 then lo else some (n.dataAt (i - 1)).key

/-- Upper bound of the keys below `children[i]`: the separator after it. -/
def hib (n : Node) (hi : Option Nat) (i : Nat) : Option Nat :=
  if i < n.count then some (n.dataAt i).key else hi

/-- The node in page `p` has the shape of a node of a tree of order `order`
with at most `order + slack` keys, all among the keys `K`, sorted and within
the bounds. -/
def NodeOk (t : Tree) (strict : Bool) (K : Nat → Prop) (slack p : Nat) (lo hi : Option Nat) :
    Prop :=
  (t.nodes p).page_id = p ∧ (t.nodes p).data.length = t.order + 1 ∧
  (t.nodes p).children.length = t.order + 2 ∧ (t.nodes p).count ≤ t.order + slack ∧
  (∀ i j, i < j → j < (t.nodes p).count →
    rel strict ((t.nodes p).dataAt i).key ((t.nodes p).dataAt j).key) ∧
  (∀ i, i < (t.nodes p).count → K ((t.nodes p).dataAt i).key ∧
    inLo lo ((t.nodes p).dataAt i).key ∧ inHi strict hi ((t.nodes p).dataAt i).key)

/-- The subtree of height `h` rooted at page `p` is a search tree for the keys
between `lo` and `hi`: below `children[i]` the keys are at least `data[i-1]`
and less than `data[i]` (at most `data[i]` when not `strict`). -/
def WF (t : Tree) (strict : Bool) (K : Nat → Prop) : Nat → Nat → Nat → Option Nat →
    Option Nat → Prop
  | 0, slack, p, lo, hi =>
    NodeOk t strict K slack p lo hi ∧ ∀ i, (t.nodes p).child i = 0
  | h + 1, slack, p, lo, hi =>
    NodeOk t strict K slack p lo hi ∧
    (∀ i, i ≤ (t.nodes p).count → (t.nodes p).child i ≠ 0) ∧
    ∀ i, i ≤ (t.nodes p).count →
      WF t strict K h 0 ((t.nodes p).child i) (lob (t.nodes p) lo i) (hib (t.nodes p) hi i)

/-- The pages of the subtree of height `h` rooted at page `p`. -/
def pagesOf (t : Tree) : Nat → Nat → List Nat
  | 0, p => [p]
  | h + 1, p =>
    p :: (List.range ((t.nodes p).count + 1)).flatMap (fun i => pagesOf t h ((t.nodes p).child i))

/-- The pair `x` is stored in a leaf of the subtree of height `h` rooted at
page `p`. -/
def StoredH (t : Tree) : Nat → Nat → Pair → Prop
  | 0, p, x => ∃ i, i < (t.nodes p).count ∧ (t.nodes p).dataAt i = x
  | h + 1, p, x => ∃ i, i ≤ (t.nodes p).count ∧ StoredH t h ((t.nodes p).child i) x

/-- Invariant of a tree of height `h`: a search tree from the root page, whose
subtrees share no page and use only pages already created. -/
structure Inv (t : Tree) (strict : Bool) (K : Nat → Prop) (h : Nat) : Prop where
  wf : WF t strict K h 0 ROOT_PAGE_NUM none none
  nodup : (pagesOf t h ROOT_PAGE_NUM).Nodup
  bound : ∀ q, q ∈ pagesOf t h ROOT_PAGE_NUM → 1 ≤ q ∧ q ≤ t.count

/-- What the copying loop leaves in the destination node: `k` keys and child
pointers of the source, from index `iter` on, at the indices from `i` on. -/
structure Copied (src dst : Node) (k i iter : Nat) (res : Node) : Prop where
  page_id : res.page_id = dst.page_id
  right : res.right = dst.right
  count : res.count = dst.count + k
  data_len : res.data.length = dst.data.length
  children_len : res.children.length = dst.children.length
  dataAt : i + k ≤ dst.data.length → ∀ m, res.dataAt m =
    if i ≤ m ∧ m < i + k then src.dataAt (iter + (m - i)) else dst.dataAt m
  child : i + k ≤ dst.children.length → ∀ m, res.child m =
    if i ≤ m ∧ m < i + k then src.child (iter + (m - i)) else dst.child m

/-- The tree before the copying loop of `split`: the new node is created, the
child is truncated to `MIN_NUM_CHILDREN` keys, the separator is inserted in
the parent and, for a leaf, the sibling links are set. -/
def splitPre (t : Tree) (parent pos : Nat) : Tree :=
  let child1 := (t.nodes parent).child pos
  let r := t.new_node
  let child2 := r.1
  let t := r.2
  let is_leaf := decide ((t.nodes child1).child 0 = 0)
  let iter := MIN_NUM_CHILDREN t.order
  let t := t.modify child1 (fun n => { n with count := iter })
  let t := t.modify parent (fun n => n.insert_in_node pos ((t.nodes child1).dataAt iter))
  if is_leaf then
    let t := t.modify child2 (fun n => { n with right := (t.nodes child1).right })
    let t := t.modify child1 (fun n => { n with right := (t.nodes child2).page_id })
    t.modify parent (fun n =>
      { n with children := n.children.set (pos + 1) (t.nodes child2).page_id })
  else t

/-- The statements of `split` after the copying loop. -/
def splitPost (t : Tree) (parent pos child1 child2 iter : Nat) : Tree :=
  let t := t.modify child2 (fun n =>
    { n with children := n.children.set (t.order + 1 - iter) ((t.nodes child1).child (t.order + 1)) })
  let t := t.modify parent (fun n =>
    { n with children := n.children.set pos (t.nodes child1).page_id })
  t.modify parent (fun n =>
    { n with children := n.children.set (pos + 1) (t.nodes child2).page_id })

/-- The outcome of `split(parent, pos)` on the tree `t`, for the child `c` in
`children[pos]` of the parent and the new page `t.count + 1`: the child keeps
its first `MIN_NUM_CHILDREN` keys, the new node receives the keys from index
`iter` on (`MIN_NUM_CHILDREN` for a leaf, one more for an internal node) with
their child pointers, and the parent receives the key `data[MIN_NUM_CHILDREN]`
of the child at `pos` with the two pages as `children[pos]` and
`children[pos + 1]`. -/
structure SplitSpec (t : Tree) (parent pos : Nat) (t1 : Tree) : Prop where
  order : t1.order = t.order
  count : t1.count = t.count + 1
  frame : ∀ q, q ≠ parent → q ≠ (t.nodes parent).child pos → q ≠ t.count + 1 →
    t1.nodes q = t.nodes q
  c_node : t1.nodes ((t.nodes parent).child pos) =
    { t.nodes ((t.nodes parent).child pos) with
      count := MIN_NUM_CHILDREN t.order
      right := if (t.nodes ((t.nodes parent).child pos)).child 0 = 0 then t.count + 1
               else (t.nodes ((t.nodes parent).child pos)).right }
  n_page : (t1.nodes (t.count + 1)).page_id = t.count + 1
  n_count : (t1.nodes (t.count + 1)).count = t.order + 1 -
    (if (t.nodes ((t.nodes parent).child pos)).child 0 = 0 then MIN_NUM_CHILDREN t.order
     else MIN_NUM_CHILDREN t.order + 1)
  n_right : (t1.nodes (t.count + 1)).right =
    if (t.nodes ((t.nodes parent).child pos)).child 0 = 0
    then (t.nodes ((t.nodes parent).child pos)).right else 0
  n_dlen : (t1.nodes (t.count + 1)).data.length = t.order + 1
  n_clen : (t1.nodes (t.count + 1)).children.length = t.order + 2
  n_data : ∀ m, m < t.order + 1 -
      (if (t.nodes ((t.nodes parent).child pos)).child 0 = 0 then MIN_NUM_CHILDREN t.order
       else MIN_NUM_CHILDREN t.order + 1) →
    (t1.nodes (t.count + 1)).dataAt m = (t.nodes ((t.nodes parent).child pos)).dataAt
      ((if (t.nodes ((t.nodes parent).child pos)).child 0 = 0 then MIN_NUM_CHILDREN t.order
        else MIN_NUM_CHILDREN t.order + 1) + m)
  n_child : ∀ m, (t1.nodes (t.count + 1)).child m =
    if m ≤ t.order + 1 -
      (if (t.nodes ((t.nodes parent).child pos)).child 0 = 0 then MIN_NUM_CHILDREN t.order
       else MIN_NUM_CHILDREN t.order + 1)
    then (t.nodes ((t.nodes parent).child pos)).child
      ((if (t.nodes ((t.nodes parent).child pos)).child 0 = 0 then MIN_NUM_CHILDREN t.order
        else MIN_NUM_CHILDREN t.order + 1) + m)
    else 0
  p_count : (t1.nodes parent).count = (t.nodes parent).count + 1
  p_page : (t1.nodes parent).page_id = (t.nodes parent).page_id
  p_right : (t1.nodes parent).right = (t.nodes parent).right
  p_dlen : (t1.nodes parent).data.length = (t.nodes parent).data.length
  p_clen : (t1.nodes parent).children.length = (t.nodes parent).children.length
  p_data : ∀ m, (t1.nodes parent).dataAt m =
    if m = pos then (t.nodes ((t.nodes parent).child pos)).dataAt (MIN_NUM_CHILDREN t.order)
    else if pos < m ∧ m ≤ (t.nodes parent).count then (t.nodes parent).dataAt (m - 1)
    else (t.nodes parent).dataAt m
  p_child : ∀ m, (t1.nodes parent).child m =
    if m = pos then (t.nodes parent).child pos
    else if m = pos + 1 then t.count + 1
    else if pos + 1 < m ∧ m ≤ (t.nodes parent).count + 1 then (t.nodes parent).child (m - 1)
    else (t.nodes parent).child m

/-- Step 1 and the part of step 2 of `Btree::insert` below the node in page
`p`, for a subtree of height `h`: the value is inserted in the leaf and every
overflowing node below `p` is split, bottom up; as in the recursive
`insert(node &ptr, value)` the source keeps in a comment. -/
def insSub (v : Pair) : Nat → Tree → Nat → Tree
  | 0, t, p => t.modify p (fun n => n.insert_in_node (scanLt n v n.count 0) v)
  | h + 1, t, p =>
    let pos := scanLt (t.nodes p) v (t.nodes p).count 0
    let c := (t.nodes p).child pos
    let t1 := insSub v h t c
    if (t1.nodes c).is_overflow t1.order then t1.split p pos else t1

/-- The entries of a node: `data[0], ..., data[count - 1]`. -/
def Node.entries (n : Node) : List Pair := n.data.take n.count

/-- The outcome of `split_root` on the tree `t`, with the new pages
`t.count + 1` (left) and `t.count + 2` (right): the left child receives the
first `MIN_NUM_CHILDREN` keys and the child pointers up to that index, the
right child the keys and child pointers from index `iter` on
(`MIN_NUM_CHILDREN` for a leaf root, one more for an internal root), and the
root keeps the key `data[MIN_NUM_CHILDREN]` as its only key, with the two
pages as children. -/
structure RootSplit (t t1 : Tree) : Prop where
  order : t1.order = t.order
  count : t1.count = t.count + 2
  frame : ∀ q, q ≠ ROOT_PAGE_NUM → q ≠ t.count + 1 → q ≠ t.count + 2 → t1.nodes q = t.nodes q
  r_page : (t1.nodes ROOT_PAGE_NUM).page_id = (t.nodes ROOT_PAGE_NUM).page_id
  r_right : (t1.nodes ROOT_PAGE_NUM).right = (t.nodes ROOT_PAGE_NUM).right
  r_count : (t1.nodes ROOT_PAGE_NUM).count = 1
  r_dlen : (t1.nodes ROOT_PAGE_NUM).data.length = t.order + 1
  r_clen : (t1.nodes ROOT_PAGE_NUM).children.length = t.order + 2
  r_data : (t1.nodes ROOT_PAGE_NUM).dataAt 0 =
    (t.nodes ROOT_PAGE_NUM).dataAt (MIN_NUM_CHILDREN t.order)
  r_child0 : (t1.nodes ROOT_PAGE_NUM).child 0 = t.count + 1
  r_child1 : (t1.nodes ROOT_PAGE_NUM).child 1 = t.count + 2
  l_page : (t1.nodes (t.count + 1)).page_id = t.count + 1
  l_right : (t1.nodes (t.count + 1)).right = t.count + 2
  l_count : (t1.nodes (t.count + 1)).count = MIN_NUM_CHILDREN t.order
  l_dlen : (t1.nodes (t.count + 1)).data.length = t.order + 1
  l_clen : (t1.nodes (t.count + 1)).children.length = t.order + 2
  l_data : ∀ m, m < MIN_NUM_CHILDREN t.order →
    (t1.nodes (t.count + 1)).dataAt m = (t.nodes ROOT_PAGE_NUM).dataAt m
  l_child : ∀ m, (t1.nodes (t.count + 1)).child m =
    if m ≤ MIN_NUM_CHILDREN t.order then (t.nodes ROOT_PAGE_NUM).child m else 0
  n_page : (t1.nodes (t.count + 2)).page_id = t.count + 2
  n_right : (t1.nodes (t.count + 2)).right = 0
  n_count : (t1.nodes (t.count + 2)).count = t.order + 1 -
    (if (t.nodes ROOT_PAGE_NUM).child 0 ≠ 0 then MIN_NUM_CHILDREN t.order + 1
     else MIN_NUM_CHILDREN t.order)
  n_dlen : (t1.nodes (t.count + 2)).data.length = t.order + 1
  n_clen : (t1.nodes (t.count + 2)).children.length = t.order + 2
  n_data : ∀ m, m < t.order + 1 -
      (if (t.nodes ROOT_PAGE_NUM).child 0 ≠ 0 then MIN_NUM_CHILDREN t.order + 1
       else MIN_NUM_CHILDREN t.order) →
    (t1.nodes (t.count + 2)).dataAt m = (t.nodes ROOT_PAGE_NUM).dataAt
      ((if (t.nodes ROOT_PAGE_NUM).child 0 ≠ 0 then MIN_NUM_CHILDREN t.order + 1
        else MIN_NUM_CHILDREN t.order) + m)
  n_child : ∀ m, (t1.nodes (t.count + 2)).child m =
    if m ≤ t.order + 1 -
      (if (t.nodes ROOT_PAGE_NUM).child 0 ≠ 0 then MIN_NUM_CHILDREN t.order + 1
       else MIN_NUM_CHILDREN t.order)
    then (t.nodes ROOT_PAGE_NUM).child
      ((if (t.nodes ROOT_PAGE_NUM).child 0 ≠ 0 then MIN_NUM_CHILDREN t.order + 1
        else MIN_NUM_CHILDREN t.order) + m)
    else 0

end Btree

/-! ### The shape of a B-tree, page by page -/

namespace Btree

/-- A description of the pages of a tree: for every page its height (0 for a
leaf), the bounds of the keys of its subtree, and the page and index of the
child pointer that leads to it. -/
structure Shape where
  ht : Nat → Nat
  lo : Nat → Option Nat
  hi : Nat → Option Nat
  par : Nat → Nat × Nat

/-- The tree `t` is a search tree of the shape `G`, page by page: every page
from 1 to `count` holds a node with at most `order` keys (one more in the page
`s`), sorted, among the keys `K` and within the bounds of the page; a page of
height 0 has no child; the children `children[0..count]` of a page of another
height are pages from 2 to `count`, one level lower, reached by this pointer
only, and their bounds are the separators around the pointer. -/
structure Ok (t : Tree) (strict : Bool) (K : Nat → Prop) (G : Shape) (s : Nat) : Prop where
  order_pos : 1 ≤ t.order
  count_pos : 1 ≤ t.count
  root_lo : G.lo ROOT_PAGE_NUM = none
  root_hi : G.hi ROOT_PAGE_NUM = none
  node : ∀ q, 1 ≤ q → q ≤ t.count →
    NodeOk t strict K (if q = s then 1 else 0) q (G.lo q) (G.hi q)
  leaf : ∀ q, 1 ≤ q → q ≤ t.count → G.ht q = 0 → ∀ i, (t.nodes q).child i = 0
  kid : ∀ q i, 1 ≤ q → q ≤ t.count → G.ht q ≠ 0 → i ≤ (t.nodes q).count →
    2 ≤ (t.nodes q).child i ∧ (t.nodes q).child i ≤ t.count ∧
    G.ht ((t.nodes q).child i) + 1 = G.ht q ∧
    G.lo ((t.nodes q).child i) = lob (t.nodes q) (G.lo q) i ∧
    G.hi ((t.nodes q).child i) = hib (t.nodes q) (G.hi q) i ∧
    G.par ((t.nodes q).child i) = (q, i)

/-- The descent stack of `Btree::insert`: `stack` lists the pages of
`stack[stack_idx], ..., stack[0]` and `ipos` the positions
`insert_pos[stack_idx - 1], ..., insert_pos[0]`; every page of the stack is
the child at its position of the page below it, and the last is the root. -/
def Path (t : Tree) (G : Shape) : List Nat → List Nat → Prop
  | [q], [] => q = ROOT_PAGE_NUM
  | q :: p :: stack, pos :: ipos =>
    1 ≤ p ∧ p ≤ t.count ∧ G.ht p ≠ 0 ∧ pos ≤ (t.nodes p).count ∧ (t.nodes p).child pos = q ∧
      Path t G (p :: stack) ipos
  | _, _ => False

/-- Invariant of the tree between two operations: it is a search tree of some
shape in which no page has more than `order` keys, the height of the root is
less than the number of pages, and the height of the root times the order,
plus the number of keys of the root, is at most the number of records. -/
def Tree.Good (t : Tree) (strict : Bool) (K : Nat → Prop) : Prop :=
  ∃ G : Shape, Ok t strict K G 0 ∧ G.ht ROOT_PAGE_NUM < t.count ∧
    G.ht ROOT_PAGE_NUM * t.order + (t.nodes ROOT_PAGE_NUM).count ≤ t.record_count

/-- The shape of the tree after `split(parent, pos)` for the parent `p`, the
child `c`, the new page `n` and the separator `sep`, the `m`-th key of the
child: the new page is at the height of the child; the separator bounds the
child from above and the new page from below; the pointers of the parent after
`pos` move up by one and the pointers of the child after the `m`-th move to
the new page. -/
def splitShape (G : Shape) (p pos c n m sep : Nat) : Shape :=
  { ht := fun x => if x = n then G.ht c else G.ht x
    lo := fun x => if x = n then some sep else G.lo x
    hi := fun x => if x = n then G.hi c else if x = c then some sep else G.hi x
    par := fun x =>
      if x = n then (p, pos + 1)
      else if (G.par x).1 = p ∧ pos < (G.par x).2 then (p, (G.par x).2 + 1)
      else if (G.par x).1 = c ∧ m < (G.par x).2 then (n, (G.par x).2 - (m + 1))
      else G.par x }

/-- The shape of the tree after `split_root` with the new pages `l` and `r`
and the separator `sep`, the `m`-th key of the root: the root is one level
higher, the new pages are at its former height, the separator bounds `l` from
above and `r` from below, and the pointers of the root move to the new
pages. -/
def rootShape (G : Shape) (l r m sep : Nat) : Shape :=
  { ht := fun x =>
      if x = ROOT_PAGE_NUM then G.ht ROOT_PAGE_NUM + 1
      else if x = l ∨ x = r then G.ht ROOT_PAGE_NUM else G.ht x
    lo := fun x => if x = r then some sep else if x = l then none else G.lo x
    hi := fun x => if x = l then some sep else if x = r then none else G.hi x
    par := fun x =>
      if x = l then (ROOT_PAGE_NUM, 0)
      else if x = r then (ROOT_PAGE_NUM, 1)
      else if (G.par x).1 = ROOT_PAGE_NUM then
        (if (G.par x).2 ≤ m then (l, (G.par x).2) else (r, (G.par x).2 - (m + 1)))
      else G.par x }

/-- The outcome of `split(parent, pos)` as `SplitSpec` gives it, for the child
`c` in `children[pos]` of the parent `p` and the index `it` of the first key
that moves to the new page. -/
structure SplitView (t t1 : Tree) (p pos c it : Nat) : Prop where
  order : t1.order = t.order
  count : t1.count = t.count + 1
  frame : ∀ q, q ≠ p → q ≠ c → q ≠ t.count + 1 → t1.nodes q = t.nodes q
  it_ge : MIN_NUM_CHILDREN t.order ≤ it
  it_le : it ≤ MIN_NUM_CHILDREN t.order + 1
  it_leaf : (t.nodes c).child 0 ≠ 0 → it = MIN_NUM_CHILDREN t.order + 1
  it_of_leaf : (t.nodes c).child 0 = 0 → it = MIN_NUM_CHILDREN t.order
  c_count : (t1.nodes c).count = MIN_NUM_CHILDREN t.order
  c_page : (t1.nodes c).page_id = (t.nodes c).page_id
  c_dlen : (t1.nodes c).data.length = (t.nodes c).data.length
  c_clen : (t1.nodes c).children.length = (t.nodes c).children.length
  c_data : ∀ m, (t1.nodes c).dataAt m = (t.nodes c).dataAt m
  c_child : ∀ m, (t1.nodes c).child m = (t.nodes c).child m
  n_page : (t1.nodes (t.count + 1)).page_id = t.count + 1
  n_count : (t1.nodes (t.count + 1)).count = t.order + 1 - it
  n_dlen : (t1.nodes (t.count + 1)).data.length = t.order + 1
  n_clen : (t1.nodes (t.count + 1)).children.length = t.order + 2
  n_data : ∀ m, m < t.order + 1 - it →
    (t1.nodes (t.count + 1)).dataAt m = (t.nodes c).dataAt (it + m)
  n_child : ∀ m, (t1.nodes (t.count + 1)).child m =
    if m ≤ t.order + 1 - it then (t.nodes c).child (it + m) else 0
  p_count : (t1.nodes p).count = (t.nodes p).count + 1
  p_page : (t1.nodes p).page_id = (t.nodes p).page_id
  p_dlen : (t1.nodes p).data.length = (t.nodes p).data.length
  p_clen : (t1.nodes p).children.length = (t.nodes p).children.length
  p_data : ∀ m, (t1.nodes p).dataAt m =
    if m = pos then (t.nodes c).dataAt (MIN_NUM_CHILDREN t.order)
    else if pos < m ∧ m ≤ (t.nodes p).count then (t.nodes p).dataAt (m - 1)
    else (t.nodes p).dataAt m
  p_child : ∀ m, (t1.nodes p).child m =
    if m = pos then c
    else if m = pos + 1 then t.count + 1
    else if pos + 1 < m ∧ m ≤ (t.nodes p).count + 1 then (t.nodes p).child (m - 1)
    else (t.nodes p).child m

/-- What is known of the child `c` in `children[pos]` of the page `p` when
`split(p, pos)` is called: it is another page of the tree, one level lower,
between the separators around the pointer, and it has one key more than the
order, while the parent has room for a key. -/
structure SplitPre (t : Tree) (strict : Bool) (K : Nat → Prop) (G : Shape) (p pos c : Nat) :
    Prop where
  ok : Ok t strict K G c
  p_ge : 1 ≤ p
  p_le : p ≤ t.count
  p_ht : G.ht p ≠ 0
  pos_le : pos ≤ (t.nodes p).count
  child : (t.nodes p).child pos = c
  over : (t.nodes c).count = t.order + 1

/-- The outcome of `split_root` as `RootSplit` gives it, for the index `it`
of the first key that moves to the right page. -/
structure RootView (t t1 : Tree) (it : Nat) : Prop where
  order : t1.order = t.order
  count : t1.count = t.count + 2
  frame : ∀ q, q ≠ ROOT_PAGE_NUM → q ≠ t.count + 1 → q ≠ t.count + 2 → t1.nodes q = t.nodes q
  it_ge : MIN_NUM_CHILDREN t.order ≤ it
  it_le : it ≤ MIN_NUM_CHILDREN t.order + 1
  it_inner : (t.nodes ROOT_PAGE_NUM).child 0 ≠ 0 → it = MIN_NUM_CHILDREN t.order + 1
  it_of_leaf : (t.nodes ROOT_PAGE_NUM).child 0 = 0 → it = MIN_NUM_CHILDREN t.order
  r_page : (t1.nodes ROOT_PAGE_NUM).page_id = (t.nodes ROOT_PAGE_NUM).page_id
  r_count : (t1.nodes ROOT_PAGE_NUM).count = 1
  r_dlen : (t1.nodes ROOT_PAGE_NUM).data.length = t.order + 1
  r_clen : (t1.nodes ROOT_PAGE_NUM).children.length = t.order + 2
  r_data : (t1.nodes ROOT_PAGE_NUM).dataAt 0 =
    (t.nodes ROOT_PAGE_NUM).dataAt (MIN_NUM_CHILDREN t.order)
  r_child0 : (t1.nodes ROOT_PAGE_NUM).child 0 = t.count + 1
  r_child1 : (t1.nodes ROOT_PAGE_NUM).child 1 = t.count + 2
  l_page : (t1.nodes (t.count + 1)).page_id = t.count + 1
  l_count : (t1.nodes (t.count + 1)).count = MIN_NUM_CHILDREN t.order
  l_dlen : (t1.nodes (t.count + 1)).data.length = t.order + 1
  l_clen : (t1.nodes (t.count + 1)).children.length = t.order + 2
  l_data : ∀ m, m < MIN_NUM_CHILDREN t.order →
    (t1.nodes (t.count + 1)).dataAt m = (t.nodes ROOT_PAGE_NUM).dataAt m
  l_child : ∀ m, (t1.nodes (t.count + 1)).child m =
    if m ≤ MIN_NUM_CHILDREN t.order then (t.nodes ROOT_PAGE_NUM).child m else 0
  n_page : (t1.nodes (t.count + 2)).page_id = t.count + 2
  n_count : (t1.nodes (t.count + 2)).count = t.order + 1 - it
  n_dlen : (t1.nodes (t.count + 2)).data.length = t.order + 1
  n_clen : (t1.nodes (t.count + 2)).children.length = t.order + 2
  n_data : ∀ m, m < t.order + 1 - it →
    (t1.nodes (t.count + 2)).dataAt m = (t.nodes ROOT_PAGE_NUM).dataAt (it + m)
  n_child : ∀ m, (t1.nodes (t.count + 2)).child m =
    if m ≤ t.order + 1 - it then (t.nodes ROOT_PAGE_NUM).child (it + m) else 0

/-- What is known of the root when `split_root` is called: the tree is a
search tree in which the root alone has one key more than the order. -/
structure RootPre (t : Tree) (strict : Bool) (K : Nat → Prop) (G : Shape) : Prop where
  ok : Ok t strict K G ROOT_PAGE_NUM
  over : (t.nodes ROOT_PAGE_NUM).count = t.order + 1

/-- The equations of the shape after `split_root`. -/
structure RootShape (t : Tree) (G G1 : Shape) : Prop where
  ht : ∀ x, G1.ht x = if x = ROOT_PAGE_NUM then G.ht ROOT_PAGE_NUM + 1
    else if x = t.count + 1 ∨ x = t.count + 2 then G.ht ROOT_PAGE_NUM else G.ht x
  lo : ∀ x, G1.lo x = if x = t.count + 2
    then some ((t.nodes ROOT_PAGE_NUM).dataAt (MIN_NUM_CHILDREN t.order)).key
    else if x = t.count + 1 then none else G.lo x
  hi : ∀ x, G1.hi x = if x = t.count + 1
    then some ((t.nodes ROOT_PAGE_NUM).dataAt (MIN_NUM_CHILDREN t.order)).key
    else if x = t.count + 2 then none else G.hi x
  par : ∀ x, G1.par x = if x = t.count + 1 then (ROOT_PAGE_NUM, 0)
    else if x = t.count + 2 then (ROOT_PAGE_NUM, 1)
    else if (G.par x).1 = ROOT_PAGE_NUM then
      (if (G.par x).2 ≤ MIN_NUM_CHILDREN t.order then (t.count + 1, (G.par x).2)
        else (t.count + 2, (G.par x).2 - (MIN_NUM_CHILDREN t.order + 1)))
    else G.par x

end Btree

/-! ## `Bztree/include/mwcas.h`, `Bztree/mwcas.cc`

The persistent build: `PMEM` and `PMDK` defined, `RTM` not defined,
`PMWCAS_THREAD_HELP == 1`, `PMWCAS_SAFE_MEMORY == 1`, `DESC_CAP` at its default
4.  A pointer into the persistent pool is its offset (`nv_ptr`).  The target
words live outside the descriptor array and are a map from offsets to 64-bit
words.  Cache-line flushes have no effect on the values and are left out; the
epoch manager is not modelled (every caller is taken to be protected).  A
failing `RAW_CHECK` or `DCHECK`, a dereference of a pointer that is not a
descriptor of the pool, and a retry loop that exhausts its fuel make the
modelled function return `none`. -/

namespace pmwcas

/-- Number of word descriptors of a descriptor (`#define DESC_CAP 4`). -/
def DESC_CAP : Nat := 4

/-- `Descriptor::kDirtyFlag`. -/
def kDirtyFlag : Nat := 2 ^ 61

/-- `Descriptor::kCondCASFlag`. -/
def kCondCASFlag : Nat := 2 ^ 62

/-- `Descriptor::kMwCASFlag`. -/
def kMwCASFlag : Nat := 2 ^ 63

/-- `Descriptor::kRecycleOnRecovery`. -/
def kRecycleOnRecovery : Nat := 1

/-- `Descriptor::kRecycleNever`. -/
def kRecycleNever : Nat := 2

/-- `Descriptor::kRecycleAlways`. -/
def kRecycleAlways : Nat := 3

/-- `Descriptor::kRecycleOldOnSuccess`. -/
def kRecycleOldOnSuccess : Nat := 4

/-- `Descriptor::kRecycleNewOnFailure`. -/
def kRecycleNewOnFailure : Nat := 5

/-- `Descriptor::kAllocNullAddress`. -/
def kAllocNullAddress : Nat := 0

/-- `Descriptor::kNewValueReserved`. -/
def kNewValueReserved : Nat := 0

/-- `WordDescriptor::kRecycleFlag`. -/
def kRecycleFlag : Nat := 2 ^ 63

/-- `Descriptor::kStatusDirtyFlag`. -/
def kStatusDirtyFlag : Nat := 2 ^ 31

/-- `Descriptor::kStatusFinished`. -/
def kStatusFinished : Nat := 0

/-- `Descriptor::kStatusSucceeded`. -/
def kStatusSucceeded : Nat := 1

/-- `Descriptor::kStatusFailed`. -/
def kStatusFailed : Nat := 2

/-- `Descriptor::kStatusUndecided`. -/
def kStatusUndecided : Nat := 3

/-- The machine operation `x & ~m`. -/
def andNot (x m : Nat) : Nat := x - (x &&& m)

/-- `Descriptor::IsMwCASDescriptorPtr`. -/
def IsMwCASDescriptorPtr (value : Nat) : Bool := value &&& kMwCASFlag != 0

/-- `Descriptor::IsCondCASDescriptorPtr`. -/
def IsCondCASDescriptorPtr (value : Nat) : Bool := value &&& kCondCASFlag != 0

/-- `Descriptor::IsDirtyPtr`. -/
def IsDirtyPtr (value : Nat) : Bool := value &&& kDirtyFlag != 0

/-- `Descriptor::IsCleanPtr`. -/
def IsCleanPtr (value : Nat) : Bool :=
  value &&& (kCondCASFlag ||| kMwCASFlag ||| kDirtyFlag) == 0

/-- `Descriptor::CleanPtr`. -/
def CleanPtr (ptr : Nat) : Nat := andNot ptr (kMwCASFlag ||| kCondCASFlag ||| kDirtyFlag)

/-- `Descriptor::SetFlags` (its `RAW_CHECK` holds for the flags it is called with). -/
def SetFlags (value flags : Nat) : Nat := value ||| flags

/-- `struct WordDescriptor`; `status_address_` always points to the status of
the descriptor that contains the word and is not stored. -/
structure WordDescriptor where
  address_ : Nat
  old_value_ : Nat
  new_value_ : Nat
  deriving DecidableEq, Repr

/-- `WordDescriptor::GetOldValue`. -/
def WordDescriptor.GetOldValue (w : WordDescriptor) : Nat := andNot w.old_value_ kRecycleFlag

/-- `WordDescriptor::GetNewValue`. -/
def WordDescriptor.GetNewValue (w : WordDescriptor) : Nat := andNot w.new_value_ kRecycleFlag

/-- `WordDescriptor::SetRecycleFlag`. -/
def WordDescriptor.SetRecycleFlag (value : Nat) : Nat := value ||| kRecycleFlag

/-- `WordDescriptor::ShouldRecycleOldValue`. -/
def WordDescriptor.ShouldRecycleOldValue (w : WordDescriptor) : Bool :=
  w.old_value_ &&& kRecycleFlag != 0

/-- `WordDescriptor::ShouldRecycleNewValue`. -/
def WordDescriptor.ShouldRecycleNewValue (w : WordDescriptor) : Bool :=
  w.new_value_ &&& kRecycleFlag != 0

/-- `class Descriptor`.  `next_ptr_` and `owner_partition_` are the index of a
descriptor of the pool and of a partition (`none` for `nullptr`). -/
structure Descriptor where
  status_ : Nat
  count_ : Nat
  next_ptr_ : Option Nat
  owner_partition_ : Option Nat
  callback_idx_ : Nat
  words_ : List WordDescriptor
  indexes_ : List Nat
  deriving DecidableEq, Repr

/-- A descriptor after `memset(descriptors, 0, ...)`. -/
def Descriptor.zero : Descriptor where
  status_ := 0
  count_ := 0
  next_ptr_ := none
  owner_partition_ := none
  callback_idx_ := 0
  words_ := List.replicate DESC_CAP ⟨0, 0, 0⟩
  indexes_ := List.replicate DESC_CAP 0

/-- Word `j` of a descriptor. -/
def Descriptor.word (d : Descriptor) (j : Nat) : WordDescriptor := d.words_.getD j ⟨0, 0, 0⟩

/-- Constructor `Descriptor(partition, callbacks)`, applied to zeroed memory;
`none` when a `DCHECK` on the words fails. -/
def Descriptor.construct (d : Descriptor) (partition : Nat) : Option Descriptor :=
  if d.words_.all (fun w => w.address_ == 0 && w.old_value_ == 0 && w.new_value_ == 0) then
    some { d with
      count_ := 0
      next_ptr_ := none
      owner_partition_ := some partition
      status_ := kStatusFinished }
  else none

/-- `Descriptor::Initialize`. -/
def Descriptor.Initialize (d : Descriptor) : Option Descriptor :=
  if d.status_ ≠ kStatusFinished then none
  else if ¬ d.words_.all (fun w => w.address_ == 0 && w.old_value_ == 0 && w.new_value_ == 0) then
    none
  else some { d with count_ := 0, next_ptr_ := none, status_ := kStatusUndecided }

/-- The loop of `Descriptor::Finalize` that clears the first `count_` words. -/
def clearWords : List WordDescriptor → Nat → List WordDescriptor
  | [], _ => []
  | w :: ws, 0 => w :: ws
  | _ :: ws, n + 1 => ⟨0, 0, 0⟩ :: clearWords ws n

/-- `Descriptor::Finalize`. -/
def Descriptor.Finalize (d : Descriptor) : Option Descriptor :=
  if d.status_ = kStatusSucceeded ∨ d.status_ = kStatusFailed then
    some { d with status_ := kStatusFinished, words_ := clearWords d.words_ d.count_ }
  else none

/-- The loop of `Descriptor::GetInsertPosition`, from index `i - 1` down to 0:
`true` when a recorded word has the address `addr` and `addr` is not null. -/
def dupLoop (d : Descriptor) (addr : Nat) : Nat → Bool
  | 0 => false
  | i + 1 =>
    if addr ≠ kAllocNullAddress ∧ (d.word i).address_ = addr then true
    else dupLoop d addr i

/-- `Descriptor::GetInsertPosition`. -/
def Descriptor.GetInsertPosition (d : Descriptor) (addr : Nat) : Option Int :=
  if addr % 8 ≠ 0 then none
  else if ¬ d.count_ < DESC_CAP then none
  else if dupLoop d addr d.count_ then some (-2)
  else some (d.count_ : Int)

/-- `Descriptor::AddEntry`: the returned position and the descriptor. -/
def Descriptor.AddEntry (d : Descriptor) (addr oldval newval recycle_policy : Nat) :
    Option (Int × Descriptor) :=
  if ¬ IsCleanPtr oldval then none
  else if ¬ (IsCleanPtr newval ∨ newval = kNewValueReserved) then none
  else if d.status_ ≠ kStatusUndecided then none
  else
    let oldval :=
      if recycle_policy = kRecycleAlways ∨ recycle_policy = kRecycleOldOnSuccess then
        WordDescriptor.SetRecycleFlag oldval
      else oldval
    let newval :=
      if recycle_policy = kRecycleAlways ∨ recycle_policy = kRecycleNewOnFailure then
        WordDescriptor.SetRecycleFlag newval
      else newval
    match d.GetInsertPosition addr with
    | none => none
    | some insertpos =>
      if insertpos ≥ 0 then
        some (insertpos,
          { d with
            words_ := d.words_.set insertpos.toNat ⟨addr, oldval, newval⟩
            count_ := d.count_ + 1 })
      else some (insertpos, d)

/-- `Descriptor::ReserveAndAddEntry`. -/
def Descriptor.ReserveAndAddEntry (d : Descriptor) (addr oldval recycle_policy : Nat) :
    Option (Int × Descriptor) :=
  if recycle_policy = kRecycleAlways ∨ recycle_policy = kRecycleNewOnFailure then
    d.AddEntry addr oldval kNewValueReserved recycle_policy
  else none

/-- What a free callback is handed: the slot (`true` for `old_value_`, `false`
for `new_value_`) of word `index` and the value stored in it. -/
structure Handed where
  index : Nat
  old_slot : Bool
  value : Nat
  deriving DecidableEq, Repr

/-- The loop of `Descriptor::DeallocateMemory` over the words from index `i`
on: the slots handed to the free callback, in order. -/
def deallocLoop (status : Nat) : List WordDescriptor → Nat → List Handed
  | [], _ => []
  | w :: ws, i =>
    (if status = kStatusSucceeded then
      if w.ShouldRecycleOldValue then [⟨i, true, w.old_value_⟩] else []
    else if status = kStatusFailed then
      if w.ShouldRecycleNewValue then [⟨i, false, w.new_value_⟩] else []
    else []) ++ deallocLoop status ws (i + 1)

/-- `Descriptor::DeallocateMemory`: the slots handed to the free callback
`free_callbacks_->GetFreeCallback(callback_idx_)`; `none` when the index is not
that of a registered callback. -/
def Descriptor.DeallocateMemory (d : Descriptor) (n_callbacks : Nat) : Option (List Handed) :=
  if d.callback_idx_ < n_callbacks then
    some (deallocLoop d.status_ (d.words_.take d.count_) 0)
  else none

/-- `struct DescriptorPartition`.
Modelled from the spec: `GarbageListUnsafe` (`garbage_list_unsafe.h`) is not
part of the sources; the garbage list is the list of the descriptors pushed on
it and not yet reclaimed. -/
structure DescriptorPartition where
  free_list : Option Nat
  garbage_list : List Nat
  allocated_desc : Nat
  deriving DecidableEq, Repr

/-- `class DescriptorPool`; `base` is the offset of `descriptors_` in the
persistent pool and `n_callbacks` the number of registered free callbacks. -/
structure DescriptorPool where
  pool_size_ : Nat
  desc_per_partition_ : Nat
  partition_count_ : Nat
  descriptors_ : List Descriptor
  partition_table_ : List DescriptorPartition
  next_partition_ : Nat
  n_callbacks : Nat
  base : Nat
  deriving DecidableEq, Repr

/-- The loop `while (requested_pool_size > pool_size_) pool_size_ *= 2` on
32-bit integers. -/
def poolSizeLoop (requested_pool_size : Nat) : Nat → Nat → Option Nat
  | 0, _ => none
  | fuel + 1, pool_size =>
    if requested_pool_size > pool_size then
      poolSizeLoop requested_pool_size fuel (pool_size * 2 % 2 ^ 32)
    else some pool_size

/-- The loop `for (exp = 1; exp < 10; exp++)` that rounds the partition count,
with `n` iterations left. -/
def partitionLoop (requested_partition_count : Nat) : Nat → Nat → Nat
  | 0, partition_count => partition_count
  | n + 1, partition_count =>
    if requested_partition_count ≤ partition_count then partition_count
    else partitionLoop requested_partition_count n (partition_count * 2)

/-- The partition count computed by the constructor and by `Recovery`:
`exp` runs from 1 to 9. -/
def roundPartitionCount (requested_partition_count : Nat) : Nat :=
  partitionLoop requested_partition_count 9 1

/-- `sizeof(Descriptor)` for `DESC_CAP = 4`: 40 bytes of header, `words_` at
offset 64, `indexes_` at offset 192, the class aligned to 64 bytes. -/
def DESC_SIZE : Nat := 256

/-- Offset of `words_` in a descriptor. -/
def WORDS_OFFSET : Nat := 64

/-- `sizeof(WordDescriptor)`. -/
def WORD_SIZE : Nat := 32

/-- Offset of descriptor `i`: `(uint64_t)nv_ptr<Descriptor>(&descriptors[i])`. -/
def descPtr (base i : Nat) : Nat := base + DESC_SIZE * i

/-- Offset of word `j` of descriptor `i`. -/
def wordPtr (base i j : Nat) : Nat := descPtr base i + WORDS_OFFSET + WORD_SIZE * j

/-- The descriptor an offset points to, if it is one of the pool. -/
def descOfPtr (p : DescriptorPool) (ptr : Nat) : Option Nat :=
  if p.base ≤ ptr ∧ (ptr - p.base) % DESC_SIZE = 0 ∧ (ptr - p.base) / DESC_SIZE < p.pool_size_ then
    some ((ptr - p.base) / DESC_SIZE)
  else none

/-- The word descriptor an offset points to, if it is one of the pool. -/
def wordOfPtr (p : DescriptorPool) (ptr : Nat) : Option (Nat × Nat) :=
  if p.base ≤ ptr ∧ (ptr - p.base) / DESC_SIZE < p.pool_size_ ∧
      WORDS_OFFSET ≤ (ptr - p.base) % DESC_SIZE ∧
      ((ptr - p.base) % DESC_SIZE - WORDS_OFFSET) % WORD_SIZE = 0 ∧
      ((ptr - p.base) % DESC_SIZE - WORDS_OFFSET) / WORD_SIZE < DESC_CAP then
    some ((ptr - p.base) / DESC_SIZE, ((ptr - p.base) % DESC_SIZE - WORDS_OFFSET) / WORD_SIZE)
  else none

/-- The two nested loops of `InitDescriptors`, partition `i` and its
descriptors `d = 0 .. n - 1`: each descriptor is constructed and pushed on the
free list of the partition. -/
def initPartition (dpp i : Nat) :
    Nat → List Descriptor × DescriptorPartition → Option (List Descriptor × DescriptorPartition)
  | 0, s => some s
  | n + 1, s =>
    match initPartition dpp i n s with
    | none => none
    | some (ds, part) =>
      match (ds.getD (i * dpp + n) Descriptor.zero).construct i with
      | none => none
      | some desc =>
        some (ds.set (i * dpp + n) { desc with next_ptr_ := part.free_list },
          { part with free_list := some (i * dpp + n) })

/-- The outer loop of `InitDescriptors` over the partitions `0 .. n - 1`. -/
def initPartitions (dpp : Nat) :
    Nat → List Descriptor × List DescriptorPartition →
      Option (List Descriptor × List DescriptorPartition)
  | 0, s => some s
  | n + 1, s =>
    match initPartitions dpp n s with
    | none => none
    | some (ds, parts) =>
      match initPartition dpp n dpp (ds, parts.getD n ⟨none, [], 0⟩) with
      | none => none
      | some (ds1, part) => some (ds1, parts.set n part)

/-- `DescriptorPool::InitDescriptors`. -/
def DescriptorPool.InitDescriptors (p : DescriptorPool) : Option DescriptorPool :=
  if ¬ p.pool_size_ > p.partition_count_ then none
  else
    match initPartitions p.desc_per_partition_ p.partition_count_
        (List.replicate p.pool_size_ Descriptor.zero, p.partition_table_) with
    | none => none
    | some (ds, parts) => some { p with descriptors_ := ds, partition_table_ := parts }

/-- Constructor `DescriptorPool(requested_pool_size, requested_partition_count)`;
`base` is the offset at which the allocator places the descriptor array. -/
def DescriptorPool.create (requested_pool_size requested_partition_count base : Nat) :
    Option DescriptorPool :=
  match poolSizeLoop requested_pool_size 64 1 with
  | none => none
  | some pool_size =>
    let partition_count := roundPartitionCount requested_partition_count
    let desc_per_partition := pool_size / partition_count
    if ¬ desc_per_partition > 0 then none
    else if ¬ pool_size > 0 then none
    else
      DescriptorPool.InitDescriptors
        { pool_size_ := pool_size
          desc_per_partition_ := desc_per_partition
          partition_count_ := partition_count
          descriptors_ := []
          partition_table_ := List.replicate partition_count ⟨none, [], 0⟩
          next_partition_ := 0
          n_callbacks := 1
          base := base }

/-- The persistent state: the descriptor pool, the target words and the slots
handed to free callbacks so far (most recent last). -/
structure State where
  pool : DescriptorPool
  mem : Nat → Nat
  freed : List Handed

/-- Descriptor `i` of the pool. -/
def State.desc (st : State) (i : Nat) : Descriptor := st.pool.descriptors_.getD i Descriptor.zero

/-- The state with descriptor `i` replaced. -/
def State.setDesc (st : State) (i : Nat) (d : Descriptor) : State :=
  { st with pool := { st.pool with descriptors_ := st.pool.descriptors_.set i d } }

/-- `CompareExchange64(addr, new_value, comparand)`: the value found at `addr`
and the memory. -/
def CompareExchange64 (mem : Nat → Nat) (addr new_value comparand : Nat) : Nat × (Nat → Nat) :=
  (mem addr, if mem addr = comparand then Function.update mem addr new_value else mem)

/-! ### `DescriptorPool::Recovery` -/

/-- Body of the loop over the words of a descriptor whose status is `Undecided`
or `Failed` (`mwcas.cc`, lines 163 to 198); `dptr` and `wptr` are the offsets
of the descriptor and of the word. -/
def rollBackWord (dptr wptr : Nat) (w : WordDescriptor) (mem : Nat → Nat) : Nat → Nat :=
  if w.address_ = kAllocNullAddress then mem
  else
    let val := mem w.address_
    let mem1 :=
      if IsDirtyPtr val then Function.update mem w.address_ (andNot val kDirtyFlag) else mem
    let roll_back :=
      if IsCondCASDescriptorPtr val then decide (CleanPtr val = wptr)
      else if IsMwCASDescriptorPtr val then decide (CleanPtr val = dptr)
      else false
    if roll_back then Function.update mem1 w.address_ w.GetOldValue else mem1

/-- Body of the loop over the words of a descriptor whose status is
`Succeeded` (`mwcas.cc`, lines 213 to 252). -/
def rollForwardWord (dptr wptr : Nat) (w : WordDescriptor) (mem : Nat → Nat) : Nat → Nat :=
  if w.address_ = kAllocNullAddress then mem
  else
    let val := mem w.address_
    let mem1 :=
      if IsDirtyPtr val then Function.update mem w.address_ (andNot val kDirtyFlag) else mem
    let roll_back :=
      if IsCondCASDescriptorPtr val then decide (CleanPtr val = wptr) else false
    let roll_forward :=
      if IsCondCASDescriptorPtr val then false
      else if IsMwCASDescriptorPtr val then decide (CleanPtr val = dptr)
      else false
    if roll_forward then Function.update mem1 w.address_ w.GetNewValue
    else if roll_back then Function.update mem1 w.address_ w.GetOldValue
    else mem1

/-- A loop `for (i = 0; i < DESC_CAP; ++i)` of `Recovery` over the words of
descriptor `i`, from word `j` on, with loop body `body`. -/
def wordsLoop (body : Nat → Nat → WordDescriptor → (Nat → Nat) → Nat → Nat) (base i : Nat) :
    List WordDescriptor → Nat → (Nat → Nat) → Nat → Nat
  | [], _, mem => mem
  | w :: ws, j, mem =>
    wordsLoop body base i ws (j + 1) (body (descPtr base i) (wordPtr base i j) w mem)

/-- The loop of `Recovery` that hands the flagged slots of a descriptor to the
free callback (`new_value_` slots when `old_slot` is false, `old_value_` slots
when it is true), from word `j` on.  The callback clears the slot, as
`DefaultFreeCallback` does. -/
def recycleLoop (old_slot : Bool) :
    List WordDescriptor → Nat → List WordDescriptor × List Handed
  | [], _ => ([], [])
  | w :: ws, j =>
    let r := recycleLoop old_slot ws (j + 1)
    if old_slot then
      if w.ShouldRecycleOldValue then
        ({ w with old_value_ := 0 } :: r.1, ⟨j, true, w.old_value_⟩ :: r.2)
      else (w :: r.1, r.2)
    else
      if w.ShouldRecycleNewValue then
        ({ w with new_value_ := 0 } :: r.1, ⟨j, false, w.new_value_⟩ :: r.2)
      else (w :: r.1, r.2)

/-- The final loop over the words of a descriptor in `Recovery` (lines 265 to
280): no target may still hold the tag of the descriptor or of the word. -/
def checkLoop (base i : Nat) (mem : Nat → Nat) : List WordDescriptor → Nat → Bool
  | [], _ => true
  | w :: ws, j =>
    (w.address_ = kAllocNullAddress ∨
      (andNot (mem w.address_) kDirtyFlag ≠ (descPtr base i ||| kMwCASFlag) ∧
       andNot (mem w.address_) kDirtyFlag ≠ (wordPtr base i j ||| kCondCASFlag))) &&
    checkLoop base i mem ws (j + 1)

/-- Body of the loop of `Recovery` over the descriptors: descriptor `i`. -/
def recoverDescriptor (st : State) (i : Nat) : Option State :=
  let desc := st.desc i
  let s := andNot desc.status_ kStatusDirtyFlag
  if ¬ (s = kStatusFinished ∨ s = kStatusFailed ∨ s = kStatusSucceeded ∨ s = kStatusUndecided) then
    none
  else if s = kStatusFinished then some st
  else
    let back := decide (s = kStatusUndecided ∨ s = kStatusFailed)
    let words := desc.words_.take DESC_CAP
    let mem1 :=
      if back then wordsLoop rollBackWord st.pool.base i words 0 st.mem
      else wordsLoop rollForwardWord st.pool.base i words 0 st.mem
    if ¬ desc.callback_idx_ < st.pool.n_callbacks then none
    else
      let r := recycleLoop (!back) words 0
      let st1 : State :=
        { (st.setDesc i { desc with words_ := r.1 ++ desc.words_.drop DESC_CAP }) with
          mem := mem1
          freed := st.freed ++ r.2 }
      if checkLoop st.pool.base i mem1 r.1 0 then some st1 else none

/-- The loop `for (i = 0; i < pool_size_; ++i)` of `Recovery`, descriptors
`0 .. n - 1`. -/
def recoverLoop : Nat → State → Option State
  | 0, st => some st
  | n + 1, st =>
    match recoverLoop n st with
    | none => none
    | some st1 => recoverDescriptor st1 n

/-- `DescriptorPool::Recovery(requested_partition_count, enable_stats,
clear_free_callbacks)`. -/
def Recovery (st : State) (requested_partition_count : Nat) (clear_free_callbacks : Bool) :
    Option State :=
  let partition_count :=
    if requested_partition_count ≠ 0 then roundPartitionCount requested_partition_count
    else st.pool.partition_count_
  if partition_count = 0 then none
  else
    let desc_per_partition := st.pool.pool_size_ / partition_count
    if ¬ desc_per_partition > 0 then none
    else if ¬ st.pool.pool_size_ > 0 then none
    else
      let pool1 : DescriptorPool :=
        { st.pool with
          partition_count_ := partition_count
          desc_per_partition_ := desc_per_partition
          partition_table_ := List.replicate partition_count ⟨none, [], 0⟩
          n_callbacks := if clear_free_callbacks then 1 else st.pool.n_callbacks }
      match recoverLoop st.pool.pool_size_ { st with pool := pool1 } with
      | none => none
      | some st1 =>
        match st1.pool.InitDescriptors with
        | none => none
        | some pool2 => some { st1 with pool := pool2 }

/-! ### The multi-word compare-and-swap -/

/-- `Descriptor::ReadPersistStatus` on descriptor `i`. -/
def ReadPersistStatus (st : State) (i : Nat) : Nat × State :=
  let d := st.desc i
  let curr_status := d.status_
  let stable_status := andNot curr_status kStatusDirtyFlag
  if curr_status &&& kStatusDirtyFlag ≠ 0 then
    (stable_status, st.setDesc i { d with status_ := stable_status })
  else (stable_status, st)

/-- `Descriptor::PersistentCompleteCondCAS` on word `j` of descriptor `i`. -/
def PersistentCompleteCondCAS (st : State) (i j : Nat) : State :=
  let ptr := SetFlags (descPtr st.pool.base i) kMwCASFlag
  let expected := SetFlags (wordPtr st.pool.base i j) kCondCASFlag
  let r := ReadPersistStatus st i
  let wd := (r.2.desc i).word j
  let desired := SetFlags (if r.1 = kStatusUndecided then ptr else wd.GetOldValue) kDirtyFlag
  let addr := wd.address_
  let c := CompareExchange64 r.2.mem addr desired expected
  if c.1 = expected ∨ c.1 = desired then
    { r.2 with mem := (CompareExchange64 c.2 addr (andNot desired kDirtyFlag) desired).2 }
  else { r.2 with mem := c.2 }

/-- `Descriptor::CondCAS(word_index, words_, kDirtyFlag)` on word `j` of
descriptor `i`; each pass through the label `retry` takes one unit of fuel. -/
def CondCAS : Nat → State → Nat → Nat → Option (Nat × State)
  | 0, _, _, _ => none
  | fuel + 1, st, i, j =>
    let w := (st.desc i).word j
    let cond_descptr := SetFlags (wordPtr st.pool.base i j) kCondCASFlag
    let addr := w.address_
    let old_value := w.GetOldValue
    let c := CompareExchange64 st.mem addr cond_descptr old_value
    let ret := c.1
    if ret &&& kDirtyFlag ≠ 0 then
      CondCAS fuel { st with mem := (CompareExchange64 c.2 addr (andNot ret kDirtyFlag) ret).2 } i j
    else if IsCondCASDescriptorPtr ret then
      match wordOfPtr st.pool (CleanPtr ret) with
      | none => none
      | some wd =>
        if (((st.desc wd.1).word wd.2).address_ = w.address_) then
          CondCAS fuel (PersistentCompleteCondCAS { st with mem := c.2 } wd.1 wd.2) i j
        else none
    else if ret = old_value then
      some (ret, PersistentCompleteCondCAS { st with mem := c.2 } i j)
    else some (ret, { st with mem := c.2 })

/-- The indexes `0 .. count - 1` sorted by the address of the word, as
`std::sort` leaves them in `indexes_`. -/
def sortIndexes (d : Descriptor) : List Nat :=
  List.insertionSort (fun a b => (d.word a).address_ ≤ (d.word b).address_) (List.range d.count_)

/-- The `DCHECK` after the sort: neighbouring non-null addresses increase. -/
def sortedCheck (d : Descriptor) : List Nat → Bool
  | a :: b :: l =>
    (((d.word a).address_ = 0 ∨ (d.word b).address_ = 0 ∨
      (d.word a).address_ < (d.word b).address_) : Bool) && sortedCheck d (b :: l)
  | _ => true

/-- One entry of the install loop of `PersistentMwCAS` for descriptor `i`, word
`j`, from the label `retry_entry` on: `true` when the loop continues with
`my_status` unchanged, `false` when `my_status` becomes `Failed`.  `help` is
`PersistentMwCAS(calldepth + 1)` on another descriptor. -/
def installEntry (help : State → Nat → Option State) :
    Nat → State → Nat → Nat → Option (Bool × State)
  | 0, _, _, _ => none
  | fuel + 1, st, i, j =>
    match CondCAS (fuel + 1) st i j with
    | none => none
    | some (rval, st1) =>
      if rval &&& kDirtyFlag ≠ 0 then none
      else if rval = ((st1.desc i).word j).GetOldValue ∨
          CleanPtr rval = descPtr st1.pool.base i then
        some (true, st1)
      else if IsMwCASDescriptorPtr rval then
        match descOfPtr st1.pool (CleanPtr rval) with
        | none => none
        | some other =>
          match help st1 other with
          | none => none
          | some st2 => installEntry help fuel st2 i j
      else some (false, st1)

/-- The install loop of `PersistentMwCAS` over the sorted indexes that are
left: the final `my_status` and the state. -/
def installLoop (help : State → Nat → Option State) (fuel : Nat) (i : Nat) :
    List Nat → State → Option (Nat × State)
  | [], st => some (kStatusSucceeded, st)
  | j :: js, st =>
    if ((st.desc i).word j).address_ = kAllocNullAddress then installLoop help fuel i js st
    else
      match installEntry help fuel st i j with
      | none => none
      | some (true, st1) => installLoop help fuel i js st1
      | some (false, st1) => some (kStatusFailed, st1)

/-- The loop of phase 2 of `PersistentMwCAS` over the sorted indexes that are
left. -/
def finalizeLoop (succeeded : Bool) (i : Nat) : List Nat → State → State
  | [], st => st
  | j :: js, st =>
    let wd := (st.desc i).word j
    if wd.address_ = kAllocNullAddress then finalizeLoop succeeded i js st
    else
      let descptr := SetFlags (descPtr st.pool.base i) kMwCASFlag
      let val := SetFlags (if succeeded then wd.GetNewValue else wd.GetOldValue) kDirtyFlag
      let c := CompareExchange64 st.mem wd.address_ val descptr
      if c.1 = descptr ∨ c.1 = val then
        finalizeLoop succeeded i js
          { st with mem := (CompareExchange64 c.2 wd.address_ (andNot val kDirtyFlag) val).2 }
      else finalizeLoop succeeded i js { st with mem := c.2 }

/-- `GarbageListUnsafe::Push(desc, Descriptor::FreeDescriptor, nullptr)` on the
garbage list of partition `part`.
Modelled from the spec: the garbage list is not part of the sources; the push
records the descriptor, which is reclaimed by a later call of
`FreeDescriptor`. -/
def pushGarbage (st : State) (part i : Nat) : State :=
  { st with pool := { st.pool with
      partition_table_ := st.pool.partition_table_.modify
        (fun p => { p with garbage_list := p.garbage_list ++ [i] }) part } }

/-- `Descriptor::Cleanup` on descriptor `i`. -/
def Cleanup (st : State) (i : Nat) : Option (Bool × State) :=
  let d := st.desc i
  if d.status_ &&& kStatusDirtyFlag ≠ 0 then none
  else if ¬ (d.status_ = kStatusFailed ∨ d.status_ = kStatusSucceeded) then none
  else
    match d.owner_partition_ with
    | none => none
    | some part => some (decide (d.status_ = kStatusSucceeded), pushGarbage st part i)

/-- The part of `PersistentMwCAS` that only the owner runs (`calldepth == 0`):
the indexes are sorted by address and the status is checked. -/
def sortPhase (st : State) (i calldepth : Nat) : Option State :=
  if calldepth = 0 then
    let d := st.desc i
    let idx := sortIndexes d
    if ¬ sortedCheck d idx then none
    else if d.status_ ≠ kStatusUndecided then none
    else some (st.setDesc i { d with indexes_ := idx ++ d.indexes_.drop d.count_ })
  else some st

/-- Phase 1 of `PersistentMwCAS` for a descriptor found `Undecided`: the install
loop, the `CompareExchange32` on the status and the removal of the dirty
flag of the status. -/
def decidePhase (help : State → Nat → Option State) (fuel : Nat) (st : State) (i : Nat) :
    Option State :=
  match installLoop help fuel i ((st.desc i).indexes_.take (st.desc i).count_) st with
  | none => none
  | some (my_status, st1) =>
    let d := st1.desc i
    let status1 :=
      if d.status_ = kStatusUndecided then my_status ||| kStatusDirtyFlag else d.status_
    if andNot status1 kStatusDirtyFlag = kStatusUndecided then none
    else some (st1.setDesc i { d with status_ := andNot status1 kStatusDirtyFlag })

/-- Phase 2 of `PersistentMwCAS`: the outcome read from the status and the state
after the loop over the entries. -/
def phase2 (st : State) (i : Nat) : Bool × State :=
  let succeeded := decide ((st.desc i).status_ = kStatusSucceeded)
  (succeeded, finalizeLoop succeeded i ((st.desc i).indexes_.take (st.desc i).count_) st)

/-- `Descriptor::PersistentMwCAS(calldepth)` on descriptor `i`.  A unit of fuel
is taken by each nested call that helps another descriptor and by each pass
through a retry label. -/
def PersistentMwCAS : Nat → State → Nat → Nat → Option (Bool × State)
  | 0, _, _, _ => none
  | fuel + 1, st, i, calldepth =>
    if (st.desc i).status_ = kStatusFinished then none
    else
      match sortPhase st i calldepth with
      | none => none
      | some st0 =>
        let r := ReadPersistStatus st0 i
        match (if r.1 ≠ kStatusUndecided then some r.2
            else decidePhase
              (fun s o => (PersistentMwCAS fuel s o (calldepth + 1)).map Prod.snd) fuel r.2 i) with
        | none => none
        | some st2 =>
          if calldepth = 0 then Cleanup (phase2 st2 i).2 i else some (phase2 st2 i)

/-- `Descriptor::MwCAS` on descriptor `i`. -/
def MwCAS (fuel : Nat) (st : State) (i : Nat) : Option (Bool × State) :=
  if (st.desc i).status_ ≠ kStatusUndecided then none else PersistentMwCAS fuel st i 0

/-- `MwcTargetField::GetValueProtectedPersistent` on the target word at `addr`. -/
def GetValueProtected : Nat → State → Nat → Option (Nat × State)
  | 0, _, _ => none
  | fuel + 1, st, addr =>
    let val := st.mem addr
    if val &&& kCondCASFlag ≠ 0 then
      if val &&& kDirtyFlag ≠ 0 then none
      else
        match wordOfPtr st.pool (CleanPtr val) with
        | none => none
        | some wd => GetValueProtected fuel (PersistentCompleteCondCAS st wd.1 wd.2) addr
    else if val &&& kDirtyFlag ≠ 0 then
      GetValueProtected fuel
        { st with mem := (CompareExchange64 st.mem addr (andNot val kDirtyFlag) val).2 } addr
    else if val &&& kMwCASFlag ≠ 0 then
      match descOfPtr st.pool (CleanPtr val) with
      | none => none
      | some desc =>
        match PersistentMwCAS fuel st desc 1 with
        | none => none
        | some r => GetValueProtected fuel r.2 addr
    else if ¬ IsCleanPtr val then none
    else some (val, st)

/-- `Descriptor::Abort` on descriptor `i`. -/
def Abort (st : State) (i : Nat) : Option State :=
  let d := st.desc i
  if d.status_ ≠ kStatusUndecided then none
  else
    match d.owner_partition_ with
    | none => none
    | some part => some (pushGarbage (st.setDesc i { d with status_ := kStatusFailed }) part i)

/-- `Descriptor::FreeDescriptor(context, desc)` on descriptor `i`, as the
garbage list calls it when it reclaims the descriptor. -/
def FreeDescriptor (st : State) (i : Nat) : Option State :=
  let d := st.desc i
  match d.DeallocateMemory st.pool.n_callbacks with
  | none => none
  | some handed =>
    match d.Finalize with
    | none => none
    | some d1 =>
      match d1.owner_partition_ with
      | none => none
      | some part =>
        let free_list := (st.pool.partition_table_.getD part ⟨none, [], 0⟩).free_list
        let st1 := st.setDesc i { d1 with next_ptr_ := free_list }
        some
          { st1 with
            pool := { st1.pool with
              partition_table_ := st1.pool.partition_table_.modify
                (fun p => { p with
                  free_list := some i
                  garbage_list := p.garbage_list.erase i }) part }
            freed := st.freed ++ handed }

/-- `DescriptorPool::AllocateDescriptor(fc)` by a thread whose partition is
`part`; `none` when the free list is empty (the scavenging of the garbage list
depends on the epochs, which are not modelled).  The result is the index of
the descriptor. -/
def AllocateDescriptor (st : State) (part fc : Nat) : Option (Nat × State) :=
  match (st.pool.partition_table_.getD part ⟨none, [], 0⟩).free_list with
  | none => none
  | some i =>
    let d := st.desc i
    match ({ d with callback_idx_ := fc } : Descriptor).Initialize with
    | none => none
    | some d1 =>
      let st1 := st.setDesc i d1
      some (i,
        { st1 with pool := { st1.pool with
            partition_table_ := st1.pool.partition_table_.modify
              (fun p => { p with free_list := d.next_ptr_ }) part } })

end pmwcas

/-! ### Runs of the PMwCAS model -/

namespace pmwcas

/-- Target words given by a list of (offset, value) pairs; 0 elsewhere. -/
def memOf (l : List (Nat × Nat)) : Nat → Nat := fun a => (l.lookup a).getD 0

/-- A fresh pool `DescriptorPool(2, 1)` whose descriptor array is at offset
4096, with the target words `mem`. -/
def pool2 (mem : Nat → Nat) : Option State :=
  (DescriptorPool.create 2 1 4096).map fun p => ⟨p, mem, []⟩

/-- An entry of a multi-word compare-and-swap as passed to `AddEntry`. -/
structure Entry where
  addr : Nat
  oldval : Nat
  newval : Nat
  recycle_policy : Nat

/-- `AddEntry` for each entry of the list on descriptor `i`; `none` when a call
fails or returns a negative position. -/
def addEntries (st : State) (i : Nat) : List Entry → Option State
  | [] => some st
  | e :: es =>
    match (st.desc i).AddEntry e.addr e.oldval e.newval e.recycle_policy with
    | none => none
    | some (pos, d) => if pos < 0 then none else addEntries (st.setDesc i d) i es

/-- `AllocateDescriptor()` by a thread of partition `part`, followed by
`AddEntry` for each entry: the index of the descriptor and the state. -/
def prepare (st : State) (part : Nat) (entries : List Entry) : Option (Nat × State) :=
  match AllocateDescriptor st part 0 with
  | none => none
  | some (i, st1) => (addEntries st1 i entries).map fun st2 => (i, st2)

/-- The state found after a crash: descriptor `i` has the status `status` and
the target words are `mem`. -/
def crashed (st : State) (i status : Nat) (mem : Nat → Nat) : State :=
  { st.setDesc i { st.desc i with status_ := status } with mem := mem }

/-- The value `CondCAS` installs for the word descriptor at offset `wptr`. -/
def wordTag (wptr : Nat) : Nat := SetFlags wptr kCondCASFlag

/-- The value `PersistentCompleteCondCAS` installs for the descriptor at offset
`dptr` (without the Dirty bit). -/
def descTag (dptr : Nat) : Nat := SetFlags dptr kMwCASFlag

/-- An undecided descriptor with the single entry `{8 : 1 -> 2}`. -/
def desc8 : Descriptor where
  status_ := kStatusUndecided
  count_ := 1
  next_ptr_ := none
  owner_partition_ := some 0
  callback_idx_ := 0
  words_ := [⟨8, 1, 2⟩, ⟨0, 0, 0⟩, ⟨0, 0, 0⟩, ⟨0, 0, 0⟩]
  indexes_ := [0, 0, 0, 0]

end pmwcas

namespace pmwcas

/-- The state of the crash scenarios: a fresh pool of two descriptors at offset
4096 in which descriptor 1 (offset 4352, word 0 at offset 4416, word 1 at
offset 4448) was allocated and given the entries `{8 : 1 -> 2, 16 : 3 -> 4}`;
at the crash the descriptor has the status `status` and the two target words
hold `a` and `b`. -/
def crashAB (status a b : Nat) : Option State :=
  (pool2 (memOf [])).bind fun st =>
    (prepare st 0 [⟨8, 1, 2, kRecycleNever⟩, ⟨16, 3, 4, kRecycleNever⟩]).map fun r =>
      crashed r.2 r.1 status (memOf [(8, a), (16, b)])

/-- The target words 8 and 16 after `Recovery(0, false, true)` on `crashAB`. -/
def recoverAB (status a b : Nat) : Option (Nat × Nat) :=
  (crashAB status a b).bind fun st => (Recovery st 0 true).map fun s => (s.mem 8, s.mem 16)

end pmwcas

namespace pmwcas

/-- The state `crashAB status a b` as a state (an empty pool if the
construction fails). -/
def stateAB (status a b : Nat) : State :=
  (crashAB status a b).getD ⟨⟨0, 0, 0, [], [], 0, 0, 0⟩, memOf [], []⟩

end pmwcas

namespace pmwcas

/-- A status word without its dirty flag (`status_ & ~kStatusDirtyFlag`). -/
def stableStatus (s : Nat) : Nat := andNot s kStatusDirtyFlag

/-- A call of the interface of the descriptors. -/
inductive Call where
  | allocate (part fc : Nat)
  | addEntry (i addr oldval newval recycle_policy : Nat)
  | mwcas (i : Nat)
  | abort (i : Nat)
  | free (i : Nat)

/-- One call: `AllocateDescriptor`, `AddEntry`, `MwCAS`, `Abort`, or the call of
`FreeDescriptor` by which the garbage list reclaims a descriptor. -/
def step (fuel : Nat) (st : State) : Call → Option State
  | .allocate part fc => (AllocateDescriptor st part fc).map Prod.snd
  | .addEntry i addr oldval newval recycle_policy =>
    ((st.desc i).AddEntry addr oldval newval recycle_policy).map fun r => st.setDesc i r.2
  | .mwcas i => (MwCAS fuel st i).map Prod.snd
  | .abort i => Abort st i
  | .free i => FreeDescriptor st i

/-- Partition `part` of the pool. -/
def State.partition (st : State) (part : Nat) : DescriptorPartition :=
  st.pool.partition_table_.getD part ⟨none, [], 0⟩

/-- A state found after a crash: the pool has the undecided descriptor
`{8 : 1 -> 2}` at offset 4096 and the target word 8 holds the tag of that
descriptor. -/
def stateTagged : State :=
  { pool := ⟨1, 1, 1, [desc8], [], 0, 1, 4096⟩
    mem := memOf [(8, descTag 4096)]
    freed := [] }

end pmwcas

/-! ## `include/types.hpp`, `Btree/file.hpp`, `Btree/buffer_manager.cc`

The buffer pool of the B-tree.  A frame is a `Page` structure; `File::flush`
and `File::load` transfer the whole structure (metadata included) to and from
page `n` of the file, and a page of the file that was never written reads as
zero bytes.  A failing `pwrite`, `pread` or `fsync` stops the process in
`PCHECK`; whether the next transfer fails is an input of the model. -/

namespace BufferManager

/-- `FILE_ID_SHIFT`. -/
def FILE_ID_SHIFT : Nat := 48

/-- `FILE_ID_MASK`. -/
def FILE_ID_MASK : Nat := 0xffff <<< FILE_ID_SHIFT

/-- `PAGE_NUM_SHIFT`. -/
def PAGE_NUM_SHIFT : Nat := 24

/-- `PAGE_NUM_MASK`. -/
def PAGE_NUM_MASK : Nat := 0xffffff <<< PAGE_NUM_SHIFT

/-- `PAGE_ID_INVALID_MASK`. -/
def PAGE_ID_INVALID_MASK : Nat := 0xffffff

/-- `shift(val, shift)` on 64-bit integers. -/
def shift (val sh : Nat) : Nat := (val <<< sh) % 2 ^ 64

/-- `struct PageId`: the 64-bit value. -/
structure PageId where
  value : Nat
  deriving DecidableEq, Repr

/-- `PageId::kInvalidValue`. -/
def PageId.kInvalidValue : Nat := 2 ^ 64 - 1

/-- Default constructor `PageId()`. -/
def PageId.invalid : PageId := ⟨PageId.kInvalidValue⟩

/-- Constructor `PageId(file_id, page_num)`. -/
def PageId.make (file_id page_num : Nat) : PageId :=
  ⟨shift file_id FILE_ID_SHIFT ||| shift page_num PAGE_NUM_SHIFT⟩

/-- `PageId::IsValid`. -/
def PageId.IsValid (p : PageId) : Bool := p.value &&& PAGE_ID_INVALID_MASK == 0

/-- `PageId::GetValue`. -/
def PageId.GetValue (p : PageId) : Nat := p.value

/-- `PageId::GetPageID`. -/
def PageId.GetPageID (p : PageId) : Nat := (p.value &&& PAGE_NUM_MASK) >>> PAGE_NUM_SHIFT

/-- `PageId::GetFileID`. -/
def PageId.GetFileID (p : PageId) : Nat := (p.value &&& FILE_ID_MASK) >>> FILE_ID_SHIFT

/-- `PAGE_IDLE`. -/
def PAGE_IDLE : Nat := 0

/-- `PAGE_WRITE`. -/
def PAGE_WRITE : Nat := 1

/-- `PAGE_READ`. -/
def PAGE_READ : Nat := 2

/-- `struct Page`: a frame of the pool; `page_data` stands for the bytes of the
page. -/
structure Page where
  page_id : PageId
  pin_count : Nat
  last_used : Nat
  is_dirty : Bool
  page_data : Nat
  deriving DecidableEq, Repr

/-- A frame after `new (&page_frames[i]) Page()` on zeroed memory. -/
def Page.fresh : Page := ⟨PageId.invalid, 0, 0, false, 0⟩

/-- A `Page` structure read from zero bytes. -/
def Page.zero : Page := ⟨⟨0⟩, 0, 0, false, 0⟩

/-- `Page::SetUsed`. -/
def Page.SetUsed (p : Page) (access_type : Nat) : Page := { p with last_used := access_type }

/-- `Page::SetIdle`: `--last_used` on a 16-bit counter. -/
def Page.SetIdle (p : Page) : Page :=
  { p with last_used := (p.last_used + 2 ^ 16 - 1) % 2 ^ 16 }

/-- `Page::SetDirty`. -/
def Page.SetDirty (p : Page) (dirty : Bool) : Page := { p with is_dirty := dirty }

/-- `Page::IsUsed`. -/
def Page.IsUsed (p : Page) : Bool := p.last_used > 0

/-- `Page::IsDirty`. -/
def Page.IsDirty (p : Page) : Bool := p.is_dirty

/-- The pages of a `File`, by page number. -/
abbrev Disk := Nat → Page

/-- A file whose bytes are all zero. -/
def Disk.empty : Disk := fun _ => Page.zero

/-- `File::flush(n, reg)`: `none` when the write fails (`PCHECK` stops the
process); otherwise the function returns `true`. -/
def flush (disk : Disk) (write_ok : Bool) (n : Nat) (reg : Page) : Option (Bool × Disk) :=
  if write_ok then some (true, Function.update disk n reg) else none

/-- `File::load(n, reg)`: `none` when the read fails (`PCHECK` stops the
process); otherwise the function returns `true` and the register. -/
def load (disk : Disk) (read_ok : Bool) (n : Nat) : Option (Bool × Page) :=
  if read_ok then some (true, disk n) else none

/-- The hash map `page_table` (value of a `PageId` to frame) as an association
list. -/
abbrev Table := List (Nat × Nat)

/-- `page_table.find(k)`. -/
def Table.find : Table → Nat → Option Nat
  | [], _ => none
  | (k1, v) :: t, k => if k1 = k then some v else Table.find t k

/-- `page_table.erase(k)`. -/
def Table.erase : Table → Nat → Table
  | [], _ => []
  | (k1, v) :: t, k => if k1 = k then Table.erase t k else (k1, v) :: Table.erase t k

/-- `page_table.try_emplace(k, v)`. -/
def Table.try_emplace (t : Table) (k v : Nat) : Table :=
  match Table.find t k with
  | some _ => t
  | none => (k, v) :: t

/-- `class BufferManager` after `RegisterFile`: the file and its id, the page
table, the frames and the clock hand. -/
structure Pool where
  disk : Disk
  fid : Nat
  page_table : Table
  page_count : Nat
  page_frames : List Page
  page_cur : Nat

/-- `MAX_BUFFER_PAGES`. -/
def MAX_BUFFER_PAGES : Nat := 0xFFFFFF

/-- Constructor `BufferManager(page_count)` followed by `RegisterFile` for a
file with descriptor `fid` and contents `disk`; `none` when the `CHECK` on the
page count fails. -/
def create (page_count fid : Nat) (disk : Disk) : Option Pool :=
  if page_count ≤ MAX_BUFFER_PAGES then
    some
      { disk := disk
        fid := fid % 2 ^ 16
        page_table := []
        page_count := page_count
        page_frames := List.replicate page_count Page.fresh
        page_cur := 0 }
  else none

/-- The loop at the label `next_page` of `PinPage`: a used frame is set idle
and the hand advances.  The result is the frames, the hand at the exit and the
number of advances; `none` when the hand is outside the array or the fuel is
exhausted. -/
def clockLoop : Nat → Nat → List Page → Nat → Nat → Option (List Page × Nat × Nat)
  | 0, _, _, _, _ => none
  | fuel + 1, page_count, frames, cur, adv =>
    match frames[cur]? with
    | none => none
    | some page_frame =>
      if page_frame.IsUsed then
        clockLoop fuel page_count (frames.set cur page_frame.SetIdle)
          (if cur + 1 ≥ page_count then 0 else cur + 1) (adv + 1)
      else some (frames, cur, adv)

/-- Fuel of the loop of `PinPage`: with 16-bit marks the loop leaves within
`65536 * page_count` advances. -/
def clockFuel (page_count : Nat) : Nat := 65536 * page_count + 1

/-- `BufferManager::PinPage(page_id, page_mode)`.  The result is the index of
the returned frame (`none` for `nullptr`) and the pool; the outer `none` stands
for a stopped process.  `write_ok` and `read_ok` tell whether the write-back
of the victim and the load of the page succeed. -/
def PinPage (b : Pool) (page_id : PageId) (page_mode : Nat) (write_ok read_ok : Bool) :
    Option (Option Nat × Pool) :=
  if ¬ page_id.IsValid then some (none, b)
  else
    match Table.find b.page_table page_id.GetValue with
    | some f =>
      some (some f, { b with page_frames := b.page_frames.modify (fun p => p.SetUsed page_mode) f })
    | none =>
      match clockLoop (clockFuel b.page_count) b.page_count b.page_frames b.page_cur 0 with
      | none => none
      | some (frames, cur, _) =>
        match frames[cur]? with
        | none => none
        | some page_frame =>
          let b1 : Pool := { b with page_frames := frames, page_cur := cur }
          if page_frame.IsDirty ∧ page_frame.page_id.GetFileID ≠ b.fid then some (none, b1)
          else
            match (if page_frame.IsDirty then
                (flush b.disk write_ok page_frame.page_id.GetPageID page_frame).map Prod.snd
              else some b.disk) with
            | none => none
            | some disk1 =>
              let table1 := Table.erase b.page_table page_frame.page_id.GetValue
              let b2 : Pool := { b1 with disk := disk1, page_table := table1 }
              if page_id.GetFileID ≠ b.fid then some (none, b2)
              else
                match load disk1 read_ok page_id.GetPageID with
                | none => none
                | some (loaded, reg) =>
                  if ¬ loaded then some (none, { b2 with page_frames := frames.set cur reg })
                  else
                    let reg1 := (({ reg with page_id := page_id } : Page).SetUsed page_mode).SetDirty
                      false
                    some (some cur,
                      { b2 with
                        page_frames := frames.set cur reg1
                        page_table := Table.try_emplace table1 page_id.GetValue cur })

/-- `BufferManager::UnpinPage`: the body of the function is empty. -/
def UnpinPage (b : Pool) (_page : Nat) : Pool := b

/-- The loop of `BufferManager::Finalize` over the frames that are left; every
write succeeds, or the process stops. -/
def finalizeLoop : List Page → Disk → List Bool → Option Disk
  | [], disk, _ => some disk
  | p :: ps, disk, oks =>
    if p.IsDirty then
      match flush disk (oks.headD true) p.page_id.GetPageID p with
      | none => none
      | some r => finalizeLoop ps r.2 oks.tail
    else finalizeLoop ps disk oks

/-- `BufferManager::Finalize`: the contents of the file afterwards; `oks` tells
for the successive writes whether they succeed. -/
def Finalize (b : Pool) (oks : List Bool) : Option Disk :=
  finalizeLoop b.page_frames b.disk oks

/-- Frame `f` of the pool. -/
def Pool.frame (b : Pool) (f : Nat) : Page := b.page_frames.getD f Page.fresh

/-- The user of a frame stores `data` in it and calls `SetDirty(true)`. -/
def markDirty (b : Pool) (f : Nat) (data : Nat) : Pool :=
  { b with
    page_frames :=
      b.page_frames.modify (fun p => Page.SetDirty { p with page_data := data } true) f }

end BufferManager

/-! ### Runs of the buffer pool of the B-tree -/

namespace BufferManager

/-- `PinPage` for the pages of the list in turn, every transfer succeeding:
the frames returned, in order, and the pool. -/
def pinAll (b : Pool) : List (PageId × Nat) → Option (List (Option Nat) × Pool)
  | [] => some ([], b)
  | (page_id, page_mode) :: rest =>
    match PinPage b page_id page_mode true true with
    | none => none
    | some (r, b1) =>
      match pinAll b1 rest with
      | none => none
      | some (rs, b2) => some (r :: rs, b2)

/-- The identifiers of the pages with the given numbers in file 3, to be pinned
in mode `page_mode`. -/
def pagesOfFile (page_mode : Nat) (nums : List Nat) : List (PageId × Nat) :=
  nums.map fun n => (PageId.make 3 n, page_mode)

/-- A pool of `n` frames on the empty file with descriptor 3. -/
def poolOf (n : Nat) : Pool :=
  { disk := Disk.empty, fid := 3, page_table := [], page_count := n,
    page_frames := List.replicate n Page.fresh, page_cur := 0 }

/-- A pool of one frame on file 3 whose frame holds page 1, modified and
marked dirty. -/
def dirtyOne : Pool :=
  { disk := Disk.empty, fid := 3, page_table := [((PageId.make 3 1).value, 0)], page_count := 1,
    page_frames := [⟨PageId.make 3 1, 0, 1, true, 77⟩], page_cur := 0 }

/-- The page numbers held by the frames of a pool (`none` for a frame whose
page identifier is not valid). -/
def heldPages (b : Pool) : List (Option Nat) :=
  b.page_frames.map fun p => if p.page_id.IsValid then some p.page_id.GetPageID else none

/-- The marks `last_used` of the frames of a pool. -/
def marks (b : Pool) : List Nat := b.page_frames.map fun p => p.last_used

end BufferManager

namespace BufferManager

/-- Relation between the frames before and after the loop of `PinPage`: only
marks `last_used` change, and none grows. -/
def LoopRel (frames frames1 : List Page) : Prop :=
  frames1.length = frames.length ∧
  ∀ (j : Nat) (m : Page), frames[j]? = some m → ∃ m1 : Page, frames1[j]? = some m1 ∧
    m1.page_id = m.page_id ∧ m1.pin_count = m.pin_count ∧ m1.is_dirty = m.is_dirty ∧
    m1.page_data = m.page_data ∧ (m.last_used < 2 ^ 16 → m1.last_used ≤ m.last_used)

/-- Consistency of the page table with the frames: an entry of the table leads
to a frame with that identifier, and a frame with a valid identifier is in the
table, except possibly the frame under the hand when its mark is 0 and its
identifier has no entry. -/
structure Pool.Inv (b : Pool) : Prop where
  frames_len : b.page_frames.length = b.page_count
  cur_lt : b.page_cur < b.page_count ∨ b.page_count = 0
  table_sound : ∀ (k f : Nat), Table.find b.page_table k = some f →
    ∃ m : Page, b.page_frames[f]? = some m ∧ m.page_id.GetValue = k
  table_complete : ∀ (f : Nat) (m : Page), b.page_frames[f]? = some m →
    m.page_id.IsValid = true →
    Table.find b.page_table m.page_id.GetValue = some f ∨
      (f = b.page_cur ∧ m.last_used = 0 ∧
        Table.find b.page_table m.page_id.GetValue = none)

/-- Number of advances of the hand after which the loop of `PinPage`, started
with the hand at `cur`, finds frame `j` with mark 0, were it not to stop
before. -/
def visitTime (n cur j : Nat) (m : Page) : Nat := m.last_used * n + (j + n - cur) % n

/-- Number of times the hand passes frame `j` in `k` advances from `cur`. -/
def passes (n cur j k : Nat) : Nat := (k + n - 1 - (j + n - cur) % n) / n

/-- The frames returned by the pins of pages 1 and 2, in read mode, on a pool
of two frames. -/
def frames12 : List (Option Nat) :=
  ((pinAll (poolOf 2) (pagesOfFile PAGE_READ [1, 2])).map Prod.fst).getD []

/-- The pool of two frames after the pins of pages 1 and 2 in read mode. -/
def pool12 : Pool :=
  ((pinAll (poolOf 2) (pagesOfFile PAGE_READ [1, 2])).map Prod.snd).getD (poolOf 2)

end BufferManager

/-! ### The pool of the B-tree with the bytes last marked dirty -/

namespace BufferManager

/-- A call made by the user of the pool: `PinPage`, or a modification of the
bytes of frame `f` followed by `SetDirty(true)`. -/
inductive BufOp where
  | pin (page_id : PageId) (page_mode : Nat)
  | mark (f : Nat) (data : Nat)

/-- The pool together with, for every page number, the bytes its frame held
when the page was last marked dirty. -/
structure Tracked where
  pool : Pool
  marked : Nat → Option Nat

/-- One call, every transfer succeeding; `none` when `PinPage` does not return
or when the marked frame holds no page. -/
def Tracked.step (t : Tracked) : BufOp → Option Tracked
  | .pin page_id page_mode =>
    match PinPage t.pool page_id page_mode true true with
    | none => none
    | some (_, b1) => some { t with pool := b1 }
  | .mark f data =>
    match t.pool.page_frames[f]? with
    | none => none
    | some m =>
      if m.page_id.IsValid then
        some
          { pool := markDirty t.pool f data
            marked := Function.update t.marked m.page_id.GetPageID (some data) }
      else none

/-- A sequence of calls. -/
def Tracked.run (t : Tracked) : List BufOp → Option Tracked
  | [] => some t
  | op :: ops =>
    match t.step op with
    | none => none
    | some t1 => Tracked.run t1 ops

/-- Invariant of the tracked pool: the page table is consistent, a dirty frame
holds a page, a held page belongs to the registered file, the frame of a page
holds the bytes last marked for it, and so does the file when no dirty frame
holds the page. -/
structure Tracked.Inv (t : Tracked) : Prop where
  inv : t.pool.Inv
  held : ∀ (f : Nat) (m : Page), t.pool.page_frames[f]? = some m →
    (m.is_dirty = true → m.page_id.IsValid = true) ∧
    (m.page_id.IsValid = true → m.page_id.GetFileID = t.pool.fid ∧ m.page_id.value < 2 ^ 64)
  in_frame : ∀ (p d f : Nat) (m : Page), t.marked p = some d →
    t.pool.page_frames[f]? = some m → m.page_id.IsValid = true → m.page_id.GetPageID = p →
    m.page_data = d
  on_disk : ∀ (p d : Nat), t.marked p = some d →
    (∀ (f : Nat) (m : Page), t.pool.page_frames[f]? = some m → m.page_id.IsValid = true →
      m.page_id.GetPageID = p → m.is_dirty = false) →
    (t.pool.disk p).page_data = d

/-- Pages 1 and 2 are pinned for writing in a pool of one frame and marked
dirty with the bytes 11 and 22; page 1 is pinned and marked again with the
bytes 12. -/
def markCalls : List BufOp :=
  [.pin (PageId.make 3 1) PAGE_WRITE, .mark 0 11, .pin (PageId.make 3 2) PAGE_WRITE, .mark 0 22,
    .pin (PageId.make 3 1) PAGE_WRITE, .mark 0 12]

end BufferManager

/-! ### The pins of the operations of the B-tree -/

namespace Btree

open BufferManager (Pool PageId PAGE_READ PAGE_WRITE PinPage UnpinPage)

/-- The calls of `BufMgrPinPage` of the constructor on an empty file, as page
number and mode: `read_node(0)`, `read_node(root)`, `write_node(root)` and
`flush_header`. -/
def createPins : List (Nat × Nat) :=
  [(0, PAGE_READ), (ROOT_PAGE_NUM, PAGE_READ), (ROOT_PAGE_NUM, PAGE_WRITE), (0, PAGE_WRITE)]

/-- The calls of `BufMgrPinPage` of `new_node`: `get_header` reads page 0,
`flush_header` writes it, and the new page, whose number is the incremented
count of the header, is pinned for writing. -/
def newNodePins (t : Tree) : List (Nat × Nat) :=
  [(0, PAGE_READ), (0, PAGE_WRITE), (t.new_node.1, PAGE_WRITE)]

/-- The calls of `BufMgrPinPage` of `split(parent, pos)`: `read_node` of the
child, `new_node`, and `write_node` of the parent and of the two children. -/
def splitPins (t : Tree) (parent pos : Nat) : List (Nat × Nat) :=
  let child1 := (t.nodes parent).child pos
  let child2 := t.new_node.1
  let t1 := t.split parent pos
  (child1, PAGE_READ) :: newNodePins t ++
    [((t1.nodes parent).page_id, PAGE_WRITE), ((t1.nodes child1).page_id, PAGE_WRITE),
      ((t1.nodes child2).page_id, PAGE_WRITE)]

/-- The calls of `BufMgrPinPage` of `split_root`: `read_node` of the root,
`new_node` twice, and `write_node` of the root and of the two children. -/
def splitRootPins (t : Tree) : List (Nat × Nat) :=
  let child1 := t.new_node.1
  let child2 := t.new_node.2.new_node.1
  let t1 := t.split_root
  (ROOT_PAGE_NUM, PAGE_READ) :: newNodePins t ++ newNodePins t.new_node.2 ++
    [((t1.nodes ROOT_PAGE_NUM).page_id, PAGE_WRITE), ((t1.nodes child1).page_id, PAGE_WRITE),
      ((t1.nodes child2).page_id, PAGE_WRITE)]

/-- The calls of `read_node` in the loop of `Btree::find` from the node in
page `page`. -/
def findPinsFrom (t : Tree) (object : Pair) : Nat → Nat → Option (List (Nat × Nat))
  | 0, _ => none
  | fuel + 1, page =>
    let node_cur := t.nodes page
    if node_cur.child 0 ≠ 0 then
      (findPinsFrom t object fuel (node_cur.child (scanLe node_cur object node_cur.count 0))).map
        fun l => (node_cur.child (scanLe node_cur object node_cur.count 0), PAGE_READ) :: l
    else
      some []

/-- The calls of `BufMgrPinPage` of `Btree::find`, before `UnpinAllPages`. -/
def Tree.findPins (t : Tree) (object : Pair) : Option (List (Nat × Nat)) :=
  (findPinsFrom t object (t.count + 1) ROOT_PAGE_NUM).map fun l => (ROOT_PAGE_NUM, PAGE_READ) :: l

/-- The calls of `BufMgrPinPage` in step 1 of `Btree::insert`: `read_node` of
every child on the way down, and `write_node` of the leaf. -/
def descendPins (t : Tree) (value : Pair) : Nat → List Nat → Option (List (Nat × Nat))
  | 0, _ => none
  | fuel + 1, stack =>
    match stack with
    | [] => none
    | page :: _ =>
      let node_cur := t.nodes page
      let pos := scanLt node_cur value node_cur.count 0
      if node_cur.child pos ≠ 0 then
        (descendPins t value fuel (node_cur.child pos :: stack)).map
          fun l => (node_cur.child pos, PAGE_READ) :: l
      else
        some [((node_cur.insert_in_node pos value).page_id, PAGE_WRITE)]

/-- The calls of `BufMgrPinPage` in step 2 of `Btree::insert`: those of every
`split`. -/
def unwindPins (t : Tree) : List Nat → List Nat → List (Nat × Nat)
  | node_cur :: parent :: stack, _ :: pos :: ipos =>
    if (t.nodes node_cur).is_overflow t.order then
      splitPins t parent pos ++ unwindPins (t.split parent pos) (parent :: stack) (pos :: ipos)
    else unwindPins t (parent :: stack) (pos :: ipos)
  | _, _ => []

/-- The calls of `BufMgrPinPage` of `Btree::insert`, before `UnpinAllPages`:
`read_node` of the root, the descent, the splits, `split_root` when the root
overflows, and `increment_record_and_flush`. -/
def Tree.insertPins (t : Tree) (value : Pair) : Option (List (Nat × Nat)) :=
  match descend t value MAX_LEVEL [ROOT_PAGE_NUM] [],
      descendPins t value MAX_LEVEL [ROOT_PAGE_NUM] with
  | some (t1, stack, ipos), some l =>
    let t2 := unwind t1 stack ipos
    some ((ROOT_PAGE_NUM, PAGE_READ) :: l ++ unwindPins t1 stack ipos ++
      (if (t2.nodes ROOT_PAGE_NUM).is_overflow t2.order then splitRootPins t2 else []) ++
      [(0, PAGE_READ), (0, PAGE_WRITE)])
  | _, _ => none

/-- A top-level operation of the B-tree. -/
inductive Op where
  | find (object : Pair)
  | insert (value : Pair)

/-- The calls of `BufMgrPinPage` of an operation. -/
def Tree.pins (t : Tree) : Op → Option (List (Nat × Nat))
  | .find object => t.findPins object
  | .insert value => t.insertPins value

/-- The tree after an operation. -/
def Tree.step (t : Tree) : Op → Option Tree
  | .find object => (t.find object).map fun _ => t
  | .insert value => t.insert value

/-- One call of `BufMgrPinPage` for page `p` of the file, by `read_node` (mode
`PAGE_READ`) or by `write_node` and `new_node` (mode `PAGE_WRITE`), which then
call `SetDirty(true)` on the frame: the pool, and `pagelist` with the page and
its frame appended.  `none` when `PinPage` does not return a frame. -/
def pinStep (b : Pool) (pagelist : List (Nat × Nat)) (p page_mode : Nat) :
    Option (Pool × List (Nat × Nat)) :=
  match PinPage b (PageId.make b.fid p) page_mode true true with
  | some (some f, b1) =>
    some (if page_mode = PAGE_WRITE then
        { b1 with page_frames := b1.page_frames.modify (fun q => q.SetDirty true) f }
      else b1,
      pagelist ++ [(p, f)])
  | _ => none

/-- Whether every entry of `pagelist` refers to a frame that holds the page of
the entry. -/
def intact (b : Pool) (pagelist : List (Nat × Nat)) : Bool :=
  pagelist.all fun e =>
    decide ((b.page_frames[e.2]?).map (fun q => q.page_id.value) = some (PageId.make b.fid e.1).value)

/-- `UnpinAllPages`: `UnpinPage` for every entry of `pagelist`. -/
def UnpinAllPages (b : Pool) (pagelist : List (Nat × Nat)) : Pool :=
  pagelist.foldl (fun b1 e => UnpinPage b1 e.2) b

/-- The calls of `BufMgrPinPage` of one operation in turn.  The result is the
pool, `pagelist`, and whether after every call all entries of `pagelist` were
intact. -/
def pinSteps (b : Pool) (pagelist : List (Nat × Nat)) :
    List (Nat × Nat) → Option (Pool × List (Nat × Nat) × Bool)
  | [] => some (b, pagelist, true)
  | (p, page_mode) :: rest =>
    match pinStep b pagelist p page_mode with
    | none => none
    | some (b1, pagelist1) =>
      match pinSteps b1 pagelist1 rest with
      | none => none
      | some (b2, pagelist2, ok) => some (b2, pagelist2, intact b1 pagelist1 && ok)

/-- A sequence of operations on a tree and its buffer pool.  The result is the
tree, the pool, and whether in every operation all entries of `pagelist` were
intact after every pin; as long as they are, each node pointer of the
operation stands for the page it was read from, and the tree follows
`Tree.step`. -/
def runOps (t : Tree) (b : Pool) : List Op → Option (Tree × Pool × Bool)
  | [] => some (t, b, true)
  | op :: ops =>
    match t.pins op, t.step op with
    | some l, some t1 =>
      match pinSteps b [] l with
      | none => none
      | some (b1, pagelist, ok) =>
        match runOps t1 (UnpinAllPages b1 pagelist) ops with
        | none => none
        | some (t2, b2, ok2) => some (t2, b2, ok && ok2)
    | _, _ => none

/-- The constructor of the B-tree of order `order` on an empty file with
descriptor 3 and a pool of `n` frames, followed by the operations `ops`. -/
def session (order n : Nat) (ops : List Op) : Option (Tree × Pool × Bool) :=
  match BufferManager.create n 3 BufferManager.Disk.empty with
  | none => none
  | some b0 =>
    match pinSteps b0 [] createPins with
    | none => none
    | some (b1, pagelist, ok) =>
      (runOps (Tree.create order) (UnpinAllPages b1 pagelist) ops).map
        fun r => (r.1, r.2.1, ok && r.2.2)

/-- Inserts of the keys 1 to `k` in ascending order, each with the number of
records inserted before it as record number. -/
def ascending (k : Nat) : List Op :=
  (List.range k).map fun i => Op.insert ⟨i + 1, i⟩

/-- The tree of order 22, the value of `BTREE_ORDER` when `PAGE_SIZE` is 512,
after the constructor and the inserts of the keys 1 to 44, with a pool of 5
frames. -/
def tree44 : Tree := ((session 22 5 (ascending 44)).map fun r => r.1).getD (Tree.create 22)

/-- The pool of 5 frames after the constructor and the inserts of the keys 1
to 44 in a tree of order 22. -/
def pool44 : Pool :=
  ((session 22 5 (ascending 44)).map fun r => r.2.1).getD (BufferManager.poolOf 5)

/-- The first six calls of `BufMgrPinPage` of the insert of key 45 in `tree44`:
the root, the leaf in page 4, which overflows, and in `split` the leaf again
and the header. -/
def pins45 : List (Nat × Nat) :=
  [(1, PAGE_READ), (4, PAGE_READ), (4, PAGE_WRITE), (4, PAGE_READ), (0, PAGE_READ),
    (0, PAGE_WRITE)]

/-- The entries of `pagelist` after the calls `pins45` on `pool44`. -/
def pagelist45 : List (Nat × Nat) := [(1, 1), (4, 4), (4, 4), (4, 4), (0, 0), (0, 0)]

/-- The pool after the calls `pins45` on `pool44`. -/
def pool45 : Pool := ((pinSteps pool44 [] pins45).map fun r => r.1).getD pool44

end Btree

/-! ## `Ycsb/core/counter_generator.h`, `Ycsb/core/core_workload.h`

The key numbers of the YCSB driver.  The generator `key_chooser_` is an input
of the model: the list of the numbers its successive calls of `Next()`
return. -/

namespace ycsbc

/-- `class CounterGenerator`: the member `counter_`, a `uint64_t`. -/
structure CounterGenerator where
  counter_ : Nat
  deriving DecidableEq, Repr

/-- Constructor `CounterGenerator(start)`. -/
def CounterGenerator.new (start : Nat) : CounterGenerator := ⟨start % 2 ^ 64⟩

/-- `CounterGenerator::Next`: `return ++counter_;`. -/
def CounterGenerator.Next (g : CounterGenerator) : Nat × CounterGenerator :=
  ((g.counter_ + 1) % 2 ^ 64, ⟨(g.counter_ + 1) % 2 ^ 64⟩)

/-- `CounterGenerator::Last`: `return counter_ - 1;`. -/
def CounterGenerator.Last (g : CounterGenerator) : Nat := (g.counter_ + 2 ^ 64 - 1) % 2 ^ 64

/-- `CounterGenerator::Set`. -/
def CounterGenerator.Set (_g : CounterGenerator) (start : Nat) : CounterGenerator :=
  ⟨start % 2 ^ 64⟩

/-- The members of `CoreWorkload` that produce key numbers; `hash` stands for
`utils::Hash`. -/
structure CoreWorkload where
  record_count_ : Nat
  ordered_inserts_ : Bool
  hash : Nat → Nat
  sequence_key_generator_ : CounterGenerator
  insert_key_sequence_ : CounterGenerator

/-- The part of the constructor `CoreWorkload(p, thread_id)` that sets these
members: `sequence_key_generator_` starts at `insert_start` and
`insert_key_sequence_`, initialised with 3, is set to
`insert_start + record_count_`. -/
def CoreWorkload.init (insert_start record_count : Nat) (ordered : Bool) (hash : Nat → Nat) :
    CoreWorkload :=
  { record_count_ := record_count
    ordered_inserts_ := ordered
    hash := hash
    sequence_key_generator_ := CounterGenerator.new insert_start
    insert_key_sequence_ :=
      (CounterGenerator.new 3).Set ((insert_start + record_count) % 2 ^ 64) }

/-- `CoreWorkload::BuildKeyName`. -/
def CoreWorkload.BuildKeyName (w : CoreWorkload) (key_num : Nat) : Nat :=
  if ¬ w.ordered_inserts_ then w.hash key_num else key_num

/-- The key number drawn by `CoreWorkload::NextSequenceKey`. -/
def CoreWorkload.nextSequenceNum (w : CoreWorkload) : Nat × CoreWorkload :=
  let r := w.sequence_key_generator_.Next
  (r.1, { w with sequence_key_generator_ := r.2 })

/-- `CoreWorkload::NextSequenceKey`. -/
def CoreWorkload.NextSequenceKey (w : CoreWorkload) : Nat × CoreWorkload :=
  let r := w.nextSequenceNum
  (w.BuildKeyName r.1, r.2)

/-- The key number accepted by the loop of `CoreWorkload::NextTransactionKey`:
the first number of the chooser that is at most `insert_key_sequence_.Last()`,
with the numbers left; `none` when the numbers given are all refused. -/
def CoreWorkload.nextTransactionNum (w : CoreWorkload) : List Nat → Option (Nat × List Nat)
  | [] => none
  | key_num :: rest =>
    if key_num > w.insert_key_sequence_.Last then w.nextTransactionNum rest
    else some (key_num, rest)

/-- `CoreWorkload::NextTransactionKey`. -/
def CoreWorkload.NextTransactionKey (w : CoreWorkload) (chooser : List Nat) :
    Option (Nat × List Nat) :=
  (w.nextTransactionNum chooser).map (fun r => (w.BuildKeyName r.1, r.2))

/-- The key numbers of `n` calls of `NextSequenceKey`, as the load phase makes
them (one call for each `Client::DoInsert`). -/
def CoreWorkload.loadNums : Nat → CoreWorkload → List Nat × CoreWorkload
  | 0, w => ([], w)
  | n + 1, w =>
    let r := w.nextSequenceNum
    let rest := CoreWorkload.loadNums n r.2
    (r.1 :: rest.1, rest.2)

end ycsbc

/-! # Theorems -/

/-! ## `HtFile`: soundness of the free list -/

namespace HtFile

theorem isFreeList_update {disk : Nat → Page} {q : Nat} {pg : Page} :
    ∀ {fl : List Nat} {head : Nat}, q ∉ fl → IsFreeList disk head fl →
      IsFreeList (Function.update disk q pg) head fl
  | [], _, _, h => h
  | p :: ps, head, hq, h => by
    obtain ⟨h1, h2, h3⟩ := h
    have hpq : p ≠ q := fun e => hq (by simp [e])
    refine ⟨h1, h2, ?_⟩
    rw [Function.update_noteq hpq]
    exact isFreeList_update (fun hm => hq (List.mem_cons_of_mem _ hm)) h3

theorem freeWalk_of_isFreeList {disk : Nat → Page} :
    ∀ {fl : List Nat} {head fuel : Nat}, IsFreeList disk head fl → fl.length ≤ fuel →
      freeWalk disk fuel head = some fl
  | [], head, fuel, h, _ => by
    have h0 : head = 0 := h
    cases fuel <;> simp [freeWalk, h0]
  | p :: ps, head, fuel, h, hl => by
    obtain ⟨h1, h2, h3⟩ := h
    cases fuel with
    | zero => simp at hl
    | succ fuel =>
      have hl2 : ps.length ≤ fuel := by simpa using hl
      subst h1
      simp [freeWalk, h2, freeWalk_of_isFreeList h3 hl2]

theorem inv_create (init_size : Nat) : Inv (create init_size, []) := by
  refine ⟨[], rfl, List.nodup_nil, List.nodup_nil, by simp, ?_⟩
  intro p
  simp [create]
  omega

theorem inv_alloc {s : File × List Nat} (ok : Bool) (h : Inv s) : Inv (step s (.alloc ok)) := by
  obtain ⟨fl, hc, hnd, hlnd, hdis, hcov⟩ := h
  obtain ⟨f, live⟩ := s
  simp only at hc hdis hcov hlnd
  by_cases hf : f.first_free_page = 0
  · -- the free list is empty: the file is extended, or the allocation fails
    have hfl : fl = [] := by
      cases fl with
      | nil => rfl
      | cons p ps => exact absurd (hc.1 ▸ hf) hc.2.1
    subst hfl
    have hnew : f.fsize + 1 ∉ live := by
      intro hm
      have := (hcov (f.fsize + 1)).1 (Or.inl hm)
      omega
    have hgrow : ∀ p, (p ∈ (f.fsize + 1) :: live ∨ p ∈ ([] : List Nat)) ↔
        (1 ≤ p ∧ p ≤ f.fsize + 1) := by
      intro p
      have := hcov p
      simp only [List.mem_cons, List.not_mem_nil, or_false] at this ⊢
      constructor
      · rintro (h | h)
        · omega
        · have := this.1 h; omega
      · intro h
        by_cases hp : p = f.fsize + 1
        · exact Or.inl hp
        · exact Or.inr (this.2 ⟨h.1, by omega⟩)
    by_cases hg : f.fsize + 1 ≥ f.flen / PAGE_SIZE
    · cases ok with
      | true =>
        simp only [step, AllocatePage, hf, ne_eq, not_true_eq_false, if_false, hg, if_true,
          Nat.add_one_ne_zero]
        exact ⟨[], rfl, hnd, List.nodup_cons.2 ⟨hnew, hlnd⟩, by simp, hgrow⟩
      | false =>
        simp only [step, AllocatePage, hf, ne_eq, not_true_eq_false, if_false, hg, if_true]
        exact ⟨[], hc, hnd, hlnd, hdis, hcov⟩
    · simp only [step, AllocatePage, hf, ne_eq, not_true_eq_false, if_false, hg,
        Nat.add_one_ne_zero]
      exact ⟨[], rfl, hnd, List.nodup_cons.2 ⟨hnew, hlnd⟩, by simp, hgrow⟩
  · -- the head of the free list is popped
    cases fl with
    | nil => exact absurd hc hf
    | cons p ps =>
      obtain ⟨h1, h2, h3⟩ := hc
      have hpl : p ∉ live := hdis p (by simp)
      have hnd2 := List.nodup_cons.1 hnd
      simp only [step, AllocatePage, hf, ne_eq, not_false_eq_true, if_true, if_false]
      rw [h1]
      refine ⟨ps, h3, hnd2.2, List.nodup_cons.2 ⟨hpl, hlnd⟩, ?_, ?_⟩
      · intro q hq hm
        rcases List.mem_cons.1 hm with e | hm
        · exact hnd2.1 (e ▸ hq)
        · exact hdis q (List.mem_cons_of_mem _ hq) hm
      · intro q
        rw [← hcov q]
        simp only [List.mem_cons]
        tauto

theorem fsize_le_step (s : File × List Nat) (op : Op) : s.1.fsize ≤ (step s op).1.fsize := by
  cases op with
  | alloc ok =>
    simp only [step, AllocatePage]
    split
    · exact le_refl _
    · split
      · cases ok <;> simp
      · simp
  | free p => exact le_refl _

theorem fsize_le_run : ∀ (ops : List Op) (s : File × List Nat),
    s.1.fsize ≤ (run s ops).1.fsize
  | [], _ => le_refl _
  | op :: ops, s => le_trans (fsize_le_step s op) (fsize_le_run ops (step s op))

theorem inv_free {s : File × List Nat} {p : Nat} (hp : p ∈ s.2) (hb : s.1.fsize < 2 ^ 64)
    (h : Inv s) : Inv (step s (.free p)) := by
  obtain ⟨fl, hc, hnd, hlnd, hdis, hcov⟩ := h
  obtain ⟨f, live⟩ := s
  simp only at hc hdis hcov hlnd hp hb
  have hhead : f.first_free_page < 2 ^ 64 := by
    cases fl with
    | nil =>
      have h0 : f.first_free_page = 0 := hc
      rw [h0]; exact Nat.two_pow_pos 64
    | cons q qs =>
      have := (hcov q).1 (Or.inr (List.mem_cons_self _ _))
      rw [hc.1]
      omega
  have hpfl : p ∉ fl := fun hm => hdis p hm hp
  have hp0 : p ≠ 0 := by
    have := (hcov p).1 (Or.inl hp)
    omega
  refine ⟨p :: fl, ?_, List.nodup_cons.2 ⟨hpfl, hnd⟩, hlnd.erase p, ?_, ?_⟩
  · refine ⟨rfl, hp0, ?_⟩
    simp only [step, FreePage, Function.update_same, word, Nat.mul_zero, Nat.pow_zero,
      Nat.div_one, Nat.mod_mod, Nat.mod_eq_of_lt hhead]
    exact isFreeList_update hpfl hc
  · intro q hq hm
    simp only [step] at hm
    rcases List.mem_cons.1 hq with e | hq
    · subst e
      exact (List.Nodup.not_mem_erase hlnd) hm
    · exact hdis q hq (List.mem_of_mem_erase hm)
  · intro q
    simp only [step, FreePage]
    rw [← hcov q, List.mem_cons]
    by_cases hqp : q = p
    · subst hqp
      simp [hp]
    · rw [List.mem_erase_of_ne hqp]
      simp [hqp]

theorem inv_run : ∀ (ops : List Op) (s : File × List Nat), Inv s → Valid s ops →
    (run s ops).1.fsize < 2 ^ 64 → Inv (run s ops)
  | [], _, h, _, _ => h
  | .alloc ok :: ops, _, h, hv, hb => inv_run ops _ (inv_alloc ok h) hv hb
  | .free p :: ops, s, h, hv, hb =>
    inv_run ops _
      (inv_free hv.1
        (lt_of_le_of_lt (le_trans (fsize_le_step s (.free p)) (fsize_le_run ops _)) hb) h)
      hv.2 hb

theorem alloc_not_live {s : File × List Nat} (ok : Bool) (h : Inv s) :
    (AllocatePage s.1 ok).1 ∉ s.2 := by
  obtain ⟨fl, hc, hnd, hlnd, hdis, hcov⟩ := h
  have h0 : (0 : Nat) ∉ s.2 := fun hm => by
    have := (hcov 0).1 (Or.inl hm)
    omega
  have hnew : s.1.fsize + 1 ∉ s.2 := fun hm => by
    have := (hcov (s.1.fsize + 1)).1 (Or.inl hm)
    omega
  unfold AllocatePage
  by_cases hf : s.1.first_free_page = 0
  · simp only [hf, ne_eq, not_true_eq_false, if_false]
    split
    · cases ok <;> simpa
    · simpa
  · simp only [hf, ne_eq, not_false_eq_true, if_true]
    cases fl with
    | nil => exact absurd hc hf
    | cons p ps => rw [hc.1]; exact hdis p (by simp)

/-- C10: on a fresh file with fewer than `2 ^ 64` pages, for every sequence of
`AllocatePage` / `FreePage` calls in which `FreePage` is only applied to a live
page (a page returned by `AllocatePage` and not freed since), the next
`AllocatePage` does not return a live page, the walk of the free list from
the header's head ends within `fsize + 1` links, and every page number in
`[1, fsize]` is either live and not in the free list or not live and exactly
once in the free list. -/
theorem allocate_free_sound (init_size : Nat) (ops : List Op) (ok : Bool)
    (hv : Valid (create init_size, []) ops)
    (hb : (run (create init_size, []) ops).1.fsize < 2 ^ 64) :
    (AllocatePage (run (create init_size, []) ops).1 ok).1 ∉ (run (create init_size, []) ops).2 ∧
    ∃ fl, freeWalk (run (create init_size, []) ops).1.disk
        ((run (create init_size, []) ops).1.fsize + 1)
        (run (create init_size, []) ops).1.first_free_page = some fl ∧
      ∀ p, 1 ≤ p → p ≤ (run (create init_size, []) ops).1.fsize →
        (p ∈ (run (create init_size, []) ops).2 ∧ fl.count p = 0) ∨
        (p ∉ (run (create init_size, []) ops).2 ∧ fl.count p = 1) := by
  have hI := inv_run ops _ (inv_create init_size) hv hb
  refine ⟨alloc_not_live ok hI, ?_⟩
  obtain ⟨fl, hc, hnd, hlnd, hdis, hcov⟩ := hI
  have hlen : fl.length ≤ (run (create init_size, []) ops).1.fsize + 1 := by
    have hsub : fl ⊆ List.range ((run (create init_size, []) ops).1.fsize + 1) := by
      intro p hp
      have := (hcov p).1 (Or.inr hp)
      exact List.mem_range.2 (by omega)
    have := (List.subperm_of_subset hnd hsub).length_le
    simpa using this
  refine ⟨fl, freeWalk_of_isFreeList hc hlen, ?_⟩
  intro p h1 h2
  rcases (hcov p).2 ⟨h1, h2⟩ with hm | hm
  · exact Or.inl ⟨hm, List.count_eq_zero_of_not_mem (fun hf => hdis p hf hm)⟩
  · exact Or.inr ⟨hdis p hm, List.count_eq_one_of_mem hnd hm⟩

/-- Witness for C10: allocate three pages, free the second and the first,
allocate again. -/
theorem allocate_free_sound_witness :
    (AllocatePage (run (create EXPAND_SIZE, [])
        [.alloc true, .alloc true, .alloc true, .free 2, .free 1, .alloc true]).1 true).1 ∉
      (run (create EXPAND_SIZE, [])
        [.alloc true, .alloc true, .alloc true, .free 2, .free 1, .alloc true]).2 ∧
    ∃ fl, freeWalk (run (create EXPAND_SIZE, [])
          [.alloc true, .alloc true, .alloc true, .free 2, .free 1, .alloc true]).1.disk
        ((run (create EXPAND_SIZE, [])
          [.alloc true, .alloc true, .alloc true, .free 2, .free 1, .alloc true]).1.fsize + 1)
        (run (create EXPAND_SIZE, [])
          [.alloc true, .alloc true, .alloc true, .free 2, .free 1, .alloc true]).1.first_free_page
          = some fl ∧
      ∀ p, 1 ≤ p → p ≤ (run (create EXPAND_SIZE, [])
          [.alloc true, .alloc true, .alloc true, .free 2, .free 1, .alloc true]).1.fsize →
        (p ∈ (run (create EXPAND_SIZE, [])
          [.alloc true, .alloc true, .alloc true, .free 2, .free 1, .alloc true]).2 ∧
          fl.count p = 0) ∨
        (p ∉ (run (create EXPAND_SIZE, [])
          [.alloc true, .alloc true, .alloc true, .free 2, .free 1, .alloc true]).2 ∧
          fl.count p = 1) :=
  allocate_free_sound EXPAND_SIZE
    [.alloc true, .alloc true, .alloc true, .free 2, .free 1, .alloc true] true
    ⟨by decide, by decide, trivial⟩ (by decide)

end HtFile

namespace HtFile

theorem word_zero_of_lt (x : Nat) (h : x < 2 ^ 64) : word x 0 = x := by
  unfold word
  simp only [Nat.mul_zero, pow_zero, Nat.div_one]
  exact Nat.mod_eq_of_lt h

theorem allocate_empty_list (f : File) (h : f.first_free_page = 0) :
    (AllocatePage f true).1 = f.fsize + 1 ∧ (AllocatePage f true).2.fsize = f.fsize + 1 ∧
    (AllocatePage f true).2.first_free_page = 0 ∧ (AllocatePage f true).2.disk = f.disk := by
  unfold AllocatePage
  rw [if_neg (by simp [h])]
  split
  · exact ⟨rfl, rfl, h, rfl⟩
  · exact ⟨rfl, rfl, h, rfl⟩

theorem allocMany_fresh : ∀ (k : Nat) (f : File), f.first_free_page = 0 →
    (allocMany k f).1 = (List.range k).map (fun i => f.fsize + 1 + i)
  | 0, _, _ => rfl
  | k + 1, f, h => by
    obtain ⟨h1, h2, h3, _⟩ := allocate_empty_list f h
    have ih := allocMany_fresh k (AllocatePage f true).2 h3
    simp only [allocMany, ih, h1, h2, List.range_succ_eq_map, List.map_cons, List.map_map,
      Nat.add_zero, List.cons.injEq, true_and]
    apply List.map_congr_left
    intro i _
    simp only [Function.comp_apply]
    omega

/-- `AllocatePage` on an empty free list: when the file has to be extended
and `posix_fallocate` fails it returns 0 and changes nothing; otherwise it
returns `fsize + 1` and increases `fsize` by one. -/
theorem allocate_empty_cases (f : File) (ok : Bool) (h : f.first_free_page = 0) :
    (f.fsize + 1 ≥ f.flen / PAGE_SIZE ∧ ok = false → AllocatePage f ok = (0, f)) ∧
    (f.fsize + 1 < f.flen / PAGE_SIZE ∨ ok = true →
      (AllocatePage f ok).1 = f.fsize + 1 ∧ (AllocatePage f ok).2.fsize = f.fsize + 1 ∧
      (AllocatePage f ok).2.first_free_page = 0) := by
  unfold AllocatePage
  rw [if_neg (by simp [h])]
  by_cases hg : f.fsize + 1 ≥ f.flen / PAGE_SIZE
  · rw [if_pos hg]
    cases ok with
    | false =>
      refine ⟨fun _ => rfl, fun h2 => ?_⟩
      rcases h2 with h2 | h2
      · omega
      · cases h2
    | true => exact ⟨fun h2 => Bool.noConfusion h2.2, fun _ => ⟨rfl, rfl, h⟩⟩
  · rw [if_neg hg]
    exact ⟨fun h2 => absurd h2.1 hg, fun _ => ⟨rfl, rfl, h⟩⟩

/-- C35, amended: `FreePage(p)` for a page `p >= 1` writes the previous head
of the free list (a 64-bit value) into the first 8 bytes of page `p` and makes
`p` the head; an `AllocatePage` immediately afterwards returns `p` and
restores the head and the counter `fsize`.  When the free list is empty,
`AllocatePage` returns `fsize + 1` and increases `fsize` by one, unless the
file has to be extended (`fsize + 1 >= flen / PAGE_SIZE`) and
`posix_fallocate` fails: then it returns 0 and changes nothing.  So `k`
allocations on a fresh file whose extensions succeed return `1, 2, ..., k`. -/
theorem free_then_allocate (f : File) (p : Nat) (ok : Bool) (hp : 1 ≤ p)
    (hh : f.first_free_page < 2 ^ 64) :
    word ((FreePage f p).disk p) 0 = f.first_free_page ∧
    (FreePage f p).first_free_page = p ∧
    (AllocatePage (FreePage f p) ok).1 = p ∧
    (AllocatePage (FreePage f p) ok).2.first_free_page = f.first_free_page ∧
    (AllocatePage (FreePage f p) ok).2.fsize = f.fsize ∧
    (f.first_free_page = 0 → ∀ ok2 : Bool,
      (f.fsize + 1 ≥ f.flen / PAGE_SIZE ∧ ok2 = false → AllocatePage f ok2 = (0, f)) ∧
      (f.fsize + 1 < f.flen / PAGE_SIZE ∨ ok2 = true →
        (AllocatePage f ok2).1 = f.fsize + 1 ∧ (AllocatePage f ok2).2.fsize = f.fsize + 1 ∧
        (AllocatePage f ok2).2.first_free_page = 0)) ∧
    ∀ (init_size k : Nat),
      (allocMany k (create init_size)).1 = (List.range k).map (fun i => i + 1) := by
  have hw : word ((FreePage f p).disk p) 0 = f.first_free_page := by
    simp only [FreePage, Function.update_same]
    rw [Nat.mod_eq_of_lt hh]
    exact word_zero_of_lt _ hh
  have hne : (FreePage f p).first_free_page ≠ 0 := by
    show p ≠ 0
    omega
  have ha : AllocatePage (FreePage f p) ok =
      (p, { FreePage f p with first_free_page := word ((FreePage f p).disk p) 0 }) := by
    unfold AllocatePage
    rw [if_pos hne]
    rfl
  refine ⟨hw, rfl, ?_, ?_, ?_, ?_, ?_⟩
  · rw [ha]
  · rw [ha]
    exact hw
  · rw [ha]
    rfl
  · intro h0 ok2
    exact allocate_empty_cases f ok2 h0
  · intro init_size k
    rw [allocMany_fresh k (create init_size) rfl]
    apply List.map_congr_left
    intro i _
    show 0 + 1 + i = i + 1
    omega

/-- Page 2 is freed in a file whose free list is the page 1, and allocated
again. -/
theorem free_then_allocate_witness :
    (AllocatePage (FreePage (FreePage (allocMany 2 (create 0)).2 1) 2) true).1 = 2 ∧
    (AllocatePage (FreePage (FreePage (allocMany 2 (create 0)).2 1) 2) true).2.first_free_page
      = 1 :=
  ⟨(free_then_allocate (FreePage (allocMany 2 (create 0)).2 1) 2 true (by decide)
      (by decide)).2.2.1,
    (free_then_allocate (FreePage (allocMany 2 (create 0)).2 1) 2 true (by decide)
      (by decide)).2.2.2.1⟩

/-- C35 (counterexample).  On a fresh file created with `init_size = 0` the
free list is empty and the first `AllocatePage` has to extend the file; when
`posix_fallocate` fails it returns 0, not `fsize + 1 = 1`, and leaves the
file as it was, `fsize` at 0. -/
theorem allocate_fails_without_space :
    (create 0).first_free_page = 0 ∧ (create 0).fsize = 0 ∧
    AllocatePage (create 0) false = (0, create 0) ∧
    (AllocatePage (create 0) false).2.fsize = 0 :=
  ⟨rfl, rfl, rfl, rfl⟩

end HtFile

/-! ## `HtBufferManager`: the CLOCK loop and the lookup table -/

namespace HtBufferManager

open HtFile (Page File)

theorem Table.find_erase (t : Table) (k k' : Nat) :
    Table.find (Table.erase t k) k' = if k' = k then none else Table.find t k' := by
  induction t with
  | nil => simp [Table.erase, Table.find]
  | cons e t ih =>
    obtain ⟨a, v⟩ := e
    by_cases ha : a = k
    · subst ha
      simp only [Table.erase, if_true, ih, Table.find]
      by_cases hk : k' = a
      · simp [hk]
      · have : ¬ a = k' := fun e => hk e.symm
        simp [hk, this]
    · simp only [Table.erase, ha, if_false, Table.find, ih]
      by_cases hk : k' = k
      · subst hk
        simp [ha]
      · simp [hk]

theorem Table.find_emplace (t : Table) (k v k' : Nat) (h : Table.find t k = none) :
    Table.find (Table.emplace t k v) k' = if k' = k then some v else Table.find t k' := by
  simp only [Table.emplace, h, Table.find]
  by_cases hk : k' = k
  · simp [hk]
  · have : ¬ k = k' := fun e => hk e.symm
    simp [hk, this]

/-- Distance the hand has to travel, wrapping at `n`, to reach frame `u`. -/
theorem dist_step {n hand u : Nat} (hh : hand < n) (hu : u < n) (hne : hand ≠ u) :
    (u + n - (if hand + 1 ≥ n then 0 else hand + 1)) % n + 1 = (u + n - hand) % n := by
  by_cases hw : hand + 1 ≥ n
  · have hhn : hand = n - 1 := by omega
    simp only [hw, if_true, Nat.sub_zero]
    have h1 : (u + n) % n = u := by
      rw [Nat.add_mod_right]; exact Nat.mod_eq_of_lt hu
    have h2 : u + n - hand = u + 1 := by omega
    rw [h1, h2, Nat.mod_eq_of_lt (by omega)]
  · simp only [hw, if_false]
    by_cases hlt : hand < u
    · have e1 : u + n - (hand + 1) = (u - (hand + 1)) + n := by omega
      have e2 : u + n - hand = (u - hand) + n := by omega
      rw [e1, e2, Nat.add_mod_right, Nat.add_mod_right, Nat.mod_eq_of_lt (by omega),
        Nat.mod_eq_of_lt (by omega)]
      omega
    · rw [Nat.mod_eq_of_lt (by omega), Nat.mod_eq_of_lt (by omega)]
      omega

theorem dist_self_step {n u : Nat} (hu : u < n) :
    (u + n - (if u + 1 ≥ n then 0 else u + 1)) % n + 1 = n := by
  by_cases hw : u + 1 ≥ n
  · simp only [hw, if_true, Nat.sub_zero, Nat.add_mod_right]
    rw [Nat.mod_eq_of_lt hu]; omega
  · simp only [hw, if_false]
    rw [Nat.mod_eq_of_lt (by omega)]
    omega

theorem ClockRel.refl (metas : List BufferMeta) : ClockRel metas metas :=
  ⟨rfl, fun _ m h => ⟨m, h, rfl, rfl, rfl, le_refl _⟩⟩

theorem ClockRel.trans {a b c : List BufferMeta} (h1 : ClockRel a b) (h2 : ClockRel b c) :
    ClockRel a c := by
  refine ⟨h2.1.trans h1.1, fun f m hm => ?_⟩
  obtain ⟨m1, hm1, e1, e2, e3, e4⟩ := h1.2 f m hm
  obtain ⟨m2, hm2, d1, d2, d3, d4⟩ := h2.2 f m1 hm1
  exact ⟨m2, hm2, d1.trans e1, d2.trans e2, d3.trans e3, d4.trans e4⟩

theorem ClockRel.set_clock {metas : List BufferMeta} {i : Nat} {m : BufferMeta}
    (hm : metas[i]? = some m) :
    ClockRel metas (metas.set i { m with clock_count := m.clock_count - 1 }) := by
  refine ⟨by simp, fun f m0 h0 => ?_⟩
  by_cases hf : i = f
  · subst hf
    have hlt : i < metas.length := by
      rcases List.getElem?_eq_some_iff.1 hm with ⟨h, _⟩; exact h
    have : m0 = m := by rw [hm] at h0; exact (Option.some.inj h0).symm
    subst this
    exact ⟨{ m0 with clock_count := m0.clock_count - 1 }, by simp [List.getElem?_set, hlt],
      rfl, rfl, rfl, Nat.sub_le _ _⟩
  · exact ⟨m0, by simp [List.getElem?_set, hf, h0], rfl, rfl, rfl, le_refl _⟩

/-- Termination and result of the CLOCK loop: when frame `u` is unpinned and
the fuel exceeds `clock_count u * n` plus the distance from the hand to `u`,
the loop exits at an unpinned frame with clock count 0, after at most that
many advances, having changed only clock counts. -/
theorem clockLoop_spec : ∀ (fuel n : Nat) (metas : List BufferMeta) (hand adv u : Nat)
    (mu : BufferMeta), metas.length = n → hand < n → u < n → metas[u]? = some mu →
    mu.pin_count = 0 → mu.clock_count * n + (u + n - hand) % n < fuel →
    ∃ metas1 hand1 adv1, clockLoop fuel n metas hand adv = some (metas1, hand1, adv1) ∧
      hand1 < n ∧ ClockRel metas metas1 ∧
      (∃ m, metas1[hand1]? = some m ∧ m.pin_count = 0 ∧ m.clock_count = 0) ∧
      adv1 ≤ adv + (mu.clock_count * n + (u + n - hand) % n)
  | 0, _, _, _, _, _, _, _, _, _, _, _, hf => absurd hf (Nat.not_lt_zero _)
  | fuel + 1, n, metas, hand, adv, u, mu, hlen, hh, hu, hmu, hpin, hf => by
    have hhl : hand < metas.length := hlen ▸ hh
    obtain ⟨m, hm⟩ : ∃ m, metas[hand]? = some m := ⟨metas[hand], List.getElem?_eq_getElem hhl⟩
    unfold clockLoop
    simp only [hm]
    by_cases hc : m.pin_count > 0 ∨ m.clock_count > 0
    · rw [if_pos hc]
      have hnext : (if hand + 1 ≥ n then 0 else hand + 1) < n := by
        split <;> omega
      by_cases hp : m.pin_count = 0
      · -- an unpinned frame with a positive clock count is decremented
        rw [if_pos hp]
        have hck : m.clock_count > 0 := by
          rcases hc with h | h
          · omega
          · exact h
        have hrel := ClockRel.set_clock hm
        by_cases hue : hand = u
        · subst hue
          have hmm : mu = m := by rw [hm] at hmu; exact (Option.some.inj hmu).symm
          subst hmm
          have hmu2 : (metas.set hand { mu with clock_count := mu.clock_count - 1 })[hand]? =
              some { mu with clock_count := mu.clock_count - 1 } := by
            simp [List.getElem?_set, hhl]
          have hd := dist_self_step hu
          have hd0 : (hand + n - hand) % n = 0 := by
            have : hand + n - hand = n := by omega
            rw [this, Nat.mod_self]
          have hmul : (mu.clock_count - 1) * n + n = mu.clock_count * n := by
            have : mu.clock_count = (mu.clock_count - 1) + 1 := by omega
            conv_rhs => rw [this, Nat.add_mul, Nat.one_mul]
          have hfuel : (mu.clock_count - 1) * n +
              (hand + n - (if hand + 1 ≥ n then 0 else hand + 1)) % n < fuel := by
            rw [hd0] at hf
            omega
          obtain ⟨metas1, hand1, adv1, hr, h1, h2, h3, h4⟩ :=
            clockLoop_spec fuel n _ _ (adv + 1) hand _ (by simpa using hlen) hnext hu hmu2 hpin hfuel
          refine ⟨metas1, hand1, adv1, hr, h1, hrel.trans h2, h3, ?_⟩
          simp only at h4
          rw [hd0]
          omega
        · have hmu2 : (metas.set hand { m with clock_count := m.clock_count - 1 })[u]? =
              some mu := by
            simp [List.getElem?_set, hue, hmu]
          have hd := dist_step hh hu hue
          have hfuel : mu.clock_count * n +
              (u + n - (if hand + 1 ≥ n then 0 else hand + 1)) % n < fuel := by omega
          obtain ⟨metas1, hand1, adv1, hr, h1, h2, h3, h4⟩ :=
            clockLoop_spec fuel n _ _ (adv + 1) u mu (by simpa using hlen) hnext hu hmu2 hpin hfuel
          exact ⟨metas1, hand1, adv1, hr, h1, hrel.trans h2, h3, by omega⟩
      · -- a pinned frame is passed over
        rw [if_neg hp]
        have hue : hand ≠ u := by
          intro e
          subst e
          rw [hm] at hmu
          exact hp ((Option.some.inj hmu) ▸ hpin)
        have hd := dist_step hh hu hue
        have hfuel : mu.clock_count * n +
            (u + n - (if hand + 1 ≥ n then 0 else hand + 1)) % n < fuel := by omega
        obtain ⟨metas1, hand1, adv1, hr, h1, h2, h3, h4⟩ :=
          clockLoop_spec fuel n metas _ (adv + 1) u mu hlen hnext hu hmu hpin hfuel
        exact ⟨metas1, hand1, adv1, hr, h1, h2, h3, by omega⟩
    · rw [if_neg hc]
      have h0 : m.pin_count = 0 ∧ m.clock_count = 0 := by
        constructor <;> [by_contra h; by_contra h] <;> exact hc (by omega)
      exact ⟨metas, hand, adv, rfl, hh, ClockRel.refl _, ⟨m, hm, h0.1, h0.2⟩, by omega⟩

end HtBufferManager

/-! ## `HtBufferManager`: a pin returns the latest bytes -/

namespace HtBufferManager

open HtFile (Page File)

theorem pageOf_some_mem : ∀ {pins : List (Nat × Nat)} {f p : Nat},
    pageOf pins f = some p → (f, p) ∈ pins
  | [], _, _, h => by simp [pageOf] at h
  | (f', q) :: t, f, p, h => by
    by_cases e : f' = f
    · simp only [pageOf, e, if_true, Option.some.injEq] at h
      simp [e, h]
    · simp only [pageOf, e, if_false] at h
      exact List.mem_cons_of_mem _ (pageOf_some_mem h)

theorem pageOf_isSome_of_mem : ∀ {pins : List (Nat × Nat)} {f p : Nat},
    (f, p) ∈ pins → (pageOf pins f).isSome
  | [], _, _, h => by simp at h
  | (f', q) :: t, f, p, h => by
    by_cases e : f' = f
    · simp [pageOf, e]
    · simp only [pageOf, e, if_false]
      rcases List.mem_cons.1 h with h | h
      · exact absurd (congrArg Prod.fst h).symm e
      · exact pageOf_isSome_of_mem h

theorem exists_mem_of_filter_pos {pins : List (Nat × Nat)} {f : Nat}
    (h : 0 < (pins.filter (fun e => e.1 = f)).length) : ∃ p, (f, p) ∈ pins := by
  obtain ⟨e, he⟩ := List.exists_mem_of_length_pos h
  rw [List.mem_filter] at he
  have h1 : e.1 = f := by simpa using he.2
  exact ⟨e.2, by rw [← h1]; exact he.1⟩

theorem filter_pos_of_mem {pins : List (Nat × Nat)} {f p : Nat} (h : (f, p) ∈ pins) :
    0 < (pins.filter (fun e => e.1 = f)).length :=
  List.length_pos_of_mem (List.mem_filter.2 ⟨h, by simp⟩)

theorem mem_of_mem_dropPin : ∀ {pins : List (Nat × Nat)} {f : Nat} {e : Nat × Nat},
    e ∈ dropPin pins f → e ∈ pins
  | [], _, _, h => by simp [dropPin] at h
  | (f', q) :: t, f, e, h => by
    by_cases c : f' = f
    · simp only [dropPin, c, if_true] at h
      exact List.mem_cons_of_mem _ h
    · simp only [dropPin, c, if_false] at h
      rcases List.mem_cons.1 h with h | h
      · exact h ▸ List.mem_cons_self _ _
      · exact List.mem_cons_of_mem _ (mem_of_mem_dropPin h)

theorem filter_dropPin_ne : ∀ (pins : List (Nat × Nat)) {f f' : Nat}, f' ≠ f →
    (dropPin pins f).filter (fun e => e.1 = f') = pins.filter (fun e => e.1 = f')
  | [], _, _, _ => rfl
  | (a, q) :: t, f, f', hne => by
    by_cases c : a = f
    · have h2 : ¬ f = f' := fun e => hne e.symm
      subst c
      simp [dropPin, List.filter_cons, h2]
    · simp only [dropPin, c, if_false, List.filter_cons, filter_dropPin_ne t hne]

theorem filter_dropPin_eq : ∀ (pins : List (Nat × Nat)) (f : Nat),
    ((dropPin pins f).filter (fun e => e.1 = f)).length =
      (pins.filter (fun e => e.1 = f)).length - 1
  | [], _ => rfl
  | (a, q) :: t, f => by
    by_cases c : a = f
    · simp [dropPin, c, List.filter_cons]
    · simp only [dropPin, c, if_false, List.filter_cons, decide_False, Bool.false_eq_true]
      exact filter_dropPin_eq t f

theorem pageOf_dropPin_ne : ∀ (pins : List (Nat × Nat)) {f f' : Nat}, f' ≠ f →
    pageOf (dropPin pins f) f' = pageOf pins f'
  | [], _, _, _ => rfl
  | (a, q) :: t, f, f', hne => by
    by_cases c : a = f
    · have h2 : ¬ f = f' := fun e => hne e.symm
      subst c
      simp [dropPin, pageOf, h2]
    · by_cases d : a = f'
      · subst d
        simp [dropPin, c, pageOf]
      · simp [dropPin, c, pageOf, d, pageOf_dropPin_ne t hne]

theorem WF_create {hpf : File} {n : Nat} {b : Pool} (h : create hpf n = some b) : b.WF := by
  unfold create at h
  split at h
  · cases h
    refine ⟨?_, by simp, by simp, ?_, ?_, ?_⟩
    · by_cases h0 : n = 0
      · exact Or.inr h0
      · exact Or.inl (Nat.pos_of_ne_zero h0)
    · intro f m hm
      rw [List.getElem?_replicate] at hm
      split at hm
      · cases hm; simp
      · cases hm
    · intro p f hf
      simp [Table.find] at hf
    · intro f m hm hne
      rw [List.getElem?_replicate] at hm
      split at hm
      · cases hm; simp at hne
      · cases hm
  · cases h

theorem inv_init {hpf : File} {n : Nat} {b : Pool} (h : create hpf n = some b) :
    (Session.init b).Inv hpf := by
  have hwf := WF_create h
  have hfile : b.file = hpf ∧ b.lookup_table = [] := by
    unfold create at h
    split at h
    · cases h; exact ⟨rfl, rfl⟩
    · cases h
  refine ⟨hwf, ?_, ?_, ?_, ?_, ?_⟩
  · intro f p hm
    simp [Session.init] at hm
  · intro f m hm
    unfold create at h
    split at h
    · cases h
      simp only [Session.init] at hm
      rw [List.getElem?_replicate] at hm
      split at hm
      · cases hm; simp [Session.init]
      · cases hm
    · cases h
  · intro p f hf
    simp [Session.init, hfile.2, Table.find] at hf
  · intro p _ _
    simp [Session.init, Session.expected, hfile.1]
  · intro f hf
    simp [Session.init] at hf

/-- With at most `n - 1` pages pinned, some frame is unpinned. -/
theorem exists_unpinned {hpf : File} {g : Session} (hI : g.Inv hpf) (p : Nat)
    (hok : ((p :: g.pins.map Prod.snd).dedup).length + 1 ≤ g.pool.n) :
    ∃ (u : Nat) (mu : BufferMeta), u < g.pool.n ∧ g.pool.metas[u]? = some mu ∧
      mu.pin_count = 0 := by
  by_contra hno
  have hall : ∀ u, u < g.pool.n → ∃ mu : BufferMeta, g.pool.metas[u]? = some mu ∧
      mu.pin_count ≠ 0 := by
    intro u hu
    have hul : u < g.pool.metas.length := by rw [hI.wf.metas_len]; exact hu
    refine ⟨g.pool.metas[u], List.getElem?_eq_getElem hul, fun h0 => hno ?_⟩
    exact ⟨u, g.pool.metas[u], hu, List.getElem?_eq_getElem hul, h0⟩
  have hpage : ∀ u, u < g.pool.n → ∃ mu : BufferMeta, g.pool.metas[u]? = some mu ∧
      mu.page_id ≠ 0 ∧ mu.page_id ∈ g.pins.map Prod.snd := by
    intro u hu
    obtain ⟨mu, hmu, hp⟩ := hall u hu
    have hpos : 0 < (g.pins.filter (fun e => e.1 = u)).length := by
      rw [← hI.pin_count u mu hmu]; omega
    obtain ⟨q, hq⟩ := exists_mem_of_filter_pos hpos
    obtain ⟨hq0, m, hm, hmq⟩ := hI.pins_meta u q hq
    have : m = mu := by rw [hmu] at hm; exact (Option.some.inj hm).symm
    subst this
    exact ⟨m, hmu, hmq ▸ hq0, hmq ▸ List.mem_map.2 ⟨(u, q), hq, rfl⟩⟩
  let pid : Nat → Nat := fun f => (g.pool.metas.getD f ⟨0, 0, 0, false⟩).page_id
  have hpid : ∀ u (mu : BufferMeta), g.pool.metas[u]? = some mu → pid u = mu.page_id := by
    intro u mu hmu
    simp [pid, List.getD_eq_getElem?_getD, hmu]
  have hnd : ((List.range g.pool.n).map pid).Nodup := by
    refine List.Nodup.map_on ?_ (List.nodup_range _)
    intro x hx y hy hxy
    obtain ⟨mx, hmx, hx0, _⟩ := hpage x (List.mem_range.1 hx)
    obtain ⟨my, hmy, hy0, _⟩ := hpage y (List.mem_range.1 hy)
    rw [hpid x mx hmx, hpid y my hmy] at hxy
    have h1 := hI.wf.table_complete x mx hmx hx0
    have h2 := hI.wf.table_complete y my hmy hy0
    rw [hxy, h2] at h1
    exact (Option.some.inj h1).symm
  have hsub : (List.range g.pool.n).map pid ⊆ (p :: g.pins.map Prod.snd).dedup := by
    intro q hq
    obtain ⟨u, hu, rfl⟩ := List.mem_map.1 hq
    obtain ⟨mu, hmu, _, hmem⟩ := hpage u (List.mem_range.1 hu)
    rw [hpid u mu hmu]
    exact List.mem_dedup.2 (List.mem_cons_of_mem _ hmem)
  have hlen := (List.subperm_of_subset hnd hsub).length_le
  simp only [List.length_map, List.length_range] at hlen
  omega

theorem GetFreeFrame_spec {b : Pool} (hwf : b.WF) {u : Nat} {mu : BufferMeta} (hu : u < b.n)
    (hmu : b.metas[u]? = some mu) (hpin : mu.pin_count = 0) :
    ∃ (v : Nat) (b1 : Pool) (mv : BufferMeta), GetFreeFrame b = some (v, b1) ∧ v < b.n ∧
      b1.n = b.n ∧ b1.clock_hand = v ∧ b1.buffer_frames = b.buffer_frames ∧
      ClockRel b.metas b1.metas ∧ b1.metas[v]? = some mv ∧ mv.pin_count = 0 ∧
      mv.clock_count = 0 ∧ b1.lookup_table = Table.erase b.lookup_table mv.page_id ∧
      b1.file = (if mv.dirty then HtFile.WritePage b.file mv.page_id (frame b v) else b.file) := by
  have hh : b.clock_hand < b.n := by
    rcases hwf.hand_lt with h | h
    · exact h
    · omega
  have hck := hwf.clock_le u mu hmu
  have hd : (u + b.n - b.clock_hand) % b.n < b.n := Nat.mod_lt _ (by omega)
  have hfuel : mu.clock_count * b.n + (u + b.n - b.clock_hand) % b.n < clockFuel b.n := by
    unfold clockFuel
    have : mu.clock_count * b.n ≤ 1 * b.n := Nat.mul_le_mul_right _ hck
    omega
  obtain ⟨metas1, hand1, adv1, hr, h1, h2, ⟨m, hm, hm1, hm2⟩, _⟩ :=
    clockLoop_spec (clockFuel b.n) b.n b.metas b.clock_hand 0 u mu hwf.metas_len hh hu hmu
      hpin hfuel
  have hg : GetFreeFrame b = some (hand1,
      { b with
        metas := metas1
        clock_hand := hand1
        lookup_table := Table.erase b.lookup_table m.page_id
        file := if m.dirty then HtFile.WritePage b.file m.page_id (b.buffer_frames.getD hand1 0)
                else b.file }) := by
    unfold GetFreeFrame
    simp only [hr, hm]
  exact ⟨hand1, _, m, hg, h1, rfl, rfl, rfl, h2, hm, hm1, hm2, rfl, rfl⟩

end HtBufferManager

namespace HtBufferManager

open HtFile (Page File)

theorem getElem?_modify_some {α : Type} {l : List α} {f : α → α} {i j : Nat} {a1 : α}
    (h : (l.modify f i)[j]? = some a1) :
    ∃ a, l[j]? = some a ∧ a1 = if i = j then f a else a := by
  rw [List.getElem?_modify] at h
  cases hl : l[j]? with
  | none => simp [hl] at h
  | some a =>
    refine ⟨a, rfl, ?_⟩
    simp only [hl, Option.map_eq_map, Option.map_some', Option.some.injEq] at h
    exact h.symm

theorem getElem?_modify_of_some {α : Type} {l : List α} {f : α → α} {i j : Nat} {a : α}
    (h : l[j]? = some a) : (l.modify f i)[j]? = some (if i = j then f a else a) := by
  rw [List.getElem?_modify, h]
  rfl

theorem WF_modify {b : Pool} (hwf : b.WF) (f : BufferMeta → BufferMeta) (i : Nat)
    (hpid : ∀ m, (f m).page_id = m.page_id)
    (hck : ∀ m, m.clock_count ≤ 1 → (f m).clock_count ≤ 1) :
    Pool.WF { b with metas := b.metas.modify f i } := by
  refine ⟨hwf.hand_lt, by simpa using hwf.metas_len, hwf.frames_len, ?_, ?_, ?_⟩
  · intro j m1 h1
    obtain ⟨m, hm, e⟩ := getElem?_modify_some h1
    have := hwf.clock_le j m hm
    subst e
    split
    · exact hck m this
    · exact this
  · intro p j hf
    obtain ⟨hp, m, hm, hmp⟩ := hwf.table_sound p j hf
    refine ⟨hp, _, getElem?_modify_of_some hm, ?_⟩
    split
    · rw [hpid]; exact hmp
    · exact hmp
  · intro j m1 h1 hne
    obtain ⟨m, hm, e⟩ := getElem?_modify_some h1
    have hp : m1.page_id = m.page_id := by
      subst e; split
      · exact hpid m
      · rfl
    rw [hp] at hne ⊢
    exact hwf.table_complete j m hm hne

theorem inv_markDirty {hpf : File} {g : Session} (hI : g.Inv hpf) (f : Nat) :
    Session.Inv hpf { g with pool := MarkDirty g.pool f,
                             unmarked := g.unmarked.filter (fun x => x ≠ f) } := by
  refine ⟨WF_modify hI.wf _ f (fun _ => rfl) (fun _ h => h), ?_, ?_, ?_, ?_, ?_⟩
  · intro j p hm
    obtain ⟨hp, m, hmj, hmp⟩ := hI.pins_meta j p hm
    refine ⟨hp, _, getElem?_modify_of_some hmj, ?_⟩
    split <;> exact hmp
  · intro j m1 h1
    obtain ⟨m, hm, e⟩ := getElem?_modify_some h1
    have := hI.pin_count j m hm
    subst e
    split <;> exact this
  · intro p j hf
    obtain ⟨h1, h2⟩ := hI.cached p j hf
    refine ⟨h1, fun hd hu => ?_⟩
    obtain ⟨_, m, hm, _⟩ := hI.wf.table_sound p j hf
    by_cases hj : f = j
    · subst hj
      have := hd _ (getElem?_modify_of_some hm)
      simp [MarkDirty] at this
    · apply h2
      · intro m' hm'
        have hx : (MarkDirty g.pool f).metas[j]? =
            some (if f = j then { m' with dirty := true } else m') :=
          getElem?_modify_of_some hm'
        have := hd _ hx
        simpa [hj] using this
      · intro hmem
        exact hu (List.mem_filter.2 ⟨hmem, by simpa using fun e => hj e.symm⟩)
  · exact hI.uncached
  · intro j hj
    exact hI.unmarked_pinned j (List.mem_filter.1 hj).1

theorem inv_unpin {hpf : File} {g : Session} (hI : g.Inv hpf) (f : Nat)
    (hpinned : (pageOf g.pins f).isSome) (hmarked : f ∉ g.unmarked) :
    Session.Inv hpf { g with pool := UnpinPage g.pool f, pins := dropPin g.pins f } := by
  refine ⟨WF_modify hI.wf _ f (fun _ => rfl) (fun _ h => h), ?_, ?_, ?_, ?_, ?_⟩
  · intro j p hm
    obtain ⟨hp, m, hmj, hmp⟩ := hI.pins_meta j p (mem_of_mem_dropPin hm)
    refine ⟨hp, _, getElem?_modify_of_some hmj, ?_⟩
    split <;> exact hmp
  · intro j m1 h1
    obtain ⟨m, hm, e⟩ := getElem?_modify_some h1
    have hc := hI.pin_count j m hm
    by_cases hj : f = j
    · subst hj
      obtain ⟨p, hp⟩ := Option.isSome_iff_exists.1 hpinned
      have hpos := filter_pos_of_mem (pageOf_some_mem hp)
      simp only [if_true] at e
      subst e
      show (if m.pin_count = 0 then 2 ^ 32 - 1 else m.pin_count - 1) = _
      rw [filter_dropPin_eq, ← hc, if_neg (by omega)]
    · simp only [hj, if_false] at e
      subst e
      show m1.pin_count = _
      rw [filter_dropPin_ne _ (fun e => hj e.symm)]
      exact hc
  · intro p j hf
    obtain ⟨h1, h2⟩ := hI.cached p j hf
    refine ⟨h1, fun hd hu => h2 (fun m hm => ?_) hu⟩
    have hx : (UnpinPage g.pool f).metas[j]? =
        some (if f = j then { m with pin_count := if m.pin_count = 0 then 2 ^ 32 - 1
                                                  else m.pin_count - 1 } else m) :=
      getElem?_modify_of_some hm
    have := hd _ hx
    split at this <;> exact this
  · exact hI.uncached
  · intro j hj
    have hne : j ≠ f := fun e => hmarked (e ▸ hj)
    show (pageOf (dropPin g.pins f) j).isSome
    rw [pageOf_dropPin_ne _ hne]
    exact hI.unmarked_pinned j hj

theorem inv_write {hpf : File} {g : Session} (hI : g.Inv hpf) (f q : Nat) (pg : Page)
    (hq : pageOf g.pins f = some q) :
    Session.Inv hpf { g with pool := writeFrame g.pool f pg,
                             written := Function.update g.written q (some pg),
                             unmarked := f :: g.unmarked } := by
  obtain ⟨hq0, mf, hmf, hmfq⟩ := hI.pins_meta f q (pageOf_some_mem hq)
  have hfq : Table.find g.pool.lookup_table q = some f := by
    have := hI.wf.table_complete f mf hmf (hmfq ▸ hq0)
    rwa [hmfq] at this
  have hfl : f < g.pool.buffer_frames.length := by
    rw [hI.wf.frames_len, ← hI.wf.metas_len]
    exact (List.getElem?_eq_some_iff.1 hmf).1
  have hexp : ∀ p, p ≠ q →
      Session.expected { g with pool := writeFrame g.pool f pg,
                                written := Function.update g.written q (some pg),
                                unmarked := f :: g.unmarked } hpf p = g.expected hpf p := by
    intro p hp
    simp [Session.expected, Function.update_noteq hp]
  refine ⟨⟨hI.wf.hand_lt, hI.wf.metas_len, by simpa [writeFrame] using hI.wf.frames_len,
    hI.wf.clock_le, hI.wf.table_sound, hI.wf.table_complete⟩,
    hI.pins_meta, hI.pin_count, ?_, ?_, ?_⟩
  · intro p j hf
    by_cases hp : p = q
    · subst hp
      have hj : j = f := by
        have : Table.find g.pool.lookup_table p = some j := hf
        rw [hfq] at this
        exact (Option.some.inj this).symm
      subst hj
      refine ⟨?_, fun _ hu => absurd (List.mem_cons_self _ _) hu⟩
      simp [frame, writeFrame, Session.expected, List.getD_eq_getElem?_getD, hfl]
    · obtain ⟨h1, h2⟩ := hI.cached p j hf
      have hjf : j ≠ f := by
        intro e
        subst e
        obtain ⟨_, m, hm, hmp⟩ := hI.wf.table_sound p j hf
        rw [hmf] at hm
        cases hm
        exact hp (hmp.symm.trans hmfq)
      rw [hexp p hp]
      refine ⟨?_, fun hd hu => h2 hd (fun hmem => hu (List.mem_cons_of_mem _ hmem))⟩
      rw [← h1]
      simp [frame, writeFrame, List.getD_eq_getElem?_getD, List.getElem?_set, Ne.symm hjf]
  · intro p hp hf
    have hpq : p ≠ q := by
      intro e
      subst e
      have : Table.find g.pool.lookup_table p = none := hf
      rw [hfq] at this
      cases this
    rw [hexp p hpq]
    exact hI.uncached p hp hf
  · intro j hj
    rcases List.mem_cons.1 hj with e | hm
    · subst e
      show (pageOf g.pins j).isSome
      rw [hq]; rfl
    · exact hI.unmarked_pinned j hm

end HtBufferManager

namespace HtBufferManager

open HtFile (Page File)

theorem pageOf_cons_isSome {pins : List (Nat × Nat)} {f p j : Nat}
    (h : (pageOf pins j).isSome) : (pageOf ((f, p) :: pins) j).isSome := by
  unfold pageOf
  split
  · rfl
  · exact h

theorem filter_cons_fst (pins : List (Nat × Nat)) (f p j : Nat) :
    (((f, p) :: pins).filter (fun e => e.1 = j)).length =
      (if f = j then 1 else 0) + (pins.filter (fun e => e.1 = j)).length := by
  by_cases h : f = j
  · simp [List.filter_cons, h]; omega
  · simp [List.filter_cons, h]

/-- A pin of a page that is in the lookup table. -/
theorem pin_hit {hpf : File} {g : Session} (hI : g.Inv hpf) {p f : Nat}
    (hf : Table.find g.pool.lookup_table p = some f) (hlt : g.pins.length + 1 < 2 ^ 32) :
    ∃ b, PinPage g.pool p = some (f, b) ∧ frame b f = g.expected hpf p ∧
      Session.Inv hpf { g with pool := b, pins := (f, p) :: g.pins } := by
  obtain ⟨hp0, mf, hmf, hmfp⟩ := hI.wf.table_sound p f hf
  have hres : PinPage g.pool p = some (f,
      { g.pool with
        metas := g.pool.metas.modify
          (fun m => { m with pin_count := (m.pin_count + 1) % 2 ^ 32, clock_count := 1 }) f }) := by
    unfold PinPage
    simp only [hf]
  refine ⟨_, hres, (hI.cached p f hf).1, ?_⟩
  refine ⟨WF_modify hI.wf (fun m => { m with pin_count := (m.pin_count + 1) % 2 ^ 32, clock_count := 1 }) f
    (fun _ => rfl) (fun _ _ => le_refl 1), ?_, ?_, ?_, ?_, ?_⟩
  · intro j q hm
    rcases List.mem_cons.1 hm with e | hm
    · cases e
      refine ⟨hp0, _, getElem?_modify_of_some hmf, ?_⟩
      simp [hmfp]
    · obtain ⟨hq, m, hmj, hmq⟩ := hI.pins_meta j q hm
      refine ⟨hq, _, getElem?_modify_of_some hmj, ?_⟩
      split <;> exact hmq
  · intro j m1 h1
    obtain ⟨m, hm, e⟩ := getElem?_modify_some h1
    have hc := hI.pin_count j m hm
    show m1.pin_count = (((f, p) :: g.pins).filter (fun e => e.1 = j)).length
    rw [filter_cons_fst]
    by_cases hj : f = j
    · simp only [hj, if_true] at e ⊢
      subst e
      have hle := List.length_filter_le (fun e : Nat × Nat => decide (e.1 = j)) g.pins
      show (m.pin_count + 1) % 2 ^ 32 = _
      rw [Nat.mod_eq_of_lt (by omega)]
      omega
    · simp only [hj, if_false] at e ⊢
      subst e
      omega
  · intro q j hq
    obtain ⟨h1, h2⟩ := hI.cached q j hq
    refine ⟨h1, fun hd hu => h2 (fun m hm => ?_) hu⟩
    have hx : (g.pool.metas.modify
        (fun m => { m with pin_count := (m.pin_count + 1) % 2 ^ 32, clock_count := 1 }) f)[j]? =
        some (if f = j then { m with pin_count := (m.pin_count + 1) % 2 ^ 32, clock_count := 1 } else m) :=
      getElem?_modify_of_some hm
    have := hd _ hx
    split at this <;> exact this
  · exact hI.uncached
  · intro j hj
    exact pageOf_cons_isSome (hI.unmarked_pinned j hj)

theorem st_size_le_write (f : File) (q : Nat) (pg : Page) :
    f.st_size ≤ (HtFile.WritePage f q pg).st_size := by
  simp [HtFile.WritePage, HtFile.extend]

/-- A pin of a page of the file that is not in the lookup table: a victim is
chosen, written back if dirty, and the page is read from the file. -/
theorem pin_miss {hpf : File} {g : Session} (hI : g.Inv hpf) {p : Nat} (hp : p ≠ 0)
    (hf : Table.find g.pool.lookup_table p = none)
    (hok : ((p :: g.pins.map Prod.snd).dedup).length + 1 ≤ g.pool.n)
    (hsz : HtFile.PAGE_SIZE * p + HtFile.PAGE_SIZE ≤ g.pool.file.st_size) :
    ∃ f b, PinPage g.pool p = some (f, b) ∧ frame b f = g.expected hpf p ∧
      Session.Inv hpf { g with pool := b, pins := (f, p) :: g.pins } := by
  obtain ⟨u, mu, hu, hmu, hpin⟩ := exists_unpinned hI p hok
  obtain ⟨v, b1, mv, hg, hv, hn1, hh1, hfr1, hrel, hmv, hmvpin, hmvck, hlk1, hfile1⟩ :=
    GetFreeFrame_spec hI.wf hu hmu hpin
  have hvl : v < g.pool.metas.length := by rw [hI.wf.metas_len]; exact hv
  have hvl1 : v < b1.metas.length := by rw [hrel.1]; exact hvl
  have hvf : v < g.pool.buffer_frames.length := by rw [hI.wf.frames_len]; exact hv
  -- the victim in the metadata before the loop
  obtain ⟨m0, hm0, hm0p, hm0pin, hm0d⟩ : ∃ m0 : BufferMeta, g.pool.metas[v]? = some m0 ∧
      mv.page_id = m0.page_id ∧ m0.pin_count = 0 ∧ mv.dirty = m0.dirty := by
    obtain ⟨m1, h1, e1, e2, e3, _⟩ := hrel.2 v _ (List.getElem?_eq_getElem hvl)
    rw [hmv] at h1
    cases h1
    exact ⟨_, List.getElem?_eq_getElem hvl, e1, e2 ▸ hmvpin, e3⟩
  have hvq : mv.page_id ≠ 0 → Table.find g.pool.lookup_table mv.page_id = some v := by
    intro h
    rw [hm0p] at h ⊢
    exact hI.wf.table_complete v m0 hm0 h
  have hpq : p ≠ mv.page_id := by
    intro e
    have := hvq (e ▸ hp)
    rw [← e, hf] at this
    cases this
  have hvpins : ∀ q, (v, q) ∉ g.pins := by
    intro q hq
    have := filter_pos_of_mem hq
    rw [← hI.pin_count v m0 hm0] at this
    omega
  have hvun : v ∉ g.unmarked := by
    intro hm
    obtain ⟨q, hq⟩ := Option.isSome_iff_exists.1 (hI.unmarked_pinned v hm)
    exact hvpins q (pageOf_some_mem hq)
  -- result of the call
  have hread : HtFile.ReadPage b1.file p = some (b1.file.disk p) := by
    have hle : g.pool.file.st_size ≤ b1.file.st_size := by
      rw [hfile1]
      split
      · exact st_size_le_write _ _ _
      · exact le_refl _
    unfold HtFile.ReadPage
    rw [if_pos (le_trans hsz hle)]
  have hpin2 : PinPage g.pool p = some (v,
      { b1 with
        buffer_frames := b1.buffer_frames.set v (b1.file.disk p)
        lookup_table := Table.emplace b1.lookup_table p v
        metas := b1.metas.set v ⟨p, 1, 1, false⟩ }) := by
    unfold PinPage
    simp only [hf, hg, hread]
  have hfind1 : Table.find b1.lookup_table p = none := by
    rw [hlk1, Table.find_erase, hf]; simp
  have hfind : ∀ k, Table.find (Table.emplace b1.lookup_table p v) k =
      if k = p then some v else if k = mv.page_id then none
      else Table.find g.pool.lookup_table k := by
    intro k
    rw [Table.find_emplace _ _ _ _ hfind1, hlk1, Table.find_erase]
  have hdisk : ∀ k, k ≠ mv.page_id → b1.file.disk k = g.pool.file.disk k := by
    intro k hk
    rw [hfile1]
    split
    · simp [HtFile.WritePage, Function.update_noteq hk]
    · rfl
  have hm2v : (b1.metas.set v ⟨p, 1, 1, false⟩)[v]? = some ⟨p, 1, 1, false⟩ := by
    simp [List.getElem?_set, hvl1]
  have hm2j : ∀ j, j ≠ v → (b1.metas.set v ⟨p, 1, 1, false⟩)[j]? = b1.metas[j]? := by
    intro j hj
    simp [List.getElem?_set, Ne.symm hj]
  have hback : ∀ (j : Nat) (m : BufferMeta), b1.metas[j]? = some m → ∃ m' : BufferMeta,
      g.pool.metas[j]? = some m' ∧ m.page_id = m'.page_id ∧ m.pin_count = m'.pin_count ∧
      m.dirty = m'.dirty ∧ m.clock_count ≤ m'.clock_count := by
    intro j m hm
    have hjl : j < g.pool.metas.length := by
      rw [← hrel.1]; exact (List.getElem?_eq_some_iff.1 hm).1
    obtain ⟨m1, h1, e⟩ := hrel.2 j _ (List.getElem?_eq_getElem hjl)
    rw [hm] at h1
    cases h1
    exact ⟨_, List.getElem?_eq_getElem hjl, e⟩
  have hframe_v : frame { b1 with
        buffer_frames := b1.buffer_frames.set v (b1.file.disk p)
        lookup_table := Table.emplace b1.lookup_table p v
        metas := b1.metas.set v ⟨p, 1, 1, false⟩ } v = g.expected hpf p := by
    simp only [frame, List.getD_eq_getElem?_getD, hfr1, List.getElem?_set, hvf, if_true,
      Option.getD_some]
    rw [hdisk p hpq]
    exact hI.uncached p hp hf
  have hframe_j : ∀ j, j ≠ v → frame { b1 with
        buffer_frames := b1.buffer_frames.set v (b1.file.disk p)
        lookup_table := Table.emplace b1.lookup_table p v
        metas := b1.metas.set v ⟨p, 1, 1, false⟩ } j = frame g.pool j := by
    intro j hj
    simp [frame, List.getD_eq_getElem?_getD, hfr1, List.getElem?_set, Ne.symm hj]
  refine ⟨v, _, hpin2, hframe_v, ?_⟩
  refine ⟨⟨Or.inl ?_, ?_, ?_, ?_, ?_, ?_⟩, ?_, ?_, ?_, ?_, ?_⟩
  · show b1.clock_hand < b1.n
    rw [hh1, hn1]; exact hv
  · show (b1.metas.set v _).length = b1.n
    rw [List.length_set, hrel.1, hn1]; exact hI.wf.metas_len
  · show (b1.buffer_frames.set v _).length = b1.n
    rw [List.length_set, hfr1, hn1]; exact hI.wf.frames_len
  · intro j m hm
    by_cases hj : j = v
    · subst hj
      have hm' : (b1.metas.set j ⟨p, 1, 1, false⟩)[j]? = some m := hm
      rw [hm2v] at hm'
      cases hm'
      exact le_refl 1
    · have hm' : (b1.metas.set v ⟨p, 1, 1, false⟩)[j]? = some m := hm
      rw [hm2j j hj] at hm'
      obtain ⟨m', h', _, _, _, hc⟩ := hback j m hm'
      exact le_trans hc (hI.wf.clock_le j m' h')
  · intro k j hk
    have hk' : Table.find (Table.emplace b1.lookup_table p v) k = some j := hk
    rw [hfind] at hk'
    by_cases hkp : k = p
    · subst hkp
      simp only [if_true, Option.some.injEq] at hk'
      subst hk'
      exact ⟨hp, _, hm2v, rfl⟩
    · simp only [hkp, if_false] at hk'
      by_cases hkq : k = mv.page_id
      · simp [hkq] at hk'
      · simp only [hkq, if_false] at hk'
        obtain ⟨hk0, m, hm, hmk⟩ := hI.wf.table_sound k j hk'
        have hjv : j ≠ v := by
          intro e
          subst e
          rw [hm0] at hm
          cases hm
          exact hkq (hmk.symm.trans hm0p.symm)
        obtain ⟨m1, h1, e1, _⟩ := hrel.2 j m hm
        exact ⟨hk0, m1, (hm2j j hjv).trans h1, e1.trans hmk⟩
  · intro j m hm hne
    have hm' : (b1.metas.set v ⟨p, 1, 1, false⟩)[j]? = some m := hm
    show Table.find (Table.emplace b1.lookup_table p v) m.page_id = some j
    rw [hfind]
    by_cases hj : j = v
    · subst hj
      rw [hm2v] at hm'
      cases hm'
      simp
    · rw [hm2j j hj] at hm'
      obtain ⟨m', h', e1, _⟩ := hback j m hm'
      have hk := hI.wf.table_complete j m' h' (e1 ▸ hne)
      rw [← e1] at hk
      have hkp : m.page_id ≠ p := by
        intro e
        rw [e, hf] at hk
        cases hk
      have hkq : m.page_id ≠ mv.page_id := by
        intro e
        have := hvq (e ▸ hne)
        rw [← e, hk] at this
        exact hj (Option.some.inj this)
      simp [hkp, hkq, hk]
  · intro j q hm
    rcases List.mem_cons.1 hm with e | hm
    · cases e
      exact ⟨hp, _, hm2v, rfl⟩
    · obtain ⟨hq, m, hmj, hmq⟩ := hI.pins_meta j q hm
      have hjv : j ≠ v := fun e => hvpins q (e ▸ hm)
      obtain ⟨m1, h1, e1, _⟩ := hrel.2 j m hmj
      exact ⟨hq, m1, (hm2j j hjv).trans h1, e1.trans hmq⟩
  · intro j m hm
    have hm' : (b1.metas.set v ⟨p, 1, 1, false⟩)[j]? = some m := hm
    show m.pin_count = (((v, p) :: g.pins).filter (fun e => e.1 = j)).length
    rw [filter_cons_fst]
    by_cases hj : j = v
    · subst hj
      rw [hm2v] at hm'
      cases hm'
      have := hI.pin_count j m0 hm0
      simp only [if_true]
      omega
    · rw [hm2j j hj] at hm'
      obtain ⟨m', h', _, e2, _⟩ := hback j m hm'
      have := hI.pin_count j m' h'
      simp only [Ne.symm hj, if_false]
      omega
  · intro k j hk
    have hk' : Table.find (Table.emplace b1.lookup_table p v) k = some j := hk
    rw [hfind] at hk'
    show frame _ j = g.expected hpf k ∧ (_ → _ → b1.file.disk k = g.expected hpf k)
    by_cases hkp : k = p
    · subst hkp
      simp only [if_true, Option.some.injEq] at hk'
      subst hk'
      refine ⟨hframe_v, fun _ _ => ?_⟩
      rw [hdisk k hpq]
      exact hI.uncached k hp hf
    · simp only [hkp, if_false] at hk'
      by_cases hkq : k = mv.page_id
      · simp [hkq] at hk'
      · simp only [hkq, if_false] at hk'
        obtain ⟨h1, h2⟩ := hI.cached k j hk'
        obtain ⟨_, m, hm, hmk⟩ := hI.wf.table_sound k j hk'
        have hjv : j ≠ v := by
          intro e
          subst e
          rw [hm0] at hm
          cases hm
          exact hkq (hmk.symm.trans hm0p.symm)
        refine ⟨(hframe_j j hjv).trans h1, fun hd hu => ?_⟩
        rw [hdisk k hkq]
        refine h2 (fun m' hm' => ?_) hu
        obtain ⟨m1, h1', _, _, e3, _⟩ := hrel.2 j m' hm'
        have := hd m1 ((hm2j j hjv).trans h1')
        rw [← e3]; exact this
  · intro k hk0 hk
    have hk' : Table.find (Table.emplace b1.lookup_table p v) k = none := hk
    rw [hfind] at hk'
    show b1.file.disk k = g.expected hpf k
    have hkp : k ≠ p := by
      intro e
      simp [e] at hk'
    simp only [hkp, if_false] at hk'
    by_cases hkq : k = mv.page_id
    · subst hkq
      obtain ⟨h1, h2⟩ := hI.cached _ v (hvq hk0)
      rw [hfile1]
      by_cases hd : mv.dirty = true
      · simp only [hd, if_true, HtFile.WritePage, Function.update_same]
        exact h1
      · simp only [hd]
        refine h2 (fun m hm => ?_) hvun
        rw [hm0] at hm
        cases hm
        rw [← hm0d]
        simpa using hd
    · simp only [hkq, if_false] at hk'
      rw [hdisk k hkq]
      exact hI.uncached k hk0 hk'
  · intro j hj
    exact pageOf_cons_isSome (hI.unmarked_pinned j hj)

end HtBufferManager

namespace HtBufferManager

open HtFile (Page File)

/-- One call made under the discipline and within the limits returns and keeps
the invariant. -/
theorem inv_step {hpf : File} {g : Session} (hI : g.Inv hpf) (c : Call)
    (hlim : g.Lim c) (hok : g.Ok c) :
    ∃ g1, g.step c = some g1 ∧ g1.Inv hpf := by
  cases c with
  | pin p =>
    have hp := hlim.1
    cases hf : Table.find g.pool.lookup_table p with
    | some f =>
      obtain ⟨b, h1, _, h3⟩ := pin_hit hI hf hlim.2.2
      exact ⟨_, by simp only [Session.step, h1], h3⟩
    | none =>
      obtain ⟨f, b, h1, _, h3⟩ := pin_miss hI hp hf hok hlim.2.1
      exact ⟨_, by simp only [Session.step, h1], h3⟩
  | unpin f => exact ⟨_, rfl, inv_unpin hI f hok.1 hok.2⟩
  | markDirty f => exact ⟨_, rfl, inv_markDirty hI f⟩
  | write f pg =>
    obtain ⟨q, hq⟩ := Option.isSome_iff_exists.1 hok
    refine ⟨_, rfl, ?_⟩
    simp only [hq]
    exact inv_write hI f q pg hq

theorem inv_run_calls {hpf : File} : ∀ (calls : List Call) (g : Session), g.Inv hpf →
    g.Within calls → g.Valid calls →
    ∃ g1, g.run calls = some g1 ∧ g1.Inv hpf
  | [], g, hI, _, _ => ⟨g, rfl, hI⟩
  | c :: cs, g, hI, hw, hv => by
    obtain ⟨g1, h1, hI1⟩ := inv_step hI c hw.1 hv.1
    have hv2 := hv.2
    have hw2 := hw.2
    rw [h1] at hv2 hw2
    obtain ⟨g2, h2, hI2⟩ := inv_run_calls cs g1 hI1 hw2 hv2
    exact ⟨g2, by simp only [Session.run, h1, h2], hI2⟩

theorem valid_append : ∀ (calls : List Call) (g g1 : Session) (c : Call),
    g.Valid (calls ++ [c]) → g.run calls = some g1 → g.Valid calls ∧ g1.Ok c
  | [], g, g1, c, hv, hr => by
    cases hr
    exact ⟨trivial, hv.1⟩
  | c0 :: cs, g, g1, c, hv, hr => by
    cases hs : g.step c0 with
    | none => simp [Session.run, hs] at hr
    | some g0 =>
      have hv2 := hv.2
      simp only [Session.run, hs] at hr
      rw [hs] at hv2
      obtain ⟨h1, h2⟩ := valid_append cs g0 g1 c hv2 hr
      exact ⟨⟨hv.1, by rw [hs]; exact h1⟩, h2⟩

theorem within_append : ∀ (calls : List Call) (g g1 : Session) (c : Call),
    g.Within (calls ++ [c]) → g.run calls = some g1 → g.Within calls ∧ g1.Lim c
  | [], g, g1, c, hv, hr => by
    cases hr
    exact ⟨trivial, hv.1⟩
  | c0 :: cs, g, g1, c, hv, hr => by
    cases hs : g.step c0 with
    | none => simp [Session.run, hs] at hr
    | some g0 =>
      have hv2 := hv.2
      simp only [Session.run, hs] at hr
      rw [hs] at hv2
      obtain ⟨h1, h2⟩ := within_append cs g0 g1 c hv2 hr
      exact ⟨⟨hv.1, by rw [hs]; exact h1⟩, h2⟩

/-- A call sequence is valid when its first call respects the discipline and
the rest is valid in the state the first call leaves. -/
theorem valid_cons {g g1 : Session} {c : Call} {cs : List Call} (hok : g.Ok c)
    (hs : g.step c = some g1) (hv : g1.Valid cs) : g.Valid (c :: cs) :=
  ⟨hok, by rw [hs]; exact hv⟩

theorem valid_concat : ∀ (cs : List Call) (g g1 : Session) (rest : List Call),
    g.Valid cs → g.run cs = some g1 → g1.Valid rest → g.Valid (cs ++ rest)
  | [], g, g1, rest, _, hr, h2 => by
    cases hr
    exact h2
  | c :: cs, g, g1, rest, hv, hr, h2 => by
    cases hs : g.step c with
    | none => simp [Session.run, hs] at hr
    | some g0 =>
      have hv2 := hv.2
      simp only [Session.run, hs] at hr
      rw [hs] at hv2
      exact ⟨hv.1, by rw [hs]; exact valid_concat cs g0 g1 rest hv2 hr h2⟩

theorem run_concat : ∀ (cs : List Call) (g g1 : Session) (rest : List Call),
    g.run cs = some g1 → g.run (cs ++ rest) = g1.run rest
  | [], g, g1, rest, hr => by
    cases hr
    rfl
  | c :: cs, g, g1, rest, hr => by
    cases hs : g.step c with
    | none => simp [Session.run, hs] at hr
    | some g0 =>
      simp only [Session.run, hs] at hr
      simp only [List.cons_append, Session.run, hs]
      exact run_concat cs g0 g1 rest hr

/-- The number of distinct elements of a list whose elements are among those
of `s` is at most the length of `s`. -/
theorem dedup_length_le (l s : List Nat) (h : ∀ x, x ∈ l → x ∈ s) :
    l.dedup.length ≤ s.length :=
  (List.subperm_of_subset (List.nodup_dedup l)
    (fun x hx => h x (List.mem_dedup.1 hx))).length_le

/-- A further `PinPage(1)` on the pool that holds page 1 in frame 0. -/
theorem wrap_step (c : Nat) (pins : List (Nat × Nat)) :
    (wrapSession c pins).step (.pin 1) =
      some (wrapSession ((c + 1) % 2 ^ 32) ((0, 1) :: pins)) := rfl

theorem replicate_append_cons {α : Type} (a : α) (l : List α) : ∀ k : Nat,
    List.replicate k a ++ a :: l = a :: (List.replicate k a ++ l)
  | 0 => rfl
  | k + 1 => by simp only [List.replicate, List.cons_append, replicate_append_cons a l k]

/-- The pin count of page 1 after `k` further calls `PinPage(1)`: it wraps at
`2 ^ 32`. -/
theorem wrap_run : ∀ (k c : Nat) (pins : List (Nat × Nat)), c < 2 ^ 32 →
    (wrapSession c pins).run (List.replicate k (.pin 1)) =
      some (wrapSession ((c + k) % 2 ^ 32) (List.replicate k (0, 1) ++ pins))
  | 0, c, pins, hc => by
    simp only [List.replicate, Session.run, Nat.add_zero, List.nil_append]
    rw [Nat.mod_eq_of_lt hc]
  | k + 1, c, pins, hc => by
    simp only [List.replicate, Session.run, wrap_step]
    rw [wrap_run k ((c + 1) % 2 ^ 32) ((0, 1) :: pins) (Nat.mod_lt _ (by decide))]
    have e1 : ((c + 1) % 2 ^ 32 + k) % 2 ^ 32 = (c + (k + 1)) % 2 ^ 32 := by
      rw [Nat.add_mod, Nat.mod_mod, ← Nat.add_mod]
      congr 1
      omega
    rw [e1, replicate_append_cons]
    rfl

/-- The calls `PinPage(1)` respect the discipline while only page 1 is
pinned. -/
theorem wrap_valid : ∀ (k c : Nat) (pins : List (Nat × Nat)),
    (∀ e, e ∈ pins → e.2 = 1) → (wrapSession c pins).Valid (List.replicate k (.pin 1))
  | 0, _, _, _ => trivial
  | k + 1, c, pins, hp => by
    refine valid_cons ?_ (wrap_step c pins) (wrap_valid k _ _ ?_)
    · show ((1 :: pins.map Prod.snd).dedup).length + 1 ≤ 4
      have := dedup_length_le (1 :: pins.map Prod.snd) [1] (by
        intro x hx
        rcases List.mem_cons.1 hx with e | hx
        · simp [e]
        · obtain ⟨y, hy, e⟩ := List.mem_map.1 hx
          rw [← e, hp y hy]
          simp)
      simp only [List.length_singleton] at this
      omega
    · intro e he
      rcases List.mem_cons.1 he with e1 | he
      · rw [e1]
      · exact hp e he

/-- The discipline of a pin while every outstanding pin is of page 1. -/
theorem pin_ok_one (q : Nat) (pins : List (Nat × Nat)) (h : ∀ e, e ∈ pins → e.2 = 1) :
    ((q :: pins.map Prod.snd).dedup).length + 1 ≤ 4 := by
  have := dedup_length_le (q :: pins.map Prod.snd) [q, 1] (by
    intro x hx
    rcases List.mem_cons.1 hx with e | hx
    · simp [e]
    · obtain ⟨y, hy, e⟩ := List.mem_map.1 hx
      rw [← e, h y hy]
      simp)
  simp only [List.length_cons, List.length_nil] at this
  omega

theorem run_cons_some {g g1 : Session} {c : Call} (cs : List Call)
    (hs : g.step c = some g1) : g.run (c :: cs) = g1.run cs := by
  simp only [Session.run, hs]

theorem tail_step1 (P : List (Nat × Nat)) :
    (wrapSession 0 P).step (.pin 2) = some (tailSession 1
      [⟨1, 0, 0, false⟩, ⟨2, 1, 1, false⟩, ⟨0, 0, 0, false⟩, ⟨0, 0, 0, false⟩]
      [(2, 1), (1, 0)] ((1, 2) :: P)) := rfl

theorem tail_step2 (P : List (Nat × Nat)) :
    (tailSession 1 [⟨1, 0, 0, false⟩, ⟨2, 1, 1, false⟩, ⟨0, 0, 0, false⟩, ⟨0, 0, 0, false⟩]
      [(2, 1), (1, 0)] ((1, 2) :: P)).step (.unpin 1) = some (tailSession 1
      [⟨1, 0, 0, false⟩, ⟨2, 0, 1, false⟩, ⟨0, 0, 0, false⟩, ⟨0, 0, 0, false⟩]
      [(2, 1), (1, 0)] P) := rfl

theorem tail_step3 (P : List (Nat × Nat)) :
    (tailSession 1 [⟨1, 0, 0, false⟩, ⟨2, 0, 1, false⟩, ⟨0, 0, 0, false⟩, ⟨0, 0, 0, false⟩]
      [(2, 1), (1, 0)] P).step (.pin 3) = some (tailSession 2
      [⟨1, 0, 0, false⟩, ⟨2, 0, 0, false⟩, ⟨3, 1, 1, false⟩, ⟨0, 0, 0, false⟩]
      [(3, 2), (2, 1), (1, 0)] ((2, 3) :: P)) := rfl

theorem tail_step4 (P : List (Nat × Nat)) :
    (tailSession 2 [⟨1, 0, 0, false⟩, ⟨2, 0, 0, false⟩, ⟨3, 1, 1, false⟩, ⟨0, 0, 0, false⟩]
      [(3, 2), (2, 1), (1, 0)] ((2, 3) :: P)).step (.unpin 2) = some (tailSession 2
      [⟨1, 0, 0, false⟩, ⟨2, 0, 0, false⟩, ⟨3, 0, 1, false⟩, ⟨0, 0, 0, false⟩]
      [(3, 2), (2, 1), (1, 0)] P) := rfl

theorem tail_step5 (P : List (Nat × Nat)) :
    (tailSession 2 [⟨1, 0, 0, false⟩, ⟨2, 0, 0, false⟩, ⟨3, 0, 1, false⟩, ⟨0, 0, 0, false⟩]
      [(3, 2), (2, 1), (1, 0)] P).step (.pin 4) = some (tailSession 3
      [⟨1, 0, 0, false⟩, ⟨2, 0, 0, false⟩, ⟨3, 0, 0, false⟩, ⟨4, 1, 1, false⟩]
      [(4, 3), (3, 2), (2, 1), (1, 0)] ((3, 4) :: P)) := rfl

theorem tail_step6 (P : List (Nat × Nat)) :
    (tailSession 3 [⟨1, 0, 0, false⟩, ⟨2, 0, 0, false⟩, ⟨3, 0, 0, false⟩, ⟨4, 1, 1, false⟩]
      [(4, 3), (3, 2), (2, 1), (1, 0)] ((3, 4) :: P)).step (.unpin 3) = some (tailSession 3
      [⟨1, 0, 0, false⟩, ⟨2, 0, 0, false⟩, ⟨3, 0, 0, false⟩, ⟨4, 0, 1, false⟩]
      [(4, 3), (3, 2), (2, 1), (1, 0)] P) := rfl

/-- The pin of page 5 takes frame 0, which still holds page 1. -/
theorem tail_step7 (P : List (Nat × Nat)) :
    (tailSession 3 [⟨1, 0, 0, false⟩, ⟨2, 0, 0, false⟩, ⟨3, 0, 0, false⟩, ⟨4, 0, 1, false⟩]
      [(4, 3), (3, 2), (2, 1), (1, 0)] P).step (.pin 5) = some (tailSession 0
      [⟨5, 1, 1, false⟩, ⟨2, 0, 0, false⟩, ⟨3, 0, 0, false⟩, ⟨4, 0, 0, false⟩]
      [(5, 0), (4, 3), (3, 2), (2, 1)] ((0, 5) :: P)) := rfl

theorem tail_step8 (P : List (Nat × Nat)) :
    (tailSession 0 [⟨5, 1, 1, false⟩, ⟨2, 0, 0, false⟩, ⟨3, 0, 0, false⟩, ⟨4, 0, 0, false⟩]
      [(5, 0), (4, 3), (3, 2), (2, 1)] ((0, 5) :: P)).step (.unpin 0) = some (tailSession 0
      [⟨5, 0, 1, false⟩, ⟨2, 0, 0, false⟩, ⟨3, 0, 0, false⟩, ⟨4, 0, 0, false⟩]
      [(5, 0), (4, 3), (3, 2), (2, 1)] P) := rfl

/-- The calls `wrapTail` and a last `PinPage(1)` respect the discipline when
they start with pins of page 1 only, the first of them on frame 0. -/
theorem wrap_tail_valid (P : List (Nat × Nat)) (hP : ∀ e, e ∈ P → e.2 = 1) :
    (wrapSession 0 ((0, 1) :: P)).Valid (wrapTail ++ [.pin 1]) := by
  have h1 : ∀ e, e ∈ (0, 1) :: P → e.2 = 1 := by
    intro e he
    rcases List.mem_cons.1 he with e1 | he
    · rw [e1]
    · exact hP e he
  refine valid_cons (pin_ok_one 2 _ h1) (tail_step1 _) ?_
  refine valid_cons ⟨rfl, List.not_mem_nil _⟩ (tail_step2 _) ?_
  refine valid_cons (pin_ok_one 3 _ h1) (tail_step3 _) ?_
  refine valid_cons ⟨rfl, List.not_mem_nil _⟩ (tail_step4 _) ?_
  refine valid_cons (pin_ok_one 4 _ h1) (tail_step5 _) ?_
  refine valid_cons ⟨rfl, List.not_mem_nil _⟩ (tail_step6 _) ?_
  refine valid_cons (pin_ok_one 5 _ h1) (tail_step7 _) ?_
  refine valid_cons ⟨rfl, List.not_mem_nil _⟩ (tail_step8 _) ?_
  refine @valid_cons _ _ _ _ rfl rfl ?_
  refine @valid_cons _ _ _ _ rfl rfl ?_
  exact @valid_cons _ _ _ _ (pin_ok_one 1 _ h1) rfl trivial

/-- The outcome of `wrapTail`: the bytes written through the pointer of the
earlier pin count as the last bytes of page 1, and the next `PinPage(1)` reads
the zero page from the file. -/
theorem wrap_tail_run (P : List (Nat × Nat)) :
    ∃ g f b, (wrapSession 0 ((0, 1) :: P)).run wrapTail = some g ∧
      PinPage g.pool 1 = some (f, b) ∧
      g.expected (HtFile.create HtFile.EXPAND_SIZE) 1 = sevens ∧
      frame b f = HtFile.dummy_page := by
  have hr : (wrapSession 0 ((0, 1) :: P)).run wrapTail =
      (tailSession 0 [⟨5, 0, 1, false⟩, ⟨2, 0, 0, false⟩, ⟨3, 0, 0, false⟩, ⟨4, 0, 0, false⟩]
        [(5, 0), (4, 3), (3, 2), (2, 1)] ((0, 1) :: P)).run
        [.write 0 sevens, .markDirty 0] := by
    rw [wrapTail, run_cons_some _ (tail_step1 _), run_cons_some _ (tail_step2 _),
      run_cons_some _ (tail_step3 _), run_cons_some _ (tail_step4 _),
      run_cons_some _ (tail_step5 _), run_cons_some _ (tail_step6 _),
      run_cons_some _ (tail_step7 _), run_cons_some _ (tail_step8 _)]
  rw [hr]
  exact ⟨_, _, _, rfl, rfl, rfl, rfl⟩

/-- After `2 ^ 32` calls `PinPage(1)` the pin count of page 1 is 0 again. -/
theorem wrap_pins :
    (Session.init pool4).run (List.replicate (2 ^ 32) (.pin 1)) =
      some (wrapSession 0 ((0, 1) :: List.replicate (2 ^ 32 - 1) (0, 1))) ∧
    (Session.init pool4).Valid (List.replicate (2 ^ 32) (.pin 1)) := by
  have e : List.replicate (2 ^ 32) (Call.pin 1) =
      Call.pin 1 :: List.replicate (2 ^ 32 - 1) (Call.pin 1) :=
    List.replicate_succ (Call.pin 1) (2 ^ 32 - 1)
  have hs : (Session.init pool4).step (.pin 1) = some (wrapSession 1 [(0, 1)]) := rfl
  rw [e]
  constructor
  · rw [run_cons_some _ hs]
    rw [wrap_run (2 ^ 32 - 1) 1 [(0, 1)] (by decide), replicate_append_cons, List.append_nil]
    have e3 : ((1 : Nat) + (2 ^ 32 - 1)) % 2 ^ 32 = 0 := by decide
    rw [e3]
  · refine valid_cons (by decide) hs (wrap_valid _ _ _ ?_)
    intro e he
    rw [List.mem_singleton.1 he]

/-- C8, amended: on a pool created over the file `hpf`, for every sequence of
`PinPage` / `UnpinPage` / `MarkDirty` calls and in-frame writes that uses frames
only while pinned, marks a modified frame dirty before unpinning it and leaves
at most `n - 1` pages pinned, and in which every pinned page is a page of the
file other than page 0 and fewer than `2 ^ 32` pins are outstanding, the calls
return and a following `PinPage(p)` returns a frame holding the bytes last
written for `p` through the pool, or the file's bytes of `p` if there are
none. -/
theorem pin_returns_latest (hpf : File) (n : Nat) (b0 : Pool) (calls : List Call) (p : Nat)
    (hb : create hpf n = some b0)
    (hv : (Session.init b0).Valid (calls ++ [Call.pin p]))
    (hw : (Session.init b0).Within (calls ++ [Call.pin p])) :
    ∃ g f b, (Session.init b0).run calls = some g ∧ PinPage g.pool p = some (f, b) ∧
      frame b f = g.expected hpf p := by
  have hI0 : (Session.init b0).Inv hpf := inv_init hb
  -- the calls before the last pin return
  have key : ∀ (cs : List Call) (g : Session), g.Inv hpf →
      g.Valid (cs ++ [Call.pin p]) → g.Within (cs ++ [Call.pin p]) →
      ∃ g1, g.run cs = some g1 ∧ g1.Inv hpf ∧ g1.Ok (Call.pin p) ∧ g1.Lim (Call.pin p) := by
    intro cs
    induction cs with
    | nil => intro g hI hv hw; exact ⟨g, rfl, hI, hv.1, hw.1⟩
    | cons c cs ih =>
      intro g hI hv hw
      obtain ⟨g1, h1, hI1⟩ := inv_step hI c hw.1 hv.1
      have hv2 := hv.2
      have hw2 := hw.2
      rw [h1] at hv2 hw2
      obtain ⟨g2, h2, hI2, hok2⟩ := ih g1 hI1 hv2 hw2
      exact ⟨g2, by simp only [Session.run, h1, h2], hI2, hok2⟩
  obtain ⟨g, hr, hI, hok, hlim⟩ := key calls _ hI0 hv hw
  cases hf : Table.find g.pool.lookup_table p with
  | some f =>
    obtain ⟨b, h1, h2, _⟩ := pin_hit hI hf hlim.2.2
    exact ⟨g, f, b, hr, h1, h2⟩
  | none =>
    obtain ⟨f, b, h1, h2, _⟩ := pin_miss hI hlim.1 hf hok hlim.2.1
    exact ⟨g, f, b, hr, h1, h2⟩

set_option maxRecDepth 100000 in
/-- Witness for C8: page 5 is written through a pool of four frames on a file
of 4 MiB, evicted by pins of pages 6 to 9, and pinned again. -/
theorem pin_returns_latest_witness :
    ∃ g f b, (Session.init pool4).run evictCalls = some g ∧ PinPage g.pool 5 = some (f, b) ∧
      frame b f = g.expected (HtFile.create HtFile.EXPAND_SIZE) 5 :=
  pin_returns_latest (HtFile.create HtFile.EXPAND_SIZE) 4 pool4 evictCalls 5 rfl
    (by decide) (by decide)

set_option maxRecDepth 100000 in
/-- C8 as stated fails in three ways, shown on a pool of four frames over a
new file of 4 MiB (1024 pages, all zero), each time by calls that respect the
discipline of the claim.  Page 0: after page 0 is written through the pool and
unpinned, the pin of page 5 takes an empty frame, whose `page_id` is 0, and
erases the table entry of page 0; the next `PinPage(0)` reads the stale page
from the file into another frame.  Pin counter: after `2 ^ 32` calls
`PinPage(1)` the 32-bit pin count of the frame is 0 again, so the pins of the
pages 2 to 5 evict page 1 although it is pinned; bytes then written through
the pointer of page 1 are lost, and the next `PinPage(1)` returns the zero page
of the file.  End of file: `PinPage(1024)` does not return, the assertion of
`HtFile::ReadPage` fails. -/
theorem pin_outside_limits :
    create (HtFile.create HtFile.EXPAND_SIZE) 4 = some pool4 ∧
    ((Session.init pool4).Valid (zeroPageCalls ++ [Call.pin 0]) ∧
      (((Session.init pool4).run zeroPageCalls).bind (fun g =>
        (PinPage g.pool 0).map (fun r =>
          (r.1, decide (frame r.2 r.1 = g.expected (HtFile.create HtFile.EXPAND_SIZE) 0),
            decide (g.expected (HtFile.create HtFile.EXPAND_SIZE) 0 = sevens),
            decide (frame r.2 r.1 = HtFile.dummy_page))))) =
        some (2, false, true, true)) ∧
    ((Session.init pool4).Valid (wrapCalls ++ [Call.pin 1]) ∧
      ∃ g f b, (Session.init pool4).run wrapCalls = some g ∧
        PinPage g.pool 1 = some (f, b) ∧
        g.expected (HtFile.create HtFile.EXPAND_SIZE) 1 = sevens ∧
        frame b f = HtFile.dummy_page ∧ sevens ≠ HtFile.dummy_page) ∧
    ((Session.init pool4).Valid [Call.pin 1024] ∧ PinPage pool4 1024 = none) := by
  obtain ⟨hrun, hval⟩ := wrap_pins
  have hP : ∀ e, e ∈ List.replicate (2 ^ 32 - 1) ((0 : Nat), (1 : Nat)) → e.2 = 1 := by
    intro e he
    rw [(List.mem_replicate.1 he).2]
  obtain ⟨g, f, b, h1, h2, h3, h4⟩ := wrap_tail_run (List.replicate (2 ^ 32 - 1) (0, 1))
  refine ⟨rfl, ⟨by decide, by decide⟩, ⟨?_, g, f, b, ?_, h2, h3, h4, by decide⟩,
    by decide, rfl⟩
  · rw [wrapCalls, List.append_assoc]
    exact valid_concat _ _ _ _ hval hrun (wrap_tail_valid _ hP)
  · rw [wrapCalls, run_concat _ _ _ _ hrun]
    exact h1

end HtBufferManager

namespace HtBufferManager

open HtFile (Page File)

/-- What a returning CLOCK loop guarantees, whatever the pin counts: the hand
is inside the array, only clock counts changed, and the frame under the hand
is unpinned with clock count 0. -/
theorem clockLoop_sound : ∀ (fuel n : Nat) (metas : List BufferMeta) (hand adv : Nat)
    (metas1 : List BufferMeta) (hand1 adv1 : Nat), metas.length = n → hand < n →
    clockLoop fuel n metas hand adv = some (metas1, hand1, adv1) →
    hand1 < n ∧ ClockRel metas metas1 ∧
      ∃ m, metas1[hand1]? = some m ∧ m.pin_count = 0 ∧ m.clock_count = 0
  | 0, _, _, _, _, _, _, _, _, _, h => by simp [clockLoop] at h
  | fuel + 1, n, metas, hand, adv, metas1, hand1, adv1, hlen, hh, h => by
    have hhl : hand < metas.length := hlen ▸ hh
    obtain ⟨m, hm⟩ : ∃ m, metas[hand]? = some m := ⟨metas[hand], List.getElem?_eq_getElem hhl⟩
    unfold clockLoop at h
    simp only [hm] at h
    by_cases hc : m.pin_count > 0 ∨ m.clock_count > 0
    · rw [if_pos hc] at h
      have hnext : (if hand + 1 ≥ n then 0 else hand + 1) < n := by
        split <;> omega
      by_cases hp : m.pin_count = 0
      · rw [if_pos hp] at h
        obtain ⟨h1, h2, h3⟩ := clockLoop_sound fuel n _ _ _ _ _ _ (by simpa using hlen) hnext h
        exact ⟨h1, (ClockRel.set_clock hm).trans h2, h3⟩
      · rw [if_neg hp] at h
        exact clockLoop_sound fuel n _ _ _ _ _ _ hlen hnext h
    · rw [if_neg hc] at h
      cases h
      exact ⟨hh, ClockRel.refl _, m, hm, by omega, by omega⟩

/-- What a returning `GetFreeFrame` guarantees. -/
theorem GetFreeFrame_sound {b b1 : Pool} {v : Nat} (hlen : b.metas.length = b.n)
    (hh : b.clock_hand < b.n) (hg : GetFreeFrame b = some (v, b1)) :
    v < b.n ∧ b1.n = b.n ∧ b1.clock_hand = v ∧ b1.buffer_frames = b.buffer_frames ∧
      ClockRel b.metas b1.metas ∧
      ∃ mv, b1.metas[v]? = some mv ∧ mv.pin_count = 0 ∧ mv.clock_count = 0 ∧
        b1.lookup_table = Table.erase b.lookup_table mv.page_id ∧
        b1.file = (if mv.dirty then HtFile.WritePage b.file mv.page_id (frame b v)
          else b.file) := by
  unfold GetFreeFrame at hg
  split at hg
  · cases hg
  · rename_i metas hand adv hloop
    obtain ⟨h1, h2, m, hm, hm1, hm2⟩ := clockLoop_sound _ _ _ _ _ _ _ _ hlen hh hloop
    simp only [hm] at hg
    cases hg
    exact ⟨h1, rfl, rfl, rfl, h2, m, hm, hm1, hm2, rfl, rfl⟩

theorem basic_create {hpf : File} {n : Nat} {b : Pool} (h : create hpf n = some b) :
    b.Basic := by
  unfold create at h
  split at h
  · cases h
    refine ⟨by simp, ?_, ?_⟩
    · show 0 < n ∨ n = 0
      omega
    · intro f m hm
      have := List.getElem?_mem hm
      rw [List.eq_of_mem_replicate this]
      exact Nat.zero_le 1
  · cases h

theorem basic_modify {b : Pool} (hb : b.Basic) (f : BufferMeta → BufferMeta) (i : Nat)
    (hck : ∀ m, m.clock_count ≤ 1 → (f m).clock_count ≤ 1) :
    Pool.Basic { b with metas := b.metas.modify f i } := by
  refine ⟨by simpa using hb.metas_len, hb.hand_lt, ?_⟩
  intro j m1 h1
  obtain ⟨m, hm, e⟩ := getElem?_modify_some h1
  have := hb.clock_le j m hm
  rw [e]
  split
  · exact hck m this
  · exact this

theorem basic_step {b b1 : Pool} (hb : b.Basic) (op : PoolOp) (h : poolStep b op = some b1) :
    b1.Basic := by
  cases op with
  | pin p =>
    simp only [poolStep, PinPage] at h
    split at h
    · -- miss
      cases hg : GetFreeFrame b with
      | none => simp [hg] at h
      | some r =>
        obtain ⟨v, b2⟩ := r
        cases hrd : HtFile.ReadPage b2.file p with
        | none => simp [hg, hrd] at h
        | some pg =>
          simp only [hg, hrd, Option.map_some', Option.some.injEq] at h
          have hn : 0 < b.n := by
            by_contra hn0
            have h0 : b.n = 0 := by omega
            unfold GetFreeFrame clockLoop clockFuel at hg
            have hl : b.metas = [] := List.length_eq_zero.mp (hb.metas_len.trans h0)
            simp [h0, hl] at hg
          have hh : b.clock_hand < b.n := by
            rcases hb.hand_lt with h1 | h1
            · exact h1
            · omega
          obtain ⟨hv, hn1, hh1, _, hrel, mv, hmv, _⟩ := GetFreeFrame_sound hb.metas_len hh hg
          subst h
          refine ⟨?_, Or.inl ?_, ?_⟩
          · show (b2.metas.set v _).length = b2.n
            rw [List.length_set, hrel.1, hn1]
            exact hb.metas_len
          · show b2.clock_hand < b2.n
            rw [hh1, hn1]
            exact hv
          · intro j m hm
            have hm1 : (b2.metas.set v ⟨p, 1, 1, false⟩)[j]? = some m := hm
            rw [List.getElem?_set] at hm1
            split at hm1
            · split at hm1
              · cases hm1
                exact le_refl 1
              · cases hm1
            · have hjl : j < b.metas.length := by
                rw [← hrel.1]
                exact (List.getElem?_eq_some_iff.1 hm1).1
              obtain ⟨m2, h2, _, _, _, hc⟩ := hrel.2 j _ (List.getElem?_eq_getElem hjl)
              rw [hm1] at h2
              cases h2
              exact le_trans hc (hb.clock_le j _ (List.getElem?_eq_getElem hjl))
    · -- hit
      simp only [Option.map_some', Option.some.injEq] at h
      subst h
      exact basic_modify hb _ _ (fun _ _ => le_refl 1)
  | unpin f =>
    simp only [poolStep, Option.some.injEq] at h
    subst h
    exact basic_modify hb _ _ (fun _ hm => hm)
  | markDirty f =>
    simp only [poolStep, Option.some.injEq] at h
    subst h
    exact basic_modify hb _ _ (fun _ hm => hm)
  | free f =>
    simp only [poolStep, FreePage] at h
    split at h
    · cases h
    · split at h
      · cases h
        refine ⟨?_, hb.hand_lt, ?_⟩
        · show (b.metas.set f _).length = b.n
          rw [List.length_set]
          exact hb.metas_len
        · intro j m hm
          have hm1 : (b.metas.set f ⟨0, 0, 0, false⟩)[j]? = some m := hm
          rw [List.getElem?_set] at hm1
          split at hm1
          · split at hm1
            · cases hm1
              exact Nat.zero_le 1
            · cases hm1
          · exact hb.clock_le j m hm1
      · cases h

theorem basic_run {b b1 : Pool} (hb : b.Basic) (ops : List PoolOp)
    (h : poolRun b ops = some b1) : b1.Basic := by
  induction ops generalizing b with
  | nil =>
    simp only [poolRun, Option.some.injEq] at h
    subst h
    exact hb
  | cons op ops ih =>
    simp only [poolRun] at h
    cases hs : poolStep b op with
    | none => rw [hs] at h; cases h
    | some b2 =>
      rw [hs] at h
      exact ih (basic_step hb op hs) h

/-- C23.  In every state the pool reaches by calls of `PinPage`, `UnpinPage`,
`MarkDirty` and `FreePage`, the hand is inside `[0, n)`; if some frame has pin
count 0, the loop of `GetFreeFrame` leaves after fewer than `2 n` advances of
the hand, with the hand again inside `[0, n)`, and `GetFreeFrame` returns the
frame under the hand. -/
theorem get_free_frame_terminates (hpf : File) (n : Nat) (b0 b : Pool) (ops : List PoolOp)
    (u : Nat) (mu : BufferMeta) (hc : create hpf n = some b0) (hr : poolRun b0 ops = some b)
    (hmu : b.metas[u]? = some mu) (hpin : mu.pin_count = 0) :
    b.clock_hand < b.n ∧
    ∃ metas1 hand1 adv1 b1,
      clockLoop (clockFuel b.n) b.n b.metas b.clock_hand 0 = some (metas1, hand1, adv1) ∧
      adv1 < 2 * b.n ∧ hand1 < b.n ∧ GetFreeFrame b = some (hand1, b1) ∧
      b1.clock_hand = hand1 := by
  have hb := basic_run (basic_create hc) ops hr
  have hu : u < b.n := by
    rw [← hb.metas_len]
    exact (List.getElem?_eq_some_iff.1 hmu).1
  have hh : b.clock_hand < b.n := by
    rcases hb.hand_lt with h | h
    · exact h
    · omega
  have hck := hb.clock_le u mu hmu
  have hd : (u + b.n - b.clock_hand) % b.n < b.n := Nat.mod_lt _ (by omega)
  have hmul : mu.clock_count * b.n ≤ 1 * b.n := Nat.mul_le_mul_right _ hck
  have hfuel : mu.clock_count * b.n + (u + b.n - b.clock_hand) % b.n < clockFuel b.n := by
    unfold clockFuel
    omega
  obtain ⟨metas1, hand1, adv1, hloop, h1, h2, ⟨m, hm, hm1, hm2⟩, hadv⟩ :=
    clockLoop_spec (clockFuel b.n) b.n b.metas b.clock_hand 0 u mu hb.metas_len hh hu hmu
      hpin hfuel
  have hg : ∃ b1, GetFreeFrame b = some (hand1, b1) ∧ b1.clock_hand = hand1 := by
    unfold GetFreeFrame
    simp only [hloop, hm]
    exact ⟨_, rfl, rfl⟩
  obtain ⟨b1, hg1, hg2⟩ := hg
  exact ⟨hh, metas1, hand1, adv1, b1, hloop, by omega, h1, hg1, hg2⟩

set_option maxRecDepth 100000 in
/-- A pool of four frames after pins of pages 5 and 6 and an unpin of frame 0. -/
theorem get_free_frame_terminates_witness :
    ∃ b, poolRun pool4 [.pin 5, .pin 6, .unpin 0] = some b ∧ b.clock_hand < b.n ∧
      ∃ v b1, GetFreeFrame b = some (v, b1) ∧ v < b.n := by
  obtain ⟨b, hr⟩ := Option.isSome_iff_exists.mp
    (by decide : (poolRun pool4 [.pin 5, .pin 6, .unpin 0]).isSome = true)
  have hm : ∃ m, b.metas[2]? = some m ∧ m.pin_count = 0 := by
    have : (poolRun pool4 [.pin 5, .pin 6, .unpin 0]).map
        (fun b => b.metas[2]?.map (fun m => m.pin_count)) = some (some 0) := by decide
    rw [hr] at this
    simp only [Option.map_some', Option.some.injEq, Option.map_eq_some'] at this
    exact this
  obtain ⟨m, hm, hp⟩ := hm
  obtain ⟨h1, _, hand1, _, b1, _, _, h2, h3, _⟩ :=
    get_free_frame_terminates (HtFile.create HtFile.EXPAND_SIZE) 4 pool4 b [.pin 5, .pin 6, .unpin 0] 2 m rfl hr
      hm hp
  exact ⟨b, hr, h1, hand1, b1, h3, h2⟩

end HtBufferManager

namespace HtBufferManager

open HtFile (Page File)

theorem Pool.WF.basic {b : Pool} (h : b.WF) : b.Basic :=
  ⟨h.metas_len, h.hand_lt, h.clock_le⟩

/-- What a returning `GetFreeFrame` guarantees on a pool with `n` metadata
records. -/
theorem GetFreeFrame_returns {b b1 : Pool} {v : Nat} (hb : b.Basic)
    (hg : GetFreeFrame b = some (v, b1)) :
    v < b.n ∧ b1.n = b.n ∧ b1.clock_hand = v ∧ b1.buffer_frames = b.buffer_frames ∧
      ClockRel b.metas b1.metas ∧
      ∃ mv, b1.metas[v]? = some mv ∧ mv.pin_count = 0 ∧ mv.clock_count = 0 ∧
        b1.lookup_table = Table.erase b.lookup_table mv.page_id ∧
        b1.file = (if mv.dirty then HtFile.WritePage b.file mv.page_id (frame b v)
          else b.file) := by
  have hn : 0 < b.n := by
    by_contra hn0
    have h0 : b.n = 0 := by omega
    unfold GetFreeFrame clockLoop clockFuel at hg
    have hl : b.metas = [] := List.length_eq_zero.mp (hb.metas_len.trans h0)
    simp [h0, hl] at hg
  have hh : b.clock_hand < b.n := by
    rcases hb.hand_lt with h1 | h1
    · exact h1
    · omega
  exact GetFreeFrame_sound hb.metas_len hh hg

/-- A `PinPage` of a page that is not in the lookup table, on a consistent
pool: the victim was unpinned, the other frames keep their page, their pin
count and their table entry. -/
theorem pin_miss_keeps {b b2 : Pool} {p v : Nat} (hwf : b.WF) (hp : p ≠ 0)
    (hf : Table.find b.lookup_table p = none) (h : PinPage b p = some (v, b2)) :
    b2.WF ∧ b2.metas[v]? = some ⟨p, 1, 1, false⟩ ∧
    (∃ m0 : BufferMeta, b.metas[v]? = some m0 ∧ m0.pin_count = 0) ∧
    (∀ (j : Nat) (m : BufferMeta), b.metas[j]? = some m → j ≠ v →
      ∃ m1 : BufferMeta, b2.metas[j]? = some m1 ∧ m1.page_id = m.page_id ∧
        m1.pin_count = m.pin_count ∧
        (m.page_id ≠ 0 → Table.find b2.lookup_table m.page_id = some j)) := by
  unfold PinPage at h
  simp only [hf] at h
  cases hg : GetFreeFrame b with
  | none => rw [hg] at h; cases h
  | some r =>
    obtain ⟨v1, b1⟩ := r
    rw [hg] at h
    obtain ⟨pg, hrd⟩ : ∃ pg, HtFile.ReadPage b1.file p = some pg := by
      cases hrd : HtFile.ReadPage b1.file p with
      | none => simp only [hrd] at h; cases h
      | some pg => exact ⟨pg, rfl⟩
    simp only [hrd, Option.some.injEq, Prod.mk.injEq] at h
    obtain ⟨hv1, hb2⟩ := h
    subst hv1
    obtain ⟨hv, hn1, hh1, hfr1, hrel, mv, hmv, hmvpin, hmvck, hlk1, hfile1⟩ :=
      GetFreeFrame_returns hwf.basic hg
    have hvl : v1 < b.metas.length := by rw [hwf.metas_len]; exact hv
    have hvl1 : v1 < b1.metas.length := by rw [hrel.1]; exact hvl
    obtain ⟨m0, hm0, hm0p, hm0pin⟩ : ∃ m0 : BufferMeta, b.metas[v1]? = some m0 ∧
        mv.page_id = m0.page_id ∧ m0.pin_count = 0 := by
      obtain ⟨m1, h1, e1, e2, _, _⟩ := hrel.2 v1 _ (List.getElem?_eq_getElem hvl)
      rw [hmv] at h1
      cases h1
      exact ⟨_, List.getElem?_eq_getElem hvl, e1, e2 ▸ hmvpin⟩
    have hvq : mv.page_id ≠ 0 → Table.find b.lookup_table mv.page_id = some v1 := by
      intro h
      rw [hm0p] at h ⊢
      exact hwf.table_complete v1 m0 hm0 h
    have hfind1 : Table.find b1.lookup_table p = none := by
      rw [hlk1, Table.find_erase, hf]; simp
    have hfind : ∀ k, Table.find (Table.emplace b1.lookup_table p v1) k =
        if k = p then some v1 else if k = mv.page_id then none
        else Table.find b.lookup_table k := by
      intro k
      rw [Table.find_emplace _ _ _ _ hfind1, hlk1, Table.find_erase]
    have hm2v : (b1.metas.set v1 ⟨p, 1, 1, false⟩)[v1]? = some ⟨p, 1, 1, false⟩ := by
      simp [List.getElem?_set, hvl1]
    have hm2j : ∀ j, j ≠ v1 → (b1.metas.set v1 ⟨p, 1, 1, false⟩)[j]? = b1.metas[j]? := by
      intro j hj
      simp [List.getElem?_set, Ne.symm hj]
    have hback : ∀ (j : Nat) (m : BufferMeta), b1.metas[j]? = some m → ∃ m' : BufferMeta,
        b.metas[j]? = some m' ∧ m.page_id = m'.page_id ∧ m.pin_count = m'.pin_count ∧
        m.dirty = m'.dirty ∧ m.clock_count ≤ m'.clock_count := by
      intro j m hm
      have hjl : j < b.metas.length := by
        rw [← hrel.1]; exact (List.getElem?_eq_some_iff.1 hm).1
      obtain ⟨m1, h1, e⟩ := hrel.2 j _ (List.getElem?_eq_getElem hjl)
      rw [hm] at h1
      cases h1
      exact ⟨_, List.getElem?_eq_getElem hjl, e⟩
    have hwf2 : b2.WF := by
      subst hb2
      refine ⟨Or.inl ?_, ?_, ?_, ?_, ?_, ?_⟩
      · show b1.clock_hand < b1.n
        rw [hh1, hn1]; exact hv
      · show (b1.metas.set v1 _).length = b1.n
        rw [List.length_set, hrel.1, hn1]; exact hwf.metas_len
      · show (b1.buffer_frames.set v1 _).length = b1.n
        rw [List.length_set, hfr1, hn1]; exact hwf.frames_len
      · intro j m hm
        by_cases hj : j = v1
        · subst hj
          have hm' : (b1.metas.set j ⟨p, 1, 1, false⟩)[j]? = some m := hm
          rw [hm2v] at hm'
          cases hm'
          exact le_refl 1
        · have hm' : (b1.metas.set v1 ⟨p, 1, 1, false⟩)[j]? = some m := hm
          rw [hm2j j hj] at hm'
          obtain ⟨m', h', _, _, _, hc⟩ := hback j m hm'
          exact le_trans hc (hwf.clock_le j m' h')
      · intro k j hk
        have hk' : Table.find (Table.emplace b1.lookup_table p v1) k = some j := hk
        rw [hfind] at hk'
        by_cases hkp : k = p
        · subst hkp
          simp only [if_true, Option.some.injEq] at hk'
          subst hk'
          exact ⟨hp, _, hm2v, rfl⟩
        · simp only [hkp, if_false] at hk'
          by_cases hkq : k = mv.page_id
          · simp [hkq] at hk'
          · simp only [hkq, if_false] at hk'
            obtain ⟨hk0, m, hm, hmk⟩ := hwf.table_sound k j hk'
            have hjv : j ≠ v1 := by
              intro e
              subst e
              rw [hm0] at hm
              cases hm
              exact hkq (hmk.symm.trans hm0p.symm)
            obtain ⟨m1, h1, e1, _⟩ := hrel.2 j m hm
            exact ⟨hk0, m1, (hm2j j hjv).trans h1, e1.trans hmk⟩
      · intro j m hm hne
        have hm' : (b1.metas.set v1 ⟨p, 1, 1, false⟩)[j]? = some m := hm
        show Table.find (Table.emplace b1.lookup_table p v1) m.page_id = some j
        rw [hfind]
        by_cases hj : j = v1
        · subst hj
          rw [hm2v] at hm'
          cases hm'
          simp
        · rw [hm2j j hj] at hm'
          obtain ⟨m', h', e1, _⟩ := hback j m hm'
          have hk := hwf.table_complete j m' h' (e1 ▸ hne)
          rw [← e1] at hk
          have hkp : m.page_id ≠ p := by
            intro e
            rw [e, hf] at hk
            cases hk
          have hkq : m.page_id ≠ mv.page_id := by
            intro e
            have := hvq (e ▸ hne)
            rw [← e, hk] at this
            exact hj (Option.some.inj this)
          simp [hkp, hkq, hk]
    refine ⟨hwf2, ?_, ⟨m0, hm0, hm0pin⟩, ?_⟩
    · subst hb2
      exact hm2v
    · intro j m hm hj
      obtain ⟨m1, h1, e1, e2, _, _⟩ := hrel.2 j m hm
      have h2 : b2.metas[j]? = some m1 := by
        subst hb2
        exact (hm2j j hj).trans h1
      refine ⟨m1, h2, e1, e2, fun hne => ?_⟩
      rw [← e1]
      exact hwf2.table_complete j m1 h2 (e1 ▸ hne)

/-- A call of `FreePage` on a consistent pool: the other frames keep their
metadata and their table entry. -/
theorem free_keeps {b b1 : Pool} {f : Nat} (hwf : b.WF) (h : FreePage b f = some b1) :
    b1.WF ∧
    (∀ (j : Nat) (m : BufferMeta), b.metas[j]? = some m → j ≠ f →
      b1.metas[j]? = some m ∧
        (m.page_id ≠ 0 → Table.find b1.lookup_table m.page_id = some j)) := by
  unfold FreePage at h
  cases hmf : b.metas[f]? with
  | none => rw [hmf] at h; cases h
  | some mf =>
    rw [hmf] at h
    by_cases h1 : mf.pin_count = 1
    · simp only [h1, if_true, Option.some.injEq] at h
      have hfl : f < b.metas.length := (List.getElem?_eq_some_iff.1 hmf).1
      have hsf : (b.metas.set f ⟨0, 0, 0, false⟩)[f]? = some ⟨0, 0, 0, false⟩ := by
        simp [List.getElem?_set, hfl]
      have hsj : ∀ j, j ≠ f → (b.metas.set f ⟨0, 0, 0, false⟩)[j]? = b.metas[j]? := by
        intro j hj
        simp [List.getElem?_set, Ne.symm hj]
      have hkeep : ∀ (j : Nat) (m : BufferMeta), b.metas[j]? = some m → j ≠ f →
          m.page_id ≠ 0 →
          Table.find (Table.erase b.lookup_table mf.page_id) m.page_id = some j := by
        intro j m hm hj hne
        have hk := hwf.table_complete j m hm hne
        rw [Table.find_erase]
        have hq : m.page_id ≠ mf.page_id := by
          intro e
          have := hwf.table_complete f mf hmf (e ▸ hne)
          rw [← e, hk] at this
          exact hj (Option.some.inj this)
        simp [hq, hk]
      subst h
      refine ⟨⟨hwf.hand_lt, ?_, hwf.frames_len, ?_, ?_, ?_⟩, ?_⟩
      · show (b.metas.set f _).length = b.n
        rw [List.length_set]; exact hwf.metas_len
      · intro j m hm
        have hm' : (b.metas.set f ⟨0, 0, 0, false⟩)[j]? = some m := hm
        by_cases hj : j = f
        · subst hj
          rw [hsf] at hm'
          cases hm'
          exact Nat.zero_le 1
        · rw [hsj j hj] at hm'
          exact hwf.clock_le j m hm'
      · intro k j hk
        have hk' : Table.find (Table.erase b.lookup_table mf.page_id) k = some j := hk
        rw [Table.find_erase] at hk'
        by_cases hkq : k = mf.page_id
        · simp [hkq] at hk'
        · simp only [hkq, if_false] at hk'
          obtain ⟨hk0, m, hm, hmk⟩ := hwf.table_sound k j hk'
          have hjf : j ≠ f := by
            intro e
            subst e
            rw [hmf] at hm
            cases hm
            exact hkq hmk.symm
          exact ⟨hk0, m, (hsj j hjf).trans hm, hmk⟩
      · intro j m hm hne
        have hm' : (b.metas.set f ⟨0, 0, 0, false⟩)[j]? = some m := hm
        by_cases hj : j = f
        · subst hj
          rw [hsf] at hm'
          cases hm'
          exact absurd rfl hne
        · rw [hsj j hj] at hm'
          exact hkeep j m hm' hj hne
      · intro j m hm hj
        exact ⟨(hsj j hj).trans hm, hkeep j m hm hj⟩
    · simp only [h1, if_false] at h
      cases h

/-- A change of the metadata of one frame that keeps `page_id`. -/
theorem modify_keeps {b : Pool} (hwf : b.WF) (g : BufferMeta → BufferMeta) (i : Nat)
    (hpid : ∀ m, (g m).page_id = m.page_id) (j : Nat) (m : BufferMeta)
    (hm : b.metas[j]? = some m) :
    ∃ m1 : BufferMeta, (b.metas.modify g i)[j]? = some m1 ∧ m1.page_id = m.page_id ∧
      (m.page_id ≠ 0 → Table.find b.lookup_table m.page_id = some j) := by
  refine ⟨_, getElem?_modify_of_some hm, ?_, hwf.table_complete j m hm⟩
  split
  · exact hpid m
  · rfl

/-- The frame handed to a returning `FreePage` is left with pin count 0. -/
theorem free_self {b b1 : Pool} {f : Nat} (h : FreePage b f = some b1) :
    ∃ m1 : BufferMeta, b1.metas[f]? = some m1 ∧ m1.pin_count = 0 := by
  unfold FreePage at h
  cases hmf : b.metas[f]? with
  | none => rw [hmf] at h; cases h
  | some mf =>
    rw [hmf] at h
    by_cases h1 : mf.pin_count = 1
    · simp only [h1, if_true, Option.some.injEq] at h
      have hfl : f < b.metas.length := (List.getElem?_eq_some_iff.1 hmf).1
      subst h
      exact ⟨⟨0, 0, 0, false⟩, by simp [List.getElem?_set, hfl], rfl⟩
    · simp only [h1, if_false] at h
      cases h

/-- One call, other than a pin of page 0, on a consistent pool: the pool stays
consistent, and a frame with a positive pin count keeps its page and the table
entry of the page, unless the call is `FreePage` of that frame, which leaves
it with pin count 0. -/
theorem step_keeps {b b1 : Pool} (hwf : b.WF) (op : PoolOp) (hnz : op ≠ PoolOp.pin 0)
    (h : poolStep b op = some b1) :
    b1.WF ∧
    ∀ (f : Nat) (m : BufferMeta), b.metas[f]? = some m → m.pin_count > 0 →
      ∃ m1 : BufferMeta, b1.metas[f]? = some m1 ∧
        ((op = PoolOp.free f ∧ m1.pin_count = 0) ∨
          (m1.page_id = m.page_id ∧
            (m.page_id ≠ 0 → Table.find b.lookup_table m.page_id = some f ∧
              Table.find b1.lookup_table m.page_id = some f))) := by
  cases op with
  | pin p =>
    have hp : p ≠ 0 := fun e => hnz (e ▸ rfl)
    cases hr : PinPage b p with
    | none => simp [poolStep, hr] at h
    | some r =>
      obtain ⟨v, b2⟩ := r
      simp only [poolStep, hr, Option.map_some', Option.some.injEq] at h
      subst h
      cases hf : Table.find b.lookup_table p with
      | none =>
        obtain ⟨hwf2, _, ⟨m0, hm0, hm0pin⟩, hk⟩ := pin_miss_keeps hwf hp hf hr
        refine ⟨hwf2, ?_⟩
        intro f m hm hpin
        have hfv : f ≠ v := by
          intro e
          subst e
          rw [hm0] at hm
          cases hm
          omega
        obtain ⟨m1, h1, e1, _, h4⟩ := hk f m hm hfv
        exact ⟨m1, h1, Or.inr ⟨e1, fun hne => ⟨hwf.table_complete f m hm hne, h4 hne⟩⟩⟩
      | some f0 =>
        unfold PinPage at hr
        simp only [hf, Option.some.injEq, Prod.mk.injEq] at hr
        obtain ⟨_, hb2⟩ := hr
        subst hb2
        refine ⟨WF_modify hwf _ _ (fun _ => rfl) (fun _ _ => le_refl 1), ?_⟩
        intro f m hm _
        obtain ⟨m1, h1, e1, h3⟩ := modify_keeps hwf
          (fun m => { m with pin_count := (m.pin_count + 1) % 2 ^ 32, clock_count := 1 }) f0
          (fun _ => rfl) f m hm
        exact ⟨m1, h1, Or.inr ⟨e1, fun hne => ⟨h3 hne, h3 hne⟩⟩⟩
  | unpin f0 =>
    simp only [poolStep, Option.some.injEq] at h
    subst h
    refine ⟨WF_modify hwf _ _ (fun _ => rfl) (fun _ hm => hm), ?_⟩
    intro f m hm _
    obtain ⟨m1, h1, e1, h3⟩ := modify_keeps hwf
      (fun m => { m with pin_count := if m.pin_count = 0 then 2 ^ 32 - 1 else m.pin_count - 1 })
      f0 (fun _ => rfl) f m hm
    exact ⟨m1, h1, Or.inr ⟨e1, fun hne => ⟨h3 hne, h3 hne⟩⟩⟩
  | markDirty f0 =>
    simp only [poolStep, Option.some.injEq] at h
    subst h
    refine ⟨WF_modify hwf _ _ (fun _ => rfl) (fun _ hm => hm), ?_⟩
    intro f m hm _
    obtain ⟨m1, h1, e1, h3⟩ := modify_keeps hwf (fun m => { m with dirty := true })
      f0 (fun _ => rfl) f m hm
    exact ⟨m1, h1, Or.inr ⟨e1, fun hne => ⟨h3 hne, h3 hne⟩⟩⟩
  | free f0 =>
    have h0 : FreePage b f0 = some b1 := h
    obtain ⟨hwf1, hk⟩ := free_keeps hwf h0
    refine ⟨hwf1, ?_⟩
    intro f m hm _
    by_cases hff : f = f0
    · subst hff
      obtain ⟨m1, h1, h2⟩ := free_self h0
      exact ⟨m1, h1, Or.inl ⟨rfl, h2⟩⟩
    · obtain ⟨h1, h2⟩ := hk f m hm hff
      exact ⟨m, h1, Or.inr ⟨rfl, fun hne => ⟨hwf.table_complete f m hm hne, h2 hne⟩⟩⟩

theorem WF_run : ∀ (ops : List PoolOp) (b b1 : Pool), b.WF → PoolOp.pin 0 ∉ ops →
    poolRun b ops = some b1 → b1.WF
  | [], b, b1, hwf, _, h => by
    simp only [poolRun, Option.some.injEq] at h
    subst h
    exact hwf
  | op :: ops, b, b1, hwf, hnz, h => by
    simp only [poolRun] at h
    cases hs : poolStep b op with
    | none => rw [hs] at h; cases h
    | some b2 =>
      rw [hs] at h
      have hop : op ≠ PoolOp.pin 0 := fun e => hnz (e ▸ List.mem_cons_self _ _)
      exact WF_run ops b2 b1 (step_keeps hwf op hop hs).1
        (fun hm => hnz (List.mem_cons_of_mem _ hm)) h

theorem poolRun_cons_some {b b1 : Pool} {op : PoolOp} (ops : List PoolOp)
    (hs : poolStep b op = some b1) : poolRun b (op :: ops) = poolRun b1 ops := by
  simp only [poolRun, hs]

/-- A further `PinPage(1)` on the pool that holds page 1 in frame 0. -/
theorem wrap_pool_step (c : Nat) :
    poolStep (wrapPool c) (.pin 1) = some (wrapPool ((c + 1) % 2 ^ 32)) := rfl

/-- The pool after `k` further calls `PinPage(1)`: the pin count wraps at
`2 ^ 32`. -/
theorem wrap_pool_run : ∀ (k c : Nat), c < 2 ^ 32 →
    poolRun (wrapPool c) (List.replicate k (.pin 1)) = some (wrapPool ((c + k) % 2 ^ 32))
  | 0, c, hc => by
    simp only [List.replicate, poolRun, Nat.add_zero]
    rw [Nat.mod_eq_of_lt hc]
  | k + 1, c, hc => by
    simp only [List.replicate, poolRun, wrap_pool_step]
    rw [wrap_pool_run k ((c + 1) % 2 ^ 32) (Nat.mod_lt _ (by decide))]
    have e1 : ((c + 1) % 2 ^ 32 + k) % 2 ^ 32 = (c + (k + 1)) % 2 ^ 32 := by
      rw [Nat.add_mod, Nat.mod_mod, ← Nat.add_mod]
      congr 1
      omega
    rw [e1]

/-- After `2 ^ 32 - 1` calls `PinPage(1)` on the new pool the pin count of
frame 0 is `2 ^ 32 - 1`. -/
theorem wrap_pool_pins :
    poolRun pool4 (List.replicate (2 ^ 32 - 1) (.pin 1)) = some (wrapPool (2 ^ 32 - 1)) := by
  have e : List.replicate (2 ^ 32 - 1) (PoolOp.pin 1) =
      PoolOp.pin 1 :: List.replicate (2 ^ 32 - 1 - 1) (PoolOp.pin 1) :=
    List.replicate_succ (PoolOp.pin 1) (2 ^ 32 - 1 - 1)
  have hs : poolStep pool4 (.pin 1) = some (wrapPool 1) := rfl
  rw [e, poolRun_cons_some _ hs, wrap_pool_run _ 1 (by decide)]
  have e3 : ((1 : Nat) + (2 ^ 32 - 1 - 1)) % 2 ^ 32 = 2 ^ 32 - 1 := by decide
  rw [e3]

/-- C21, amended: in every state an `HtBufferManager` reaches by calls of
`PinPage`, `UnpinPage`, `MarkDirty` and `FreePage` none of which pins page 0,
`GetFreeFrame` returns only a frame whose pin count is 0; a call other than a
pin of page 0 leaves the page of every frame whose pin count is positive
before and after the call unchanged, and the lookup-table entry of that page
(only `FreePage` of the frame itself changes them, and it leaves the frame
with pin count 0); a returning `PinPage` of a page other than 0 returns a
frame holding the page, with the pin count increased by one modulo `2 ^ 32` on
a hit and set to 1 on a miss; `UnpinPage` of a frame with a positive pin count
decreases it by one. -/
theorem pinned_frame_kept (hpf : File) (n : Nat) (b0 b : Pool) (ops : List PoolOp)
    (hc : create hpf n = some b0) (hr : poolRun b0 ops = some b)
    (hnz : PoolOp.pin 0 ∉ ops) :
    (∀ (v : Nat) (bb : Pool), GetFreeFrame b = some (v, bb) →
      ∃ m : BufferMeta, b.metas[v]? = some m ∧ m.pin_count = 0) ∧
    (∀ (op : PoolOp) (b1 : Pool), op ≠ PoolOp.pin 0 → poolStep b op = some b1 →
      ∀ (f : Nat) (m : BufferMeta), b.metas[f]? = some m → m.pin_count > 0 →
        ∃ m1 : BufferMeta, b1.metas[f]? = some m1 ∧
          ((op = PoolOp.free f ∧ m1.pin_count = 0) ∨
            (m1.page_id = m.page_id ∧
              (m.page_id ≠ 0 → Table.find b.lookup_table m.page_id = some f ∧
                Table.find b1.lookup_table m.page_id = some f)))) ∧
    (∀ (p f : Nat) (bb : Pool), p ≠ 0 → PinPage b p = some (f, bb) →
      ∃ m1 : BufferMeta, bb.metas[f]? = some m1 ∧ m1.page_id = p ∧
        ((∃ m : BufferMeta, Table.find b.lookup_table p = some f ∧ b.metas[f]? = some m ∧
            m1.pin_count = (m.pin_count + 1) % 2 ^ 32) ∨
          (Table.find b.lookup_table p = none ∧ m1.pin_count = 1))) ∧
    (∀ (f : Nat) (m : BufferMeta), b.metas[f]? = some m → m.pin_count > 0 →
      ∃ m1 : BufferMeta, (UnpinPage b f).metas[f]? = some m1 ∧
        m1.pin_count = m.pin_count - 1 ∧ m1.page_id = m.page_id) := by
  have hwf : b.WF := WF_run ops b0 b (WF_create hc) hnz hr
  refine ⟨?_, ?_, ?_, ?_⟩
  · intro v bb hg
    obtain ⟨hv, _, _, _, hrel, mv, hmv, hmvpin, _⟩ := GetFreeFrame_returns hwf.basic hg
    have hvl : v < b.metas.length := by rw [hwf.metas_len]; exact hv
    obtain ⟨m1, h1, _, e2, _, _⟩ := hrel.2 v _ (List.getElem?_eq_getElem hvl)
    rw [hmv] at h1
    cases h1
    exact ⟨_, List.getElem?_eq_getElem hvl, e2 ▸ hmvpin⟩
  · intro op b1 hop hs
    exact (step_keeps hwf op hop hs).2
  · intro p f bb hp hpin
    cases hf : Table.find b.lookup_table p with
    | none =>
      obtain ⟨_, h2, _, _⟩ := pin_miss_keeps hwf hp hf hpin
      exact ⟨_, h2, rfl, Or.inr ⟨rfl, rfl⟩⟩
    | some f0 =>
      obtain ⟨_, m, hm, hmp⟩ := hwf.table_sound p f0 hf
      unfold PinPage at hpin
      simp only [hf, Option.some.injEq, Prod.mk.injEq] at hpin
      obtain ⟨hff, hbb⟩ := hpin
      subst hff
      subst hbb
      refine ⟨_, getElem?_modify_of_some hm, ?_, Or.inl ⟨m, rfl, hm, ?_⟩⟩
      · simp only [if_true]
        exact hmp
      · simp only [if_true]
  · intro f m hm hpos
    refine ⟨_, getElem?_modify_of_some hm, ?_, ?_⟩
    · simp only [if_true]
      rw [if_neg (by omega)]
    · simp only [if_true]

set_option maxRecDepth 100000 in
/-- A pool of four frames on a file of 4 MiB after pins of pages 5 and 6 and
an unpin of frame 0. -/
theorem pinned_frame_kept_witness :
    ∃ b, poolRun pool4 [.pin 5, .pin 6, .unpin 0] = some b ∧
      ∀ (v : Nat) (bb : Pool), GetFreeFrame b = some (v, bb) →
        ∃ m : BufferMeta, b.metas[v]? = some m ∧ m.pin_count = 0 := by
  obtain ⟨b, hr⟩ := Option.isSome_iff_exists.mp
    (by decide : (poolRun pool4 [.pin 5, .pin 6, .unpin 0]).isSome = true)
  exact ⟨b, hr, (pinned_frame_kept (HtFile.create HtFile.EXPAND_SIZE) 4 pool4 b
    [.pin 5, .pin 6, .unpin 0] rfl hr (by decide)).1⟩

set_option maxRecDepth 100000 in
/-- C21 as stated fails in three ways, shown on a pool of four frames over a
new file of 4 MiB.  Page 0: after `PinPage(0)` frame 0 holds page 0 with pin
count 1 and the lookup table maps page 0 to frame 0; the following
`PinPage(5)` takes the empty frame 1, whose `page_id` is 0, and erases the
table entry of page 0, while frame 0 still has pin count 1 and page 0.  Pin
counter: after `2 ^ 32 - 1` calls `PinPage(1)` the pin count of frame 0 is
`2 ^ 32 - 1`, and one more `PinPage(1)` returns frame 0 with pin count 0.
`UnpinPage`: on the new pool, where the pin count of frame 0 is 0,
`UnpinPage(0)` leaves the pin count `2 ^ 32 - 1`. -/
theorem pin_count_outside_limits :
    create (HtFile.create HtFile.EXPAND_SIZE) 4 = some pool4 ∧
    ((poolRun pool4 [.pin 0]).map
        (fun b => (b.metas[0]?.map (fun m => (m.page_id, m.pin_count)),
          Table.find b.lookup_table 0)) = some (some (0, 1), some 0) ∧
      (poolRun pool4 [.pin 0, .pin 5]).map
        (fun b => (b.metas[0]?.map (fun m => (m.page_id, m.pin_count)),
          Table.find b.lookup_table 0)) = some (some (0, 1), none)) ∧
    (∃ b bb, poolRun pool4 (List.replicate (2 ^ 32 - 1) (.pin 1)) = some b ∧
      b.metas[0]?.map (fun m => (m.page_id, m.pin_count)) = some (1, 2 ^ 32 - 1) ∧
      PinPage b 1 = some (0, bb) ∧
      bb.metas[0]?.map (fun m => (m.page_id, m.pin_count)) = some (1, 0)) ∧
    (pool4.metas[0]?.map (fun m => m.pin_count) = some 0 ∧
      (poolRun pool4 [.unpin 0]).map (fun b => b.metas[0]?.map (fun m => m.pin_count)) =
        some (some (2 ^ 32 - 1))) := by
  refine ⟨rfl, ⟨by decide, by decide⟩,
    ⟨_, _, wrap_pool_pins, rfl, rfl, rfl⟩, by decide, by decide⟩

end HtBufferManager

/-! ## `HashTable`: the directory -/

namespace HashTable

open HtFile (Page File word)

theorem allocDirectory_fresh : ∀ (k : Nat) (f : File) (res : Nat), f.first_free_page = 0 →
    (allocDirectory k f res).1 = (if k = 0 then res else f.fsize + k) ∧
    (allocDirectory k f res).2.fsize = f.fsize + k ∧
    (allocDirectory k f res).2.first_free_page = 0
  | 0, _, _, h => ⟨rfl, rfl, h⟩
  | k + 1, f, res, h => by
    obtain ⟨h1, h2, h3, _⟩ := HtFile.allocate_empty_list f h
    have ih := allocDirectory_fresh k (HtFile.TruncPage (HtFile.AllocatePage f true).2
      (HtFile.AllocatePage f true).1) (HtFile.AllocatePage f true).1 h3
    simp only [allocDirectory]
    have hf : (HtFile.TruncPage (HtFile.AllocatePage f true).2
        (HtFile.AllocatePage f true).1).fsize = f.fsize + 1 := h2
    rw [hf] at ih
    refine ⟨?_, ?_, ih.2.2⟩
    · rw [ih.1, h1]
      split <;> simp <;> omega
    · rw [ih.2.1]
      omega

/-- C34.  For a bucket index `b < n_buckets` the directory page number
`b / 512 + 1` lies between 1 and `n_buckets / 512 + 1`; the creating
constructor, on its fresh file, allocates exactly these pages: its `i`-th
call of `AllocatePage` returns `i`, and after the `n_buckets / 512 + 1`
iterations of its loop the `assert` holds and the file has that many pages;
the byte offset `(b mod 512) * 8` of the slot leaves room for 8 bytes in the
page; and two bucket indices with the same page and offset are equal. -/
theorem directory_slot (n_buckets b : Nat) (hb : b < n_buckets) :
    1 ≤ b / N_BUCKETS_PER_DIR + 1 ∧
    b / N_BUCKETS_PER_DIR + 1 ≤ n_buckets / N_BUCKETS_PER_DIR + 1 ∧
    N_BUCKETS_PER_DIR = 512 ∧
    (∀ i, 1 ≤ i →
      (allocDirectory i (HtFile.SetThirdField (HtFile.create HtFile.EXPAND_SIZE) n_buckets)
        0).1 = i) ∧
    (∀ buffer_cap, buffer_cap % 4 = 0 →
      ∃ h, create n_buckets buffer_cap = some h ∧
        h.file.fsize = n_buckets / N_BUCKETS_PER_DIR + 1) ∧
    b % N_BUCKETS_PER_DIR * 8 + 8 ≤ HtFile.PAGE_SIZE ∧
    ∀ b1, b1 / N_BUCKETS_PER_DIR + 1 = b / N_BUCKETS_PER_DIR + 1 →
      b1 % N_BUCKETS_PER_DIR * 8 = b % N_BUCKETS_PER_DIR * 8 → b1 = b := by
  have hN : N_BUCKETS_PER_DIR = 512 := by decide
  have hP : HtFile.PAGE_SIZE = 4096 := rfl
  have hfresh : ∀ i, (allocDirectory i
      (HtFile.SetThirdField (HtFile.create HtFile.EXPAND_SIZE) n_buckets) 0).1 =
        (if i = 0 then 0 else 0 + i) ∧
      (allocDirectory i
        (HtFile.SetThirdField (HtFile.create HtFile.EXPAND_SIZE) n_buckets) 0).2.fsize = 0 + i :=
    fun i => ⟨(allocDirectory_fresh i _ 0 rfl).1, (allocDirectory_fresh i _ 0 rfl).2.1⟩
  refine ⟨Nat.le_add_left 1 _, ?_, hN, ?_, ?_, ?_, ?_⟩
  · rw [hN]
    omega
  · intro i hi
    rw [(hfresh i).1, if_neg (by omega)]
    omega
  · intro buffer_cap hcap
    unfold create HtBufferManager.create
    rw [if_pos hcap]
    simp only
    rw [(hfresh _).1, if_neg (Nat.succ_ne_zero _), if_pos (Nat.zero_add _)]
    exact ⟨_, rfl, by rw [(hfresh _).2]; exact Nat.zero_add _⟩
  · rw [hN, hP]
    omega
  · intro b1 h1 h2
    rw [hN] at h1 h2
    omega

/-- Bucket 700 of 1000 is slot 188 of directory page 2. -/
theorem directory_slot_witness :
    700 / N_BUCKETS_PER_DIR + 1 ≤ 1000 / N_BUCKETS_PER_DIR + 1 ∧
    700 % N_BUCKETS_PER_DIR * 8 + 8 ≤ HtFile.PAGE_SIZE :=
  ⟨(directory_slot 1000 700 (by decide)).2.1, (directory_slot 1000 700 (by decide)).2.2.2.2.2.1⟩

end HashTable

/-! ## `HashTable`: the words and bits of a page -/

namespace HashTable

open HtFile (Page File word)

/-- Bit `b` of word `k` of a page is bit `64 k + b` of the page. -/
theorem testBit_word (pg : Page) (k b : Nat) :
    (word pg k).testBit b = (decide (b < 64) && pg.testBit (64 * k + b)) := by
  unfold word
  rw [Nat.testBit_mod_two_pow, ← Nat.shiftRight_eq_div_pow, Nat.testBit_shiftRight]

/-- Two pages with the same bits in word `k` have the same word `k`. -/
theorem word_congr {x y : Page} {k : Nat}
    (h : ∀ p, 64 * k ≤ p → p < 64 * (k + 1) → x.testBit p = y.testBit p) :
    word x k = word y k := by
  apply Nat.eq_of_testBit_eq
  intro b
  rw [testBit_word, testBit_word]
  by_cases hb : b < 64
  · rw [h (64 * k + b) (by omega) (by omega)]
  · simp [hb]

/-- The bits of a page after the bit of slot `i` is set. -/
theorem testBit_setBit (pg : Page) (i p : Nat) :
    (setBit pg i).testBit p = (pg.testBit p || decide (p = 128 + i)) := by
  unfold setBit
  rw [Nat.testBit_or, Nat.testBit_two_pow]
  by_cases h : p = 128 + i
  · subst h
    simp
  · have h' : ¬ 128 + i = p := fun e => h e.symm
    simp [h, h']

/-- Setting a bit of the bitmap leaves the two header words as they are. -/
theorem word_setBit (pg : Page) (i : Nat) {k : Nat} (hk : k ≤ 1) :
    word (setBit pg i) k = word pg k := by
  apply word_congr
  intro p _ h2
  rw [testBit_setBit]
  have : p ≠ 128 + i := by omega
  simp [this]

end HashTable

/-! ## `HashTable`: the compaction loops -/

namespace HashTable

open HtFile (Page File word)
open HtBufferManager (Pool PinPage FreePage MarkDirty UnpinPage)

/-- C4 (code defect).  In the loop of `GetFreeSlotWithProbe`, when the scan of
the page in frame `cur` has met no duplicate and has a free slot `s`, and the
next page is empty, that page is unlinked and freed and the loop returns true
with `s` at once: the pages after the empty one, which `next (page h1 nf)` may
point to, are not probed for the key. -/
theorem probe_returns_before_end (key fuel0 fuel cur : Nat) (h : Pool) (s : EntrySlot)
    (nf : Nat) (h1 h2 : Pool)
    (hs : probeLoop key (page h cur) cur ENTRIES_PER_BUCKET 0 0 none = .done (some s))
    (hn : next (page h cur) ≠ 0)
    (hp : PinPage h (next (page h cur)) = some (nf, h1))
    (he : n_entries (page h1 nf) = 0)
    (hf : FreePage (MarkDirty (store h1 cur 0 (next (page h1 nf))) cur) nf = some h2) :
    probeChain key (fuel0 + 1) (fuel + 1) cur none h = some (some s, h2) := by
  unfold probeChain
  simp only [hs]
  rw [if_pos hn]
  simp only [hp, compactNext]
  rw [if_pos he]
  simp only [hf]

set_option maxRecDepth 100000 in
/-- C4, on the pool `chainScan`, whose chain is page 2 (key 5, slot 0 free),
the empty page 3 and page 4, which holds key 9: the probe for key 9 returns
true with slot 0 of page 2, and `Insert(9, 7)` on `chainPool` returns true and
stores key 9 in page 2 while page 4 still holds it. -/
theorem probe_returns_before_end_witness :
    (∃ h2, probeChain 9 1 1 0 none chainScan = some (some ⟨0, 0⟩, h2)) ∧
    (Insert oneBucket chainPool 9 7 10).map
      (fun r => (r.1, [slotKey (logical r.2 2) 0, next (logical r.2 2),
        slotKey (logical r.2 4) 0, (occupied (logical r.2 4) 0).toNat])) =
      some (true, [9, 4, 9, 1]) :=
  ⟨⟨_, probe_returns_before_end 9 0 0 0 chainScan ⟨0, 0⟩ 1 _ _ (by decide!) (by decide!)
    (rfl : PinPage chainScan 3 = some (1, _)) (by decide!) rfl⟩, by decide!⟩

end HashTable

/-! ## `HashTable`: the loops, one iteration at a time -/

namespace HashTable

open HtFile (Page File word)
open HtBufferManager (Pool PinPage FreePage MarkDirty UnpinPage writeFrame)

/-- The head compaction loop stops at once on a non-empty page. -/
theorem compactHead_skip (dir d fuel cur : Nat) (h : Pool) (hn : n_entries (page h cur) ≠ 0) :
    compactHead dir d (fuel + 1) cur h = some (.inr (cur, h)) := by
  unfold compactHead
  rw [if_neg hn]

/-- The inner compaction loop of `ProbeAndCompress` stops at once on a
non-empty page. -/
theorem compactNextP_skip (cur fuel nf : Nat) (h : Pool) (hn : n_entries (page h nf) ≠ 0) :
    compactNextP cur (fuel + 1) nf h = some (.inr (nf, h)) := by
  unfold compactNextP
  rw [if_neg hn]

/-- The inner compaction loop of `GetFreeSlotWithProbe` stops at once on a
non-empty page. -/
theorem compactNext_skip (cur : Nat) (slot : Option EntrySlot) (fuel nf : Nat) (h : Pool)
    (hn : n_entries (page h nf) ≠ 0) :
    compactNext cur slot (fuel + 1) nf h = some (.cont nf h) := by
  unfold compactNext
  rw [if_neg hn]

/-- The loop of `GetFreeSlotWithProbe` on the last page of a chain, when a
free slot is known after its scan. -/
theorem probeChain_last (key fuel0 fuel cur : Nat) (slot : Option EntrySlot) (s : EntrySlot)
    (h : Pool)
    (hs : probeLoop key (page h cur) cur ENTRIES_PER_BUCKET 0 0 slot = .done (some s))
    (hx : next (page h cur) = 0) :
    probeChain key fuel0 (fuel + 1) cur slot h = some (some s, h) := by
  unfold probeChain
  simp only [hs, hx, ne_eq, not_true_eq_false, if_false]

/-- The loop of `GetFreeSlotWithProbe` on the last page of a chain, when no
free slot is known after its scan: a page is appended. -/
theorem probeChain_append (key fuel0 fuel cur : Nat) (slot : Option EntrySlot) (h : Pool)
    (hs : probeLoop key (page h cur) cur ENTRIES_PER_BUCKET 0 0 slot = .done none)
    (hx : next (page h cur) = 0) :
    probeChain key fuel0 (fuel + 1) cur slot h =
      (appendPage h cur 0).map (fun r => (some r.1, r.2)) := by
  unfold probeChain
  simp only [hs, hx, ne_eq, not_true_eq_false, if_false]

/-- The loop of `GetFreeSlotWithProbe` moving on to a non-empty next page. -/
theorem probeChain_next (key fuel0 fuel cur nf : Nat) (slot slot1 : Option EntrySlot)
    (h h1 : Pool)
    (hs : probeLoop key (page h cur) cur ENTRIES_PER_BUCKET 0 0 slot = .done slot1)
    (hx : next (page h cur) ≠ 0)
    (hp : PinPage h (next (page h cur)) = some (nf, h1))
    (hn : n_entries (page h1 nf) ≠ 0) :
    probeChain key (fuel0 + 1) (fuel + 1) cur slot h =
      probeChain key (fuel0 + 1) fuel nf slot1
        (match slot1 with
          | none => UnpinPage h1 cur
          | some s => if cur ≠ s.frame_id then UnpinPage h1 cur else h1) := by
  rw [probeChain]
  simp only [hs, hx, ne_eq, not_false_eq_true, if_true, hp, compactNext_skip _ _ _ _ _ hn]
  cases slot1 <;> rfl

/-- The loop of `ProbeAndCompress` on a page that holds the key. -/
theorem findChain_found (key fuel0 fuel cur i : Nat) (h : Pool)
    (hs : findLoop key (page h cur) ENTRIES_PER_BUCKET 0 0 = some i) :
    findChain key fuel0 (fuel + 1) cur h = some (some ⟨cur, i⟩, h) := by
  unfold findChain
  simp only [hs]

/-- The loop of `ProbeAndCompress` on the last page of a chain, without the
key. -/
theorem findChain_last (key fuel0 fuel cur : Nat) (h : Pool)
    (hs : findLoop key (page h cur) ENTRIES_PER_BUCKET 0 0 = none)
    (hx : next (page h cur) = 0) :
    findChain key fuel0 (fuel + 1) cur h = some (none, UnpinPage h cur) := by
  unfold findChain
  simp only [hs, hx, ne_eq, not_true_eq_false, if_false]

/-- The loop of `ProbeAndCompress` moving on to a non-empty next page. -/
theorem findChain_next (key fuel0 fuel cur nf : Nat) (h h1 : Pool)
    (hs : findLoop key (page h cur) ENTRIES_PER_BUCKET 0 0 = none)
    (hx : next (page h cur) ≠ 0)
    (hp : PinPage h (next (page h cur)) = some (nf, h1))
    (hn : n_entries (page h1 nf) ≠ 0) :
    findChain key (fuel0 + 1) (fuel + 1) cur h =
      findChain key (fuel0 + 1) fuel nf (UnpinPage h1 cur) := by
  rw [findChain]
  simp only [hs, hx, ne_eq, not_false_eq_true, if_true, hp, compactNextP_skip _ _ _ _ hn]

/-- The loop of `ProbeAndCompress` when the next page is empty and `FreePage`
fails on it. -/
theorem findChain_abort (key fuel0 fuel cur nf : Nat) (h h1 : Pool)
    (hs : findLoop key (page h cur) ENTRIES_PER_BUCKET 0 0 = none)
    (hx : next (page h cur) ≠ 0)
    (hp : PinPage h (next (page h cur)) = some (nf, h1))
    (hn : n_entries (page h1 nf) = 0)
    (hf : FreePage (MarkDirty (store h1 cur 0 (next (page h1 nf))) cur) nf = none) :
    findChain key (fuel0 + 1) (fuel + 1) cur h = none := by
  rw [findChain]
  simp only [hs, hx, ne_eq, not_false_eq_true, if_true, hp, compactNextP, hn, hf]

/-- `GetFreeSlotWithProbe` on a table with one bucket whose chain starts with
a non-empty page. -/
theorem probe_one_bucket (h h1 h2 : Pool) (key fuel dir cur : Nat)
    (hp1 : PinPage h 1 = some (dir, h1))
    (hw : word (page h1 dir) 0 ≠ 0)
    (hp2 : PinPage h1 (word (page h1 dir) 0) = some (cur, h2))
    (hn : n_entries (page h2 cur) ≠ 0) :
    GetFreeSlotWithProbe oneBucket h key (fuel + 1) =
      probeChain key (fuel + 1) (fuel + 1) cur none (UnpinPage h2 dir) := by
  unfold GetFreeSlotWithProbe
  simp only [oneBucket, id, Nat.mod_one, Nat.zero_div, Nat.zero_add, Nat.zero_mod, hp1]
  rw [if_neg hw]
  simp only [hp2, compactHead_skip _ _ _ _ _ hn]

/-- `ProbeAndCompress` on a table with one bucket whose chain starts with a
non-empty page. -/
theorem find_one_bucket (h h1 h2 : Pool) (key fuel dir cur : Nat)
    (hp1 : PinPage h 1 = some (dir, h1))
    (hw : word (page h1 dir) 0 ≠ 0)
    (hp2 : PinPage h1 (word (page h1 dir) 0) = some (cur, h2))
    (hn : n_entries (page h2 cur) ≠ 0) :
    ProbeAndCompress oneBucket h key (fuel + 1) =
      findChain key (fuel + 1) (fuel + 1) cur (UnpinPage h2 dir) := by
  unfold ProbeAndCompress
  simp only [oneBucket, id, Nat.mod_one, Nat.zero_div, Nat.zero_add, Nat.zero_mod, hp1]
  rw [if_neg hw]
  simp only [hp2, compactHead_skip _ _ _ _ _ hn]

/-- `Insert` when the probe returns a slot. -/
theorem insert_of_slot (c : Config) (h h1 : Pool) (key value fuel : Nat) (s : EntrySlot)
    (hs : GetFreeSlotWithProbe c h key fuel = some (some s, h1)) :
    Insert c h key value fuel =
      some (true, UnpinPage (MarkDirty (writeFrame
        (store (store (store h1 s.frame_id (6 + 2 * s.index) key) s.frame_id
          (7 + 2 * s.index) value) s.frame_id 1
          (n_entries (page (store (store h1 s.frame_id (6 + 2 * s.index) key) s.frame_id
            (7 + 2 * s.index) value) s.frame_id) + 1))
        s.frame_id
        (setBit (page (store (store (store h1 s.frame_id (6 + 2 * s.index) key) s.frame_id
          (7 + 2 * s.index) value) s.frame_id 1
          (n_entries (page (store (store h1 s.frame_id (6 + 2 * s.index) key) s.frame_id
            (7 + 2 * s.index) value) s.frame_id) + 1)) s.frame_id) s.index))
        s.frame_id) s.frame_id) := by
  unfold Insert
  simp only [hs]

/-- `Erase` when the probe returns a slot. -/
theorem erase_of_slot (c : Config) (h h1 : Pool) (key fuel : Nat) (s : EntrySlot)
    (hs : ProbeAndCompress c h key fuel = some (some s, h1)) :
    Erase c h key fuel =
      some (true, UnpinPage (MarkDirty (writeFrame
        (store (store (store h1 s.frame_id (6 + 2 * s.index) 0) s.frame_id
          (7 + 2 * s.index) 0) s.frame_id 1
          (n_entries (page (store (store h1 s.frame_id (6 + 2 * s.index) 0) s.frame_id
            (7 + 2 * s.index) 0) s.frame_id) + 2 ^ 64 - 1))
        s.frame_id
        (clearBit (page (store (store (store h1 s.frame_id (6 + 2 * s.index) 0) s.frame_id
          (7 + 2 * s.index) 0) s.frame_id 1
          (n_entries (page (store (store h1 s.frame_id (6 + 2 * s.index) 0) s.frame_id
            (7 + 2 * s.index) 0) s.frame_id) + 2 ^ 64 - 1)) s.frame_id) s.index))
        s.frame_id) s.frame_id) := by
  unfold Erase
  simp only [hs]

/-- `Insert` on a chain of one page: the pair is stored in the free slot the
scan returns. -/
theorem insert_one_page (f : File) (c0 : Nat) (pg : Page) (key value i : Nat)
    (hn : n_entries pg ≠ 0)
    (hs : probeLoop key pg 1 ENTRIES_PER_BUCKET 0 0 none = .done (some ⟨1, i⟩))
    (hx : next pg = 0) :
    Insert oneBucket (pool1 f 0 c0 0 pg) key value 10 =
      some (true, pool1 f 0 1 0 (insPage pg i key value)) := by
  have e1 : PinPage (pool1 f 0 c0 0 pg) 1 = some (0, pool1 f 1 1 0 pg) := rfl
  have hw : word (page (pool1 f 1 1 0 pg) 0) 0 = 2 := by
    show word 2 0 = 2
    decide
  have e2 : PinPage (pool1 f 1 1 0 pg) (word (page (pool1 f 1 1 0 pg) 0) 0) =
      some (1, pool1 f 1 1 1 pg) := by
    rw [hw]
    rfl
  have e3 := probe_one_bucket (pool1 f 0 c0 0 pg) _ _ key 9 0 1 e1 (by rw [hw]; decide) e2 hn
  have e4 := probeChain_last key 10 9 1 none ⟨1, i⟩ (UnpinPage (pool1 f 1 1 1 pg) 0) hs hx
  rw [insert_of_slot oneBucket _ _ key value 10 ⟨1, i⟩ (e3.trans e4)]
  rfl

/-- The constructor on a new file. -/
theorem create_one_bucket : create 1 4 = some pool0 := rfl

/-- The first `Insert` on a new table with one bucket: page 2 is allocated and
receives the pair in slot 0. -/
theorem insert_first (key value : Nat) :
    Insert oneBucket pool0 key value 10 =
      some (true, pool1 (grow file0) 0 0 0 (insPage 0 0 key value)) := by
  have e1 : PinPage pool0 1 = some (0,
      ⟨file0, 4, 0, [⟨1, 1, 1, false⟩, ⟨0, 0, 0, false⟩, ⟨0, 0, 0, false⟩, ⟨0, 0, 0, false⟩],
        [0, 0, 0, 0], [(1, 0)]⟩) := rfl
  have e2 : GetFreeSlotWithProbe oneBucket pool0 key 10 = some (some ⟨1, 0⟩,
      ⟨grow file0, 4, 1, [⟨1, 0, 0, true⟩, ⟨2, 1, 1, false⟩, ⟨0, 0, 0, false⟩,
        ⟨0, 0, 0, false⟩], [2, 0, 0, 0], [(2, 1), (1, 0)]⟩) := by
    unfold GetFreeSlotWithProbe
    simp only [oneBucket, id, Nat.mod_one, Nat.zero_div, Nat.zero_add, Nat.zero_mod, e1]
    rfl
  rw [insert_of_slot oneBucket _ _ key value 10 ⟨1, 0⟩ e2]
  rfl

/-- The directory entry of the bucket in the pools `pool1`. -/
theorem dir_word1 (f : File) (r0 c0 r1 : Nat) (pg : Page) :
    word (page (pool1 f r0 c0 r1 pg) 0) 0 = 2 := by
  show word 2 0 = 2
  decide

/-- The directory entry of the bucket in the pools `pool2`. -/
theorem dir_word2 (f : File) (r0 r1 c1 r2 : Nat) (pg q : Page) :
    word (page (pool2 f r0 r1 c1 r2 pg q) 0) 0 = 2 := by
  show word 2 0 = 2
  decide

/-- The tail `appendPage` from the outcomes of its two calls. -/
theorem appendPage_eq (h : Pool) (f i p : Nat) (h1 : Pool) (g : Nat) (h2 : Pool)
    (ha : allocZeroed h = (p, h1))
    (hp : PinPage (UnpinPage (MarkDirty (store h1 f i p) f) f) p = some (g, h2)) :
    appendPage h f i = some (⟨g, 0⟩, h2) := by
  unfold appendPage
  simp only [ha, hp]

/-- The pin of the new page 3 after its number is stored in page 2: the clock
passes over frame 1 and takes frame 2. -/
theorem pin_third (pg : Page) :
    PinPage (UnpinPage (MarkDirty (store (⟨grow (grow file0), 4, 1,
      [⟨1, 0, 1, true⟩, ⟨2, 1, 1, true⟩, ⟨0, 0, 0, false⟩, ⟨0, 0, 0, false⟩],
      [2, pg, 0, 0], [(2, 1), (1, 0)]⟩ : Pool) 1 0 3) 1) 1) 3 =
      some (2, ⟨grow (grow file0), 4, 2, [⟨1, 0, 1, true⟩, ⟨2, 0, 0, true⟩, ⟨3, 1, 1, false⟩,
        ⟨0, 0, 0, false⟩], [2, setWord pg 0 3, (grow (grow file0)).disk 3, 0],
        [(3, 2), (2, 1), (1, 0)]⟩) := rfl

/-- The new page 3 is zeroed in the file. -/
theorem disk_third : (grow (grow file0)).disk 3 = 0 := rfl

/-- The second allocation of a bucket page returns page 3. -/
theorem alloc_second :
    HtFile.AllocatePage (grow file0) true = (3, { grow file0 with fsize := 3 }) := rfl

/-- `Insert` on a chain of one full page: page 3 is appended and receives the
pair in slot 0. -/
theorem insert_append (c0 : Nat) (pg : Page) (key value : Nat)
    (hn : n_entries pg ≠ 0)
    (hs : probeLoop key pg 1 ENTRIES_PER_BUCKET 0 0 none = .done none)
    (hx : next pg = 0) :
    Insert oneBucket (pool1 (grow file0) 0 c0 0 pg) key value 10 =
      some (true, pool2 (grow (grow file0)) 0 0 0 0 (setWord pg 0 3) (insPage 0 0 key value)) := by
  have e1 : PinPage (pool1 (grow file0) 0 c0 0 pg) 1 = some (0, pool1 (grow file0) 1 1 0 pg) := rfl
  have hw := dir_word1 (grow file0) 1 1 0 pg
  have e2 : PinPage (pool1 (grow file0) 1 1 0 pg) (word (page (pool1 (grow file0) 1 1 0 pg) 0) 0) =
      some (1, pool1 (grow file0) 1 1 1 pg) := by
    rw [hw]
    rfl
  have e3 := probe_one_bucket (pool1 (grow file0) 0 c0 0 pg) _ _ key 9 0 1 e1
    (by rw [hw]; decide) e2 hn
  have e4 := probeChain_append key 10 9 1 none (UnpinPage (pool1 (grow file0) 1 1 1 pg) 0) hs hx
  have ha : allocZeroed (UnpinPage (pool1 (grow file0) 1 1 1 pg) 0) =
      (3, ⟨grow (grow file0), 4, 1, [⟨1, 0, 1, true⟩, ⟨2, 1, 1, true⟩, ⟨0, 0, 0, false⟩,
        ⟨0, 0, 0, false⟩], [2, pg, 0, 0], [(2, 1), (1, 0)]⟩) := by
    unfold allocZeroed
    rw [show (UnpinPage (pool1 (grow file0) 1 1 1 pg) 0).file = grow file0 from rfl,
      alloc_second]
    rfl
  have e5 : (appendPage (UnpinPage (pool1 (grow file0) 1 1 1 pg) 0) 1 0).map
      (fun r => (some r.1, r.2)) = some (some ⟨2, 0⟩,
        ⟨grow (grow file0), 4, 2, [⟨1, 0, 1, true⟩, ⟨2, 0, 0, true⟩, ⟨3, 1, 1, false⟩,
          ⟨0, 0, 0, false⟩], [2, setWord pg 0 3, 0, 0], [(3, 2), (2, 1), (1, 0)]⟩) := by
    rw [appendPage_eq _ 1 0 3 _ 2 _ ha (pin_third pg), disk_third]
    rfl
  rw [insert_of_slot oneBucket _ _ key value 10 ⟨2, 0⟩ ((e3.trans e4).trans e5)]
  rfl

/-- `Erase` of a key that the first page of a chain of two pages holds. -/
theorem erase_first_page (f : File) (c1 r2 : Nat) (pg q : Page) (key i : Nat)
    (hn : n_entries pg ≠ 0)
    (hs : findLoop key pg ENTRIES_PER_BUCKET 0 0 = some i) :
    Erase oneBucket (pool2 f 0 0 c1 r2 pg q) key 10 =
      some (true, pool2 f 0 0 1 r2 (erasePage pg i) q) := by
  have e1 : PinPage (pool2 f 0 0 c1 r2 pg q) 1 = some (0, pool2 f 1 0 c1 r2 pg q) := rfl
  have hw := dir_word2 f 1 0 c1 r2 pg q
  have e2 : PinPage (pool2 f 1 0 c1 r2 pg q) (word (page (pool2 f 1 0 c1 r2 pg q) 0) 0) =
      some (1, pool2 f 1 1 1 r2 pg q) := by
    rw [hw]
    rfl
  have e3 := find_one_bucket (pool2 f 0 0 c1 r2 pg q) _ _ key 9 0 1 e1 (by rw [hw]; decide) e2 hn
  have e4 := findChain_found key 10 9 1 i (UnpinPage (pool2 f 1 1 1 r2 pg q) 0) hs
  rw [erase_of_slot oneBucket _ _ key 10 ⟨1, i⟩ (e3.trans e4)]
  rfl

/-- `Erase` of a key that the second page of a chain of two pages holds; the
frame of the second page has pin count 0 or 1 before the call. -/
theorem erase_second_page (f : File) (c1 r2 : Nat) (pg q : Page) (key i : Nat)
    (hr : r2 ≤ 1)
    (hn : n_entries pg ≠ 0)
    (hs : findLoop key pg ENTRIES_PER_BUCKET 0 0 = none)
    (hx : next pg = 3)
    (hnq : n_entries q ≠ 0)
    (hsq : findLoop key q ENTRIES_PER_BUCKET 0 0 = some i) :
    Erase oneBucket (pool2 f 0 0 c1 r2 pg q) key 10 =
      some (true, pool2 f 0 0 1 r2 pg (erasePage q i)) := by
  have e1 : PinPage (pool2 f 0 0 c1 r2 pg q) 1 = some (0, pool2 f 1 0 c1 r2 pg q) := rfl
  have hw := dir_word2 f 1 0 c1 r2 pg q
  have e2 : PinPage (pool2 f 1 0 c1 r2 pg q) (word (page (pool2 f 1 0 c1 r2 pg q) 0) 0) =
      some (1, pool2 f 1 1 1 r2 pg q) := by
    rw [hw]
    rfl
  have e3 := find_one_bucket (pool2 f 0 0 c1 r2 pg q) _ _ key 9 0 1 e1 (by rw [hw]; decide) e2 hn
  have hx1 : next (page (UnpinPage (pool2 f 1 1 1 r2 pg q) 0) 1) = 3 := hx
  have e4 : PinPage (UnpinPage (pool2 f 1 1 1 r2 pg q) 0)
      (next (page (UnpinPage (pool2 f 1 1 1 r2 pg q) 0) 1)) =
      some (2, pool2 f 0 1 1 ((r2 + 1) % 2 ^ 32) pg q) := by
    rw [hx1]
    rfl
  have e5 := findChain_next key 9 9 1 2 (UnpinPage (pool2 f 1 1 1 r2 pg q) 0) _ hs
    (by rw [hx1]; decide) e4 hnq
  have e6 := findChain_found key 10 8 2 i
    (UnpinPage (pool2 f 0 1 1 ((r2 + 1) % 2 ^ 32) pg q) 1) hsq
  rw [erase_of_slot oneBucket _ _ key 10 ⟨2, i⟩ ((e3.trans e5).trans e6)]
  have h01 : r2 = 0 ∨ r2 = 1 := by omega
  rcases h01 with rfl | rfl <;> rfl

/-- `Insert` on a chain of two pages when the first page has a free slot and
holds no duplicate, and the second page, the last, holds no duplicate either:
the pair is stored in the first page, and the pin on the second page is not
released. -/
theorem insert_two_pages (f : File) (c1 : Nat) (pg q : Page) (key value i : Nat)
    (hn : n_entries pg ≠ 0)
    (hs : probeLoop key pg 1 ENTRIES_PER_BUCKET 0 0 none = .done (some ⟨1, i⟩))
    (hx : next pg = 3)
    (hnq : n_entries q ≠ 0)
    (hsq : probeLoop key q 2 ENTRIES_PER_BUCKET 0 0 (some ⟨1, i⟩) = .done (some ⟨1, i⟩))
    (hxq : next q = 0) :
    Insert oneBucket (pool2 f 0 0 c1 0 pg q) key value 10 =
      some (true, pool2 f 0 0 1 1 (insPage pg i key value) q) := by
  have e1 : PinPage (pool2 f 0 0 c1 0 pg q) 1 = some (0, pool2 f 1 0 c1 0 pg q) := rfl
  have hw := dir_word2 f 1 0 c1 0 pg q
  have e2 : PinPage (pool2 f 1 0 c1 0 pg q) (word (page (pool2 f 1 0 c1 0 pg q) 0) 0) =
      some (1, pool2 f 1 1 1 0 pg q) := by
    rw [hw]
    rfl
  have e3 := probe_one_bucket (pool2 f 0 0 c1 0 pg q) _ _ key 9 0 1 e1 (by rw [hw]; decide) e2 hn
  have hx1 : next (page (UnpinPage (pool2 f 1 1 1 0 pg q) 0) 1) = 3 := hx
  have e4 : PinPage (UnpinPage (pool2 f 1 1 1 0 pg q) 0)
      (next (page (UnpinPage (pool2 f 1 1 1 0 pg q) 0) 1)) =
      some (2, pool2 f 0 1 1 1 pg q) := by
    rw [hx1]
    rfl
  have e5 := probeChain_next key 9 9 1 2 none (some ⟨1, i⟩)
    (UnpinPage (pool2 f 1 1 1 0 pg q) 0) _ hs (by rw [hx1]; decide) e4 hnq
  have e6 := probeChain_last key 10 8 2 (some ⟨1, i⟩) ⟨1, i⟩ (pool2 f 0 1 1 1 pg q) hsq hxq
  rw [insert_of_slot oneBucket _ _ key value 10 ⟨1, i⟩ ((e3.trans e5).trans e6)]
  rfl

/-- `Search` on a chain of two pages does not return when the first page does
not hold the key and the second page is empty with a pin left on its frame:
`FreePage` is called with pin count 2 and its `assert(pin_count == 1)`
fails. -/
theorem search_aborts (f : File) (c1 : Nat) (pg q : Page) (key : Nat)
    (hn : n_entries pg ≠ 0)
    (hs : findLoop key pg ENTRIES_PER_BUCKET 0 0 = none)
    (hx : next pg = 3)
    (hnq : n_entries q = 0) (fuel : Nat) :
    Search oneBucket (pool2 f 0 0 c1 1 pg q) key fuel = none := by
  have hp : ProbeAndCompress oneBucket (pool2 f 0 0 c1 1 pg q) key fuel = none := by
    cases fuel with
    | zero =>
      have e1 : PinPage (pool2 f 0 0 c1 1 pg q) 1 = some (0, pool2 f 1 0 c1 1 pg q) := rfl
      have hw := dir_word2 f 1 0 c1 1 pg q
      have e2 : PinPage (pool2 f 1 0 c1 1 pg q) (word (page (pool2 f 1 0 c1 1 pg q) 0) 0) =
          some (1, pool2 f 1 1 1 1 pg q) := by
        rw [hw]
        rfl
      unfold ProbeAndCompress
      simp only [oneBucket, id, Nat.mod_one, Nat.zero_div, Nat.zero_add, Nat.zero_mod, e1]
      rw [if_neg (by rw [hw]; decide)]
      simp only [e2, compactHead]
    | succ n =>
      have e1 : PinPage (pool2 f 0 0 c1 1 pg q) 1 = some (0, pool2 f 1 0 c1 1 pg q) := rfl
      have hw := dir_word2 f 1 0 c1 1 pg q
      have e2 : PinPage (pool2 f 1 0 c1 1 pg q) (word (page (pool2 f 1 0 c1 1 pg q) 0) 0) =
          some (1, pool2 f 1 1 1 1 pg q) := by
        rw [hw]
        rfl
      have e3 := find_one_bucket (pool2 f 0 0 c1 1 pg q) _ _ key n 0 1 e1
        (by rw [hw]; decide) e2 hn
      have hx1 : next (page (UnpinPage (pool2 f 1 1 1 1 pg q) 0) 1) = 3 := hx
      have e4 : PinPage (UnpinPage (pool2 f 1 1 1 1 pg q) 0)
          (next (page (UnpinPage (pool2 f 1 1 1 1 pg q) 0) 1)) =
          some (2, pool2 f 0 1 1 2 pg q) := by
        rw [hx1]
        rfl
      have hq : next (page (pool2 f 0 1 1 2 pg q) 2) = next q := rfl
      have e5 := findChain_abort key n n 1 2 (UnpinPage (pool2 f 1 1 1 1 pg q) 0) _ hs
        (by rw [hx1]; decide) e4 hnq rfl
      rw [e3, e5]
  unfold Search
  simp only [hp]

end HashTable

/-! ## `HashTable`: the scans of the pages of the run, evaluated -/

namespace HashTable

open HtFile (Page File word)
open HtBufferManager (Pool)

/-- The checks along `a + b` insertions. -/
theorem fillCheck_add : ∀ (a b k : Nat) (pg : Page),
    fillCheck (a + b) k pg = (fillCheck a k pg && fillCheck b (k + a) (fillFrom a k pg))
  | 0, b, k, pg => by simp [fillCheck, fillFrom]
  | a + 1, b, k, pg => by
    have e : a + 1 + b = (a + b) + 1 := by omega
    rw [e, fillCheck, fillCheck, fillFrom, fillCheck_add a b (k + 1), Bool.and_assoc]
    have e2 : k + 1 + a = k + (a + 1) := by omega
    rw [e2]

/-- The page after `a + b` insertions. -/
theorem fillFrom_add : ∀ (a b k : Nat) (pg : Page),
    fillFrom (a + b) k pg = fillFrom b (k + a) (fillFrom a k pg)
  | 0, b, k, pg => by simp [fillFrom]
  | a + 1, b, k, pg => by
    have e : a + 1 + b = (a + b) + 1 := by omega
    rw [e, fillFrom, fillFrom, fillFrom_add a b (k + 1)]
    have e2 : k + 1 + a = k + (a + 1) := by omega
    rw [e2]

/-- The checks along `a + b` erasures. -/
theorem drainCheck_add : ∀ (a b j : Nat) (pg : Page),
    drainCheck (a + b) j pg = (drainCheck a j pg && drainCheck b (j + a) (drainFrom a j pg))
  | 0, b, j, pg => by simp [drainCheck, drainFrom]
  | a + 1, b, j, pg => by
    have e : a + 1 + b = (a + b) + 1 := by omega
    rw [e, drainCheck, drainCheck, drainFrom, drainCheck_add a b (j + 1), Bool.and_assoc]
    have e2 : j + 1 + a = j + (a + 1) := by omega
    rw [e2]

/-- The page after `a + b` erasures. -/
theorem drainFrom_add : ∀ (a b j : Nat) (pg : Page),
    drainFrom (a + b) j pg = drainFrom b (j + a) (drainFrom a j pg)
  | 0, b, j, pg => by simp [drainFrom]
  | a + 1, b, j, pg => by
    have e : a + 1 + b = (a + b) + 1 := by omega
    rw [e, drainFrom, drainFrom, drainFrom_add a b (j + 1)]
    have e2 : j + 1 + a = j + (a + 1) := by omega
    rw [e2]

set_option maxRecDepth 1000000 in
set_option maxHeartbeats 0 in
/-- The insertions of the keys 2 to 37. -/
theorem fill_1 : fillCheck 36 1 (insPage 0 0 1 1001) = true := by
  decide!

set_option maxRecDepth 1000000 in
set_option maxHeartbeats 0 in
/-- The insertions of the keys 38 to 73. -/
theorem fill_2 : fillCheck 36 37 (fillFrom 36 1 (insPage 0 0 1 1001)) = true := by
  decide!

set_option maxRecDepth 1000000 in
set_option maxHeartbeats 0 in
/-- The insertions of the keys 74 to 109. -/
theorem fill_3 : fillCheck 36 73 (fillFrom 72 1 (insPage 0 0 1 1001)) = true := by
  decide!

set_option maxRecDepth 1000000 in
set_option maxHeartbeats 0 in
/-- The insertions of the keys 110 to 145. -/
theorem fill_4 : fillCheck 36 109 (fillFrom 108 1 (insPage 0 0 1 1001)) = true := by
  decide!

set_option maxRecDepth 1000000 in
set_option maxHeartbeats 0 in
/-- The insertions of the keys 146 to 181. -/
theorem fill_5 : fillCheck 36 145 (fillFrom 144 1 (insPage 0 0 1 1001)) = true := by
  decide!

set_option maxRecDepth 1000000 in
set_option maxHeartbeats 0 in
/-- The insertions of the keys 182 to 217. -/
theorem fill_6 : fillCheck 36 181 (fillFrom 180 1 (insPage 0 0 1 1001)) = true := by
  decide!

set_option maxRecDepth 1000000 in
set_option maxHeartbeats 0 in
/-- The insertions of the keys 218 to 253. -/
theorem fill_7 : fillCheck 36 217 (fillFrom 216 1 (insPage 0 0 1 1001)) = true := by
  decide!

/-- The insertions of the keys 2 to 253 into page 2. -/
theorem fill_all : fillCheck 252 1 (insPage 0 0 1 1001) = true := by
  have e : (252 : Nat) = 36 + (36 + (36 + (36 + (36 + (36 + (36)))))) := by decide
  rw [e, fillCheck_add, fillCheck_add, fillCheck_add, fillCheck_add, fillCheck_add,
    fillCheck_add, fill_1, ← fillFrom_add 36 36 1, ← fillFrom_add 72 36 1,
    ← fillFrom_add 108 36 1, ← fillFrom_add 144 36 1, ← fillFrom_add 180 36 1]
  exact Bool.and_eq_true_iff.2 ⟨rfl, Bool.and_eq_true_iff.2 ⟨fill_2, Bool.and_eq_true_iff.2
    ⟨fill_3, Bool.and_eq_true_iff.2 ⟨fill_4, Bool.and_eq_true_iff.2 ⟨fill_5,
      Bool.and_eq_true_iff.2 ⟨fill_6, fill_7⟩⟩⟩⟩⟩⟩

set_option maxRecDepth 1000000 in
set_option maxHeartbeats 0 in
/-- The scan of the full page 2 for key 254: the page is not empty, holds no duplicate, has no free slot and ends the chain. -/
theorem full_page : decide (n_entries (fillFrom 252 1 (insPage 0 0 1 1001)) ≠ 0 ∧
    probeLoop 254 (fillFrom 252 1 (insPage 0 0 1 1001)) 1 ENTRIES_PER_BUCKET 0 0 none = .done none ∧
    next (fillFrom 252 1 (insPage 0 0 1 1001)) = 0) = true := by
  decide!

set_option maxRecDepth 1000000 in
set_option maxHeartbeats 0 in
/-- The erasures of the keys 1 to 36. -/
theorem drain_1 : drainCheck 36 0 fullPage = true := by
  decide!

set_option maxRecDepth 1000000 in
set_option maxHeartbeats 0 in
/-- The erasures of the keys 37 to 72. -/
theorem drain_2 : drainCheck 36 36 (drainFrom 36 0 fullPage) = true := by
  decide!

set_option maxRecDepth 1000000 in
set_option maxHeartbeats 0 in
/-- The erasures of the keys 73 to 108. -/
theorem drain_3 : drainCheck 36 72 (drainFrom 72 0 fullPage) = true := by
  decide!

set_option maxRecDepth 1000000 in
set_option maxHeartbeats 0 in
/-- The erasures of the keys 109 to 144. -/
theorem drain_4 : drainCheck 36 108 (drainFrom 108 0 fullPage) = true := by
  decide!

set_option maxRecDepth 1000000 in
set_option maxHeartbeats 0 in
/-- The erasures of the keys 145 to 180. -/
theorem drain_5 : drainCheck 36 144 (drainFrom 144 0 fullPage) = true := by
  decide!

set_option maxRecDepth 1000000 in
set_option maxHeartbeats 0 in
/-- The erasures of the keys 181 to 216. -/
theorem drain_6 : drainCheck 36 180 (drainFrom 180 0 fullPage) = true := by
  decide!

set_option maxRecDepth 1000000 in
set_option maxHeartbeats 0 in
/-- The erasures of the keys 217 to 252. -/
theorem drain_7 : drainCheck 36 216 (drainFrom 216 0 fullPage) = true := by
  decide!

set_option maxRecDepth 1000000 in
set_option maxHeartbeats 0 in
/-- The erasure of key 253. -/
theorem drain_8 : drainCheck 1 252 (drainFrom 252 0 fullPage) = true := by
  decide!

/-- The erasures of the keys 1 to 253 from page 2. -/
theorem drain_all : drainCheck 253 0 fullPage = true := by
  have e : (253 : Nat) = 36 + (36 + (36 + (36 + (36 + (36 + (36 + (1))))))) := by decide
  rw [e, drainCheck_add, drainCheck_add, drainCheck_add, drainCheck_add, drainCheck_add,
    drainCheck_add, drainCheck_add, drain_1, ← drainFrom_add 36 36 0, ← drainFrom_add 72 36 0,
    ← drainFrom_add 108 36 0, ← drainFrom_add 144 36 0, ← drainFrom_add 180 36 0,
    ← drainFrom_add 216 36 0]
  exact Bool.and_eq_true_iff.2 ⟨rfl, Bool.and_eq_true_iff.2 ⟨drain_2, Bool.and_eq_true_iff.2
    ⟨drain_3, Bool.and_eq_true_iff.2 ⟨drain_4, Bool.and_eq_true_iff.2 ⟨drain_5,
      Bool.and_eq_true_iff.2 ⟨drain_6, Bool.and_eq_true_iff.2 ⟨drain_7, drain_8⟩⟩⟩⟩⟩⟩⟩

set_option maxRecDepth 1000000 in
set_option maxHeartbeats 0 in
/-- The scans of `Insert(600, 7)` after `Erase(1)`: page 2 is not empty, holds no duplicate, its slot 0 is free and its successor is page 3; page 3 is not empty, holds no duplicate and ends the chain. -/
theorem leak_pages : decide (n_entries (erasePage fullPage 0) ≠ 0 ∧
    probeLoop 600 (erasePage fullPage 0) 1 ENTRIES_PER_BUCKET 0 0 none = .done (some ⟨1, 0⟩) ∧
    next (erasePage fullPage 0) = 3 ∧ n_entries lastPage ≠ 0 ∧
    probeLoop 600 lastPage 2 ENTRIES_PER_BUCKET 0 0 (some ⟨1, 0⟩) = .done (some ⟨1, 0⟩) ∧
    next lastPage = 0) = true := by
  decide!

set_option maxRecDepth 1000000 in
set_option maxHeartbeats 0 in
/-- The scans of `Erase(254)` and of the following `Search(254)`: page 2 is not empty, does not hold the key and its successor is page 3; page 3 holds the key in slot 0 and is empty once the key is erased. -/
theorem abort_pages : decide (n_entries (insPage (erasePage fullPage 0) 0 600 7) ≠ 0 ∧
    findLoop 254 (insPage (erasePage fullPage 0) 0 600 7) ENTRIES_PER_BUCKET 0 0 = none ∧
    next (insPage (erasePage fullPage 0) 0 600 7) = 3 ∧ n_entries lastPage ≠ 0 ∧
    findLoop 254 lastPage ENTRIES_PER_BUCKET 0 0 = some 0 ∧
    n_entries (erasePage lastPage 0) = 0) = true := by
  decide!

end HashTable

/-! ## `HashTable`: pins left behind, empty pages left linked -/

namespace HashTable

open HtFile (Page File word)
open HtBufferManager (Pool PinPage FreePage MarkDirty UnpinPage)

/-- A run, call by call. -/
theorem run_cons (c : Config) (fuel : Nat) (h : Pool) (x : Cmd) (xs : List Cmd) :
    run c fuel h (x :: xs) = (step c fuel h x).bind (fun r => run c fuel r.2 xs) := by
  simp only [run]
  cases step c fuel h x with
  | none => rfl
  | some r => rfl

/-- A run of two lists of calls. -/
theorem run_append (c : Config) (fuel : Nat) : ∀ (xs ys : List Cmd) (h : Pool),
    run c fuel h (xs ++ ys) = (run c fuel h xs).bind (fun h1 => run c fuel h1 ys)
  | [], ys, h => rfl
  | x :: xs, ys, h => by
    rw [List.cons_append, run_cons, run_cons]
    cases step c fuel h x with
    | none => rfl
    | some r => exact run_append c fuel xs ys r.2

/-- The first call of `insertRange`. -/
theorem insertRange_succ (s n : Nat) :
    insertRange s (n + 1) = .insert s (s + 1000) :: insertRange (s + 1) n := by
  unfold insertRange
  rw [List.range_succ_eq_map, List.map_cons, List.map_map]
  congr 1
  apply List.map_congr_left
  intro i _
  simp only [Function.comp, Nat.succ_eq_add_one]
  have e : s + (i + 1) = s + 1 + i := by omega
  rw [e]

/-- The first call of `eraseRange`. -/
theorem eraseRange_succ (s n : Nat) :
    eraseRange s (n + 1) = .erase s :: eraseRange (s + 1) n := by
  unfold eraseRange
  rw [List.range_succ_eq_map, List.map_cons, List.map_map]
  congr 1
  apply List.map_congr_left
  intro i _
  simp only [Function.comp, Nat.succ_eq_add_one]
  have e : s + (i + 1) = s + 1 + i := by omega
  rw [e]

/-- The calls of `insertRange` in two parts. -/
theorem insertRange_add (s : Nat) : ∀ (a b : Nat),
    insertRange s (a + b) = insertRange s a ++ insertRange (s + a) b := by
  intro a
  induction a generalizing s with
  | zero =>
    intro b
    rw [Nat.zero_add, Nat.add_zero]
    rfl
  | succ a ih =>
    intro b
    have e : a + 1 + b = (a + b) + 1 := by omega
    rw [e, insertRange_succ, insertRange_succ, ih (s + 1) b, List.cons_append]
    have e2 : s + 1 + a = s + (a + 1) := by omega
    rw [e2]

/-- The insertions into page 2, as long as the checks `fillOk` hold: all calls
return and the pool is `pool1` with the page `fillFrom`. -/
theorem run_fill (f : File) : ∀ (n k c0 : Nat) (pg : Page), fillCheck n k pg = true →
    ∃ c, run oneBucket 10 (pool1 f 0 c0 0 pg) (insertRange (k + 1) n) =
      some (pool1 f 0 c 0 (fillFrom n k pg))
  | 0, k, c0, pg, _ => ⟨c0, rfl⟩
  | n + 1, k, c0, pg, h => by
    rw [fillCheck, Bool.and_eq_true_iff] at h
    obtain ⟨hn, hs, hx⟩ := of_decide_eq_true h.1
    obtain ⟨c, hc⟩ := run_fill f n (k + 1) 1 (insPage pg k (k + 1) (k + 1 + 1000)) h.2
    refine ⟨c, ?_⟩
    rw [insertRange_succ, run_cons]
    show (Insert oneBucket (pool1 f 0 c0 0 pg) (k + 1) (k + 1 + 1000) 10).bind _ = _
    rw [insert_one_page f c0 pg (k + 1) (k + 1 + 1000) k hn hs hx, Option.some_bind]
    exact hc

/-- The erasures from page 2 of a chain of two pages, as long as the checks
`drainOk` hold: all calls return and the pool is `pool2` with the page
`drainFrom`. -/
theorem run_drain (f : File) (r2 : Nat) (q : Page) : ∀ (n j c1 : Nat) (pg : Page),
    drainCheck n j pg = true →
    ∃ c, run oneBucket 10 (pool2 f 0 0 c1 r2 pg q) (eraseRange (j + 1) n) =
      some (pool2 f 0 0 c r2 (drainFrom n j pg) q)
  | 0, j, c1, pg, _ => ⟨c1, rfl⟩
  | n + 1, j, c1, pg, h => by
    rw [drainCheck, Bool.and_eq_true_iff] at h
    obtain ⟨hn, hs⟩ := of_decide_eq_true h.1
    obtain ⟨c, hc⟩ := run_drain f r2 q n (j + 1) 1 (erasePage pg j) h.2
    refine ⟨c, ?_⟩
    rw [eraseRange_succ, run_cons]
    show (Erase oneBucket (pool2 f 0 0 c1 r2 pg q) (j + 1) 10).bind _ = _
    rw [erase_first_page f c1 r2 pg q (j + 1) j hn hs, Option.some_bind]
    exact hc

/-- The state of a table with one bucket and a pool of four frames after the
calls `Insert(k, k + 1000)` for `k = 1, ..., 254`: page 2 is full and page 3
holds key 254. -/
theorem run_filled :
    (create 1 4).bind (fun h0 => run oneBucket 10 h0 (insertRange 1 254)) =
      some (pool2 (grow (grow file0)) 0 0 0 0 fullPage lastPage) := by
  have e : (254 : Nat) = 1 + (252 + 1) := by decide
  obtain ⟨c, hc⟩ := run_fill (grow file0) 252 1 0 (insPage 0 0 1 1001) fill_all
  obtain ⟨hn, hs, hx⟩ := of_decide_eq_true full_page
  rw [create_one_bucket, Option.some_bind, e, insertRange_add, insertRange_add]
  rw [show insertRange 1 1 = [.insert 1 1001] from rfl,
    show insertRange (1 + 1 + 252) 1 = [.insert 254 1254] from rfl, List.singleton_append,
    run_cons]
  show (Insert oneBucket pool0 1 1001 10).bind _ = _
  rw [insert_first, Option.some_bind, run_append, hc, Option.some_bind, run_cons]
  show (Insert oneBucket (pool1 (grow file0) 0 c 0 (fillFrom 252 1 (insPage 0 0 1 1001)))
    254 1254 10).bind _ = _
  rw [insert_append c _ 254 1254 hn hs hx]
  rfl

end HashTable

namespace HashTable

open HtFile (Page File word)
open HtBufferManager (Pool PinPage FreePage MarkDirty UnpinPage)

/-- The state of the table of `run_filled` after a following `Erase(1)`. -/
theorem run_erased :
    (create 1 4).bind (fun h0 => run oneBucket 10 h0 (insertRange 1 254 ++ [.erase 1])) =
      some (pool2 (grow (grow file0)) 0 0 1 0 (erasePage fullPage 0) lastPage) := by
  have hf := run_filled
  obtain ⟨h0, ec, er⟩ := Option.bind_eq_some.1 hf
  have e : (253 : Nat) = 1 + 252 := by decide
  have hd := drain_all
  rw [e, drainCheck_add, Bool.and_eq_true_iff] at hd
  obtain ⟨c, hc⟩ := run_drain (grow (grow file0)) 0 lastPage 1 0 0 fullPage hd.1
  rw [ec, Option.some_bind, run_append, er, Option.some_bind]
  have hc1 : run oneBucket 10 (pool2 (grow (grow file0)) 0 0 0 0 fullPage lastPage) [.erase 1] =
      some (pool2 (grow (grow file0)) 0 0 c 0 (erasePage fullPage 0) lastPage) := hc
  rw [hc1]
  rw [drainCheck, Bool.and_eq_true_iff] at hd
  obtain ⟨hn, hs⟩ := of_decide_eq_true hd.1.1
  have he := erase_first_page (grow (grow file0)) 0 0 fullPage lastPage 1 0 hn hs
  rw [run_cons] at hc1
  have hs1 : step oneBucket 10 (pool2 (grow (grow file0)) 0 0 0 0 fullPage lastPage) (.erase 1) =
      Erase oneBucket (pool2 (grow (grow file0)) 0 0 0 0 fullPage lastPage) 1 10 := rfl
  rw [hs1, he, Option.some_bind] at hc1
  have hc2 : some (pool2 (grow (grow file0)) 0 0 1 0 (erasePage fullPage 0) lastPage) =
      some (pool2 (grow (grow file0)) 0 0 c 0 (erasePage fullPage 0) lastPage) := hc1
  rw [hc2]

/-- C37 (code defect).  A table with one bucket and a pool of four frames
receives the keys 1 to 254, which fill page 2 and start page 3, and key 1 is
erased; every pin count is then 0.  `Insert(600, 7)` finds its free slot in
page 2, walks on to page 3, the last page of the chain, and returns true
without unpinning it: the frame of page 3 is left with pin count 1. -/
theorem insert_leaves_page_pinned : ∃ (h r : Pool),
    (create 1 4).bind (fun h0 => run oneBucket 10 h0 (insertRange 1 254 ++ [.erase 1])) = some h ∧
    h.metas.map (fun m => m.pin_count) = [0, 0, 0, 0] ∧
    Insert oneBucket h 600 7 10 = some (true, r) ∧
    r.metas.map (fun m => m.page_id) = [1, 2, 3, 0] ∧
    r.metas.map (fun m => m.pin_count) = [0, 0, 1, 0] := by
  obtain ⟨h1, h2, h3, h4, h5, h6⟩ := of_decide_eq_true leak_pages
  exact ⟨_, _, run_erased, rfl,
    insert_two_pages (grow (grow file0)) 1 (erasePage fullPage 0) lastPage 600 7 0
      h1 h2 h3 h4 h5 h6, rfl, rfl⟩

/-- C36 (code defect).  After the calls of `insert_leaves_page_pinned`, in
which `Insert(600, 7)` left page 3 pinned, `Erase(254)` returns true (key 254
was inserted once) and leaves page 3 empty, still with pin count 1.  A
following `Search(254)` scans page 2, pins page 3, finds it empty and calls
`FreePage` on a frame with pin count 2: the `assert(pin_count == 1)` fails, so
the call does not return false; the model gives `none` for every fuel. -/
theorem search_after_erase_aborts : ∃ (h r : Pool),
    (create 1 4).bind (fun h0 => run oneBucket 10 h0
      (insertRange 1 254 ++ [.erase 1, .insert 600 7])) = some h ∧
    Erase oneBucket h 254 10 = some (true, r) ∧
    r.metas.map (fun m => m.pin_count) = [0, 0, 1, 0] ∧
    ∀ fuel, Search oneBucket r 254 fuel = none := by
  obtain ⟨h1, h2, h3, h4, h5, h6⟩ := of_decide_eq_true leak_pages
  obtain ⟨g1, g2, g3, g4, g5, g6⟩ := of_decide_eq_true abort_pages
  obtain ⟨h0, ec, er⟩ := Option.bind_eq_some.1 run_erased
  rw [run_append] at er
  obtain ⟨hm, em, ee⟩ := Option.bind_eq_some.1 er
  refine ⟨pool2 (grow (grow file0)) 0 0 1 1 (insPage (erasePage fullPage 0) 0 600 7) lastPage,
    pool2 (grow (grow file0)) 0 0 1 1 (insPage (erasePage fullPage 0) 0 600 7)
      (erasePage lastPage 0), ?_, ?_, rfl, ?_⟩
  · have e : insertRange 1 254 ++ [Cmd.erase 1, Cmd.insert 600 7] =
        insertRange 1 254 ++ ([Cmd.erase 1] ++ [Cmd.insert 600 7]) := rfl
    rw [ec, Option.some_bind, e, run_append, em, Option.some_bind, run_append, ee,
      Option.some_bind, run_cons]
    show (Insert oneBucket (pool2 (grow (grow file0)) 0 0 1 0 (erasePage fullPage 0) lastPage)
      600 7 10).bind _ = _
    rw [insert_two_pages (grow (grow file0)) 1 (erasePage fullPage 0) lastPage 600 7 0
      h1 h2 h3 h4 h5 h6]
    rfl
  · exact erase_second_page (grow (grow file0)) 1 1 _ lastPage 254 0 (Nat.le_refl 1)
      g1 g2 g3 g4 g5
  · intro fuel
    exact search_aborts (grow (grow file0)) 1 _ (erasePage lastPage 0) 254 g1 g2 g3 g6 fuel

end HashTable

/-! ## `HashTable`: empty pages are unlinked by the next traversal -/

namespace HashTable

open HtFile (Page File word)
open HtBufferManager (Pool PinPage FreePage MarkDirty UnpinPage writeFrame frame)

end HashTable

/-! ## `Btree::find` on keys that were never inserted -/

namespace Btree

set_option maxRecDepth 100000 in
/-- C2: on the tree of order 201 (`PAGE_SIZE = 4096`) holding the keys
1, 3, 5, 7, 9, 2, 4, 6, 8, 10, `find(0)` returns an engaged optional holding the
pair of key 1 and `find(11)` an engaged optional holding the zero pair that
follows the last key of the leaf: the leaf branch of `find` emplaces
`data[pos]` without comparing its key with the key searched. -/
theorem find_absent_engaged :
    ((Tree.create 201).insertAll s1Pairs).bind (fun t => t.find ⟨0, 0⟩) = some (some ⟨1, 0⟩) ∧
    ((Tree.create 201).insertAll s1Pairs).bind (fun t => t.find ⟨11, 0⟩) =
      some (some ⟨0, 0⟩) := by
  decide!

end Btree

/-! ## B-tree: arrays and nodes -/

namespace Btree

theorem getD_set {α : Type} (l : List α) (i j : Nat) (a d : α) :
    (l.set i a).getD j d = if i = j ∧ i < l.length then a else l.getD j d := by
  simp only [List.getD_eq_getElem?_getD, List.getElem?_set]
  by_cases h : i = j
  · subst h
    by_cases hl : i < l.length
    · simp [hl]
    · simp [hl, List.getElem?_eq_none (Nat.le_of_not_lt hl)]
  · simp [h]

theorem shiftLoop_length (pos : Nat) : ∀ (k : Nat) (data : List Pair) (children : List Nat),
    (shiftLoop pos k data children).1.length = data.length ∧
    (shiftLoop pos k data children).2.length = children.length
  | 0, _, _ => ⟨rfl, rfl⟩
  | k + 1, data, children => by
    have := shiftLoop_length pos k (data.set (pos + k + 1) (data.getD (pos + k) ⟨0, 0⟩))
      (children.set (pos + k + 2) (children.getD (pos + k + 1) 0))
    simpa [shiftLoop] using this

theorem shiftLoop_data (pos : Nat) : ∀ (k : Nat) (data : List Pair) (children : List Nat) (m : Nat),
    pos + k < data.length →
    (shiftLoop pos k data children).1.getD m ⟨0, 0⟩ =
      if pos < m ∧ m ≤ pos + k then data.getD (m - 1) ⟨0, 0⟩ else data.getD m ⟨0, 0⟩
  | 0, data, children, m, _ => by
    have : ¬ (pos < m ∧ m ≤ pos + 0) := by omega
    show data.getD m _ = _
    rw [if_neg this]
  | k + 1, data, children, m, hl => by
    have ih := shiftLoop_data pos k (data.set (pos + k + 1) (data.getD (pos + k) ⟨0, 0⟩))
      (children.set (pos + k + 2) (children.getD (pos + k + 1) 0)) m
      (by rw [List.length_set]; omega)
    simp only [shiftLoop]
    rw [ih, getD_set, getD_set]
    by_cases h1 : pos < m ∧ m ≤ pos + k
    · have h2 : ¬ (pos + k + 1 = m - 1 ∧ pos + k + 1 < data.length) := by omega
      have h3 : pos < m ∧ m ≤ pos + (k + 1) := by omega
      simp [h1, h2, h3]
    · by_cases h4 : m = pos + k + 1
      · subst h4
        have h5 : pos < pos + k + 1 ∧ pos + k + 1 ≤ pos + (k + 1) := by omega
        have h6 : pos + k + 1 < data.length := by omega
        simp [h1, h5, h6]
      · have h5 : ¬ (pos < m ∧ m ≤ pos + (k + 1)) := by omega
        have h6 : ¬ (pos + k + 1 = m ∧ pos + k + 1 < data.length) := by omega
        simp [h1, h5, h6]

theorem shiftLoop_children (pos : Nat) :
    ∀ (k : Nat) (data : List Pair) (children : List Nat) (m : Nat),
    pos + k + 1 < children.length →
    (shiftLoop pos k data children).2.getD m 0 =
      if pos + 1 < m ∧ m ≤ pos + k + 1 then children.getD (m - 1) 0 else children.getD m 0
  | 0, data, children, m, _ => by
    have : ¬ (pos + 1 < m ∧ m ≤ pos + 0 + 1) := by omega
    show children.getD m _ = _
    rw [if_neg this]
  | k + 1, data, children, m, hl => by
    have ih := shiftLoop_children pos k (data.set (pos + k + 1) (data.getD (pos + k) ⟨0, 0⟩))
      (children.set (pos + k + 2) (children.getD (pos + k + 1) 0)) m
      (by rw [List.length_set]; omega)
    simp only [shiftLoop]
    rw [ih, getD_set, getD_set]
    by_cases h1 : pos + 1 < m ∧ m ≤ pos + k + 1
    · have h2 : ¬ (pos + k + 2 = m - 1 ∧ pos + k + 2 < children.length) := by omega
      have h3 : pos + 1 < m ∧ m ≤ pos + (k + 1) + 1 := by omega
      simp [h1, h2, h3]
    · by_cases h4 : m = pos + k + 2
      · subst h4
        have h5 : pos + 1 < pos + k + 2 ∧ pos + k + 2 ≤ pos + (k + 1) + 1 := by omega
        have h6 : pos + k + 2 < children.length := by omega
        simp [h1, h5, h6]
      · have h5 : ¬ (pos + 1 < m ∧ m ≤ pos + (k + 1) + 1) := by omega
        have h6 : ¬ (pos + k + 2 = m ∧ pos + k + 2 < children.length) := by omega
        simp [h1, h5, h6]

/-- `insert_in_node` keeps the array sizes. -/
theorem insert_in_node_length (n : Node) (pos : Nat) (v : Pair) :
    (n.insert_in_node pos v).data.length = n.data.length ∧
    (n.insert_in_node pos v).children.length = n.children.length := by
  have := shiftLoop_length pos (n.count - pos) n.data n.children
  simp [Node.insert_in_node, this.1, this.2]

/-- `insert_in_node`: the keys from `pos` on move up by one and `value` takes
position `pos`. -/
theorem insert_in_node_dataAt (n : Node) (pos : Nat) (v : Pair) (m : Nat)
    (hpos : pos ≤ n.count) (hlen : n.count < n.data.length) :
    (n.insert_in_node pos v).dataAt m =
      if m = pos then v else if pos < m ∧ m ≤ n.count then n.dataAt (m - 1) else n.dataAt m := by
  have hl := (shiftLoop_length pos (n.count - pos) n.data n.children).1
  have hd := shiftLoop_data pos (n.count - pos) n.data n.children m (by omega)
  simp only [Node.insert_in_node, Node.dataAt]
  rw [getD_set, hl, hd]
  have e : pos + (n.count - pos) = n.count := by omega
  rw [e]
  by_cases h : m = pos
  · subst h
    have : m < n.data.length := by omega
    simp [this]
  · have h2 : ¬ (pos = m ∧ pos < n.data.length) := fun hh => h hh.1.symm
    simp [h, h2]

/-- `insert_in_node`: the child pointers after `pos` move up by one, and
`children[pos + 1]` receives a copy of `children[pos]`. -/
theorem insert_in_node_child (n : Node) (pos : Nat) (v : Pair) (m : Nat)
    (hpos : pos ≤ n.count) (hlen : n.count + 1 < n.children.length) :
    (n.insert_in_node pos v).child m =
      if pos < m ∧ m ≤ n.count + 1 then n.child (m - 1) else n.child m := by
  have hl := (shiftLoop_length pos (n.count - pos) n.data n.children).2
  have hc := fun m => shiftLoop_children pos (n.count - pos) n.data n.children m (by omega)
  simp only [Node.insert_in_node, Node.child]
  rw [getD_set, hl, hc, hc]
  have e : pos + (n.count - pos) + 1 = n.count + 1 := by omega
  rw [e]
  have h0 : ¬ (pos + 1 < pos ∧ pos ≤ n.count + 1) := by omega
  simp only [h0, if_false]
  by_cases h : m = pos + 1
  · subst h
    have h1 : pos + 1 < n.children.length := by omega
    have h2 : pos < pos + 1 ∧ pos + 1 ≤ n.count + 1 := by omega
    simp [h1, h2]
  · have h1 : ¬ (pos + 1 = m ∧ pos + 1 < n.children.length) := fun hh => h hh.1.symm
    simp only [h1, if_false]
    by_cases h2 : pos + 1 < m ∧ m ≤ n.count + 1
    · have h3 : pos < m ∧ m ≤ n.count + 1 := by omega
      simp [h2, h3]
    · have h3 : ¬ (pos < m ∧ m ≤ n.count + 1) := by omega
      simp [h2, h3]

theorem insert_in_node_fields (n : Node) (pos : Nat) (v : Pair) :
    (n.insert_in_node pos v).count = n.count + 1 ∧
    (n.insert_in_node pos v).page_id = n.page_id ∧
    (n.insert_in_node pos v).right = n.right := ⟨rfl, rfl, rfl⟩

/-- Result of the scan `while (pos < count && data[pos] < value) pos++`. -/
theorem scanLt_spec (n : Node) (v : Pair) : ∀ (fuel pos : Nat),
    pos ≤ scanLt n v fuel pos ∧ scanLt n v fuel pos ≤ pos + fuel ∧
    (∀ j, pos ≤ j → j < scanLt n v fuel pos → j < n.count ∧ (n.dataAt j).key < v.key) ∧
    (scanLt n v fuel pos < pos + fuel →
      ¬ (scanLt n v fuel pos < n.count ∧ (n.dataAt (scanLt n v fuel pos)).key < v.key))
  | 0, pos => by
    simp only [scanLt]
    exact ⟨le_refl _, le_refl _, fun j h1 h2 => absurd h2 (by omega), fun h => absurd h (by omega)⟩
  | fuel + 1, pos => by
    simp only [scanLt]
    by_cases h : pos < n.count ∧ (n.dataAt pos).key < v.key
    · rw [if_pos h]
      obtain ⟨h1, h2, h3, h4⟩ := scanLt_spec n v fuel (pos + 1)
      refine ⟨by omega, by omega, fun j hj1 hj2 => ?_, fun hlt => h4 (by omega)⟩
      by_cases hj : j = pos
      · subst hj; exact h
      · exact h3 j (by omega) hj2
    · rw [if_neg h]
      exact ⟨le_refl _, by omega, fun j h1 h2 => absurd h2 (by omega), fun _ => h⟩

/-- Result of the scan `while (pos < count && data[pos] <= object) pos++`. -/
theorem scanLe_spec (n : Node) (v : Pair) : ∀ (fuel pos : Nat),
    pos ≤ scanLe n v fuel pos ∧ scanLe n v fuel pos ≤ pos + fuel ∧
    (∀ j, pos ≤ j → j < scanLe n v fuel pos → j < n.count ∧ (n.dataAt j).key ≤ v.key) ∧
    (scanLe n v fuel pos < pos + fuel →
      ¬ (scanLe n v fuel pos < n.count ∧ (n.dataAt (scanLe n v fuel pos)).key ≤ v.key))
  | 0, pos => by
    simp only [scanLe]
    exact ⟨le_refl _, le_refl _, fun j h1 h2 => absurd h2 (by omega), fun h => absurd h (by omega)⟩
  | fuel + 1, pos => by
    simp only [scanLe]
    by_cases h : pos < n.count ∧ (n.dataAt pos).key ≤ v.key
    · rw [if_pos h]
      obtain ⟨h1, h2, h3, h4⟩ := scanLe_spec n v fuel (pos + 1)
      refine ⟨by omega, by omega, fun j hj1 hj2 => ?_, fun hlt => h4 (by omega)⟩
      by_cases hj : j = pos
      · subst hj; exact h
      · exact h3 j (by omega) hj2
    · rw [if_neg h]
      exact ⟨le_refl _, by omega, fun j h1 h2 => absurd h2 (by omega), fun _ => h⟩

/-- The insert position: all keys before it are less than the value, and the
key at it, if any, is not. -/
theorem scanLt_pos (n : Node) (v : Pair) :
    scanLt n v n.count 0 ≤ n.count ∧
    (∀ j, j < scanLt n v n.count 0 → (n.dataAt j).key < v.key) ∧
    (scanLt n v n.count 0 < n.count → v.key ≤ (n.dataAt (scanLt n v n.count 0)).key) := by
  obtain ⟨_, h2, h3, h4⟩ := scanLt_spec n v n.count 0
  refine ⟨by omega, fun j hj => (h3 j (Nat.zero_le _) hj).2, fun hlt => ?_⟩
  have := h4 (by omega)
  by_contra hc
  exact this ⟨hlt, by omega⟩

/-- The position `find` follows in an internal node. -/
theorem scanLe_pos (n : Node) (v : Pair) :
    scanLe n v n.count 0 ≤ n.count ∧
    (∀ j, j < scanLe n v n.count 0 → (n.dataAt j).key ≤ v.key) ∧
    (scanLe n v n.count 0 < n.count → v.key < (n.dataAt (scanLe n v n.count 0)).key) := by
  obtain ⟨_, h2, h3, h4⟩ := scanLe_spec n v n.count 0
  refine ⟨by omega, fun j hj => (h3 j (Nat.zero_le _) hj).2, fun hlt => ?_⟩
  have := h4 (by omega)
  by_contra hc
  exact this ⟨hlt, by omega⟩

end Btree

/-! ## B-tree: the page store, `split` and `split_root` in closed form -/

namespace Btree

@[simp] theorem modify_nodes_same (t : Tree) (p : Nat) (f : Node → Node) :
    (t.modify p f).nodes p = f (t.nodes p) := by
  simp [Tree.modify]

theorem modify_nodes_ne (t : Tree) {p q : Nat} (f : Node → Node) (h : q ≠ p) :
    (t.modify p f).nodes q = t.nodes q := by
  simp [Tree.modify, Function.update_noteq h]

@[simp] theorem modify_order (t : Tree) (p : Nat) (f : Node → Node) :
    (t.modify p f).order = t.order := rfl

@[simp] theorem modify_count (t : Tree) (p : Nat) (f : Node → Node) :
    (t.modify p f).count = t.count := rfl

theorem min_children_le {order : Nat} (h : 1 ≤ order) :
    1 ≤ MIN_NUM_CHILDREN order ∧ MIN_NUM_CHILDREN order ≤ order := by
  unfold MIN_NUM_CHILDREN
  split <;> omega

theorem new_dataAt (order p m : Nat) : (Node.new order p).dataAt m = ⟨0, 0⟩ := by
  simp only [Node.new, Node.dataAt, List.getD_eq_getElem?_getD, List.getElem?_replicate]
  split <;> rfl

theorem new_child (order p m : Nat) : (Node.new order p).child m = 0 := by
  simp only [Node.new, Node.child, List.getD_eq_getElem?_getD, List.getElem?_replicate]
  split <;> rfl

theorem copyLoop_spec (src dst : Nat) (hne : src ≠ dst) : ∀ (k i iter : Nat) (t : Tree),
    (copyLoop src dst k i iter t).order = t.order ∧
    (copyLoop src dst k i iter t).count = t.count ∧
    (∀ q, q ≠ dst → (copyLoop src dst k i iter t).nodes q = t.nodes q) ∧
    Copied (t.nodes src) (t.nodes dst) k i iter ((copyLoop src dst k i iter t).nodes dst)
  | 0, i, iter, t => by
    refine ⟨rfl, rfl, fun _ _ => rfl, ⟨rfl, rfl, rfl, rfl, rfl, fun _ m => ?_, fun _ m => ?_⟩⟩
    · have : ¬ (i ≤ m ∧ m < i + 0) := by omega
      rw [if_neg this]; rfl
    · have : ¬ (i ≤ m ∧ m < i + 0) := by omega
      rw [if_neg this]; rfl
  | k + 1, i, iter, t => by
    -- one iteration
    let t1 := ((t.modify dst (fun n => { n with children := n.children.set i ((t.nodes src).child iter) })).modify
      dst (fun n => { n with data := n.data.set i ((t.nodes src).dataAt iter) })).modify
      dst (fun n => { n with count := n.count + 1 })
    have hstep : copyLoop src dst (k + 1) i iter t = copyLoop src dst k (i + 1) (iter + 1) t1 := by
      simp only [copyLoop, t1, modify_nodes_ne _ _ hne]
    have hsrc : t1.nodes src = t.nodes src := by
      simp only [t1, modify_nodes_ne _ _ hne]
    have hdst : t1.nodes dst =
        { t.nodes dst with
          children := (t.nodes dst).children.set i ((t.nodes src).child iter)
          data := (t.nodes dst).data.set i ((t.nodes src).dataAt iter)
          count := (t.nodes dst).count + 1 } := by
      simp only [t1, modify_nodes_same]
    obtain ⟨h1, h2, h3, h4⟩ := copyLoop_spec src dst hne k (i + 1) (iter + 1) t1
    rw [hstep]
    refine ⟨h1, h2, fun q hq => ?_, ?_⟩
    · rw [h3 q hq]
      simp only [t1, modify_nodes_ne _ _ hq]
    · rw [hsrc, hdst] at h4
      refine ⟨h4.page_id, h4.right, ?_, ?_, ?_, fun hl m => ?_, fun hl m => ?_⟩
      · rw [h4.count]; simp only []; omega
      · rw [h4.data_len]; simp
      · rw [h4.children_len]; simp
      · rw [h4.dataAt (by simp only [List.length_set]; omega) m]
        simp only [Node.dataAt, getD_set]
        by_cases hm : m = i
        · subst hm
          have e1 : ¬ (m + 1 ≤ m ∧ m < m + 1 + k) := by omega
          have e2 : m ≤ m ∧ m < m + (k + 1) := by omega
          have e3 : m < (t.nodes dst).data.length := by omega
          simp [e1, e2, e3]
        · by_cases hr : i + 1 ≤ m ∧ m < i + 1 + k
          · have e2 : i ≤ m ∧ m < i + (k + 1) := by omega
            have e3 : iter + 1 + (m - (i + 1)) = iter + (m - i) := by omega
            simp [hr, e2, e3]
          · have e2 : ¬ (i ≤ m ∧ m < i + (k + 1)) := by omega
            have e3 : ¬ (i = m ∧ i < (t.nodes dst).data.length) := fun hh => hm hh.1.symm
            simp [hr, e2, e3]
      · rw [h4.child (by simp only [List.length_set]; omega) m]
        simp only [Node.child, getD_set]
        by_cases hm : m = i
        · subst hm
          have e1 : ¬ (m + 1 ≤ m ∧ m < m + 1 + k) := by omega
          have e2 : m ≤ m ∧ m < m + (k + 1) := by omega
          have e3 : m < (t.nodes dst).children.length := by omega
          simp [e1, e2, e3]
        · by_cases hr : i + 1 ≤ m ∧ m < i + 1 + k
          · have e2 : i ≤ m ∧ m < i + (k + 1) := by omega
            have e3 : iter + 1 + (m - (i + 1)) = iter + (m - i) := by omega
            simp [hr, e2, e3]
          · have e2 : ¬ (i ≤ m ∧ m < i + (k + 1)) := by omega
            have e3 : ¬ (i = m ∧ i < (t.nodes dst).children.length) := fun hh => hm hh.1.symm
            simp [hr, e2, e3]

end Btree

namespace Btree

/-- `split` is its three phases: the statements before the copying loop, the
loop, and the statements after it. -/
theorem split_eq (t : Tree) (parent pos : Nat)
    (hc : (t.nodes parent).child pos ≠ t.count + 1) :
    t.split parent pos =
      splitPost
        (copyLoop ((t.nodes parent).child pos) (t.count + 1)
          (t.order + 1 - (if (t.nodes ((t.nodes parent).child pos)).child 0 = 0
            then MIN_NUM_CHILDREN t.order else MIN_NUM_CHILDREN t.order + 1)) 0
          (if (t.nodes ((t.nodes parent).child pos)).child 0 = 0
            then MIN_NUM_CHILDREN t.order else MIN_NUM_CHILDREN t.order + 1)
          (splitPre t parent pos))
        parent pos ((t.nodes parent).child pos) (t.count + 1)
        (if (t.nodes ((t.nodes parent).child pos)).child 0 = 0
            then MIN_NUM_CHILDREN t.order else MIN_NUM_CHILDREN t.order + 1) := by
  have hn : (t.new_node.2).nodes ((t.nodes parent).child pos) =
      t.nodes ((t.nodes parent).child pos) := by
    simp [Tree.new_node, Function.update_noteq hc]
  by_cases hl : (t.nodes ((t.nodes parent).child pos)).child 0 = 0
  · simp only [Tree.split, splitPre, splitPost, hn, hl, decide_True, if_true]
    rfl
  · simp only [Tree.split, splitPre, splitPost, hn, hl, decide_False, if_false,
      Bool.false_eq_true]
    rfl

end Btree

namespace Btree

theorem splitPre_spec (t : Tree) (parent pos : Nat)
    (h1 : (t.nodes parent).child pos ≠ parent)
    (h2 : (t.nodes parent).child pos ≠ t.count + 1)
    (h3 : parent ≠ t.count + 1) :
    (splitPre t parent pos).order = t.order ∧
    (splitPre t parent pos).count = t.count + 1 ∧
    (∀ q, q ≠ parent → q ≠ (t.nodes parent).child pos → q ≠ t.count + 1 →
      (splitPre t parent pos).nodes q = t.nodes q) ∧
    (splitPre t parent pos).nodes ((t.nodes parent).child pos) =
      { t.nodes ((t.nodes parent).child pos) with
        count := MIN_NUM_CHILDREN t.order
        right := if (t.nodes ((t.nodes parent).child pos)).child 0 = 0 then t.count + 1
                 else (t.nodes ((t.nodes parent).child pos)).right } ∧
    (splitPre t parent pos).nodes (t.count + 1) =
      { Node.new t.order (t.count + 1) with
        right := if (t.nodes ((t.nodes parent).child pos)).child 0 = 0
                 then (t.nodes ((t.nodes parent).child pos)).right else 0 } ∧
    (splitPre t parent pos).nodes parent =
      (if (t.nodes ((t.nodes parent).child pos)).child 0 = 0 then
        { (t.nodes parent).insert_in_node pos
            ((t.nodes ((t.nodes parent).child pos)).dataAt (MIN_NUM_CHILDREN t.order)) with
          children := ((t.nodes parent).insert_in_node pos
            ((t.nodes ((t.nodes parent).child pos)).dataAt
              (MIN_NUM_CHILDREN t.order))).children.set (pos + 1) (t.count + 1) }
      else (t.nodes parent).insert_in_node pos
        ((t.nodes ((t.nodes parent).child pos)).dataAt (MIN_NUM_CHILDREN t.order))) := by
  have h1' := Ne.symm h1
  have h2' := Ne.symm h2
  have h3' := Ne.symm h3
  by_cases hl : (t.nodes ((t.nodes parent).child pos)).child 0 = 0
  · refine ⟨?_, ?_, ?_, ?_, ?_, ?_⟩ <;>
      simp [splitPre, Tree.new_node, Tree.modify, Function.update_noteq, Function.update_same,
        h1, h2, h3, h1', h2', h3', hl, Node.new, Node.dataAt]
    intro q hq1 hq2 hq3
    simp [Function.update_noteq, hq1, hq2, hq3]
  · refine ⟨?_, ?_, ?_, ?_, ?_, ?_⟩ <;>
      simp [splitPre, Tree.new_node, Tree.modify, Function.update_noteq, Function.update_same,
        h1, h2, h3, h1', h2', h3', hl, Node.new, Node.dataAt]
    intro q hq1 hq2 hq3
    simp [Function.update_noteq, hq1, hq2, hq3]

theorem splitPost_spec (t : Tree) (parent pos c p2 iter : Nat) (h1 : c ≠ parent) (h2 : c ≠ p2)
    (h3 : parent ≠ p2) :
    (splitPost t parent pos c p2 iter).order = t.order ∧
    (splitPost t parent pos c p2 iter).count = t.count ∧
    (∀ q, q ≠ parent → q ≠ p2 → (splitPost t parent pos c p2 iter).nodes q = t.nodes q) ∧
    (splitPost t parent pos c p2 iter).nodes p2 =
      { t.nodes p2 with
        children := (t.nodes p2).children.set (t.order + 1 - iter) ((t.nodes c).child (t.order + 1)) } ∧
    (splitPost t parent pos c p2 iter).nodes parent =
      { t.nodes parent with
        children := ((t.nodes parent).children.set pos (t.nodes c).page_id).set (pos + 1)
          (t.nodes p2).page_id } := by
  have h1' := Ne.symm h1
  have h2' := Ne.symm h2
  have h3' := Ne.symm h3
  refine ⟨rfl, rfl, ?_, ?_, ?_⟩
  · intro q hq1 hq2
    simp [splitPost, Tree.modify, Function.update_noteq, hq1, hq2]
  · simp [splitPost, Tree.modify, Function.update_noteq, Function.update_same, h1, h2, h3, h1',
      h2', h3']
  · simp [splitPost, Tree.modify, Function.update_noteq, Function.update_same, h1, h2, h3, h1',
      h2', h3']

end Btree


namespace Btree

/-- `split(parent, pos)` in closed form, for a parent with room for one more
key and a child that is a node of the tree in another page. -/
theorem split_spec (t : Tree) (parent pos : Nat) (ho : 1 ≤ t.order)
    (h1 : (t.nodes parent).child pos ≠ parent)
    (h2 : (t.nodes parent).child pos ≠ t.count + 1)
    (h3 : parent ≠ t.count + 1)
    (hcid : (t.nodes ((t.nodes parent).child pos)).page_id = (t.nodes parent).child pos)
    (hpos : pos ≤ (t.nodes parent).count) (hpc : (t.nodes parent).count ≤ t.order)
    (hpd : (t.nodes parent).data.length = t.order + 1)
    (hpl : (t.nodes parent).children.length = t.order + 2) :
    SplitSpec t parent pos (t.split parent pos) := by
  obtain ⟨hM1, hM2⟩ := min_children_le ho
  -- abbreviations
  generalize hc : (t.nodes parent).child pos = c at h1 h2 hcid
  generalize hit : (if (t.nodes c).child 0 = 0 then MIN_NUM_CHILDREN t.order
    else MIN_NUM_CHILDREN t.order + 1) = it
  have hit_le : MIN_NUM_CHILDREN t.order ≤ it ∧ it ≤ t.order + 1 := by
    rw [← hit]; split <;> omega
  have heq := split_eq t parent pos (by rw [hc]; exact h2)
  rw [hc, hit] at heq
  obtain ⟨a1, a2, a3, a4, a5, a6⟩ := splitPre_spec t parent pos (by rw [hc]; exact h1)
    (by rw [hc]; exact h2) h3
  rw [hc] at a3 a4 a5 a6
  obtain ⟨b1, b2, b3, b4⟩ := copyLoop_spec c (t.count + 1) h2 (t.order + 1 - it) 0 it
    (splitPre t parent pos)
  rw [a4, a5] at b4
  obtain ⟨c1, c2, c3, c4, c5⟩ := splitPost_spec
    (copyLoop c (t.count + 1) (t.order + 1 - it) 0 it (splitPre t parent pos))
    parent pos c (t.count + 1) it h1 h2 h3
  rw [b1, a1] at c1 c4
  rw [b2, a2] at c2
  have hcn : (copyLoop c (t.count + 1) (t.order + 1 - it) 0 it (splitPre t parent pos)).nodes c =
      { t.nodes c with
        count := MIN_NUM_CHILDREN t.order
        right := if (t.nodes c).child 0 = 0 then t.count + 1 else (t.nodes c).right } := by
    rw [b3 c h2, a4]
  have hpn : (copyLoop c (t.count + 1) (t.order + 1 - it) 0 it (splitPre t parent pos)).nodes
      parent = (splitPre t parent pos).nodes parent := b3 parent h3
  rw [hcn] at c4 c5
  rw [hpn, b4.page_id] at c5
  have hnew_d : (Node.new t.order (t.count + 1)).data.length = t.order + 1 := by
    simp [Node.new, MAX_DATA]
  have hnew_c : (Node.new t.order (t.count + 1)).children.length = t.order + 2 := by
    simp [Node.new, MAX_CHILDREN]
  have hins_len := insert_in_node_length (t.nodes parent) pos ((t.nodes c).dataAt
    (MIN_NUM_CHILDREN t.order))
  have hins_d := fun m => insert_in_node_dataAt (t.nodes parent) pos ((t.nodes c).dataAt
    (MIN_NUM_CHILDREN t.order)) m hpos (by omega)
  have hins_c := fun m => insert_in_node_child (t.nodes parent) pos ((t.nodes c).dataAt
    (MIN_NUM_CHILDREN t.order)) m hpos (by omega)
  rw [heq]
  refine
    { order := c1, count := c2, frame := ?_, c_node := ?_, n_page := ?_, n_count := ?_,
      n_right := ?_, n_dlen := ?_, n_clen := ?_, n_data := ?_, n_child := ?_, p_count := ?_,
      p_page := ?_, p_right := ?_, p_dlen := ?_, p_clen := ?_, p_data := ?_, p_child := ?_ }
  all_goals try simp only [hc, hit]
  · intro q hq1 hq2 hq3
    rw [c3 q hq1 hq3, b3 q hq3, a3 q hq1 hq2 hq3]
  · rw [c3 c h1 h2, hcn]
  · rw [c4]; exact b4.page_id
  · rw [c4]; simp only []; rw [b4.count]; simp [Node.new]
  · rw [c4]; simp only []; rw [b4.right]
  · rw [c4]; simp only []; rw [b4.data_len]; exact hnew_d
  · rw [c4]; simp only [List.length_set]; rw [b4.children_len]; exact hnew_c
  · intro m hm
    rw [c4]
    show ((copyLoop c (t.count + 1) (t.order + 1 - it) 0 it (splitPre t parent pos)).nodes
      (t.count + 1)).dataAt m = _
    rw [b4.dataAt (by simp only [hnew_d]; omega) m]
    have : 0 ≤ m ∧ m < 0 + (t.order + 1 - it) := by omega
    rw [if_pos this]
    simp [Node.dataAt]
  · intro m
    rw [c4]
    simp only [Node.child, getD_set]
    rw [b4.children_len]
    have hb := b4.child (by simp only [hnew_c]; omega)
    simp only [Node.child] at hb
    by_cases hm : m = t.order + 1 - it
    · subst hm
      have e1 : t.order + 1 - it < (Node.new t.order (t.count + 1)).children.length := by
        rw [hnew_c]; omega
      have e2 : it + (t.order + 1 - it) = t.order + 1 := by omega
      simp [e1, e2]
    · have e1 : ¬ (t.order + 1 - it = m ∧ t.order + 1 - it <
          (Node.new t.order (t.count + 1)).children.length) := fun hh => hm hh.1.symm
      rw [if_neg e1, hb m]
      by_cases hlt : m < t.order + 1 - it
      · have e2 : 0 ≤ m ∧ m < 0 + (t.order + 1 - it) := by omega
        have e3 : m ≤ t.order + 1 - it := by omega
        simp [e2, e3]
        intro hx
        exact absurd hx (by omega)
      · have e2 : ¬ (0 ≤ m ∧ m < 0 + (t.order + 1 - it)) := by omega
        have e3 : ¬ m ≤ t.order + 1 - it := by omega
        rw [if_neg e2, if_neg e3]
        exact new_child t.order (t.count + 1) m
  · rw [c5, a6]; split <;> rfl
  · rw [c5, a6]; split <;> rfl
  · rw [c5, a6]; split <;> rfl
  · rw [c5, a6]; split <;> simp [hins_len.1]
  · rw [c5, a6]; split <;> simp [hins_len.2]
  · intro m
    rw [c5, a6]
    have : ∀ n : Node, (if (t.nodes c).child 0 = 0 then
        { (t.nodes parent).insert_in_node pos ((t.nodes c).dataAt (MIN_NUM_CHILDREN t.order)) with
          children := n.children }
        else (t.nodes parent).insert_in_node pos
          ((t.nodes c).dataAt (MIN_NUM_CHILDREN t.order))).data =
        ((t.nodes parent).insert_in_node pos
          ((t.nodes c).dataAt (MIN_NUM_CHILDREN t.order))).data := by
      intro n; split <;> rfl
    simp only [Node.dataAt]
    have hd := hins_d m
    simp only [Node.dataAt] at hd
    rw [← hd]
    split <;> rfl
  · intro m
    have key : ((splitPost (copyLoop c (t.count + 1) (t.order + 1 - it) 0 it
        (splitPre t parent pos)) parent pos c (t.count + 1) it).nodes parent).children =
        (((if (t.nodes c).child 0 = 0 then
            ((t.nodes parent).insert_in_node pos
              ((t.nodes c).dataAt (MIN_NUM_CHILDREN t.order))).children.set (pos + 1) (t.count + 1)
          else ((t.nodes parent).insert_in_node pos
              ((t.nodes c).dataAt (MIN_NUM_CHILDREN t.order))).children).set pos c).set
          (pos + 1) (t.count + 1)) := by
      rw [c5, a6]
      by_cases hl : (t.nodes c).child 0 = 0
      · simp only [hl, if_true, hcid]
        rfl
      · simp only [hl, if_false, hcid]
        rfl
    have hl2 := hins_len.2
    have hcm := hins_c m
    have hfin : ∀ l : List Nat, l.length = t.order + 2 →
        ((l.set pos c).set (pos + 1) (t.count + 1)).getD m 0 =
          if m = pos + 1 then t.count + 1 else if m = pos then c else l.getD m 0 := by
      intro l hlen
      rw [getD_set, getD_set, List.length_set, hlen]
      by_cases e2 : m = pos + 1
      · subst e2
        have e3 : pos + 1 < t.order + 2 := by omega
        simp [e3]
      · have e3 : ¬ (pos + 1 = m ∧ pos + 1 < t.order + 2) := fun hh => e2 hh.1.symm
        rw [if_neg e3, if_neg e2]
        by_cases e1 : m = pos
        · subst e1
          have e4 : m < t.order + 2 := by omega
          simp [e4]
        · have e4 : ¬ (pos = m ∧ pos < t.order + 2) := fun hh => e1 hh.1.symm
          rw [if_neg e4, if_neg e1]
    have hP : ∀ l : List Nat, l.getD m 0 = ((t.nodes parent).insert_in_node pos
        ((t.nodes c).dataAt (MIN_NUM_CHILDREN t.order))).child m ∨ m = pos + 1 →
        (if m = pos + 1 then t.count + 1 else if m = pos then c else l.getD m 0) =
        if m = pos then c
          else if m = pos + 1 then t.count + 1
          else if pos + 1 < m ∧ m ≤ (t.nodes parent).count + 1 then (t.nodes parent).child (m - 1)
          else (t.nodes parent).child m := by
      intro l hl
      by_cases e2 : m = pos + 1
      · subst e2
        have : ¬ pos + 1 = pos := by omega
        simp [this]
      · rw [if_neg e2, if_neg e2]
        by_cases e1 : m = pos
        · rw [if_pos e1, if_pos e1]
        · rw [if_neg e1, if_neg e1]
          rcases hl with hl | hl
          · rw [hl, hcm]
            by_cases e5 : pos + 1 < m ∧ m ≤ (t.nodes parent).count + 1
            · have e6 : pos < m ∧ m ≤ (t.nodes parent).count + 1 := by omega
              rw [if_pos e5, if_pos e6]
            · have e6 : ¬ (pos < m ∧ m ≤ (t.nodes parent).count + 1) := by omega
              rw [if_neg e5, if_neg e6]
          · exact absurd hl e2
    show ((splitPost (copyLoop c (t.count + 1) (t.order + 1 - it) 0 it
        (splitPre t parent pos)) parent pos c (t.count + 1) it).nodes parent).children.getD m 0 = _
    rw [key]
    by_cases hl : (t.nodes c).child 0 = 0
    · rw [if_pos hl, hfin _ (by rw [List.length_set, hl2, hpl])]
      refine hP _ ?_
      by_cases e2 : m = pos + 1
      · exact Or.inr e2
      · left
        rw [getD_set]
        have e3 : ¬ (pos + 1 = m ∧ pos + 1 < ((t.nodes parent).insert_in_node pos
            ((t.nodes c).dataAt (MIN_NUM_CHILDREN t.order))).children.length) :=
          fun hh => e2 hh.1.symm
        rw [if_neg e3]
        rfl
    · rw [if_neg hl, hfin _ (by rw [hl2, hpl])]
      exact hP _ (Or.inl rfl)

end Btree

namespace Btree

set_option maxRecDepth 100000 in
/-- C27 (counterexample).  `Btree::insert` is declared `void` and does not
look for the key: after the inserts of `(5, 1)` and `(5, 2)` into a fresh tree
of order 201 the record count is 2 and the root leaf holds both pairs. -/
theorem insert_duplicate_stored_twice :
    ((Tree.create 201).insertAll [⟨5, 1⟩, ⟨5, 2⟩]).map
        (fun t => (t.record_count, (t.nodes ROOT_PAGE_NUM).count,
          (t.nodes ROOT_PAGE_NUM).dataAt 0, (t.nodes ROOT_PAGE_NUM).dataAt 1)) =
      some (2, 2, ⟨5, 2⟩, ⟨5, 1⟩) := by
  decide!

@[simp] theorem modify_record (t : Tree) (p : Nat) (f : Node → Node) :
    (t.modify p f).record_count = t.record_count := rfl

theorem copyLoop_record (src dst : Nat) : ∀ (k i iter : Nat) (t : Tree),
    (copyLoop src dst k i iter t).record_count = t.record_count
  | 0, _, _, _ => rfl
  | k + 1, i, iter, t => by
    unfold copyLoop
    simp only [copyLoop_record src dst k, modify_record]

theorem split_record (t : Tree) (parent pos : Nat) :
    (t.split parent pos).record_count = t.record_count := by
  unfold Tree.split
  simp only [modify_record, copyLoop_record]
  split <;> rfl

theorem split_root_record (t : Tree) : t.split_root.record_count = t.record_count := by
  unfold Tree.split_root
  simp only [modify_record, copyLoop_record]
  rfl

theorem descend_record (t : Tree) (v : Pair) : ∀ (fuel : Nat) (stack ipos : List Nat)
    (r : Tree × List Nat × List Nat), descend t v fuel stack ipos = some r →
    r.1.record_count = t.record_count
  | 0, _, _, _, h => by simp [descend] at h
  | fuel + 1, stack, ipos, r, h => by
    unfold descend at h
    cases stack with
    | nil => simp at h
    | cons page rest =>
      simp only at h
      split at h
      · exact descend_record t v fuel _ _ r h
      · cases h
        rfl

theorem unwind_record : ∀ (stack ipos : List Nat) (t : Tree),
    (unwind t stack ipos).record_count = t.record_count
  | node_cur :: parent :: stack, _ :: pos :: ipos, t => by
    rw [unwind, unwind_record (parent :: stack) (pos :: ipos)]
    split
    · exact split_record _ _ _
    · rfl
  | [], _, t => by simp [unwind]
  | [_], _, t => by simp [unwind]
  | _ :: _ :: _, [], t => by simp [unwind]
  | _ :: _ :: _, [_], t => by simp [unwind]

/-- C27, amended: `Btree::insert` has no result and makes no test for an equal
key.  Every insert that returns increases the record count by one; and on a
tree whose root is a leaf (its child pointer at the insert position is 0, the
test of the code) with room for one more pair it returns, with the pair
stored at the first position whose key is not smaller and the pairs from that
position on, a pair with the same key included, moved up by one. -/
theorem insert_without_duplicate_test (t : Tree) (v : Pair) :
    (∀ t1, t.insert v = some t1 → t1.record_count = t.record_count + 1) ∧
    ((t.nodes ROOT_PAGE_NUM).child
        (scanLt (t.nodes ROOT_PAGE_NUM) v (t.nodes ROOT_PAGE_NUM).count 0) = 0 →
      (t.nodes ROOT_PAGE_NUM).count < t.order →
      (t.nodes ROOT_PAGE_NUM).data.length = t.order + 1 →
      ∃ t1, t.insert v = some t1 ∧ t1.record_count = t.record_count + 1 ∧
        (t1.nodes ROOT_PAGE_NUM).count = (t.nodes ROOT_PAGE_NUM).count + 1 ∧
        ∀ m, (t1.nodes ROOT_PAGE_NUM).dataAt m =
          if m = scanLt (t.nodes ROOT_PAGE_NUM) v (t.nodes ROOT_PAGE_NUM).count 0 then v
          else if scanLt (t.nodes ROOT_PAGE_NUM) v (t.nodes ROOT_PAGE_NUM).count 0 < m ∧
              m ≤ (t.nodes ROOT_PAGE_NUM).count
            then (t.nodes ROOT_PAGE_NUM).dataAt (m - 1)
          else (t.nodes ROOT_PAGE_NUM).dataAt m) := by
  constructor
  · intro t1 h
    unfold Tree.insert at h
    cases hd : descend t v MAX_LEVEL [ROOT_PAGE_NUM] [] with
    | none => simp [hd] at h
    | some r =>
      obtain ⟨t2, stack, ipos⟩ := r
      simp only [hd, Option.some.injEq] at h
      have h1 := descend_record t v MAX_LEVEL _ _ _ hd
      have h2 := unwind_record stack ipos t2
      subst h
      show (if _ then _ else _ : Tree).record_count + 1 = _
      split
      · rw [split_root_record, h2, h1]
      · rw [h2, h1]
  · intro hleaf hroom hlen
    have hpos := (scanLt_pos (t.nodes ROOT_PAGE_NUM) v).1
    have hd : descend t v MAX_LEVEL [ROOT_PAGE_NUM] [] =
        some (t.modify ROOT_PAGE_NUM (fun n => n.insert_in_node
          (scanLt (t.nodes ROOT_PAGE_NUM) v (t.nodes ROOT_PAGE_NUM).count 0) v),
          [ROOT_PAGE_NUM], [scanLt (t.nodes ROOT_PAGE_NUM) v (t.nodes ROOT_PAGE_NUM).count 0]) := by
      show descend t v (7 + 1) [ROOT_PAGE_NUM] [] = _
      unfold descend
      simp only [hleaf, ne_eq, not_true_eq_false, if_false]
    have hnov : ((t.modify ROOT_PAGE_NUM (fun n => n.insert_in_node
        (scanLt (t.nodes ROOT_PAGE_NUM) v (t.nodes ROOT_PAGE_NUM).count 0) v)).nodes
        ROOT_PAGE_NUM).is_overflow t.order = false := by
      rw [modify_nodes_same]
      simp only [Node.is_overflow, (insert_in_node_fields _ _ _).1, decide_eq_false_iff_not]
      omega
    refine ⟨_, by
      unfold Tree.insert
      simp only [hd, unwind]
      rfl, ?_, ?_, ?_⟩
    · show (if _ then _ else _ : Tree).record_count + 1 = _
      rw [if_neg (by rw [show (t.modify ROOT_PAGE_NUM _).order = t.order from rfl, hnov]; simp)]
      rfl
    · show ((if _ then _ else _ : Tree).nodes ROOT_PAGE_NUM).count = _
      rw [if_neg (by rw [show (t.modify ROOT_PAGE_NUM _).order = t.order from rfl, hnov]; simp)]
      rw [modify_nodes_same]
      rfl
    · intro m
      show ((if _ then _ else _ : Tree).nodes ROOT_PAGE_NUM).dataAt m = _
      rw [if_neg (by rw [show (t.modify ROOT_PAGE_NUM _).order = t.order from rfl, hnov]; simp)]
      rw [modify_nodes_same]
      exact insert_in_node_dataAt _ _ v m hpos (by omega)

set_option maxRecDepth 100000 in
/-- Witness for C27: the tree of order 201 that holds the pair `(5, 1)`
receives the pair `(5, 2)`; the record count becomes 2. -/
theorem insert_without_duplicate_test_witness :
    ∃ t1, (((Tree.create 201).insert ⟨5, 1⟩).getD (Tree.create 201)).insert ⟨5, 2⟩ = some t1 ∧
      t1.record_count = 2 ∧ (t1.nodes ROOT_PAGE_NUM).count = 2 := by
  obtain ⟨t1, h1, h2, h3, _⟩ :=
    (insert_without_duplicate_test (((Tree.create 201).insert ⟨5, 1⟩).getD (Tree.create 201))
      ⟨5, 2⟩).2 (by decide!) (by decide!) (by decide!)
  exact ⟨t1, h1, h2, h3⟩

end Btree

namespace Btree

/-- The node left by the copying loop on a new node, followed by the store of
one more child pointer. -/
theorem copied_new (src res : Node) (order p k iter : Nat) (hk : k ≤ order + 1)
    (h : Copied src (Node.new order p) k 0 iter res) :
    res.page_id = p ∧ res.right = 0 ∧ res.count = k ∧ res.data.length = order + 1 ∧
    res.children.length = order + 2 ∧
    (∀ m, m < k → res.dataAt m = src.dataAt (iter + m)) ∧
    (∀ m, (res.children.set k (src.child (iter + k))).getD m 0 =
      if m ≤ k then src.child (iter + m) else 0) := by
  have hd : (Node.new order p).data.length = order + 1 := by simp [Node.new, MAX_DATA]
  have hc : (Node.new order p).children.length = order + 2 := by simp [Node.new, MAX_CHILDREN]
  refine ⟨h.page_id, h.right, ?_, h.data_len.trans hd, h.children_len.trans hc, ?_, ?_⟩
  · rw [h.count]
    simp [Node.new]
  · intro m hm
    rw [h.dataAt (by rw [hd]; omega) m, if_pos (by omega)]
    simp
  · intro m
    have hb := h.child (by rw [hc]; omega) m
    simp only [Node.child] at hb
    rw [getD_set, h.children_len, hc]
    by_cases e : m = k
    · subst e
      have e1 : m < order + 2 := by omega
      simp [e1]
    · have e1 : ¬ (k = m ∧ k < order + 2) := fun hh => e hh.1.symm
      rw [if_neg e1, hb]
      by_cases e2 : m < k
      · rw [if_pos (by omega), if_pos (by omega)]
        simp [Node.child]
      · rw [if_neg (by omega), if_neg (by omega)]
        exact new_child order p m

/-- `split_root` in closed form. -/
theorem split_root_spec (t : Tree) (ho : 1 ≤ t.order) (hc : 1 ≤ t.count)
    (hd : (t.nodes ROOT_PAGE_NUM).data.length = t.order + 1)
    (hl : (t.nodes ROOT_PAGE_NUM).children.length = t.order + 2) :
    RootSplit t t.split_root := by
  obtain ⟨hM1, hM2⟩ := min_children_le ho
  have hr1 : ROOT_PAGE_NUM ≠ t.count + 1 := by unfold ROOT_PAGE_NUM; omega
  have hr2 : ROOT_PAGE_NUM ≠ t.count + 2 := by unfold ROOT_PAGE_NUM; omega
  have h12 : t.count + 1 ≠ t.count + 2 := by omega
  -- the tree after the two calls of `new_node`
  obtain ⟨t0, ht0⟩ : ∃ x, x = t.new_node.2.new_node.2 := ⟨_, rfl⟩
  have o0 : t0.order = t.order := by rw [ht0]; rfl
  have c0 : t0.count = t.count + 2 := by rw [ht0]; rfl
  have n0 : ∀ q, q ≠ t.count + 1 → q ≠ t.count + 2 → t0.nodes q = t.nodes q := by
    intro q h1 h2
    rw [ht0]
    simp [Tree.new_node, Function.update_noteq, h1, h2]
  have n01 : t0.nodes (t.count + 1) = Node.new t.order (t.count + 1) := by
    rw [ht0]
    simp [Tree.new_node, Function.update_noteq, h12]
  have n02 : t0.nodes (t.count + 2) = Node.new t.order (t.count + 2) := by
    rw [ht0]
    simp [Tree.new_node]
  have n0r : t0.nodes ROOT_PAGE_NUM = t.nodes ROOT_PAGE_NUM := n0 _ hr1 hr2
  -- the first copying loop
  obtain ⟨m, hm⟩ : ∃ x, x = MIN_NUM_CHILDREN t.order := ⟨_, rfl⟩
  rw [← hm] at hM1 hM2
  obtain ⟨tA, htA⟩ : ∃ x, x = copyLoop ROOT_PAGE_NUM (t.count + 1) m 0 0 t0 := ⟨_, rfl⟩
  obtain ⟨a1, a2, a3, a4⟩ := copyLoop_spec ROOT_PAGE_NUM (t.count + 1) hr1 m 0 0 t0
  rw [← htA, n0r, n01] at a4
  rw [← htA] at a1 a2 a3
  obtain ⟨l1, l2, l3, l4, l5, l6, l7⟩ := copied_new _ _ _ _ m 0 (by omega) a4
  have nAr : tA.nodes ROOT_PAGE_NUM = t.nodes ROOT_PAGE_NUM := (a3 _ hr1).trans n0r
  have nA2 : tA.nodes (t.count + 2) = Node.new t.order (t.count + 2) :=
    (a3 _ (Ne.symm h12)).trans n02
  -- the statements between the loops
  obtain ⟨tB, htB⟩ : ∃ x, x = tA.modify (t.count + 1) (fun n =>
    { n with children := n.children.set m ((tA.nodes ROOT_PAGE_NUM).child m) }) := ⟨_, rfl⟩
  obtain ⟨tC, htC⟩ : ∃ x, x = tB.modify ROOT_PAGE_NUM (fun n =>
    { n with data := n.data.set 0 (n.dataAt m) }) := ⟨_, rfl⟩
  obtain ⟨tD, htD⟩ : ∃ x, x = tC.modify (t.count + 1) (fun n =>
    { n with right := (tC.nodes (t.count + 2)).page_id }) := ⟨_, rfl⟩
  have oD : tD.order = t.order := by rw [htD, htC, htB]; exact a1.trans o0
  have cD : tD.count = t.count + 2 := by rw [htD, htC, htB]; exact a2.trans c0
  have nD : ∀ q, q ≠ ROOT_PAGE_NUM → q ≠ t.count + 1 → tD.nodes q = tA.nodes q := by
    intro q h1 h2
    rw [htD, htC, htB]
    simp [Tree.modify, Function.update_noteq, h1, h2]
  have nD2 : tD.nodes (t.count + 2) = Node.new t.order (t.count + 2) :=
    (nD _ (Ne.symm hr2) (Ne.symm h12)).trans nA2
  have nC2 : tC.nodes (t.count + 2) = Node.new t.order (t.count + 2) := by
    rw [htC, htB]
    simp [Tree.modify, Function.update_noteq, Ne.symm hr2, Ne.symm h12, nA2]
  have nDr : tD.nodes ROOT_PAGE_NUM =
      { t.nodes ROOT_PAGE_NUM with
        data := (t.nodes ROOT_PAGE_NUM).data.set 0 ((t.nodes ROOT_PAGE_NUM).dataAt m) } := by
    rw [htD, htC, htB]
    simp [Tree.modify, Function.update_noteq, hr1, Ne.symm hr1, nAr]
  have nD1 : tD.nodes (t.count + 1) =
      { tA.nodes (t.count + 1) with
        children := (tA.nodes (t.count + 1)).children.set m ((t.nodes ROOT_PAGE_NUM).child m)
        right := t.count + 2 } := by
    rw [htD, nC2, htC, htB]
    simp [Tree.modify, Function.update_noteq, hr1, Ne.symm hr1, nAr, Node.new]
  -- the second copying loop
  obtain ⟨it, hit⟩ : ∃ x, x = if (tD.nodes ROOT_PAGE_NUM).child 0 ≠ 0 then m + 1 else m :=
    ⟨_, rfl⟩
  have hit1 : it = if (t.nodes ROOT_PAGE_NUM).child 0 ≠ 0 then m + 1 else m := by
    rw [hit, nDr]
    rfl
  have hit_le : m ≤ it ∧ it ≤ t.order + 1 := by
    rw [hit1]
    split <;> omega
  obtain ⟨tE, htE⟩ : ∃ x, x = copyLoop ROOT_PAGE_NUM (t.count + 2) (tD.order + 1 - it) 0 it tD :=
    ⟨_, rfl⟩
  obtain ⟨b1, b2, b3, b4⟩ :=
    copyLoop_spec ROOT_PAGE_NUM (t.count + 2) hr2 (tD.order + 1 - it) 0 it tD
  rw [← htE, nDr, nD2, oD] at b4
  rw [← htE] at b1 b2 b3
  obtain ⟨r1, r2, r3, r4, r5, r6, r7⟩ :=
    copied_new _ _ _ _ (t.order + 1 - it) it (by omega) b4
  have oE : tE.order = t.order := b1.trans oD
  have nEr : tE.nodes ROOT_PAGE_NUM = tD.nodes ROOT_PAGE_NUM := b3 _ hr2
  have nE1 : tE.nodes (t.count + 1) = tD.nodes (t.count + 1) := b3 _ h12
  -- the statements after the loops
  obtain ⟨tF, htF⟩ : ∃ x, x = tE.modify (t.count + 2) (fun n =>
    { n with children :=
        n.children.set (tE.order + 1 - it) ((tE.nodes ROOT_PAGE_NUM).child (tE.order + 1)) }) :=
    ⟨_, rfl⟩
  obtain ⟨tG, htG⟩ : ∃ x, x = tF.modify ROOT_PAGE_NUM (fun n =>
    { n with children := n.children.set 0 (tF.nodes (t.count + 1)).page_id }) := ⟨_, rfl⟩
  obtain ⟨tH, htH⟩ : ∃ x, x = tG.modify ROOT_PAGE_NUM (fun n =>
    { n with children := n.children.set 1 (tG.nodes (t.count + 2)).page_id }) := ⟨_, rfl⟩
  have hfin : t.split_root = tH.modify ROOT_PAGE_NUM (fun n => { n with count := 1 }) := by
    subst htH
    subst htG
    subst htF
    subst htE
    subst hit
    subst htD
    subst htC
    subst htB
    subst htA
    subst hm
    subst ht0
    rfl
  have nF1 : tF.nodes (t.count + 1) = tD.nodes (t.count + 1) := by
    rw [htF, modify_nodes_ne _ _ h12, nE1]
  have nFr : tF.nodes ROOT_PAGE_NUM = tD.nodes ROOT_PAGE_NUM := by
    rw [htF, modify_nodes_ne _ _ hr2, nEr]
  have nF2 : tF.nodes (t.count + 2) = { tE.nodes (t.count + 2) with
      children := (tE.nodes (t.count + 2)).children.set (t.order + 1 - it)
        ((tD.nodes ROOT_PAGE_NUM).child (it + (t.order + 1 - it))) } := by
    rw [htF, modify_nodes_same, oE, nEr]
    have e : it + (t.order + 1 - it) = t.order + 1 := by omega
    rw [e]
  have nG2 : tG.nodes (t.count + 2) = tF.nodes (t.count + 2) := by
    rw [htG, modify_nodes_ne _ _ (Ne.symm hr2)]
  have e1 : (tF.nodes (t.count + 1)).page_id = t.count + 1 := by
    rw [nF1, nD1]
    exact l1
  have e2 : (tG.nodes (t.count + 2)).page_id = t.count + 2 := by
    rw [nG2, nF2]
    exact r1
  have nIr : (tH.modify ROOT_PAGE_NUM (fun n => { n with count := 1 })).nodes ROOT_PAGE_NUM =
      { t.nodes ROOT_PAGE_NUM with
        data := (t.nodes ROOT_PAGE_NUM).data.set 0 ((t.nodes ROOT_PAGE_NUM).dataAt m)
        children := ((t.nodes ROOT_PAGE_NUM).children.set 0 (t.count + 1)).set 1 (t.count + 2)
        count := 1 } := by
    rw [modify_nodes_same, htH, modify_nodes_same, e2, htG, modify_nodes_same, e1, nFr, nDr]
  have nI : ∀ q, q ≠ ROOT_PAGE_NUM →
      (tH.modify ROOT_PAGE_NUM (fun n => { n with count := 1 })).nodes q = tF.nodes q := by
    intro q hq
    rw [modify_nodes_ne _ _ hq, htH, modify_nodes_ne _ _ hq, htG, modify_nodes_ne _ _ hq]
  rw [hfin]
  have hm1 : MIN_NUM_CHILDREN t.order = m := hm.symm
  refine ⟨?_, ?_, ?_, ?_, ?_, ?_, ?_, ?_, ?_, ?_, ?_, ?_, ?_, ?_, ?_, ?_, ?_, ?_, ?_, ?_, ?_,
    ?_, ?_, ?_, ?_⟩
  all_goals try simp only [hm1]
  all_goals try simp only [← hit1]
  · rw [modify_order, htH, modify_order, htG, modify_order, htF, modify_order, oE]
  · show tH.count = _
    rw [htH, htG, htF]
    exact b2.trans cD
  · intro q h1 h2 h3
    rw [nI q h1, htF, modify_nodes_ne _ _ h3, b3 q h3, nD q h1 h2, a3 q h2, n0 q h2 h3]
  · rw [nIr]
  · rw [nIr]
  · rw [nIr]
  · rw [nIr]
    simp [hd]
  · rw [nIr]
    simp [hl]
  · rw [nIr]
    simp [Node.dataAt, getD_set, hd]
  · rw [nIr]
    simp [Node.child, getD_set, hl]
  · rw [nIr]
    simp [Node.child, getD_set, hl]
  · rw [nI _ (Ne.symm hr1), nF1, nD1]
    exact l1
  · rw [nI _ (Ne.symm hr1), nF1, nD1]
  · rw [nI _ (Ne.symm hr1), nF1, nD1]
    exact l3
  · rw [nI _ (Ne.symm hr1), nF1, nD1]
    exact l4
  · rw [nI _ (Ne.symm hr1), nF1, nD1]
    simp [l5]
  · intro k hk
    rw [nI _ (Ne.symm hr1), nF1, nD1]
    have := l6 k hk
    rw [Nat.zero_add] at this
    exact this
  · intro k
    rw [nI _ (Ne.symm hr1), nF1, nD1]
    have := l7 k
    simp only [Nat.zero_add] at this
    exact this
  · rw [nI _ (Ne.symm hr2), nF2]
    exact r1
  · rw [nI _ (Ne.symm hr2), nF2]
    exact r2
  · rw [nI _ (Ne.symm hr2), nF2]
    exact r3
  · rw [nI _ (Ne.symm hr2), nF2]
    exact r4
  · rw [nI _ (Ne.symm hr2), nF2]
    simp [r5]
  · intro k hk
    rw [nI _ (Ne.symm hr2), nF2]
    show (tE.nodes (t.count + 2)).dataAt k = _
    rw [r6 k hk]
    simp only [Node.dataAt, getD_set]
    rw [if_neg (by omega)]
  · intro k
    rw [nI _ (Ne.symm hr2), nF2, nDr]
    exact r7 k

end Btree

namespace Btree

end Btree

/-! ## B-tree: search trees page by page -/

namespace Btree

theorem rel_of_lt {s : Bool} {a b : Nat} (h : a < b) : rel s a b := by
  cases s <;> simp [rel] <;> omega

theorem rel_le {s : Bool} {a b : Nat} (h : rel s a b) : a ≤ b := by
  cases s <;> simp [rel] at h <;> omega

theorem rel_le_left {s : Bool} {a b c : Nat} (h1 : a ≤ b) (h2 : rel s b c) : rel s a c := by
  cases s <;> simp [rel] at h2 ⊢ <;> omega

theorem rel_le_right {s : Bool} {a b c : Nat} (h1 : rel s a b) (h2 : b ≤ c) : rel s a c := by
  cases s <;> simp [rel] at h1 ⊢ <;> omega

theorem rel_trans {s : Bool} {a b c : Nat} (h1 : rel s a b) (h2 : rel s b c) : rel s a c :=
  rel_le_left (rel_le h1) h2

theorem rel_weak {a b : Nat} (h : a ≤ b) : rel false a b := by
  simp [rel]; exact h

theorem rel_strict {a b : Nat} : rel true a b ↔ a < b := by
  simp [rel]

/-- A page of a search tree has height 0 exactly when its first child pointer
is 0. -/
theorem ok_leaf_iff {t : Tree} {strict : Bool} {K : Nat → Prop} {G : Shape} {s q : Nat}
    (hok : Ok t strict K G s) (h1 : 1 ≤ q) (h2 : q ≤ t.count) :
    G.ht q = 0 ↔ (t.nodes q).child 0 = 0 := by
  constructor
  · intro h
    exact hok.leaf q h1 h2 h 0
  · intro h
    by_contra hne
    have := (hok.kid q 0 h1 h2 hne (Nat.zero_le _)).1
    omega

/-- The number of keys of a page of a search tree. -/
theorem ok_count_le {t : Tree} {strict : Bool} {K : Nat → Prop} {G : Shape} {s q : Nat}
    (hok : Ok t strict K G s) (h1 : 1 ≤ q) (h2 : q ≤ t.count) :
    (t.nodes q).count ≤ t.order + 1 := by
  have := (hok.node q h1 h2).2.2.2.1
  split at this <;> omega

/-- Two keys of a page, in the order of their positions. -/
theorem ok_sorted_le {t : Tree} {strict : Bool} {K : Nat → Prop} {G : Shape} {s q i j : Nat}
    (hok : Ok t strict K G s) (h1 : 1 ≤ q) (h2 : q ≤ t.count) (hij : i ≤ j)
    (hj : j < (t.nodes q).count) :
    ((t.nodes q).dataAt i).key ≤ ((t.nodes q).dataAt j).key := by
  rcases Nat.eq_or_lt_of_le hij with e | e
  · rw [e]
  · exact rel_le ((hok.node q h1 h2).2.2.2.2.1 i j e hj)

/-- The keys below a child pointer lie within the bounds of the page. -/
theorem bounds_widen {t : Tree} {strict : Bool} {K : Nat → Prop} {G : Shape} {s q i k : Nat}
    (hok : Ok t strict K G s) (h1 : 1 ≤ q) (h2 : q ≤ t.count) (hi : i ≤ (t.nodes q).count)
    (hlo : inLo (lob (t.nodes q) (G.lo q) i) k) (hhi : inHi strict (hib (t.nodes q) (G.hi q) i) k) :
    inLo (G.lo q) k ∧ inHi strict (G.hi q) k := by
  obtain ⟨_, _, _, _, _, hkeys⟩ := hok.node q h1 h2
  constructor
  · unfold lob at hlo
    by_cases h0 : i = 0
    · rw [if_pos h0] at hlo
      exact hlo
    · rw [if_neg h0] at hlo
      intro l hl
      have ha := (hkeys (i - 1) (by omega)).2.1 l hl
      have hb := hlo _ rfl
      omega
  · unfold hib at hhi
    by_cases h0 : i < (t.nodes q).count
    · rw [if_pos h0] at hhi
      intro u hu
      exact rel_trans (hhi _ rfl) ((hkeys i h0).2.2 u hu)
    · rw [if_neg h0] at hhi
      exact hhi

/-- The keys stored below a page lie within the bounds of the page. -/
theorem stored_bounds {t : Tree} {strict : Bool} {K : Nat → Prop} {G : Shape} {s : Nat}
    (hok : Ok t strict K G s) {q : Nat} {x : Pair} (h : Tree.Stored t q x) :
    1 ≤ q → q ≤ t.count → inLo (G.lo q) x.key ∧ inHi strict (G.hi q) x.key := by
  induction h with
  | @leaf p i h0 hi =>
    intro h1 h2
    exact ((hok.node p h1 h2).2.2.2.2.2 i hi).2
  | @node p i x h0 hi _ ih =>
    intro h1 h2
    have hne : G.ht p ≠ 0 := fun e => h0 ((ok_leaf_iff hok h1 h2).1 e)
    obtain ⟨k1, k2, _, k4, k5, _⟩ := hok.kid p i h1 h2 hne hi
    obtain ⟨b1, b2⟩ := ih (by omega) k2
    rw [k4] at b1
    rw [k5] at b2
    exact bounds_widen hok h1 h2 hi b1 b2

/-- The pages of the tree are among the pages 1 to `count`. -/
theorem reachable_used {t : Tree} {strict : Bool} {K : Nat → Prop} {G : Shape} {s : Nat}
    (hok : Ok t strict K G s) {q : Nat} (h : Tree.Reachable t q) : 1 ≤ q ∧ q ≤ t.count := by
  induction h with
  | root => exact ⟨le_refl _, hok.count_pos⟩
  | @child p i _ h0 hi ih =>
    have hne : G.ht p ≠ 0 := fun e => h0 ((ok_leaf_iff hok ih.1 ih.2).1 e)
    obtain ⟨k1, k2, _⟩ := hok.kid p i ih.1 ih.2 hne hi
    exact ⟨by omega, k2⟩

/-- In a search tree the keys stored below `children[i]` are at most `data[i]`
(less when the order is strict) and those below `children[i + 1]` are at least
`data[i]`. -/
theorem separator_bounds {t : Tree} {strict : Bool} {K : Nat → Prop} {G : Shape} {s : Nat}
    (hok : Ok t strict K G s) {p i : Nat} {x : Pair} (hp : Tree.Reachable t p)
    (h0 : (t.nodes p).child 0 ≠ 0) (hi : i < (t.nodes p).count) :
    (Tree.Stored t ((t.nodes p).child i) x → rel strict x.key ((t.nodes p).dataAt i).key) ∧
    (Tree.Stored t ((t.nodes p).child (i + 1)) x → ((t.nodes p).dataAt i).key ≤ x.key) := by
  obtain ⟨h1, h2⟩ := reachable_used hok hp
  have hne : G.ht p ≠ 0 := fun e => h0 ((ok_leaf_iff hok h1 h2).1 e)
  constructor
  · intro hs
    obtain ⟨k1, k2, _, _, k5, _⟩ := hok.kid p i h1 h2 hne (by omega)
    have hb := (stored_bounds hok hs (by omega) k2).2
    rw [k5] at hb
    unfold hib at hb
    rw [if_pos hi] at hb
    exact hb _ rfl
  · intro hs
    obtain ⟨k1, k2, _, k4, _, _⟩ := hok.kid p (i + 1) h1 h2 hne (by omega)
    have hb := (stored_bounds hok hs (by omega) k2).1
    rw [k4] at hb
    unfold lob at hb
    rw [if_neg (by omega)] at hb
    exact hb _ rfl

/-- In a search tree with strict order `find` returns every stored pair, from
any page above it, when started with fuel for the height of the page. -/
theorem findFrom_stored {t : Tree} {K : Nat → Prop} {G : Shape} {s : Nat}
    (hok : Ok t true K G s) {q : Nat} {x : Pair} (h : Tree.Stored t q x) :
    1 ≤ q → q ≤ t.count → ∀ (fuel r : Nat), G.ht q < fuel →
      findFrom t ⟨x.key, r⟩ fuel q = some x := by
  induction h with
  | @leaf p i h0 hi =>
    intro h1 h2 fuel r hf
    obtain ⟨f, rfl⟩ : ∃ f, fuel = f + 1 := ⟨fuel - 1, by omega⟩
    unfold findFrom
    simp only [h0, ne_eq, not_true_eq_false, if_false, Option.some.injEq]
    obtain ⟨s1, s2, s3⟩ := scanLt_pos (t.nodes p) ⟨((t.nodes p).dataAt i).key, r⟩
    have hsort := (hok.node p h1 h2).2.2.2.2.1
    have e : scanLt (t.nodes p) ⟨((t.nodes p).dataAt i).key, r⟩ (t.nodes p).count 0 = i := by
      rcases Nat.lt_trichotomy
        (scanLt (t.nodes p) ⟨((t.nodes p).dataAt i).key, r⟩ (t.nodes p).count 0) i with c | c | c
      · have a1 := s3 (by omega)
        have a2 := rel_strict.1 (hsort _ _ c hi)
        simp only at a1
        omega
      · exact c
      · have a1 := s2 i c
        simp only at a1
        omega
    rw [e]
  | @node p i x h0 hi hsub ih =>
    intro h1 h2 fuel r hf
    obtain ⟨f, rfl⟩ : ∃ f, fuel = f + 1 := ⟨fuel - 1, by omega⟩
    have hne : G.ht p ≠ 0 := fun e => h0 ((ok_leaf_iff hok h1 h2).1 e)
    obtain ⟨k1, k2, k3, k4, k5, _⟩ := hok.kid p i h1 h2 hne hi
    obtain ⟨b1, b2⟩ := stored_bounds hok hsub (by omega) k2
    rw [k4] at b1
    rw [k5] at b2
    unfold findFrom
    simp only [h0, ne_eq, not_false_eq_true, if_true]
    obtain ⟨s1, s2, s3⟩ := scanLe_pos (t.nodes p) ⟨x.key, r⟩
    have e : scanLe (t.nodes p) ⟨x.key, r⟩ (t.nodes p).count 0 = i := by
      rcases Nat.lt_trichotomy (scanLe (t.nodes p) ⟨x.key, r⟩ (t.nodes p).count 0) i with c | c | c
      · have a1 := s3 (by omega)
        simp only at a1
        unfold lob at b1
        rw [if_neg (by omega)] at b1
        have a2 := b1 _ rfl
        have a3 := ok_sorted_le hok h1 h2 (by omega :
          scanLe (t.nodes p) ⟨x.key, r⟩ (t.nodes p).count 0 ≤ i - 1) (by omega)
        omega
      · exact c
      · have a1 := s2 i c
        simp only at a1
        unfold hib at b2
        rw [if_pos (by omega)] at b2
        have a2 := rel_strict.1 (b2 _ rfl)
        omega
    rw [e]
    exact ih (by omega) k2 f r (by omega)

end Btree

/-! ## B-tree: the first tree and the insertion in a leaf -/

namespace Btree

/-- The conditions on a node depend on the node only. -/
theorem nodeOk_congr {t t1 : Tree} {strict : Bool} {K K1 : Nat → Prop} {sl q : Nat}
    {lo hi : Option Nat} (ho : t1.order = t.order) (hn : t1.nodes q = t.nodes q)
    (hK : ∀ k, K k → K1 k) (h : NodeOk t strict K sl q lo hi) :
    NodeOk t1 strict K1 sl q lo hi := by
  unfold NodeOk at h ⊢
  rw [hn, ho]
  obtain ⟨a1, a2, a3, a4, a5, a6⟩ := h
  exact ⟨a1, a2, a3, a4, a5, fun i hi => ⟨hK _ (a6 i hi).1, (a6 i hi).2⟩⟩

/-- The tree the constructor makes on an empty file is a search tree. -/
theorem ok_create (order : Nat) (ho : 1 ≤ order) (strict : Bool) (K : Nat → Prop) :
    Ok (Tree.create order) strict K ⟨fun _ => 0, fun _ => none, fun _ => none, fun _ => (0, 0)⟩
      0 := by
  have hn : (Tree.create order).nodes 1 = Node.new order 1 := by
    simp [Tree.create, ROOT_PAGE_NUM]
  refine ⟨ho, le_refl _, rfl, rfl, fun q h1 h2 => ?_, fun q h1 h2 _ i => ?_,
    fun q i _ _ h => absurd rfl h⟩
  · have hq : q = 1 := le_antisymm h2 h1
    subst hq
    unfold NodeOk
    rw [hn]
    refine ⟨rfl, by simp [Node.new, MAX_DATA, Tree.create],
      by simp [Node.new, MAX_CHILDREN, Tree.create], Nat.zero_le _,
      fun i j _ hj => absurd hj (Nat.not_lt_zero _), fun i hi => absurd hi (Nat.not_lt_zero _)⟩
  · have hq : q = 1 := le_antisymm h2 h1
    subst hq
    rw [hn]
    exact new_child order 1 i

/-- The value inserted in a leaf at the position of the scan keeps the leaf
sorted and within its bounds; the leaf may then have one key more than the
order. -/
theorem ok_leaf_insert {t : Tree} {strict : Bool} {K K1 : Nat → Prop} {G : Shape}
    (hok : Ok t strict K G 0) {q : Nat} (h1 : 1 ≤ q) (h2 : q ≤ t.count) (hl : G.ht q = 0)
    (v : Pair) (hlo : inLo (G.lo q) v.key) (hhi : inHi strict (G.hi q) v.key)
    (hK : ∀ k, K k → K1 k) (hv : K1 v.key) (hnew : strict = true → ¬ K v.key) :
    Ok (t.modify q (fun n => n.insert_in_node (scanLt n v n.count 0) v)) strict K1 G q := by
  obtain ⟨a1, a2, a3, a4, a5, a6⟩ := hok.node q h1 h2
  rw [if_neg (by omega)] at a4
  obtain ⟨s1, s2, s3⟩ := scanLt_pos (t.nodes q) v
  generalize hpos : scanLt (t.nodes q) v (t.nodes q).count 0 = pos at s1 s2 s3
  have hvr : pos < (t.nodes q).count → rel strict v.key ((t.nodes q).dataAt pos).key := by
    intro hp
    have := s3 hp
    cases strict with
    | false => exact rel_weak this
    | true =>
      refine rel_strict.2 (lt_of_le_of_ne this ?_)
      intro e
      exact hnew rfl (e ▸ (a6 pos hp).1)
  have hd := fun m => insert_in_node_dataAt (t.nodes q) pos v m s1 (by omega)
  have hc := fun m => insert_in_node_child (t.nodes q) pos v m s1 (by omega)
  have hlen := insert_in_node_length (t.nodes q) pos v
  refine ⟨hok.order_pos, hok.count_pos, hok.root_lo, hok.root_hi, fun p p1 p2 => ?_,
    fun p p1 p2 hp i => ?_, fun p i p1 p2 hp hi => ?_⟩
  · by_cases hpq : p = q
    · subst hpq
      rw [if_pos rfl]
      unfold NodeOk
      simp only [modify_nodes_same, modify_order, hpos]
      refine ⟨a1, by rw [hlen.1]; exact a2, by rw [hlen.2]; exact a3, ?_, ?_, ?_⟩
      · show (t.nodes p).count + 1 ≤ t.order + 1
        omega
      · intro i j hij hj
        have hj1 : j < (t.nodes p).count + 1 := hj
        rw [hd i, hd j]
        by_cases e1 : i = pos
        · rw [if_pos e1, if_neg (by omega), if_pos (by omega)]
          exact rel_le_right (hvr (by omega))
            (ok_sorted_le hok h1 h2 (by omega) (by omega))
        · rw [if_neg e1]
          by_cases e2 : j = pos
          · rw [if_pos e2, if_neg (by omega)]
            exact rel_of_lt (s2 i (by omega))
          · rw [if_neg e2]
            by_cases e3 : pos < i
            · rw [if_pos (by omega), if_pos (by omega)]
              exact a5 _ _ (by omega) (by omega)
            · rw [if_neg (by omega)]
              by_cases e4 : pos < j
              · rw [if_pos (by omega)]
                exact a5 _ _ (by omega) (by omega)
              · rw [if_neg (by omega)]
                exact a5 _ _ hij (by omega)
      · intro i hi
        have hi1 : i < (t.nodes p).count + 1 := hi
        rw [hd i]
        by_cases e1 : i = pos
        · rw [if_pos e1]
          exact ⟨hv, hlo, hhi⟩
        · rw [if_neg e1]
          by_cases e3 : pos < i
          · rw [if_pos (by omega)]
            exact ⟨hK _ (a6 _ (by omega)).1, (a6 _ (by omega)).2⟩
          · rw [if_neg (by omega)]
            exact ⟨hK _ (a6 _ (by omega)).1, (a6 _ (by omega)).2⟩
    · rw [if_neg hpq]
      have := hok.node p p1 p2
      rw [if_neg (by omega)] at this
      exact nodeOk_congr (t := t) rfl (modify_nodes_ne t _ hpq) hK this
  · by_cases hpq : p = q
    · subst hpq
      simp only [modify_nodes_same, hpos]
      rw [hc i]
      split <;> exact hok.leaf p h1 h2 hl _
    · rw [modify_nodes_ne t _ hpq]
      exact hok.leaf p p1 p2 hp i
  · have hpq : p ≠ q := fun e => hp (e ▸ hl)
    rw [modify_nodes_ne t _ hpq] at hi ⊢
    exact hok.kid p i p1 p2 hp hi

/-- The pairs stored below a page stay stored below it when a value is
inserted in a leaf, and the value is stored in the leaf. -/
theorem stored_leaf_insert {t : Tree} {strict : Bool} {K : Nat → Prop} {G : Shape}
    (hok : Ok t strict K G 0) {q : Nat} (h1 : 1 ≤ q) (h2 : q ≤ t.count) (hl : G.ht q = 0)
    (v : Pair) :
    Tree.Stored (t.modify q (fun n => n.insert_in_node (scanLt n v n.count 0) v)) q v ∧
    ∀ {p : Nat} {x : Pair}, Tree.Stored t p x →
      Tree.Stored (t.modify q (fun n => n.insert_in_node (scanLt n v n.count 0) v)) p x := by
  obtain ⟨a1, a2, a3, a4, a5, a6⟩ := hok.node q h1 h2
  rw [if_neg (by omega)] at a4
  obtain ⟨s1, s2, s3⟩ := scanLt_pos (t.nodes q) v
  generalize hpos : scanLt (t.nodes q) v (t.nodes q).count 0 = pos at s1 s2 s3
  have hd := fun m => insert_in_node_dataAt (t.nodes q) pos v m s1 (by omega)
  have hc := fun m => insert_in_node_child (t.nodes q) pos v m s1 (by omega)
  have hq0 : ((t.modify q (fun n => n.insert_in_node (scanLt n v n.count 0) v)).nodes q).child 0
      = 0 := by
    simp only [modify_nodes_same, hpos]
    rw [hc 0]
    split <;> exact hok.leaf q h1 h2 hl _
  have hqd : ∀ m, ((t.modify q (fun n => n.insert_in_node (scanLt n v n.count 0) v)).nodes
      q).dataAt m = if m = pos then v else if pos < m ∧ m ≤ (t.nodes q).count
        then (t.nodes q).dataAt (m - 1) else (t.nodes q).dataAt m := by
    intro m
    simp only [modify_nodes_same, hpos]
    exact hd m
  have hqc : ((t.modify q (fun n => n.insert_in_node (scanLt n v n.count 0) v)).nodes q).count
      = (t.nodes q).count + 1 := by
    simp only [modify_nodes_same]
    rfl
  constructor
  · have := @Tree.Stored.leaf (t.modify q (fun n => n.insert_in_node (scanLt n v n.count 0) v))
      q pos hq0 (by rw [hqc]; omega)
    rw [hqd pos, if_pos rfl] at this
    exact this
  · intro p x h
    induction h with
    | @leaf p i h0 hi =>
      by_cases hpq : p = q
      · subst hpq
        by_cases e : i < pos
        · have := @Tree.Stored.leaf
            (t.modify p (fun n => n.insert_in_node (scanLt n v n.count 0) v)) p i hq0
            (by rw [hqc]; omega)
          rw [hqd i, if_neg (by omega), if_neg (by omega)] at this
          exact this
        · have := @Tree.Stored.leaf
            (t.modify p (fun n => n.insert_in_node (scanLt n v n.count 0) v)) p (i + 1) hq0
            (by rw [hqc]; omega)
          rw [hqd (i + 1), if_neg (by omega), if_pos (by omega)] at this
          exact this
      · have e := modify_nodes_ne t (fun n => n.insert_in_node (scanLt n v n.count 0) v) hpq
        have := @Tree.Stored.leaf
          (t.modify q (fun n => n.insert_in_node (scanLt n v n.count 0) v)) p i
          (by rw [e]; exact h0) (by rw [e]; exact hi)
        rw [e] at this
        exact this
    | @node p i x h0 hi _ ih =>
      have hpq : p ≠ q := fun e => h0 (e ▸ hok.leaf q h1 h2 hl 0)
      have e := modify_nodes_ne t (fun n => n.insert_in_node (scanLt n v n.count 0) v) hpq
      refine @Tree.Stored.node _ p i x (by rw [e]; exact h0) (by rw [e]; exact hi) ?_
      rw [e]
      exact ih

end Btree

/-! ## B-tree: `split` keeps the search tree -/

namespace Btree

/-- A value inserted in a sorted array between the entries smaller than it and
the entries not smaller leaves the array sorted. -/
theorem sorted_insert {strict : Bool} (old new : Nat → Nat) (cnt pos v : Nat)
    (hnew : ∀ m, new m = if m = pos then v else if pos < m ∧ m ≤ cnt then old (m - 1) else old m)
    (hs : ∀ i j, i < j → j < cnt → rel strict (old i) (old j))
    (hl : ∀ j, j < pos → rel strict (old j) v) (hr : pos < cnt → rel strict v (old pos))
    (hpos : pos ≤ cnt) :
    ∀ i j, i < j → j < cnt + 1 → rel strict (new i) (new j) := by
  intro i j hij hj
  rw [hnew i, hnew j]
  by_cases e1 : i = pos
  · rw [if_pos e1, if_neg (by omega), if_pos (by omega)]
    rcases Nat.eq_or_lt_of_le (by omega : pos ≤ j - 1) with e | e
    · rw [← e]
      exact hr (by omega)
    · exact rel_trans (hr (by omega)) (hs _ _ e (by omega))
  · rw [if_neg e1]
    by_cases e2 : j = pos
    · rw [if_pos e2, if_neg (by omega)]
      exact hl i (by omega)
    · rw [if_neg e2]
      by_cases e3 : pos < i
      · rw [if_pos (by omega), if_pos (by omega)]
        exact hs _ _ (by omega) (by omega)
      · rw [if_neg (by omega)]
        by_cases e4 : pos < j
        · rw [if_pos (by omega)]
          exact hs _ _ (by omega) (by omega)
        · rw [if_neg (by omega)]
          exact hs _ _ hij (by omega)

/-- The facts `SplitSpec` gives, with the child named. -/
theorem split_view {t t1 : Tree} {p pos c : Nat} (S : SplitSpec t p pos t1)
    (hc : (t.nodes p).child pos = c) :
    SplitView t t1 p pos c (if (t.nodes c).child 0 = 0 then MIN_NUM_CHILDREN t.order
      else MIN_NUM_CHILDREN t.order + 1) := by
  obtain ⟨so, sc, sf, scn, snp, snc, snr, sndl, sncl, snd, snch, spc, spp, spr, spdl, spcl, spd,
    spch⟩ := S
  rw [hc] at sf scn snc snd snch spd spch
  have cdat : (t1.nodes c).data = (t.nodes c).data := by rw [scn]
  have cchi : (t1.nodes c).children = (t.nodes c).children := by rw [scn]
  refine ⟨so, sc, sf, by split <;> omega, by split <;> omega, fun h => by rw [if_neg h],
    fun h => by rw [if_pos h], by rw [scn], by rw [scn], by rw [cdat], by rw [cchi], fun m => ?_, fun m => ?_, snp, snc,
    sndl, sncl, snd, snch, spc, spp, spdl, spcl, spd, spch⟩
  · unfold Node.dataAt
    rw [cdat]
  · unfold Node.child
    rw [cchi]

/-- What the invariant tells of the child that `split` divides. -/
theorem split_pre_facts {t : Tree} {strict : Bool} {K : Nat → Prop} {G : Shape} {p pos c : Nat}
    (P : SplitPre t strict K G p pos c) :
    2 ≤ c ∧ c ≤ t.count ∧ c ≠ p ∧ G.ht c + 1 = G.ht p ∧
    G.lo c = lob (t.nodes p) (G.lo p) pos ∧ G.hi c = hib (t.nodes p) (G.hi p) pos ∧
    G.par c = (p, pos) ∧ (t.nodes p).count ≤ t.order ∧ 1 ≤ MIN_NUM_CHILDREN t.order ∧
    MIN_NUM_CHILDREN t.order ≤ t.order := by
  obtain ⟨hok, p1, p2, hp, hpos, hc, hov⟩ := P
  obtain ⟨hM1, hM2⟩ := min_children_le hok.order_pos
  obtain ⟨c1, c2, c3, c4, c5, c6⟩ := hok.kid p pos p1 p2 hp hpos
  rw [hc] at c1 c2 c3 c4 c5 c6
  have hcp : c ≠ p := by
    intro e
    rw [e] at c3
    omega
  have pa4 := (hok.node p p1 p2).2.2.2.1
  rw [if_neg (Ne.symm hcp)] at pa4
  exact ⟨c1, c2, hcp, c3, c4, c5, c6, by omega, hM1, hM2⟩

/-- After `split` the parent is sorted and within its bounds, with one key
more. -/
theorem split_node_parent {t t1 : Tree} {strict : Bool} {K : Nat → Prop} {G : Shape}
    {p pos c it : Nat} (P : SplitPre t strict K G p pos c) (V : SplitView t t1 p pos c it) :
    NodeOk t1 strict K 1 p (G.lo p) (G.hi p) := by
  obtain ⟨c1, c2, hcp, c3, c4, c5, c6, pc, hM1, hM2⟩ := split_pre_facts P
  obtain ⟨hok, p1, p2, hp, hpos, hc, hov⟩ := P
  obtain ⟨pa1, pa2, pa3, _, pa5, pa6⟩ := hok.node p p1 p2
  obtain ⟨_, _, _, _, ca5, ca6⟩ := hok.node c (by omega) c2
  have hb : inLo (lob (t.nodes p) (G.lo p) pos)
      ((t.nodes c).dataAt (MIN_NUM_CHILDREN t.order)).key ∧
      inHi strict (hib (t.nodes p) (G.hi p) pos)
        ((t.nodes c).dataAt (MIN_NUM_CHILDREN t.order)).key := by
    rw [← c4, ← c5]; exact (ca6 _ (by omega)).2
  have hclo : inLo (lob (t.nodes p) (G.lo p) pos) ((t.nodes c).dataAt 0).key := by
    rw [← c4]; exact (ca6 0 (by omega)).2.1
  have hw := bounds_widen hok p1 p2 hpos hb.1 hb.2
  unfold NodeOk
  rw [V.order]
  refine ⟨V.p_page.trans pa1, V.p_dlen.trans pa2, V.p_clen.trans pa3, by rw [V.p_count]; omega,
    ?_, ?_⟩
  · rw [V.p_count]
    refine sorted_insert (fun m => ((t.nodes p).dataAt m).key)
      (fun m => ((t1.nodes p).dataAt m).key) (t.nodes p).count pos
      ((t.nodes c).dataAt (MIN_NUM_CHILDREN t.order)).key ?_ pa5 ?_ ?_ hpos
    · intro m
      show ((t1.nodes p).dataAt m).key = _
      rw [V.p_data m]
      split
      · rfl
      · split <;> rfl
    · intro j hj
      show rel strict ((t.nodes p).dataAt j).key _
      have h1 := ok_sorted_le hok p1 p2 (by omega : j ≤ pos - 1) (by omega)
      have h2 := hclo
      unfold lob at h2
      rw [if_neg (by omega)] at h2
      have h3 := h2 _ rfl
      exact rel_le_left (by omega) (ca5 0 (MIN_NUM_CHILDREN t.order) (by omega) (by omega))
    · intro hlt
      show rel strict _ ((t.nodes p).dataAt pos).key
      have h2 := hb.2
      unfold hib at h2
      rw [if_pos hlt] at h2
      exact h2 _ rfl
  · intro i hi
    rw [V.p_count] at hi
    rw [V.p_data i]
    by_cases e2 : i = pos
    · rw [if_pos e2]
      exact ⟨(ca6 _ (by omega)).1, hw⟩
    · rw [if_neg e2]
      split
      · exact pa6 _ (by omega)
      · exact pa6 _ (by omega)

/-- After `split` the child keeps its first keys, below the separator. -/
theorem split_node_child {t t1 : Tree} {strict : Bool} {K : Nat → Prop} {G : Shape}
    {p pos c it : Nat} (P : SplitPre t strict K G p pos c) (V : SplitView t t1 p pos c it) :
    NodeOk t1 strict K 0 c (G.lo c)
      (some ((t.nodes c).dataAt (MIN_NUM_CHILDREN t.order)).key) := by
  obtain ⟨c1, c2, hcp, c3, c4, c5, c6, pc, hM1, hM2⟩ := split_pre_facts P
  obtain ⟨hok, p1, p2, hp, hpos, hc, hov⟩ := P
  obtain ⟨ca1, ca2, ca3, _, ca5, ca6⟩ := hok.node c (by omega) c2
  unfold NodeOk
  rw [V.order, V.c_page, V.c_dlen, V.c_clen, V.c_count]
  refine ⟨ca1, ca2, ca3, by omega, ?_, ?_⟩
  · intro i j hij hj
    rw [V.c_data, V.c_data]
    exact ca5 i j hij (by omega)
  · intro i hi
    rw [V.c_data]
    refine ⟨(ca6 i (by omega)).1, (ca6 i (by omega)).2.1, ?_⟩
    intro u hu
    cases hu
    exact ca5 i _ hi (by omega)

/-- After `split` the new page holds the last keys of the child, from the
separator on. -/
theorem split_node_new {t t1 : Tree} {strict : Bool} {K : Nat → Prop} {G : Shape}
    {p pos c it : Nat} (P : SplitPre t strict K G p pos c) (V : SplitView t t1 p pos c it) :
    NodeOk t1 strict K 0 (t.count + 1)
      (some ((t.nodes c).dataAt (MIN_NUM_CHILDREN t.order)).key) (G.hi c) := by
  obtain ⟨c1, c2, hcp, c3, c4, c5, c6, pc, hM1, hM2⟩ := split_pre_facts P
  obtain ⟨hok, p1, p2, hp, hpos, hc, hov⟩ := P
  obtain ⟨ca1, ca2, ca3, _, ca5, ca6⟩ := hok.node c (by omega) c2
  have g1 := V.it_ge
  have g2 := V.it_le
  unfold NodeOk
  rw [V.order, V.n_count]
  refine ⟨V.n_page, V.n_dlen, V.n_clen, by omega, ?_, ?_⟩
  · intro i j hij hj
    rw [V.n_data i (by omega), V.n_data j hj]
    exact ca5 _ _ (by omega) (by omega)
  · intro i hi
    rw [V.n_data i hi]
    refine ⟨(ca6 _ (by omega)).1, ?_, (ca6 _ (by omega)).2.2⟩
    intro l hl
    cases hl
    exact ok_sorted_le hok (by omega) c2 (by omega) (by omega)

/-- The child pointers of the tree before `split`, other than the one to the
divided child, in the shape after it. -/
theorem split_kid_old {t : Tree} {strict : Bool} {K : Nat → Prop} {G G1 : Shape}
    {p pos c : Nat} (P : SplitPre t strict K G p pos c)
    (hht : ∀ x, G1.ht x = if x = t.count + 1 then G.ht c else G.ht x)
    (hlo : ∀ x, G1.lo x = if x = t.count + 1
      then some ((t.nodes c).dataAt (MIN_NUM_CHILDREN t.order)).key else G.lo x)
    (hhi : ∀ x, G1.hi x = if x = t.count + 1 then G.hi c
      else if x = c then some ((t.nodes c).dataAt (MIN_NUM_CHILDREN t.order)).key else G.hi x)
    (hpar : ∀ x, G1.par x = if x = t.count + 1 then (p, pos + 1)
      else if (G.par x).1 = p ∧ pos < (G.par x).2 then (p, (G.par x).2 + 1)
      else if (G.par x).1 = c ∧ MIN_NUM_CHILDREN t.order < (G.par x).2
        then (t.count + 1, (G.par x).2 - (MIN_NUM_CHILDREN t.order + 1))
      else G.par x)
    (q1 i1 : Nat) (a1 : 1 ≤ q1) (a2 : q1 ≤ t.count) (a3 : G.ht q1 ≠ 0)
    (a4 : i1 ≤ (t.nodes q1).count) (a5 : (q1, i1) ≠ (p, pos)) :
    2 ≤ (t.nodes q1).child i1 ∧ (t.nodes q1).child i1 ≤ t.count ∧
    G1.ht ((t.nodes q1).child i1) + 1 = G.ht q1 ∧
    G1.lo ((t.nodes q1).child i1) = lob (t.nodes q1) (G.lo q1) i1 ∧
    G1.hi ((t.nodes q1).child i1) = hib (t.nodes q1) (G.hi q1) i1 ∧
    G1.par ((t.nodes q1).child i1) =
      if q1 = p ∧ pos < i1 then (p, i1 + 1)
      else if q1 = c ∧ MIN_NUM_CHILDREN t.order < i1
        then (t.count + 1, i1 - (MIN_NUM_CHILDREN t.order + 1))
      else (q1, i1) := by
  obtain ⟨c1, c2, hcp, c3, c4, c5, c6, pc, hM1, hM2⟩ := split_pre_facts P
  obtain ⟨k1, k2, k3, k4, k5, k6⟩ := P.ok.kid q1 i1 a1 a2 a3 a4
  have hne : (t.nodes q1).child i1 ≠ c := by
    intro e
    rw [e, c6] at k6
    exact a5 k6.symm
  have hnn : (t.nodes q1).child i1 ≠ t.count + 1 := by omega
  refine ⟨k1, k2, ?_, ?_, ?_, ?_⟩
  · rw [hht, if_neg hnn]; exact k3
  · rw [hlo, if_neg hnn]; exact k4
  · rw [hhi, if_neg hnn, if_neg hne]; exact k5
  · rw [hpar, if_neg hnn, k6]

end Btree

/-! ## B-tree: the child pointers after `split` -/

namespace Btree

/-- After `split` of an internal node the children of the new page are the
last children of the divided page, between the same separators. -/
theorem split_kid_new {t t1 : Tree} {strict : Bool} {K : Nat → Prop} {G G1 : Shape}
    {p pos c it : Nat} (P : SplitPre t strict K G p pos c) (V : SplitView t t1 p pos c it)
    (hht : ∀ x, G1.ht x = if x = t.count + 1 then G.ht c else G.ht x)
    (hlo : ∀ x, G1.lo x = if x = t.count + 1
      then some ((t.nodes c).dataAt (MIN_NUM_CHILDREN t.order)).key else G.lo x)
    (hhi : ∀ x, G1.hi x = if x = t.count + 1 then G.hi c
      else if x = c then some ((t.nodes c).dataAt (MIN_NUM_CHILDREN t.order)).key else G.hi x)
    (hpar : ∀ x, G1.par x = if x = t.count + 1 then (p, pos + 1)
      else if (G.par x).1 = p ∧ pos < (G.par x).2 then (p, (G.par x).2 + 1)
      else if (G.par x).1 = c ∧ MIN_NUM_CHILDREN t.order < (G.par x).2
        then (t.count + 1, (G.par x).2 - (MIN_NUM_CHILDREN t.order + 1))
      else G.par x)
    (hq : G.ht c ≠ 0) (i : Nat) (hi : i ≤ (t1.nodes (t.count + 1)).count) :
    2 ≤ (t1.nodes (t.count + 1)).child i ∧ (t1.nodes (t.count + 1)).child i ≤ t.count + 1 ∧
    G1.ht ((t1.nodes (t.count + 1)).child i) + 1 = G.ht c ∧
    G1.lo ((t1.nodes (t.count + 1)).child i) =
      lob (t1.nodes (t.count + 1)) (some ((t.nodes c).dataAt (MIN_NUM_CHILDREN t.order)).key) i ∧
    G1.hi ((t1.nodes (t.count + 1)).child i) = hib (t1.nodes (t.count + 1)) (G.hi c) i ∧
    G1.par ((t1.nodes (t.count + 1)).child i) = (t.count + 1, i) := by
  obtain ⟨c1, c2, hcp, c3, c4, c5, c6, pc, hM1, hM2⟩ := split_pre_facts P
  have hov := P.over
  have hit3 : it = MIN_NUM_CHILDREN t.order + 1 :=
    V.it_leaf (fun e => hq ((ok_leaf_iff P.ok (by omega) c2).2 e))
  rw [V.n_count] at hi
  have hch : (t1.nodes (t.count + 1)).child i = (t.nodes c).child (it + i) := by
    rw [V.n_child i, if_pos hi]
  obtain ⟨k1, k2, k4, k5, k6, k7⟩ := split_kid_old P hht hlo hhi hpar c (it + i) (by omega) c2 hq
    (by omega) (by intro e; exact hcp (Prod.mk.inj e).1)
  rw [hch, k5, k6, k7]
  refine ⟨k1, by omega, k4, ?_, ?_, ?_⟩
  · unfold lob
    rw [if_neg (by omega)]
    by_cases e : i = 0
    · rw [if_pos e, e, hit3]
      rfl
    · rw [if_neg e, V.n_data (i - 1) (by omega)]
      have : it + i - 1 = it + (i - 1) := by omega
      rw [this]
  · unfold hib
    rw [V.n_count]
    by_cases e : it + i < (t.nodes c).count
    · rw [if_pos e, if_pos (by omega), V.n_data i (by omega)]
    · rw [if_neg e, if_neg (by omega)]
  · rw [if_neg (fun h => hcp h.1), if_pos ⟨rfl, by omega⟩]
    congr 1
    omega

/-- After `split` the divided page keeps its first children, between the same
separators, the last of them below the separator that went to the parent. -/
theorem split_kid_child {t t1 : Tree} {strict : Bool} {K : Nat → Prop} {G G1 : Shape}
    {p pos c it : Nat} (P : SplitPre t strict K G p pos c) (V : SplitView t t1 p pos c it)
    (hht : ∀ x, G1.ht x = if x = t.count + 1 then G.ht c else G.ht x)
    (hlo : ∀ x, G1.lo x = if x = t.count + 1
      then some ((t.nodes c).dataAt (MIN_NUM_CHILDREN t.order)).key else G.lo x)
    (hhi : ∀ x, G1.hi x = if x = t.count + 1 then G.hi c
      else if x = c then some ((t.nodes c).dataAt (MIN_NUM_CHILDREN t.order)).key else G.hi x)
    (hpar : ∀ x, G1.par x = if x = t.count + 1 then (p, pos + 1)
      else if (G.par x).1 = p ∧ pos < (G.par x).2 then (p, (G.par x).2 + 1)
      else if (G.par x).1 = c ∧ MIN_NUM_CHILDREN t.order < (G.par x).2
        then (t.count + 1, (G.par x).2 - (MIN_NUM_CHILDREN t.order + 1))
      else G.par x)
    (hq : G.ht c ≠ 0) (i : Nat) (hi : i ≤ (t1.nodes c).count) :
    2 ≤ (t1.nodes c).child i ∧ (t1.nodes c).child i ≤ t.count + 1 ∧
    G1.ht ((t1.nodes c).child i) + 1 = G.ht c ∧
    G1.lo ((t1.nodes c).child i) = lob (t1.nodes c) (G.lo c) i ∧
    G1.hi ((t1.nodes c).child i) =
      hib (t1.nodes c) (some ((t.nodes c).dataAt (MIN_NUM_CHILDREN t.order)).key) i ∧
    G1.par ((t1.nodes c).child i) = (c, i) := by
  obtain ⟨c1, c2, hcp, c3, c4, c5, c6, pc, hM1, hM2⟩ := split_pre_facts P
  have hov := P.over
  rw [V.c_count] at hi
  rw [V.c_child]
  obtain ⟨k1, k2, k4, k5, k6, k7⟩ := split_kid_old P hht hlo hhi hpar c i (by omega) c2 hq
    (by omega) (by intro e; exact hcp (Prod.mk.inj e).1)
  rw [k5, k6, k7]
  refine ⟨k1, by omega, k4, ?_, ?_, ?_⟩
  · unfold lob
    by_cases a4 : i = 0
    · rw [if_pos a4, if_pos a4]
    · rw [if_neg a4, if_neg a4, V.c_data]
  · unfold hib
    rw [V.c_count]
    by_cases a4 : i < MIN_NUM_CHILDREN t.order
    · rw [if_pos (by omega), if_pos a4, V.c_data]
    · rw [if_neg a4, if_pos (by omega)]
      have : i = MIN_NUM_CHILDREN t.order := by omega
      rw [this]
  · rw [if_neg (fun h => hcp h.1), if_neg (by omega)]

/-- After `split` the parent has the divided page and the new page as
neighbouring children, around the separator, and its other children as
before. -/
theorem split_kid_parent {t t1 : Tree} {strict : Bool} {K : Nat → Prop} {G G1 : Shape}
    {p pos c it : Nat} (P : SplitPre t strict K G p pos c) (V : SplitView t t1 p pos c it)
    (hht : ∀ x, G1.ht x = if x = t.count + 1 then G.ht c else G.ht x)
    (hlo : ∀ x, G1.lo x = if x = t.count + 1
      then some ((t.nodes c).dataAt (MIN_NUM_CHILDREN t.order)).key else G.lo x)
    (hhi : ∀ x, G1.hi x = if x = t.count + 1 then G.hi c
      else if x = c then some ((t.nodes c).dataAt (MIN_NUM_CHILDREN t.order)).key else G.hi x)
    (hpar : ∀ x, G1.par x = if x = t.count + 1 then (p, pos + 1)
      else if (G.par x).1 = p ∧ pos < (G.par x).2 then (p, (G.par x).2 + 1)
      else if (G.par x).1 = c ∧ MIN_NUM_CHILDREN t.order < (G.par x).2
        then (t.count + 1, (G.par x).2 - (MIN_NUM_CHILDREN t.order + 1))
      else G.par x)
    (i : Nat) (hi : i ≤ (t1.nodes p).count) :
    2 ≤ (t1.nodes p).child i ∧ (t1.nodes p).child i ≤ t.count + 1 ∧
    G1.ht ((t1.nodes p).child i) + 1 = G.ht p ∧
    G1.lo ((t1.nodes p).child i) = lob (t1.nodes p) (G.lo p) i ∧
    G1.hi ((t1.nodes p).child i) = hib (t1.nodes p) (G.hi p) i ∧
    G1.par ((t1.nodes p).child i) = (p, i) := by
  obtain ⟨c1, c2, hcp, c3, c4, c5, c6, pc, hM1, hM2⟩ := split_pre_facts P
  have p1 := P.p_ge
  have p2 := P.p_le
  have hp := P.p_ht
  have hpos := P.pos_le
  have spd := V.p_data
  have spc := V.p_count
  rw [spc] at hi
  rw [V.p_child i]
  by_cases a1 : i = pos
  · rw [if_pos a1, hht c, hlo c, hhi c, hpar c, if_neg (by omega), if_neg (by omega),
      if_neg (by omega), if_pos rfl, if_neg (by omega), c6]
    refine ⟨c1, by omega, c3, ?_, ?_, ?_⟩
    · rw [c4, a1]
      unfold lob
      by_cases a2 : pos = 0
      · rw [if_pos a2, if_pos a2]
      · rw [if_neg a2, if_neg a2, spd (pos - 1), if_neg (by omega), if_neg (by omega)]
    · unfold hib
      rw [spc, if_pos (by omega), spd i, if_pos a1]
    · simp only
      rw [if_neg (by omega), if_neg (fun h => hcp h.1.symm), a1]
  · rw [if_neg a1]
    by_cases a2 : i = pos + 1
    · rw [if_pos a2, hht, hlo, hhi, hpar, if_pos rfl, if_pos rfl, if_pos rfl, if_pos rfl]
      refine ⟨by omega, le_refl _, c3, ?_, ?_, by rw [a2]⟩
      · unfold lob
        rw [if_neg (by omega), spd (i - 1), if_pos (by omega)]
      · rw [c5]
        unfold hib
        rw [spc]
        by_cases a3 : pos < (t.nodes p).count
        · rw [if_pos a3, if_pos (by omega), spd i, if_neg (by omega), if_pos (by omega)]
          have : i - 1 = pos := by omega
          rw [this]
        · rw [if_neg a3, if_neg (by omega)]
    · rw [if_neg a2]
      by_cases a3 : pos + 1 < i
      · rw [if_pos ⟨a3, by omega⟩]
        obtain ⟨k1, k2, k4, k5, k6, k7⟩ := split_kid_old P hht hlo hhi hpar p (i - 1) p1 p2 hp
          (by omega) (by intro e; have := (Prod.mk.inj e).2; omega)
        rw [k5, k6, k7]
        refine ⟨k1, by omega, k4, ?_, ?_, ?_⟩
        · unfold lob
          rw [if_neg (by omega), if_neg (by omega), spd (i - 1), if_neg (by omega),
            if_pos (by omega)]
        · unfold hib
          rw [spc]
          by_cases a4 : i - 1 < (t.nodes p).count
          · rw [if_pos a4, if_pos (by omega), spd i, if_neg (by omega), if_pos (by omega)]
          · rw [if_neg a4, if_neg (by omega)]
        · rw [if_pos ⟨rfl, by omega⟩]
          congr 1
          omega
      · rw [if_neg (fun h => a3 h.1)]
        obtain ⟨k1, k2, k4, k5, k6, k7⟩ := split_kid_old P hht hlo hhi hpar p i p1 p2 hp
          (by omega) (by intro e; exact a1 (Prod.mk.inj e).2)
        rw [k5, k6, k7]
        refine ⟨k1, by omega, k4, ?_, ?_, ?_⟩
        · unfold lob
          by_cases a4 : i = 0
          · rw [if_pos a4, if_pos a4]
          · rw [if_neg a4, if_neg a4, spd (i - 1), if_neg (by omega), if_neg (by omega)]
        · unfold hib
          rw [spc, if_pos (by omega), if_pos (by omega), spd i, if_neg a1, if_neg (by omega)]
        · rw [if_neg (by omega), if_neg (fun h => hcp h.1.symm)]

/-- The outcome of `split(parent, pos)` of an overflowing child, in closed
form, is a search tree; the parent may then have one key more than the
order. -/
theorem ok_split_gen {t t1 : Tree} {strict : Bool} {K : Nat → Prop} {G G1 : Shape}
    {p pos c it : Nat} (P : SplitPre t strict K G p pos c) (V : SplitView t t1 p pos c it)
    (hht : ∀ x, G1.ht x = if x = t.count + 1 then G.ht c else G.ht x)
    (hlo : ∀ x, G1.lo x = if x = t.count + 1
      then some ((t.nodes c).dataAt (MIN_NUM_CHILDREN t.order)).key else G.lo x)
    (hhi : ∀ x, G1.hi x = if x = t.count + 1 then G.hi c
      else if x = c then some ((t.nodes c).dataAt (MIN_NUM_CHILDREN t.order)).key else G.hi x)
    (hpar : ∀ x, G1.par x = if x = t.count + 1 then (p, pos + 1)
      else if (G.par x).1 = p ∧ pos < (G.par x).2 then (p, (G.par x).2 + 1)
      else if (G.par x).1 = c ∧ MIN_NUM_CHILDREN t.order < (G.par x).2
        then (t.count + 1, (G.par x).2 - (MIN_NUM_CHILDREN t.order + 1))
      else G.par x) :
    Ok t1 strict K G1 p := by
  obtain ⟨c1, c2, hcp, c3, c4, c5, c6, pc, hM1, hM2⟩ := split_pre_facts P
  have hok := P.ok
  have hcnt := hok.count_pos
  have p2 := P.p_le
  refine ⟨by rw [V.order]; exact hok.order_pos, by rw [V.count]; omega, ?_, ?_,
    fun q q1 q2 => ?_, fun q q1 q2 hq i => ?_, fun q i q1 q2 hq hi => ?_⟩
  · rw [hlo, if_neg (by unfold ROOT_PAGE_NUM; omega)]
    exact hok.root_lo
  · rw [hhi, if_neg (by unfold ROOT_PAGE_NUM; omega), if_neg (by unfold ROOT_PAGE_NUM; omega)]
    exact hok.root_hi
  · rw [V.count] at q2
    rw [hlo q, hhi q]
    by_cases e1 : q = p
    · rw [if_pos e1, if_neg (by omega), if_neg (by omega), if_neg (by omega), e1]
      exact split_node_parent P V
    · rw [if_neg e1]
      by_cases e2 : q = c
      · rw [if_neg (by omega), if_neg (by omega), if_pos e2, e2]
        exact split_node_child P V
      · by_cases e3 : q = t.count + 1
        · rw [if_pos e3, if_pos e3, e3]
          exact split_node_new P V
        · rw [if_neg e3, if_neg e3, if_neg e2]
          have := hok.node q q1 (by omega)
          rw [if_neg e2] at this
          exact nodeOk_congr V.order (V.frame q e1 e2 e3) (fun _ h => h) this
  · rw [V.count] at q2
    rw [hht] at hq
    by_cases e3 : q = t.count + 1
    · rw [if_pos e3] at hq
      rw [e3, V.n_child i]
      split
      · exact hok.leaf c (by omega) c2 hq _
      · rfl
    · rw [if_neg e3] at hq
      have e1 : q ≠ p := fun e => P.p_ht (e ▸ hq)
      by_cases e2 : q = c
      · rw [e2, V.c_child]
        exact hok.leaf c (by omega) c2 (e2 ▸ hq) i
      · rw [V.frame q e1 e2 e3]
        exact hok.leaf q q1 (by omega) hq i
  · rw [V.count] at q2
    rw [V.count]
    rw [hht q] at hq
    rw [hht q, hlo q, hhi q]
    by_cases e3 : q = t.count + 1
    · rw [if_pos e3] at hq
      rw [if_pos e3, if_pos e3, if_pos e3, e3]
      rw [e3] at hi
      exact split_kid_new P V hht hlo hhi hpar hq i hi
    · rw [if_neg e3] at hq
      rw [if_neg e3, if_neg e3, if_neg e3]
      by_cases e1 : q = p
      · rw [if_neg (by omega), e1]
        rw [e1] at hi
        exact split_kid_parent P V hht hlo hhi hpar i hi
      · by_cases e2 : q = c
        · rw [if_pos e2, e2]
          rw [e2] at hi hq
          exact split_kid_child P V hht hlo hhi hpar hq i hi
        · rw [if_neg e2]
          rw [V.frame q e1 e2 e3] at hi ⊢
          obtain ⟨k1, k2, k4, k5, k6, k7⟩ := split_kid_old P hht hlo hhi hpar q i q1 (by omega) hq
            hi (by intro e; exact e1 (Prod.mk.inj e).1)
          rw [k5, k6, k7]
          refine ⟨k1, by omega, k4, rfl, rfl, ?_⟩
          rw [if_neg (fun h => e1 h.1), if_neg (fun h => e2 h.1)]

/-- `split(parent, pos)` of an overflowing child keeps the search tree; the
parent may then have one key more than the order. -/
theorem ok_split {t : Tree} {strict : Bool} {K : Nat → Prop} {G : Shape} {p pos c : Nat}
    (P : SplitPre t strict K G p pos c) :
    SplitView t (t.split p pos) p pos c
      (if (t.nodes c).child 0 = 0 then MIN_NUM_CHILDREN t.order
        else MIN_NUM_CHILDREN t.order + 1) ∧
    Ok (t.split p pos) strict K
      (splitShape G p pos c (t.count + 1) (MIN_NUM_CHILDREN t.order)
        ((t.nodes c).dataAt (MIN_NUM_CHILDREN t.order)).key) p := by
  obtain ⟨c1, c2, hcp, c3, c4, c5, c6, pc, hM1, hM2⟩ := split_pre_facts P
  obtain ⟨pa1, pa2, pa3, _, _, _⟩ := P.ok.node p P.p_ge P.p_le
  have ca1 := (P.ok.node c (by omega) c2).1
  have hc := P.child
  have S := split_spec t p pos P.ok.order_pos (by rw [hc]; exact hcp) (by rw [hc]; omega)
    (by have := P.p_le; omega) (by rw [hc]; exact ca1) P.pos_le pc pa2 pa3
  have V := split_view S hc
  exact ⟨V, ok_split_gen P V (fun _ => rfl) (fun _ => rfl) (fun _ => rfl) (fun _ => rfl)⟩

end Btree

/-! ## B-tree: the pairs stored in the tree after `split` -/

namespace Btree

/-- A pair stored below a child pointer is stored below the page. -/
theorem stored_via {t : Tree} {q i ch : Nat} {x : Pair} (h0 : (t.nodes q).child 0 ≠ 0)
    (hi : i ≤ (t.nodes q).count) (hch : (t.nodes q).child i = ch) (h : Tree.Stored t ch x) :
    Tree.Stored t q x := by
  rw [← hch] at h
  exact Tree.Stored.node h0 hi h

/-- A key of a leaf is stored in it. -/
theorem stored_at {t : Tree} {q i : Nat} {x : Pair} (h0 : (t.nodes q).child 0 = 0)
    (hi : i < (t.nodes q).count) (hx : (t.nodes q).dataAt i = x) : Tree.Stored t q x := by
  rw [← hx]
  exact Tree.Stored.leaf h0 hi

/-- After `split` the first child pointer of the parent is not 0. -/
theorem split_parent_internal {t t1 : Tree} {strict : Bool} {K : Nat → Prop} {G : Shape}
    {p pos c it : Nat} (P : SplitPre t strict K G p pos c) (V : SplitView t t1 p pos c it) :
    (t1.nodes p).child 0 ≠ 0 := by
  obtain ⟨c1, c2, hcp, c3, c4, c5, c6, pc, hM1, hM2⟩ := split_pre_facts P
  have k := (P.ok.kid p 0 P.p_ge P.p_le P.p_ht (Nat.zero_le _)).1
  rw [V.p_child 0]
  by_cases a1 : 0 = pos
  · rw [if_pos a1]; omega
  · rw [if_neg a1, if_neg (by omega), if_neg (by omega)]; omega

/-- The pairs of the divided leaf are in one of the two leaves after
`split`. -/
theorem stored_split_leaf {t t1 : Tree} {strict : Bool} {K : Nat → Prop} {G : Shape}
    {p pos c it : Nat} (P : SplitPre t strict K G p pos c) (V : SplitView t t1 p pos c it)
    (h0 : (t.nodes c).child 0 = 0) (i : Nat) (hi : i < (t.nodes c).count) :
    Tree.Stored t1 c ((t.nodes c).dataAt i) ∨
      Tree.Stored t1 (t.count + 1) ((t.nodes c).dataAt i) := by
  obtain ⟨c1, c2, hcp, c3, c4, c5, c6, pc, hM1, hM2⟩ := split_pre_facts P
  have hov := P.over
  have hit := V.it_of_leaf h0
  have hl : G.ht c = 0 := (ok_leaf_iff P.ok (by omega) c2).2 h0
  by_cases e : i < MIN_NUM_CHILDREN t.order
  · left
    exact stored_at (i := i) (by rw [V.c_child]; exact h0) (by rw [V.c_count]; exact e)
      (V.c_data i)
  · right
    refine stored_at (i := i - MIN_NUM_CHILDREN t.order) ?_ (by rw [V.n_count]; omega) ?_
    · rw [V.n_child 0]
      split
      · exact P.ok.leaf c (by omega) c2 hl _
      · rfl
    · rw [V.n_data _ (by omega), hit]
      congr 1
      omega

/-- A pair stored below a child of the divided internal node is below one of
the two nodes after `split`. -/
theorem stored_split_inner {t t1 : Tree} {strict : Bool} {K : Nat → Prop} {G : Shape}
    {p pos c it : Nat} (P : SplitPre t strict K G p pos c) (V : SplitView t t1 p pos c it)
    (h0 : (t.nodes c).child 0 ≠ 0) (i : Nat) (hi : i ≤ (t.nodes c).count) {x : Pair}
    (h : Tree.Stored t1 ((t.nodes c).child i) x) :
    Tree.Stored t1 c x ∨ Tree.Stored t1 (t.count + 1) x := by
  obtain ⟨c1, c2, hcp, c3, c4, c5, c6, pc, hM1, hM2⟩ := split_pre_facts P
  have hov := P.over
  have hit := V.it_leaf h0
  have hne : G.ht c ≠ 0 := fun e => h0 ((ok_leaf_iff P.ok (by omega) c2).1 e)
  by_cases e : i ≤ MIN_NUM_CHILDREN t.order
  · left
    exact stored_via (i := i) (by rw [V.c_child]; exact h0) (by rw [V.c_count]; exact e)
      (V.c_child i) h
  · right
    refine stored_via (i := i - (MIN_NUM_CHILDREN t.order + 1)) ?_ (by rw [V.n_count]; omega) ?_ h
    · rw [V.n_child 0, if_pos (Nat.zero_le _)]
      have := (P.ok.kid c (it + 0) (by omega) c2 hne (by omega)).1
      omega
    · rw [V.n_child _, if_pos (by omega), hit]
      congr 1
      omega

/-- A pair stored below a child of the parent is stored below the parent after
`split`. -/
theorem stored_split_parent {t t1 : Tree} {strict : Bool} {K : Nat → Prop} {G : Shape}
    {p pos c it : Nat} (P : SplitPre t strict K G p pos c) (V : SplitView t t1 p pos c it)
    (i : Nat) (hi : i ≤ (t.nodes p).count) {x : Pair}
    (h : (i = pos ∧ (Tree.Stored t1 c x ∨ Tree.Stored t1 (t.count + 1) x)) ∨
      (i ≠ pos ∧ Tree.Stored t1 ((t.nodes p).child i) x)) :
    Tree.Stored t1 p x := by
  have h0 := split_parent_internal P V
  have hpos := P.pos_le
  rcases h with ⟨e, h | h⟩ | ⟨e, h⟩
  · exact stored_via (i := pos) h0 (by rw [V.p_count]; omega)
      (by rw [V.p_child pos, if_pos rfl]) h
  · exact stored_via (i := pos + 1) h0 (by rw [V.p_count]; omega)
      (by rw [V.p_child (pos + 1), if_neg (by omega), if_pos rfl]) h
  · by_cases a : i < pos
    · exact stored_via (i := i) h0 (by rw [V.p_count]; omega)
        (by rw [V.p_child i, if_neg (by omega), if_neg (by omega), if_neg (by omega)]) h
    · refine stored_via (i := i + 1) h0 (by rw [V.p_count]; omega) ?_ h
      rw [V.p_child (i + 1), if_neg (by omega), if_neg (by omega), if_pos (by omega)]
      rfl

/-- The pairs stored below a page stay stored below it after `split`; those
below the divided page are below it or below the new page. -/
theorem stored_split {t t1 : Tree} {strict : Bool} {K : Nat → Prop} {G : Shape}
    {p pos c it : Nat} (P : SplitPre t strict K G p pos c) (V : SplitView t t1 p pos c it)
    {q : Nat} {x : Pair} (h : Tree.Stored t q x) :
    1 ≤ q → q ≤ t.count →
      (q ≠ c → Tree.Stored t1 q x) ∧
      (q = c → Tree.Stored t1 c x ∨ Tree.Stored t1 (t.count + 1) x) := by
  obtain ⟨c1, c2, hcp, c3, c4, c5, c6, pc, hM1, hM2⟩ := split_pre_facts P
  have hok := P.ok
  induction h with
  | @leaf q i h0 hi =>
    intro q1 q2
    constructor
    · intro e2
      have e1 : q ≠ p := by
        intro e
        have := (hok.kid p 0 P.p_ge P.p_le P.p_ht (Nat.zero_le _)).1
        rw [e] at h0
        omega
      have ef := V.frame q e1 e2 (by omega)
      exact stored_at (i := i) (by rw [ef]; exact h0) (by rw [ef]; exact hi) (by rw [ef])
    · intro e2
      rw [e2] at h0 hi ⊢
      exact stored_split_leaf P V h0 i hi
  | @node q i x h0 hi _ ih =>
    intro q1 q2
    have hne : G.ht q ≠ 0 := fun e => h0 ((ok_leaf_iff hok q1 q2).1 e)
    obtain ⟨k1, k2, k3, _, _, k6⟩ := hok.kid q i q1 q2 hne hi
    obtain ⟨ih1, ih2⟩ := ih (by omega) k2
    constructor
    · intro e2
      by_cases e1 : q = p
      · rw [e1] at hi k6 ih1 ih2 ⊢
        by_cases a : i = pos
        · refine stored_split_parent P V i hi (Or.inl ⟨a, ih2 ?_⟩)
          rw [a]; exact P.child
        · refine stored_split_parent P V i hi (Or.inr ⟨a, ih1 ?_⟩)
          intro e
          rw [e, c6] at k6
          exact a (Prod.mk.inj k6).2.symm
      · have ef := V.frame q e1 e2 (by omega)
        refine stored_via (i := i) (by rw [ef]; exact h0) (by rw [ef]; exact hi) (by rw [ef]) ?_
        refine ih1 ?_
        intro e
        rw [e, c6] at k6
        exact e1 (Prod.mk.inj k6).1.symm
    · intro e2
      rw [e2] at h0 hi k3 ih1 ih2
      refine stored_split_inner P V h0 i hi (ih1 ?_)
      intro e
      rw [e] at k3
      omega

end Btree

/-! ## B-tree: `split_root` keeps the search tree -/

namespace Btree

theorem inLo_none (k : Nat) : inLo none k := fun _ h => Option.noConfusion h

theorem inHi_none (strict : Bool) (k : Nat) : inHi strict none k := fun _ h => Option.noConfusion h

/-- The facts `RootSplit` gives. -/
theorem root_view {t t1 : Tree} (S : RootSplit t t1) :
    RootView t t1 (if (t.nodes ROOT_PAGE_NUM).child 0 ≠ 0 then MIN_NUM_CHILDREN t.order + 1
      else MIN_NUM_CHILDREN t.order) := by
  obtain ⟨so, sc, sf, rp, rr, rc, rdl, rcl, rd, rc0, rc1, lp, lr, lc, ldl, lcl, ld, lch, np, nr, nc,
    ndl, ncl, nd, nch⟩ := S
  exact ⟨so, sc, sf, by split <;> omega, by split <;> omega, fun h => by rw [if_pos h],
    fun h => by rw [if_neg (not_not.2 h)], rp, rc, rdl, rcl, rd, rc0, rc1, lp, lc, ldl, lcl, ld,
    lch, np, nc, ndl, ncl, nd, nch⟩

/-- What the invariant tells of the root that `split_root` divides. -/
theorem root_pre_facts {t : Tree} {strict : Bool} {K : Nat → Prop} {G : Shape}
    (P : RootPre t strict K G) :
    1 ≤ t.count ∧ 1 ≤ MIN_NUM_CHILDREN t.order ∧ MIN_NUM_CHILDREN t.order ≤ t.order ∧
    NodeOk t strict K 1 ROOT_PAGE_NUM none none := by
  obtain ⟨hM1, hM2⟩ := min_children_le P.ok.order_pos
  have h := P.ok.node ROOT_PAGE_NUM (le_refl _) P.ok.count_pos
  rw [if_pos rfl, P.ok.root_lo, P.ok.root_hi] at h
  exact ⟨P.ok.count_pos, hM1, hM2, h⟩

/-- After `split_root` the root has the separator as its only key. -/
theorem root_node_root {t t1 : Tree} {strict : Bool} {K : Nat → Prop} {G : Shape} {it : Nat}
    (P : RootPre t strict K G) (V : RootView t t1 it) :
    NodeOk t1 strict K 0 ROOT_PAGE_NUM none none := by
  obtain ⟨hc, hM1, hM2, r1, r2, r3, r4, r5, r6⟩ := root_pre_facts P
  have hov := P.over
  unfold NodeOk
  rw [V.order, V.r_count]
  refine ⟨V.r_page.trans r1, V.r_dlen, V.r_clen, by have := P.ok.order_pos; omega,
    fun i j hij hj => by omega, fun i hi => ?_⟩
  have : i = 0 := by omega
  rw [this, V.r_data]
  exact ⟨(r6 _ (by omega)).1, inLo_none _, inHi_none _ _⟩

/-- After `split_root` the left page holds the first keys of the root, below
the separator. -/
theorem root_node_left {t t1 : Tree} {strict : Bool} {K : Nat → Prop} {G : Shape} {it : Nat}
    (P : RootPre t strict K G) (V : RootView t t1 it) :
    NodeOk t1 strict K 0 (t.count + 1) none
      (some ((t.nodes ROOT_PAGE_NUM).dataAt (MIN_NUM_CHILDREN t.order)).key) := by
  obtain ⟨hc, hM1, hM2, r1, r2, r3, r4, r5, r6⟩ := root_pre_facts P
  have hov := P.over
  unfold NodeOk
  rw [V.order, V.l_count]
  refine ⟨V.l_page, V.l_dlen, V.l_clen, by omega, ?_, ?_⟩
  · intro i j hij hj
    rw [V.l_data i (by omega), V.l_data j hj]
    exact r5 i j hij (by omega)
  · intro i hi
    rw [V.l_data i hi]
    refine ⟨(r6 i (by omega)).1, inLo_none _, ?_⟩
    intro u hu
    cases hu
    exact r5 i _ hi (by omega)

/-- After `split_root` the right page holds the last keys of the root, from
the separator on. -/
theorem root_node_right {t t1 : Tree} {strict : Bool} {K : Nat → Prop} {G : Shape} {it : Nat}
    (P : RootPre t strict K G) (V : RootView t t1 it) :
    NodeOk t1 strict K 0 (t.count + 2)
      (some ((t.nodes ROOT_PAGE_NUM).dataAt (MIN_NUM_CHILDREN t.order)).key) none := by
  obtain ⟨hc, hM1, hM2, r1, r2, r3, r4, r5, r6⟩ := root_pre_facts P
  have hov := P.over
  have g1 := V.it_ge
  have g2 := V.it_le
  unfold NodeOk
  rw [V.order, V.n_count]
  refine ⟨V.n_page, V.n_dlen, V.n_clen, by omega, ?_, ?_⟩
  · intro i j hij hj
    rw [V.n_data i (by omega), V.n_data j hj]
    exact r5 _ _ (by omega) (by omega)
  · intro i hi
    rw [V.n_data i hi]
    refine ⟨(r6 _ (by omega)).1, ?_, inHi_none _ _⟩
    intro l hl
    cases hl
    exact ok_sorted_le P.ok (le_refl _) hc (by omega) (by omega)

/-- The child pointers of the tree before `split_root`, in the shape after
it. -/
theorem root_kid_old {t : Tree} {strict : Bool} {K : Nat → Prop} {G G1 : Shape}
    (P : RootPre t strict K G) (E : RootShape t G G1)
    (q1 i1 : Nat) (a1 : 1 ≤ q1) (a2 : q1 ≤ t.count) (a3 : G.ht q1 ≠ 0)
    (a4 : i1 ≤ (t.nodes q1).count) :
    2 ≤ (t.nodes q1).child i1 ∧ (t.nodes q1).child i1 ≤ t.count ∧
    G1.ht ((t.nodes q1).child i1) + 1 = G.ht q1 ∧
    G1.lo ((t.nodes q1).child i1) = lob (t.nodes q1) (G.lo q1) i1 ∧
    G1.hi ((t.nodes q1).child i1) = hib (t.nodes q1) (G.hi q1) i1 ∧
    G1.par ((t.nodes q1).child i1) =
      if q1 = ROOT_PAGE_NUM then
        (if i1 ≤ MIN_NUM_CHILDREN t.order then (t.count + 1, i1)
          else (t.count + 2, i1 - (MIN_NUM_CHILDREN t.order + 1)))
      else (q1, i1) := by
  obtain ⟨k1, k2, k3, k4, k5, k6⟩ := P.ok.kid q1 i1 a1 a2 a3 a4
  have hr : (t.nodes q1).child i1 ≠ ROOT_PAGE_NUM := by unfold ROOT_PAGE_NUM; omega
  refine ⟨k1, k2, ?_, ?_, ?_, ?_⟩
  · rw [E.ht, if_neg hr, if_neg (by omega)]; exact k3
  · rw [E.lo, if_neg (by omega), if_neg (by omega)]; exact k4
  · rw [E.hi, if_neg (by omega), if_neg (by omega)]; exact k5
  · rw [E.par, if_neg (by omega), if_neg (by omega), k6]

/-- After `split_root` the children of the root are the two new pages, around
the separator. -/
theorem root_kid_root {t t1 : Tree} {strict : Bool} {K : Nat → Prop} {G G1 : Shape} {it : Nat}
    (P : RootPre t strict K G) (V : RootView t t1 it) (E : RootShape t G G1)
    (i : Nat) (hi : i ≤ (t1.nodes ROOT_PAGE_NUM).count) :
    2 ≤ (t1.nodes ROOT_PAGE_NUM).child i ∧ (t1.nodes ROOT_PAGE_NUM).child i ≤ t.count + 2 ∧
    G1.ht ((t1.nodes ROOT_PAGE_NUM).child i) + 1 = G.ht ROOT_PAGE_NUM + 1 ∧
    G1.lo ((t1.nodes ROOT_PAGE_NUM).child i) = lob (t1.nodes ROOT_PAGE_NUM) none i ∧
    G1.hi ((t1.nodes ROOT_PAGE_NUM).child i) = hib (t1.nodes ROOT_PAGE_NUM) none i ∧
    G1.par ((t1.nodes ROOT_PAGE_NUM).child i) = (ROOT_PAGE_NUM, i) := by
  have hc := P.ok.count_pos
  rw [V.r_count] at hi
  have hr1 : t.count + 1 ≠ ROOT_PAGE_NUM := by unfold ROOT_PAGE_NUM; omega
  have hr2 : t.count + 2 ≠ ROOT_PAGE_NUM := by unfold ROOT_PAGE_NUM; omega
  by_cases e : i = 0
  · rw [e, V.r_child0, E.ht, E.lo, E.hi, E.par, if_neg hr1, if_pos (Or.inl rfl),
      if_neg (by omega), if_pos rfl, if_pos rfl, if_pos rfl]
    refine ⟨by omega, by omega, rfl, ?_, ?_, rfl⟩
    · unfold lob
      rw [if_pos rfl]
    · unfold hib
      rw [V.r_count, if_pos (by omega), V.r_data]
  · have e1 : i = 1 := by omega
    rw [e1, V.r_child1, E.ht, E.lo, E.hi, E.par, if_neg hr2, if_pos (Or.inr rfl), if_pos rfl,
      if_neg (by omega), if_pos rfl, if_neg (by omega), if_pos rfl]
    refine ⟨by omega, by omega, rfl, ?_, ?_, rfl⟩
    · unfold lob
      rw [if_neg (by omega), V.r_data]
    · unfold hib
      rw [V.r_count, if_neg (by omega)]

/-- After `split_root` of an internal root the children of the left page are
the first children of the root. -/
theorem root_kid_left {t t1 : Tree} {strict : Bool} {K : Nat → Prop} {G G1 : Shape} {it : Nat}
    (P : RootPre t strict K G) (V : RootView t t1 it) (E : RootShape t G G1)
    (hq : G.ht ROOT_PAGE_NUM ≠ 0) (i : Nat) (hi : i ≤ (t1.nodes (t.count + 1)).count) :
    2 ≤ (t1.nodes (t.count + 1)).child i ∧ (t1.nodes (t.count + 1)).child i ≤ t.count + 2 ∧
    G1.ht ((t1.nodes (t.count + 1)).child i) + 1 = G.ht ROOT_PAGE_NUM ∧
    G1.lo ((t1.nodes (t.count + 1)).child i) = lob (t1.nodes (t.count + 1)) none i ∧
    G1.hi ((t1.nodes (t.count + 1)).child i) = hib (t1.nodes (t.count + 1))
      (some ((t.nodes ROOT_PAGE_NUM).dataAt (MIN_NUM_CHILDREN t.order)).key) i ∧
    G1.par ((t1.nodes (t.count + 1)).child i) = (t.count + 1, i) := by
  obtain ⟨hc, hM1, hM2, r1, r2, r3, r4, r5, r6⟩ := root_pre_facts P
  have hov := P.over
  rw [V.l_count] at hi
  obtain ⟨k1, k2, k4, k5, k6, k7⟩ := root_kid_old P E ROOT_PAGE_NUM i (le_refl _) hc hq (by omega)
  rw [V.l_child i, if_pos hi, k5, k6, k7, if_pos rfl, if_pos hi, P.ok.root_lo, P.ok.root_hi]
  refine ⟨k1, by omega, k4, ?_, ?_, rfl⟩
  · unfold lob
    by_cases a : i = 0
    · rw [if_pos a, if_pos a]
    · rw [if_neg a, if_neg a, V.l_data (i - 1) (by omega)]
  · unfold hib
    rw [V.l_count, if_pos (by omega)]
    by_cases a : i < MIN_NUM_CHILDREN t.order
    · rw [if_pos a, V.l_data i a]
    · rw [if_neg a]
      have : i = MIN_NUM_CHILDREN t.order := by omega
      rw [this]

/-- After `split_root` of an internal root the children of the right page are
the last children of the root. -/
theorem root_kid_right {t t1 : Tree} {strict : Bool} {K : Nat → Prop} {G G1 : Shape} {it : Nat}
    (P : RootPre t strict K G) (V : RootView t t1 it) (E : RootShape t G G1)
    (hq : G.ht ROOT_PAGE_NUM ≠ 0) (i : Nat) (hi : i ≤ (t1.nodes (t.count + 2)).count) :
    2 ≤ (t1.nodes (t.count + 2)).child i ∧ (t1.nodes (t.count + 2)).child i ≤ t.count + 2 ∧
    G1.ht ((t1.nodes (t.count + 2)).child i) + 1 = G.ht ROOT_PAGE_NUM ∧
    G1.lo ((t1.nodes (t.count + 2)).child i) = lob (t1.nodes (t.count + 2))
      (some ((t.nodes ROOT_PAGE_NUM).dataAt (MIN_NUM_CHILDREN t.order)).key) i ∧
    G1.hi ((t1.nodes (t.count + 2)).child i) = hib (t1.nodes (t.count + 2)) none i ∧
    G1.par ((t1.nodes (t.count + 2)).child i) = (t.count + 2, i) := by
  obtain ⟨hc, hM1, hM2, r1, r2, r3, r4, r5, r6⟩ := root_pre_facts P
  have hov := P.over
  have hit : it = MIN_NUM_CHILDREN t.order + 1 :=
    V.it_inner (fun e => hq ((ok_leaf_iff P.ok (le_refl _) hc).2 e))
  rw [V.n_count] at hi
  obtain ⟨k1, k2, k4, k5, k6, k7⟩ := root_kid_old P E ROOT_PAGE_NUM (it + i) (le_refl _) hc hq
    (by omega)
  rw [V.n_child i, if_pos hi, k5, k6, k7, if_pos rfl, if_neg (by omega), P.ok.root_lo,
    P.ok.root_hi]
  refine ⟨k1, by omega, k4, ?_, ?_, ?_⟩
  · unfold lob
    rw [if_neg (by omega)]
    by_cases a : i = 0
    · rw [if_pos a, a, hit]
      rfl
    · rw [if_neg a, V.n_data (i - 1) (by omega)]
      have : it + i - 1 = it + (i - 1) := by omega
      rw [this]
  · unfold hib
    rw [V.n_count]
    by_cases a : it + i < (t.nodes ROOT_PAGE_NUM).count
    · rw [if_pos a, if_pos (by omega), V.n_data i (by omega)]
    · rw [if_neg a, if_neg (by omega)]
  · congr 1
    omega

/-- The outcome of `split_root` of an overflowing root, in closed form, is a
search tree in which no page has more keys than the order. -/
theorem ok_root_gen {t t1 : Tree} {strict : Bool} {K : Nat → Prop} {G G1 : Shape} {it : Nat}
    (P : RootPre t strict K G) (V : RootView t t1 it) (E : RootShape t G G1) :
    Ok t1 strict K G1 0 := by
  obtain ⟨hc, hM1, hM2, r1, r2, r3, r4, r5, r6⟩ := root_pre_facts P
  have hok := P.ok
  have hr1 : ROOT_PAGE_NUM ≠ t.count + 1 := by unfold ROOT_PAGE_NUM; omega
  have hr2 : ROOT_PAGE_NUM ≠ t.count + 2 := by unfold ROOT_PAGE_NUM; omega
  have hlor : G1.lo ROOT_PAGE_NUM = none := by
    rw [E.lo, if_neg hr2, if_neg hr1]; exact hok.root_lo
  have hhir : G1.hi ROOT_PAGE_NUM = none := by
    rw [E.hi, if_neg hr1, if_neg hr2]; exact hok.root_hi
  refine ⟨by rw [V.order]; exact hok.order_pos, by rw [V.count]; omega, hlor, hhir,
    fun q q1 q2 => ?_, fun q q1 q2 hq i => ?_, fun q i q1 q2 hq hi => ?_⟩
  · rw [V.count] at q2
    rw [if_neg (by omega)]
    by_cases e1 : q = ROOT_PAGE_NUM
    · rw [e1, hlor, hhir]
      exact root_node_root P V
    · by_cases e2 : q = t.count + 1
      · rw [E.lo, E.hi, if_neg (by omega), if_pos e2, if_pos e2, e2]
        exact root_node_left P V
      · by_cases e3 : q = t.count + 2
        · rw [E.lo, E.hi, if_pos e3, if_neg e2, if_pos e3, e3]
          exact root_node_right P V
        · rw [E.lo, E.hi, if_neg e3, if_neg e2, if_neg e2, if_neg e3]
          have := hok.node q q1 (by omega)
          rw [if_neg e1] at this
          exact nodeOk_congr V.order (V.frame q e1 e2 e3) (fun _ h => h) this
  · rw [V.count] at q2
    rw [E.ht] at hq
    by_cases e1 : q = ROOT_PAGE_NUM
    · rw [if_pos e1] at hq
      omega
    · rw [if_neg e1] at hq
      by_cases e2 : q = t.count + 1
      · rw [if_pos (Or.inl e2)] at hq
        rw [e2, V.l_child i]
        split
        · exact hok.leaf ROOT_PAGE_NUM (le_refl _) hc hq _
        · rfl
      · by_cases e3 : q = t.count + 2
        · rw [if_pos (Or.inr e3)] at hq
          rw [e3, V.n_child i]
          split
          · exact hok.leaf ROOT_PAGE_NUM (le_refl _) hc hq _
          · rfl
        · rw [if_neg (by omega)] at hq
          rw [V.frame q e1 e2 e3]
          exact hok.leaf q q1 (by omega) hq i
  · rw [V.count] at q2
    rw [V.count]
    rw [E.ht q] at hq
    rw [E.ht q]
    by_cases e1 : q = ROOT_PAGE_NUM
    · rw [if_pos e1, e1, hlor, hhir]
      rw [e1] at hi
      exact root_kid_root P V E i hi
    · rw [if_neg e1] at hq
      rw [if_neg e1]
      by_cases e2 : q = t.count + 1
      · rw [if_pos (Or.inl e2)] at hq
        rw [if_pos (Or.inl e2), E.lo q, E.hi q, if_neg (by omega), if_pos e2, if_pos e2, e2]
        rw [e2] at hi
        exact root_kid_left P V E hq i hi
      · by_cases e3 : q = t.count + 2
        · rw [if_pos (Or.inr e3)] at hq
          rw [if_pos (Or.inr e3), E.lo q, E.hi q, if_pos e3, if_neg e2, if_pos e3, e3]
          rw [e3] at hi
          exact root_kid_right P V E hq i hi
        · rw [if_neg (by omega)] at hq
          rw [if_neg (by omega), E.lo q, E.hi q, if_neg e3, if_neg e2, if_neg e2, if_neg e3]
          rw [V.frame q e1 e2 e3] at hi ⊢
          obtain ⟨k1, k2, k4, k5, k6, k7⟩ := root_kid_old P E q i q1 (by omega) hq hi
          rw [k5, k6, k7, if_neg e1]
          exact ⟨k1, by omega, k4, rfl, rfl, rfl⟩

/-- `split_root` of an overflowing root keeps the search tree. -/
theorem ok_split_root {t : Tree} {strict : Bool} {K : Nat → Prop} {G : Shape}
    (P : RootPre t strict K G) :
    RootView t t.split_root
      (if (t.nodes ROOT_PAGE_NUM).child 0 ≠ 0 then MIN_NUM_CHILDREN t.order + 1
        else MIN_NUM_CHILDREN t.order) ∧
    Ok t.split_root strict K
      (rootShape G (t.count + 1) (t.count + 2) (MIN_NUM_CHILDREN t.order)
        ((t.nodes ROOT_PAGE_NUM).dataAt (MIN_NUM_CHILDREN t.order)).key) 0 := by
  obtain ⟨hc, hM1, hM2, r1, r2, r3, r4, r5, r6⟩ := root_pre_facts P
  have V := root_view (split_root_spec t P.ok.order_pos hc r2 r3)
  exact ⟨V, ok_root_gen P V ⟨fun _ => rfl, fun _ => rfl, fun _ => rfl, fun _ => rfl⟩⟩

end Btree

/-! ## B-tree: the pairs stored in the tree after `split_root` -/

namespace Btree

/-- A pair stored below one of the two new pages is stored in the tree after
`split_root`. -/
theorem stored_root_up {t t1 : Tree} {it : Nat} (V : RootView t t1 it) {x : Pair}
    (h : Tree.Stored t1 (t.count + 1) x ∨ Tree.Stored t1 (t.count + 2) x) :
    Tree.Stored t1 ROOT_PAGE_NUM x := by
  have h0 : (t1.nodes ROOT_PAGE_NUM).child 0 ≠ 0 := by rw [V.r_child0]; omega
  rcases h with h | h
  · exact stored_via (i := 0) h0 (Nat.zero_le _) V.r_child0 h
  · exact stored_via (i := 1) h0 (by rw [V.r_count]) V.r_child1 h

/-- The pairs of a leaf root are in one of the two leaves after
`split_root`. -/
theorem stored_root_leaf {t t1 : Tree} {strict : Bool} {K : Nat → Prop} {G : Shape} {it : Nat}
    (P : RootPre t strict K G) (V : RootView t t1 it)
    (h0 : (t.nodes ROOT_PAGE_NUM).child 0 = 0) (i : Nat)
    (hi : i < (t.nodes ROOT_PAGE_NUM).count) :
    Tree.Stored t1 (t.count + 1) ((t.nodes ROOT_PAGE_NUM).dataAt i) ∨
      Tree.Stored t1 (t.count + 2) ((t.nodes ROOT_PAGE_NUM).dataAt i) := by
  obtain ⟨hc, hM1, hM2, r1, r2, r3, r4, r5, r6⟩ := root_pre_facts P
  have hov := P.over
  have hit := V.it_of_leaf h0
  have hl : G.ht ROOT_PAGE_NUM = 0 := (ok_leaf_iff P.ok (le_refl _) hc).2 h0
  by_cases e : i < MIN_NUM_CHILDREN t.order
  · left
    refine stored_at (i := i) ?_ (by rw [V.l_count]; exact e) (V.l_data i e)
    rw [V.l_child 0, if_pos (Nat.zero_le _)]
    exact h0
  · right
    refine stored_at (i := i - MIN_NUM_CHILDREN t.order) ?_ (by rw [V.n_count]; omega) ?_
    · rw [V.n_child 0]
      split
      · exact P.ok.leaf ROOT_PAGE_NUM (le_refl _) hc hl _
      · rfl
    · rw [V.n_data _ (by omega), hit]
      congr 1
      omega

/-- A pair stored below a child of an internal root is below one of the two
new pages after `split_root`. -/
theorem stored_root_inner {t t1 : Tree} {strict : Bool} {K : Nat → Prop} {G : Shape} {it : Nat}
    (P : RootPre t strict K G) (V : RootView t t1 it)
    (h0 : (t.nodes ROOT_PAGE_NUM).child 0 ≠ 0) (i : Nat)
    (hi : i ≤ (t.nodes ROOT_PAGE_NUM).count) {x : Pair}
    (h : Tree.Stored t1 ((t.nodes ROOT_PAGE_NUM).child i) x) :
    Tree.Stored t1 (t.count + 1) x ∨ Tree.Stored t1 (t.count + 2) x := by
  obtain ⟨hc, hM1, hM2, r1, r2, r3, r4, r5, r6⟩ := root_pre_facts P
  have hov := P.over
  have hit := V.it_inner h0
  have hne : G.ht ROOT_PAGE_NUM ≠ 0 := fun e => h0 ((ok_leaf_iff P.ok (le_refl _) hc).1 e)
  by_cases e : i ≤ MIN_NUM_CHILDREN t.order
  · left
    refine stored_via (i := i) ?_ (by rw [V.l_count]; exact e)
      (by rw [V.l_child i, if_pos e]) h
    rw [V.l_child 0, if_pos (Nat.zero_le _)]
    exact h0
  · right
    refine stored_via (i := i - (MIN_NUM_CHILDREN t.order + 1)) ?_ (by rw [V.n_count]; omega) ?_ h
    · rw [V.n_child 0, if_pos (Nat.zero_le _)]
      have := (P.ok.kid ROOT_PAGE_NUM (it + 0) (le_refl _) hc hne (by omega)).1
      omega
    · rw [V.n_child _, if_pos (by omega), hit]
      congr 1
      omega

/-- The pairs stored below a page stay stored below it after `split_root`. -/
theorem stored_root {t t1 : Tree} {strict : Bool} {K : Nat → Prop} {G : Shape} {it : Nat}
    (P : RootPre t strict K G) (V : RootView t t1 it) {q : Nat} {x : Pair}
    (h : Tree.Stored t q x) : 1 ≤ q → q ≤ t.count → Tree.Stored t1 q x := by
  have hok := P.ok
  induction h with
  | @leaf q i h0 hi =>
    intro q1 q2
    by_cases e1 : q = ROOT_PAGE_NUM
    · rw [e1] at h0 hi ⊢
      exact stored_root_up V (stored_root_leaf P V h0 i hi)
    · have ef := V.frame q e1 (by omega) (by omega)
      exact stored_at (i := i) (by rw [ef]; exact h0) (by rw [ef]; exact hi) (by rw [ef])
  | @node q i x h0 hi _ ih =>
    intro q1 q2
    have hne : G.ht q ≠ 0 := fun e => h0 ((ok_leaf_iff hok q1 q2).1 e)
    obtain ⟨k1, k2, _⟩ := hok.kid q i q1 q2 hne hi
    have ih1 := ih (by omega) k2
    by_cases e1 : q = ROOT_PAGE_NUM
    · rw [e1] at h0 hi ih1 ⊢
      exact stored_root_up V (stored_root_inner P V h0 i hi ih1)
    · have ef := V.frame q e1 (by omega) (by omega)
      exact stored_via (i := i) (by rw [ef]; exact h0) (by rw [ef]; exact hi) (by rw [ef]) ih1

end Btree

/-! ## B-tree: the descent and the splits of `insert` -/

namespace Btree

/-- In a search tree whose page `s` has no more keys than the order, no page
has. -/
theorem ok_reslack {t : Tree} {strict : Bool} {K : Nat → Prop} {G : Shape} {s : Nat}
    (hok : Ok t strict K G s) (hs : (t.nodes s).count ≤ t.order) (s1 : Nat) :
    Ok t strict K G s1 := by
  refine ⟨hok.order_pos, hok.count_pos, hok.root_lo, hok.root_hi, fun q q1 q2 => ?_, hok.leaf,
    hok.kid⟩
  obtain ⟨a1, a2, a3, a4, a5, a6⟩ := hok.node q q1 q2
  refine ⟨a1, a2, a3, ?_, a5, a6⟩
  by_cases e : q = s
  · rw [e]
    split <;> omega
  · rw [if_neg e] at a4
    split <;> omega

/-- The pages of the descent stack below the top are pages of the tree, each
higher than the top. -/
theorem path_above {t : Tree} {strict : Bool} {K : Nat → Prop} {G : Shape} {s : Nat}
    (hok : Ok t strict K G s) : ∀ (stk ips : List Nat) (a : Nat),
    Path t G (a :: stk) ips → ∀ b ∈ stk, 1 ≤ b ∧ b ≤ t.count ∧ G.ht a < G.ht b
  | [], _, _, _ => fun b hb => absurd hb (List.not_mem_nil _)
  | p :: stk, [], _, h => by simp [Path] at h
  | p :: stk, pos :: ips, a, h => by
    obtain ⟨p1, p2, hp, hpos, hc, hrest⟩ := h
    have k3 := (hok.kid p pos p1 p2 hp hpos).2.2.1
    rw [hc] at k3
    intro b hb
    rcases List.mem_cons.1 hb with e | e
    · rw [e]
      exact ⟨p1, p2, by omega⟩
    · obtain ⟨b1, b2, b3⟩ := path_above hok stk ips p hrest b e
      exact ⟨b1, b2, by omega⟩

/-- The descent stack stays one when the pages below its top are left as they
are. -/
theorem path_frame {t t1 : Tree} {G G1 : Shape} (hcnt : t.count ≤ t1.count) :
    ∀ (stk ips : List Nat) (a : Nat), Path t G (a :: stk) ips →
      (∀ b ∈ stk, t1.nodes b = t.nodes b ∧ G1.ht b = G.ht b) → Path t1 G1 (a :: stk) ips
  | [], [], _, h => fun _ => h
  | [], _ :: _, _, h => by simp [Path] at h
  | p :: stk, [], _, h => by simp [Path] at h
  | p :: stk, pos :: ips, a, h => by
    obtain ⟨p1, p2, hp, hpos, hc, hrest⟩ := h
    intro hf
    obtain ⟨f1, f2⟩ := hf p (List.mem_cons_self _ _)
    refine ⟨p1, by omega, by rw [f2]; exact hp, by rw [f1]; exact hpos, by rw [f1]; exact hc, ?_⟩
    exact path_frame hcnt stk ips p hrest (fun b hb => hf b (List.mem_cons_of_mem _ hb))

/-- A pair stored below the top of the descent stack is stored in the tree. -/
theorem path_stored {t : Tree} {strict : Bool} {K : Nat → Prop} {G : Shape} {s : Nat}
    (hok : Ok t strict K G s) {x : Pair} : ∀ (stk ips : List Nat) (a : Nat),
    Path t G (a :: stk) ips → Tree.Stored t a x → Tree.Stored t ROOT_PAGE_NUM x
  | [], [], a, h => fun hs => by
    have e : a = ROOT_PAGE_NUM := h
    rw [← e]
    exact hs
  | [], _ :: _, _, h => by simp [Path] at h
  | p :: stk, [], _, h => by simp [Path] at h
  | p :: stk, pos :: ips, a, h => by
    obtain ⟨p1, p2, hp, hpos, hc, hrest⟩ := h
    intro hs
    have h0 : (t.nodes p).child 0 ≠ 0 := fun e => hp ((ok_leaf_iff hok p1 p2).2 e)
    exact path_stored hok stk ips p hrest (stored_via (i := pos) h0 hpos hc hs)

/-- The last page of the descent stack is the root, and the root is not
elsewhere in it. -/
theorem path_root_last {t : Tree} {strict : Bool} {K : Nat → Prop} {G : Shape} {s : Nat}
    (hok : Ok t strict K G s) {stk ips : List Nat} {pos : Nat}
    (h : Path t G (ROOT_PAGE_NUM :: stk) (pos :: ips)) : False := by
  cases stk with
  | nil => simp [Path] at h
  | cons p stk =>
    obtain ⟨p1, p2, hp, hpos, hc, _⟩ := h
    have := (hok.kid p pos p1 p2 hp hpos).1
    rw [hc] at this
    unfold ROOT_PAGE_NUM at this
    omega

/-- Step 1 of `Btree::insert` on a search tree: with fuel for the height, the
descent ends in a leaf within whose bounds the value lies, and the value is
inserted there at the position of the scan. -/
theorem descend_spec {t : Tree} {strict : Bool} {K : Nat → Prop} {G : Shape}
    (hok : Ok t strict K G 0) (v : Pair) (hnew : strict = true → ¬ K v.key) :
    ∀ (fuel page : Nat) (stack ipos : List Nat), 1 ≤ page → page ≤ t.count →
      G.ht page < fuel → Path t G (page :: stack) ipos →
      inLo (G.lo page) v.key → inHi strict (G.hi page) v.key →
      ∃ leaf stk ips, descend t v fuel (page :: stack) ipos =
          some (t.modify leaf (fun n => n.insert_in_node (scanLt n v n.count 0) v), leaf :: stk,
            scanLt (t.nodes leaf) v (t.nodes leaf).count 0 :: ips) ∧
        1 ≤ leaf ∧ leaf ≤ t.count ∧ G.ht leaf = 0 ∧ Path t G (leaf :: stk) ips ∧
        inLo (G.lo leaf) v.key ∧ inHi strict (G.hi leaf) v.key ∧
        (G.ht page = 0 → leaf = page) ∧ (G.ht page ≠ 0 → leaf ≠ page)
  | 0, _, _, _, _, _, hf, _, _, _ => absurd hf (Nat.not_lt_zero _)
  | fuel + 1, page, stack, ipos, h1, h2, hf, hpath, hlo, hhi => by
    unfold descend
    simp only
    obtain ⟨s1, s2, s3⟩ := scanLt_pos (t.nodes page) v
    by_cases hl : G.ht page = 0
    · have hc := hok.leaf page h1 h2 hl (scanLt (t.nodes page) v (t.nodes page).count 0)
      rw [if_neg (not_not.2 hc)]
      exact ⟨page, stack, ipos, rfl, h1, h2, hl, hpath, hlo, hhi, fun _ => rfl,
        fun h => absurd hl h⟩
    · obtain ⟨k1, k2, k3, k4, k5, _⟩ := hok.kid page _ h1 h2 hl s1
      rw [if_pos (by omega)]
      obtain ⟨a1, a2, a3, a4, a5, a6⟩ := hok.node page h1 h2
      obtain ⟨leaf, stk, ips, e, l1, l2, l3, l4, l5, l6, _, _⟩ :=
        descend_spec hok v hnew fuel _ (page :: stack) (_ :: ipos) (by omega) k2 (by omega)
          ⟨h1, h2, hl, s1, rfl, hpath⟩
          (by
            rw [k4]
            unfold lob
            split
            · exact hlo
            · intro l e
              cases e
              exact Nat.le_of_lt (s2 _ (by omega)))
          (by
            rw [k5]
            unfold hib
            split
            · rename_i hlt
              intro u e
              cases e
              have := s3 hlt
              cases strict with
              | false => exact rel_weak this
              | true =>
                refine rel_strict.2 (lt_of_le_of_ne this ?_)
                intro e
                exact hnew rfl (e ▸ (a6 _ hlt).1)
            · exact hhi)
      refine ⟨leaf, stk, ips, e, l1, l2, l3, l4, l5, l6, fun h => absurd h hl, fun _ e => ?_⟩
      rw [e] at l3
      exact hl l3

end Btree

/-! ## B-tree: step 2 of `insert` -/

namespace Btree

/-- Step 2 of `Btree::insert` on a search tree in which the page on top of the
descent stack alone may have one key more than the order: afterwards the root
alone may, the pairs stored in the tree are still stored, and the root has
gained at most one key, none when the stack holds the root only. -/
theorem unwind_spec {strict : Bool} {K : Nat → Prop} :
    ∀ (stk ips : List Nat) (t : Tree) (G : Shape) (q posq : Nat),
      Ok t strict K G q → 1 ≤ q → q ≤ t.count → Path t G (q :: stk) ips →
      ∃ G1, Ok (unwind t (q :: stk) (posq :: ips)) strict K G1 ROOT_PAGE_NUM ∧
        G1.ht ROOT_PAGE_NUM = G.ht ROOT_PAGE_NUM ∧
        t.count ≤ (unwind t (q :: stk) (posq :: ips)).count ∧
        (unwind t (q :: stk) (posq :: ips)).order = t.order ∧
        (∀ x, Tree.Stored t ROOT_PAGE_NUM x →
          Tree.Stored (unwind t (q :: stk) (posq :: ips)) ROOT_PAGE_NUM x) ∧
        ((unwind t (q :: stk) (posq :: ips)).nodes ROOT_PAGE_NUM).count ≤
          (t.nodes ROOT_PAGE_NUM).count + (if stk = [] then 0 else 1)
  | [], [], t, G, q, posq, hok, _, _, hpath => by
    have e : q = ROOT_PAGE_NUM := hpath
    have hu : unwind t [q] [posq] = t := by simp [unwind]
    rw [hu]
    rw [e] at hok
    exact ⟨G, hok, rfl, le_refl _, rfl, fun _ h => h, by simp⟩
  | [], _ :: _, _, _, _, _, _, _, _, hpath => by simp [Path] at hpath
  | p :: stk, [], _, _, _, _, _, _, _, hpath => by simp [Path] at hpath
  | p :: stk, pos :: ips, t, G, q, posq, hok, q1, q2, hpath => by
    obtain ⟨p1, p2, hp, hpos, hc, hrest⟩ := hpath
    have hu : unwind t (q :: p :: stk) (posq :: pos :: ips) =
        unwind (if (t.nodes q).is_overflow t.order then t.split p pos else t) (p :: stk)
          (pos :: ips) := by
      rw [unwind]
    rw [hu]
    have k1 := (hok.kid p pos p1 p2 hp hpos).1
    rw [hc] at k1
    have hroot : stk ≠ [] → p ≠ ROOT_PAGE_NUM := by
      intro hne e
      cases stk with
      | nil => exact hne rfl
      | cons p' stk' =>
        cases ips with
        | nil => simp [Path] at hrest
        | cons pos' ips' =>
          rw [e] at hrest
          exact path_root_last hok hrest
    by_cases hov : (t.nodes q).is_overflow t.order = true
    · rw [if_pos hov]
      have hcnt : (t.nodes q).count = t.order + 1 := by
        have h1 := ok_count_le hok q1 q2
        have h2 : (t.nodes q).count > t.order := by simpa [Node.is_overflow] using hov
        omega
      have P : SplitPre t strict K G p pos q := ⟨hok, p1, p2, hp, hpos, hc, hcnt⟩
      obtain ⟨V, hok1⟩ := ok_split P
      obtain ⟨c1, c2, hcp, c3, _⟩ := split_pre_facts P
      have habove := path_above hok stk ips p hrest
      have hpath1 : Path (t.split p pos)
          (splitShape G p pos q (t.count + 1) (MIN_NUM_CHILDREN t.order)
            ((t.nodes q).dataAt (MIN_NUM_CHILDREN t.order)).key) (p :: stk) ips := by
        refine path_frame (by rw [V.count]; omega) stk ips p hrest (fun b hb => ?_)
        obtain ⟨b1, b2, b3⟩ := habove b hb
        refine ⟨V.frame b (by intro e; rw [e] at b3; omega) (by intro e; rw [e] at b3; omega)
          (by omega), ?_⟩
        show (if b = t.count + 1 then _ else G.ht b) = G.ht b
        rw [if_neg (by omega)]
      obtain ⟨G2, o2, h2, n2, d2, s2, r2⟩ := unwind_spec stk ips (t.split p pos) _ p pos hok1 p1
        (by rw [V.count]; omega) hpath1
      refine ⟨G2, o2, ?_, ?_, d2.trans V.order, ?_, ?_⟩
      · rw [h2]
        show (if ROOT_PAGE_NUM = t.count + 1 then _ else G.ht ROOT_PAGE_NUM) = _
        rw [if_neg (by unfold ROOT_PAGE_NUM; omega)]
      · rw [V.count] at n2
        omega
      · intro x hx
        refine s2 x ((stored_split P V hx (le_refl _) hok.count_pos).1 ?_)
        unfold ROOT_PAGE_NUM
        omega
      · rw [if_neg (List.cons_ne_nil _ _)]
        by_cases e : stk = []
        · by_cases e1 : p = ROOT_PAGE_NUM
          · have hr := V.p_count
            rw [if_pos e] at r2
            subst e1
            omega
          · rw [if_pos e, V.frame ROOT_PAGE_NUM (Ne.symm e1) (by unfold ROOT_PAGE_NUM; omega)
              (by unfold ROOT_PAGE_NUM; omega)] at r2
            omega
        · rw [if_neg e] at r2
          have e1 := hroot e
          rw [V.frame ROOT_PAGE_NUM (Ne.symm e1) (by unfold ROOT_PAGE_NUM; omega)
            (by unfold ROOT_PAGE_NUM; omega)] at r2
          exact r2
    · rw [if_neg hov]
      have hcnt : (t.nodes q).count ≤ t.order := by
        have h2 : ¬ (t.nodes q).count > t.order := by simpa [Node.is_overflow] using hov
        omega
      obtain ⟨G2, o2, h2, n2, d2, s2, r2⟩ := unwind_spec stk ips t G p pos
        (ok_reslack hok hcnt p) p1 p2 hrest
      refine ⟨G2, o2, h2, n2, d2, s2, ?_⟩
      rw [if_neg (List.cons_ne_nil _ _)]
      split at r2 <;> omega

end Btree

/-! ## B-tree: `insert` keeps the search tree -/

namespace Btree

/-- The search tree does not depend on the record count. -/
theorem ok_record {t : Tree} {strict : Bool} {K : Nat → Prop} {G : Shape} {s : Nat} (r : Nat)
    (h : Ok t strict K G s) : Ok { t with record_count := r } strict K G s :=
  ⟨h.order_pos, h.count_pos, h.root_lo, h.root_hi, h.node, h.leaf, h.kid⟩

/-- The stored pairs do not depend on the record count. -/
theorem stored_record {t : Tree} (r : Nat) {q : Nat} {x : Pair} (h : Tree.Stored t q x) :
    Tree.Stored { t with record_count := r } q x := by
  induction h with
  | @leaf p i h0 hi => exact @Tree.Stored.leaf { t with record_count := r } p i h0 hi
  | @node p i x h0 hi _ ih => exact @Tree.Stored.node { t with record_count := r } p i x h0 hi ih

/-- The descent of `insert` returns only with fuel for the height of the
page it starts from. -/
theorem descend_fuel {t : Tree} {strict : Bool} {K : Nat → Prop} {G : Shape}
    (hok : Ok t strict K G 0) (v : Pair) :
    ∀ (fuel page : Nat) (stack ipos : List Nat) (r : Tree × List Nat × List Nat),
      1 ≤ page → page ≤ t.count → descend t v fuel (page :: stack) ipos = some r →
      G.ht page < fuel
  | 0, _, _, _, _, _, _, h => by simp [descend] at h
  | fuel + 1, page, stack, ipos, r, h1, h2, h => by
    unfold descend at h
    simp only at h
    by_cases hl : G.ht page = 0
    · omega
    · obtain ⟨s1, _, _⟩ := scanLt_pos (t.nodes page) v
      obtain ⟨k1, k2, k3, _⟩ := hok.kid page _ h1 h2 hl s1
      rw [if_pos (by omega)] at h
      have := descend_fuel hok v fuel _ _ _ r (by omega) k2 h
      omega

/-- An overflowing root has exactly `order + 1` keys. -/
theorem root_over {t : Tree} {strict : Bool} {K : Nat → Prop} {G : Shape}
    (hok : Ok t strict K G ROOT_PAGE_NUM)
    (hov : (t.nodes ROOT_PAGE_NUM).is_overflow t.order = true) : RootPre t strict K G := by
  refine ⟨hok, ?_⟩
  have h1 := ok_count_le (q := ROOT_PAGE_NUM) hok (le_refl _) hok.count_pos
  have h3 : (t.nodes ROOT_PAGE_NUM).count > t.order := by
    simpa [Node.is_overflow] using hov
  omega

/-- The invariant, from a search tree with the bounds on the height of the
root, for any record count. -/
theorem good_of_ok {t : Tree} {strict : Bool} {K : Nat → Prop} {G : Shape} (r : Nat)
    (hok : Ok t strict K G 0) (h1 : G.ht ROOT_PAGE_NUM < t.count)
    (h2 : G.ht ROOT_PAGE_NUM * t.order + (t.nodes ROOT_PAGE_NUM).count ≤ r) :
    Tree.Good { t with record_count := r } strict K :=
  ⟨G, ok_record r hok, h1, h2⟩

/-- The last step of `Btree::insert`, with an overflowing root: `split_root`
and the count of the record. -/
theorem finish_over {t : Tree} {strict : Bool} {K : Nat → Prop} {G : Shape}
    (hok : Ok t strict K G ROOT_PAGE_NUM) (hht : G.ht ROOT_PAGE_NUM < t.count)
    (hpot : G.ht ROOT_PAGE_NUM * t.order + (t.nodes ROOT_PAGE_NUM).count ≤ t.record_count + 1)
    (hov : (t.nodes ROOT_PAGE_NUM).is_overflow t.order = true) :
    Tree.Good { t.split_root with record_count := t.split_root.record_count + 1 } strict K ∧
    t.split_root.order = t.order ∧ t.split_root.record_count = t.record_count ∧
    ∀ x, Tree.Stored t ROOT_PAGE_NUM x → Tree.Stored
      { t.split_root with record_count := t.split_root.record_count + 1 } ROOT_PAGE_NUM x := by
  have P := root_over hok hov
  have hcnt := P.over
  have hrec := split_root_record t
  obtain ⟨V, o3⟩ := ok_split_root P
  have e : (rootShape G (t.count + 1) (t.count + 2) (MIN_NUM_CHILDREN t.order)
      ((t.nodes ROOT_PAGE_NUM).dataAt (MIN_NUM_CHILDREN t.order)).key).ht ROOT_PAGE_NUM =
      G.ht ROOT_PAGE_NUM + 1 := by
    simp only [rootShape, if_true]
  generalize rootShape G (t.count + 1) (t.count + 2) (MIN_NUM_CHILDREN t.order)
    ((t.nodes ROOT_PAGE_NUM).dataAt (MIN_NUM_CHILDREN t.order)).key = G1 at e o3
  generalize t.split_root = t1 at V o3 hrec ⊢
  have v1 := V.count
  have v2 := V.order
  have v3 := V.r_count
  refine ⟨good_of_ok _ o3 ?_ ?_, v2, hrec, fun x hx =>
    stored_record _ (stored_root P V hx (le_refl _) hok.count_pos)⟩
  · rw [e, v1]
    omega
  · rw [e, v2, v3, hrec, Nat.succ_mul]
    omega

/-- The last step of `Btree::insert`, with a root that has room: the count
of the record. -/
theorem finish_fits {t : Tree} {strict : Bool} {K : Nat → Prop} {G : Shape}
    (hok : Ok t strict K G ROOT_PAGE_NUM) (hht : G.ht ROOT_PAGE_NUM < t.count)
    (hpot : G.ht ROOT_PAGE_NUM * t.order + (t.nodes ROOT_PAGE_NUM).count ≤ t.record_count + 1)
    (hov : ¬ (t.nodes ROOT_PAGE_NUM).is_overflow t.order = true) :
    Tree.Good { t with record_count := t.record_count + 1 } strict K := by
  have hcnt : (t.nodes ROOT_PAGE_NUM).count ≤ t.order := by
    have h3 : ¬ (t.nodes ROOT_PAGE_NUM).count > t.order := by
      simpa [Node.is_overflow] using hov
    omega
  exact good_of_ok _ (ok_reslack hok hcnt 0) hht hpot

/-- The last step of `Btree::insert`: the root is split if it overflows, and
the record is counted. -/
theorem finish_spec {t : Tree} {strict : Bool} {K : Nat → Prop} {G : Shape}
    (hok : Ok t strict K G ROOT_PAGE_NUM) (hht : G.ht ROOT_PAGE_NUM < t.count)
    (hpot : G.ht ROOT_PAGE_NUM * t.order + (t.nodes ROOT_PAGE_NUM).count ≤ t.record_count + 1) :
    Tree.Good { (if (t.nodes ROOT_PAGE_NUM).is_overflow t.order then t.split_root else t) with
      record_count := (if (t.nodes ROOT_PAGE_NUM).is_overflow t.order then t.split_root
        else t).record_count + 1 } strict K ∧
    (if (t.nodes ROOT_PAGE_NUM).is_overflow t.order then t.split_root else t).order = t.order ∧
    (if (t.nodes ROOT_PAGE_NUM).is_overflow t.order then t.split_root else t).record_count =
      t.record_count ∧
    ∀ x, Tree.Stored t ROOT_PAGE_NUM x → Tree.Stored
      { (if (t.nodes ROOT_PAGE_NUM).is_overflow t.order then t.split_root else t) with
        record_count := (if (t.nodes ROOT_PAGE_NUM).is_overflow t.order then t.split_root
          else t).record_count + 1 } ROOT_PAGE_NUM x := by
  by_cases hov : (t.nodes ROOT_PAGE_NUM).is_overflow t.order = true
  · rw [if_pos hov]
    exact finish_over hok hht hpot hov
  · rw [if_neg hov]
    exact ⟨finish_fits hok hht hpot hov, rfl, rfl, fun x hx => stored_record _ hx⟩

/-- The root gains at most one key in steps 1 and 2 of `Btree::insert`. -/
theorem root_gain {t : Tree} {strict : Bool} {K : Nat → Prop} {G : Shape} {v : Pair}
    {leaf : Nat} {stk ips : List Nat} {c : Nat} (hok : Ok t strict K G 0)
    (l4 : Path t G (leaf :: stk) ips)
    (l7 : G.ht ROOT_PAGE_NUM = 0 → leaf = ROOT_PAGE_NUM)
    (l8 : G.ht ROOT_PAGE_NUM ≠ 0 → leaf ≠ ROOT_PAGE_NUM)
    (hleaf : (t.nodes leaf).count + 1 =
      ((t.modify leaf (fun n => n.insert_in_node (scanLt n v n.count 0) v)).nodes leaf).count)
    (r2 : c ≤ ((t.modify leaf (fun n => n.insert_in_node (scanLt n v n.count 0) v)).nodes
      ROOT_PAGE_NUM).count + (if stk = [] then 0 else 1)) :
    c ≤ (t.nodes ROOT_PAGE_NUM).count + 1 := by
  have habove := path_above hok stk ips leaf l4
  by_cases e0 : G.ht ROOT_PAGE_NUM = 0
  · have el := l7 e0
    have es : stk = [] := by
      cases stk with
      | nil => rfl
      | cons p stk1 =>
        obtain ⟨b1, b2, b3⟩ := habove p (List.mem_cons_self _ _)
        cases ips with
        | nil => simp [Path] at l4
        | cons pos ips1 =>
          obtain ⟨p1, p2, hp, hpos, hcc, _⟩ := l4
          have := (hok.kid p pos p1 p2 hp hpos).1
          rw [hcc, el] at this
          unfold ROOT_PAGE_NUM at this
          omega
    rw [if_pos es] at r2
    rw [el] at hleaf
    rw [el] at r2
    omega
  · have el := l8 e0
    rw [modify_nodes_ne t _ (Ne.symm el)] at r2
    split at r2 <;> omega

/-- `Btree::insert` on a search tree whose height is less than `MAX_LEVEL`
returns a search tree in which the value is stored, with the pairs stored
before. -/
theorem insert_of_fuel {t : Tree} {strict : Bool} {K K1 : Nat → Prop} {G : Shape} (v : Pair)
    (hok : Ok t strict K G 0) (hht : G.ht ROOT_PAGE_NUM < t.count)
    (hpot : G.ht ROOT_PAGE_NUM * t.order + (t.nodes ROOT_PAGE_NUM).count ≤ t.record_count)
    (hK : ∀ k, K k → K1 k) (hv : K1 v.key) (hnew : strict = true → ¬ K v.key)
    (hfuel : G.ht ROOT_PAGE_NUM < MAX_LEVEL) :
    ∃ t1, t.insert v = some t1 ∧ t1.Good strict K1 ∧ t1.order = t.order ∧
      t1.record_count = t.record_count + 1 ∧ Tree.Stored t1 ROOT_PAGE_NUM v ∧
      ∀ x, Tree.Stored t ROOT_PAGE_NUM x → Tree.Stored t1 ROOT_PAGE_NUM x := by
  have hc := hok.count_pos
  obtain ⟨leaf, stk, ips, e, l1, l2, l3, l4, l5, l6, l7, l8⟩ :=
    descend_spec hok v hnew MAX_LEVEL ROOT_PAGE_NUM [] [] (le_refl _) hc hfuel rfl
      (by rw [hok.root_lo]; exact inLo_none _) (by rw [hok.root_hi]; exact inHi_none _ _)
  -- the tree after step 1
  have hok1 := ok_leaf_insert hok l1 l2 l3 v l5 l6 hK hv hnew
  obtain ⟨sv, sold⟩ := stored_leaf_insert hok l1 l2 l3 v
  have habove := path_above hok stk ips leaf l4
  have hcnt1 : t.count ≤ (t.modify leaf
      (fun n => n.insert_in_node (scanLt n v n.count 0) v)).count := le_of_eq rfl
  have hpath1 : Path (t.modify leaf (fun n => n.insert_in_node (scanLt n v n.count 0) v)) G
      (leaf :: stk) ips := by
    refine path_frame hcnt1 stk ips leaf l4 (fun b hb => ⟨?_, rfl⟩)
    obtain ⟨b1, b2, b3⟩ := habove b hb
    exact modify_nodes_ne t _ (by intro e; rw [e] at b3; omega)
  obtain ⟨G1, o2, h2, n2, d2, s2, r2⟩ := unwind_spec stk ips _ G leaf
    (scanLt (t.nodes leaf) v (t.nodes leaf).count 0) hok1 l1 l2 hpath1
  have svr := s2 v (path_stored hok1 stk ips leaf hpath1 sv)
  have hleaf : (t.nodes leaf).count + 1 =
      ((t.modify leaf (fun n => n.insert_in_node (scanLt n v n.count 0) v)).nodes leaf).count := by
    rw [modify_nodes_same]
    rfl
  have hroot := root_gain hok l4 l7 l8 hleaf r2
  generalize ht2 : unwind (t.modify leaf (fun n => n.insert_in_node (scanLt n v n.count 0) v))
    (leaf :: stk) (scanLt (t.nodes leaf) v (t.nodes leaf).count 0 :: ips) = t2 at *
  have hrc2 : t2.record_count = t.record_count := by
    rw [← ht2, unwind_record]
    rfl
  have ho2 : t2.order = t.order := d2
  have hn2 : t.count ≤ t2.count := n2
  have hins : t.insert v = some
      { (if (t2.nodes ROOT_PAGE_NUM).is_overflow t2.order then t2.split_root else t2) with
        record_count := (if (t2.nodes ROOT_PAGE_NUM).is_overflow t2.order then t2.split_root
          else t2).record_count + 1 } := by
    unfold Tree.insert
    rw [e]
    simp only [ht2]
  have hht2 : G1.ht ROOT_PAGE_NUM < t2.count := by
    rw [h2]
    omega
  have hpot2 : G1.ht ROOT_PAGE_NUM * t2.order + (t2.nodes ROOT_PAGE_NUM).count ≤
      t2.record_count + 1 := by
    rw [h2, ho2, hrc2]
    omega
  obtain ⟨f1, f2, f3, f4⟩ := finish_spec o2 hht2 hpot2
  refine ⟨_, hins, f1, f2.trans ho2, ?_, f4 v svr, fun x hx => f4 x (s2 x (sold hx))⟩
  show (if (t2.nodes ROOT_PAGE_NUM).is_overflow t2.order then t2.split_root
      else t2).record_count + 1 = _
  rw [f3, hrc2]

/-- `Btree::insert` on a tree that satisfies the invariant: it returns while
fewer than `MAX_LEVEL * order` records are stored, and whenever it returns the
tree satisfies the invariant, holds one record more, and stores the value
and the pairs stored before. -/
theorem insert_good {t : Tree} {strict : Bool} {K K1 : Nat → Prop} (v : Pair)
    (hg : t.Good strict K) (hK : ∀ k, K k → K1 k) (hv : K1 v.key)
    (hnew : strict = true → ¬ K v.key) :
    (t.record_count < MAX_LEVEL * t.order → ∃ t1, t.insert v = some t1) ∧
    ∀ t1, t.insert v = some t1 →
      t1.Good strict K1 ∧ t1.order = t.order ∧ t1.record_count = t.record_count + 1 ∧
      Tree.Stored t1 ROOT_PAGE_NUM v ∧
      ∀ x, Tree.Stored t ROOT_PAGE_NUM x → Tree.Stored t1 ROOT_PAGE_NUM x := by
  obtain ⟨G, hok, hht, hpot⟩ := hg
  constructor
  · intro hlt
    have hfuel : G.ht ROOT_PAGE_NUM < MAX_LEVEL := by
      have h1 : G.ht ROOT_PAGE_NUM * t.order < MAX_LEVEL * t.order := by omega
      exact Nat.lt_of_mul_lt_mul_right h1
    obtain ⟨t1, h, _⟩ := insert_of_fuel v hok hht hpot hK hv hnew hfuel
    exact ⟨t1, h⟩
  · intro t1 h
    have hfuel : G.ht ROOT_PAGE_NUM < MAX_LEVEL := by
      cases hd : descend t v MAX_LEVEL [ROOT_PAGE_NUM] [] with
      | none =>
        unfold Tree.insert at h
        rw [hd] at h
        cases h
      | some r => exact descend_fuel hok v _ _ _ _ r (le_refl _) hok.count_pos hd
    obtain ⟨t2, h2, g⟩ := insert_of_fuel v hok hht hpot hK hv hnew hfuel
    rw [h] at h2
    cases h2
    exact g

end Btree

/-! ## B-tree: the search tree after any sequence of inserts -/

namespace Btree

/-- The tree the constructor makes on an empty file satisfies the invariant. -/
theorem good_create (order : Nat) (ho : 1 ≤ order) (strict : Bool) (K : Nat → Prop) :
    (Tree.create order).Good strict K := by
  refine ⟨_, ok_create order ho strict K, Nat.zero_lt_one, ?_⟩
  have hn : (Tree.create order).nodes ROOT_PAGE_NUM = Node.new order ROOT_PAGE_NUM := by
    simp [Tree.create]
  rw [hn]
  simp [Node.new]

/-- A sequence of `Btree::insert` calls on a tree that satisfies the
invariant: the calls return while the tree holds fewer than
`MAX_LEVEL * order` records, and whenever they return the tree satisfies the
invariant and stores the values inserted and the pairs stored before.  With
the strict order the keys inserted are pairwise distinct and not in the
tree. -/
theorem insertAll_good {strict : Bool} : ∀ (vs : List Pair) (t : Tree) (K : Nat → Prop),
    t.Good strict K →
    (strict = true → (vs.map Pair.key).Nodup ∧ ∀ v ∈ vs, ¬ K v.key) →
    (t.record_count + vs.length ≤ MAX_LEVEL * t.order → ∃ t1, t.insertAll vs = some t1) ∧
    ∀ t1, t.insertAll vs = some t1 →
      (∃ K1, t1.Good strict K1) ∧ (∀ x ∈ vs, Tree.Stored t1 ROOT_PAGE_NUM x) ∧
      ∀ x, Tree.Stored t ROOT_PAGE_NUM x → Tree.Stored t1 ROOT_PAGE_NUM x
  | [], t, K, hg, _ => by
    refine ⟨fun _ => ⟨t, rfl⟩, fun t1 h => ?_⟩
    have e : t1 = t := by
      simp [Tree.insertAll] at h
      exact h.symm
    rw [e]
    exact ⟨⟨K, hg⟩, fun x hx => absurd hx (List.not_mem_nil _), fun x hx => hx⟩
  | v :: vs, t, K, hg, hs => by
    have hnew : strict = true → ¬ K v.key := fun e => (hs e).2 v (List.mem_cons_self _ _)
    obtain ⟨hret, hstep⟩ := @insert_good t strict K (fun k => K k ∨ k = v.key) v hg
      (fun k hk => Or.inl hk) (Or.inr rfl) hnew
    have hs1 : ∀ t1, t.insert v = some t1 →
        strict = true → (vs.map Pair.key).Nodup ∧ ∀ w ∈ vs, ¬ (K w.key ∨ w.key = v.key) := by
      intro t1 _ e
      obtain ⟨n1, n2⟩ := hs e
      rw [List.map_cons, List.nodup_cons] at n1
      refine ⟨n1.2, fun w hw hk => ?_⟩
      rcases hk with hk | hk
      · exact n2 w (List.mem_cons_of_mem _ hw) hk
      · exact n1.1 (hk ▸ List.mem_map_of_mem Pair.key hw)
    constructor
    · intro hlen
      rw [List.length_cons] at hlen
      obtain ⟨t1, h1⟩ := hret (by omega)
      obtain ⟨g1, o1, r1, _, _⟩ := hstep t1 h1
      obtain ⟨t2, h2⟩ := (insertAll_good vs t1 _ g1 (hs1 t1 h1)).1 (by rw [r1, o1]; omega)
      refine ⟨t2, ?_⟩
      unfold Tree.insertAll
      rw [h1]
      exact h2
    · intro t2 h
      unfold Tree.insertAll at h
      cases h1 : t.insert v with
      | none =>
        rw [h1] at h
        cases h
      | some t1 =>
        rw [h1] at h
        obtain ⟨g1, o1, r1, sv, sold⟩ := hstep t1 h1
        obtain ⟨a1, a2, a3⟩ := (insertAll_good vs t1 _ g1 (hs1 t1 h1)).2 t2 h
        refine ⟨a1, fun x hx => ?_, fun x hx => a3 x (sold x hx)⟩
        rcases List.mem_cons.1 hx with e | hx
        · rw [e]
          exact a3 v sv
        · exact a2 x hx

/-- C1.  Pairs with pairwise distinct keys are inserted with `Btree::insert`
into the tree the constructor makes on an empty file, of any order at least 1.
The calls all return when there are at most `MAX_LEVEL * order` pairs (more
levels than `MAX_LEVEL` do not fit the descent stack of `insert`), and
whenever they all return, `Btree::find` of every key inserted, with any record
number in the object searched, returns a present optional that holds the pair
inserted with that key: the key and the record number inserted with it. -/
theorem find_returns_inserted (order : Nat) (ho : 1 ≤ order) (vs : List Pair)
    (hd : (vs.map Pair.key).Nodup) :
    (vs.length ≤ MAX_LEVEL * order → ∃ t, (Tree.create order).insertAll vs = some t) ∧
    ∀ t, (Tree.create order).insertAll vs = some t →
      ∀ x ∈ vs, ∀ r, t.find ⟨x.key, r⟩ = some (some x) := by
  obtain ⟨hret, hall⟩ := insertAll_good vs (Tree.create order) (fun _ => False)
    (good_create order ho true _) (fun _ => ⟨hd, fun _ _ hk => hk⟩)
  refine ⟨fun hlen => hret (by
    show 0 + vs.length ≤ MAX_LEVEL * order
    omega), fun t h x hx r => ?_⟩
  obtain ⟨⟨K1, G, hok, hht, _⟩, hst, _⟩ := hall t h
  unfold Tree.find
  rw [findFrom_stored hok (hst x hx) (le_refl _) hok.count_pos (t.count + 1) r (by omega)]
  rfl

/-- Witness for C1: the ten pairs of scenario S1 have distinct keys; in the
tree of order 201 their inserts return, and `find` of each of the keys returns
the pair inserted. -/
theorem find_returns_inserted_witness :
    (s1Pairs.map Pair.key).Nodup ∧
    ∃ t, (Tree.create 201).insertAll s1Pairs = some t ∧
      ∀ x ∈ s1Pairs, ∀ r, t.find ⟨x.key, r⟩ = some (some x) := by
  have h := find_returns_inserted 201 (by decide) s1Pairs (by decide)
  obtain ⟨t, ht⟩ := h.1 (by decide)
  exact ⟨by decide, t, ht, h.2 t ht⟩

end Btree

namespace pmwcas

/-- A single flag of a word as a quotient. -/
theorem and_flag (x i : Nat) : x &&& 2 ^ i = 2 ^ i * (x / 2 ^ i % 2) := by
  rw [Nat.and_two_pow, Nat.testBit_to_div_mod]
  rcases Nat.mod_two_eq_zero_or_one (x / 2 ^ i) with h | h <;> simp [h]

/-- The three management flags of a word as a quotient. -/
theorem and_mask (x : Nat) : x &&& (2 ^ 61 * 7) = 2 ^ 61 * (x / 2 ^ 61 % 8) := by
  apply Nat.eq_of_testBit_eq
  intro j
  have h7 : (7 : Nat) = 2 ^ 3 - 1 := by norm_num
  have h8 : (8 : Nat) = 2 ^ 3 := by norm_num
  rw [Nat.testBit_and, Nat.testBit_mul_pow_two, Nat.testBit_mul_pow_two, h7,
    Nat.testBit_two_pow_sub_one, h8, Nat.testBit_mod_two_pow, ← Nat.shiftRight_eq_div_pow,
    Nat.testBit_shiftRight]
  by_cases hj : j ≥ 61
  · have : 61 + (j - 61) = j := by omega
    rw [this]
    cases x.testBit j <;> simp [hj]
  · simp [hj]

/-- Setting a flag above the value adds it. -/
theorem or_flag_of_lt (x i : Nat) (h : x < 2 ^ i) : x ||| 2 ^ i = 2 ^ i + x := by
  have := Nat.mul_add_lt_is_or h 1
  rw [Nat.mul_one] at this
  rw [this, Nat.or_comm]

/-- Setting a flag that is clear adds it. -/
theorem or_flag_of_clear (x i : Nat) (h : x / 2 ^ i % 2 = 0) : x ||| 2 ^ i = x + 2 ^ i := by
  have hx : x = 2 ^ (i + 1) * (x / 2 ^ (i + 1)) + x % 2 ^ i := by
    have h1 := Nat.div_add_mod x (2 ^ i)
    have h2 := Nat.div_add_mod (x / 2 ^ i) 2
    have h3 : x / 2 ^ (i + 1) = x / 2 ^ i / 2 := by
      rw [pow_succ, Nat.div_div_eq_div_mul]
    rw [h3, pow_succ]
    rw [h] at h2
    have h4 : x / 2 ^ i = 2 * (x / 2 ^ i / 2) := by omega
    calc x = 2 ^ i * (x / 2 ^ i) + x % 2 ^ i := h1.symm
      _ = 2 ^ i * (2 * (x / 2 ^ i / 2)) + x % 2 ^ i := by rw [← h4]
      _ = 2 ^ i * 2 * (x / 2 ^ i / 2) + x % 2 ^ i := by rw [Nat.mul_assoc]
  have hl : x % 2 ^ i < 2 ^ i := Nat.mod_lt _ (by positivity)
  have hl1 : x % 2 ^ i < 2 ^ (i + 1) := by rw [pow_succ]; omega
  have hl2 : 2 ^ i + x % 2 ^ i < 2 ^ (i + 1) := by rw [pow_succ]; omega
  generalize x / 2 ^ (i + 1) = q at hx
  generalize x % 2 ^ i = l at hx hl hl1 hl2
  subst hx
  calc (2 ^ (i + 1) * q + l) ||| 2 ^ i = (2 ^ (i + 1) * q ||| l) ||| 2 ^ i := by
        rw [Nat.mul_add_lt_is_or hl1]
    _ = 2 ^ (i + 1) * q ||| (l ||| 2 ^ i) := Nat.or_assoc _ _ _
    _ = 2 ^ (i + 1) * q ||| (2 ^ i + l) := by rw [or_flag_of_lt l i hl]
    _ = 2 ^ (i + 1) * q + (2 ^ i + l) := (Nat.mul_add_lt_is_or hl2 q).symm
    _ = 2 ^ (i + 1) * q + l + 2 ^ i := by omega

theorem mask_eq : kMwCASFlag ||| kCondCASFlag ||| kDirtyFlag = 2 ^ 61 * 7 := by decide

theorem mask_eq2 : kCondCASFlag ||| kMwCASFlag ||| kDirtyFlag = 2 ^ 61 * 7 := by decide

theorem IsDirtyPtr_iff (x : Nat) : IsDirtyPtr x = true ↔ x / 2 ^ 61 % 2 = 1 := by
  unfold IsDirtyPtr kDirtyFlag
  rw [and_flag]
  simp only [bne_iff_ne, ne_eq]
  omega

theorem IsCondCAS_iff (x : Nat) : IsCondCASDescriptorPtr x = true ↔ x / 2 ^ 62 % 2 = 1 := by
  unfold IsCondCASDescriptorPtr kCondCASFlag
  rw [and_flag]
  simp only [bne_iff_ne, ne_eq]
  omega

theorem IsMwCAS_iff (x : Nat) : IsMwCASDescriptorPtr x = true ↔ x / 2 ^ 63 % 2 = 1 := by
  unfold IsMwCASDescriptorPtr kMwCASFlag
  rw [and_flag]
  simp only [bne_iff_ne, ne_eq]
  omega

theorem IsCleanPtr_iff (x : Nat) : IsCleanPtr x = true ↔ x / 2 ^ 61 % 8 = 0 := by
  unfold IsCleanPtr
  rw [mask_eq2, and_mask]
  simp only [beq_iff_eq]
  omega

theorem CleanPtr_eq (x : Nat) : CleanPtr x = x - 2 ^ 61 * (x / 2 ^ 61 % 8) := by
  unfold CleanPtr andNot
  rw [mask_eq, and_mask]

theorem andNot_flag (x i : Nat) : andNot x (2 ^ i) = x - 2 ^ i * (x / 2 ^ i % 2) := by
  unfold andNot
  rw [and_flag]

/-- `GetOldValue` and `GetNewValue` undo `SetRecycleFlag` on a value below `2 ^ 63`. -/
theorem andNot_setRecycle (x : Nat) (h : x < 2 ^ 63) :
    andNot (WordDescriptor.SetRecycleFlag x) kRecycleFlag = x := by
  unfold WordDescriptor.SetRecycleFlag kRecycleFlag
  rw [or_flag_of_lt x 63 h, andNot_flag]
  omega

theorem andNot_recycle_of_lt (x : Nat) (h : x < 2 ^ 63) : andNot x kRecycleFlag = x := by
  unfold kRecycleFlag
  rw [andNot_flag]
  have : x / 2 ^ 63 = 0 := Nat.div_eq_of_lt h
  omega

theorem shouldRecycle_setRecycle (x : Nat) (h : x < 2 ^ 63) :
    (WordDescriptor.SetRecycleFlag x &&& kRecycleFlag != 0) = true := by
  unfold WordDescriptor.SetRecycleFlag kRecycleFlag
  rw [or_flag_of_lt x 63 h, and_flag]
  simp only [bne_iff_ne, ne_eq]
  omega

theorem shouldRecycle_of_lt (x : Nat) (h : x < 2 ^ 63) : (x &&& kRecycleFlag != 0) = false := by
  unfold kRecycleFlag
  rw [and_flag]
  have : x / 2 ^ 63 = 0 := Nat.div_eq_of_lt h
  rw [this]
  rfl

end pmwcas

namespace pmwcas

/-- C14 (code defect).  Descriptor 1 of a fresh pool at offset 4096 has the
offset 4352.  With the single entry `{8 : 1 -> 2}` and the target word 8
holding the clean value 4352, which is not the old value 1 and carries no
descriptor flag, `MwCAS` returns `true` and the target still holds 4352: the
test `CleanPtr(rval) == (uint64_t)self` of the install loop takes the plain
value for the tag of the descriptor. -/
theorem mwcas_true_on_unrelated_value :
    ((pool2 (memOf [(8, 4352)])).bind fun st =>
      (prepare st 0 [⟨8, 1, 2, kRecycleNever⟩]).bind fun r =>
        (MwCAS 8 r.2 r.1).map fun o =>
          (descPtr 4096 r.1, IsCleanPtr 4352, o.1, o.2.mem 8, (o.2.desc r.1).status_)) =
      some (4352, true, true, 4352, kStatusSucceeded) := by
  decide

/-- C15 (code defect).  With the entries `{8 : 1 -> 2, 16 : 3 -> 4}`, the word
8 holding 1 and the word 16 holding the clean value 4352 (the offset of the
descriptor), `MwCAS` returns `true`, and the reads `GetValueProtected` that
follow return 2 for word 8 and 4352 for word 16: one target moved to its new
value, the other neither held its old value nor received its new one. -/
theorem mwcas_true_partial_update :
    ((pool2 (memOf [(8, 1), (16, 4352)])).bind fun st =>
      (prepare st 0 [⟨8, 1, 2, kRecycleNever⟩, ⟨16, 3, 4, kRecycleNever⟩]).bind fun r =>
        (MwCAS 8 r.2 r.1).bind fun o =>
          (GetValueProtected 8 o.2 8).bind fun a =>
            (GetValueProtected 8 a.2 16).map fun b => (o.1, a.1, b.1)) =
      some (true, 2, 4352) := by
  decide

/-- C16 (code defect).  The rounding loop runs `exp` from 1 to 9, so the
partition count never exceeds 512: a request for 1024 partitions (or for 513)
yields 512, not `min(1024, 1024) = 1024`. -/
theorem partition_count_stops_at_512 :
    roundPartitionCount 1024 = 512 ∧ roundPartitionCount 513 = 512 ∧
    (∀ r, roundPartitionCount r ≤ 512) := by
  refine ⟨by decide, by decide, ?_⟩
  intro r
  simp only [roundPartitionCount, partitionLoop]
  split_ifs <;> omega

end pmwcas

namespace pmwcas

/-- C18 (code defect).  `AddEntry` on a descriptor that already holds
`DESC_CAP` entries does not return: `GetInsertPosition` stops the process with
`RAW_CHECK(count_ < DESC_CAP, "too many words")`. -/
theorem add_entry_full_aborts (d : Descriptor) (addr oldval newval recycle_policy : Nat)
    (h : DESC_CAP ≤ d.count_) : d.AddEntry addr oldval newval recycle_policy = none := by
  have hg : d.GetInsertPosition addr = none := by
    unfold Descriptor.GetInsertPosition
    split
    · rfl
    · rw [if_pos (by omega)]
  unfold Descriptor.AddEntry
  simp only [hg]
  split
  · rfl
  · split
    · rfl
    · split <;> rfl

/-- An undecided descriptor with four recorded entries: a further `AddEntry` aborts. -/
theorem add_entry_full_aborts_witness :
    DESC_CAP ≤ 4 ∧
    Descriptor.AddEntry
      { status_ := kStatusUndecided, count_ := 4, next_ptr_ := none, owner_partition_ := some 0,
        callback_idx_ := 0,
        words_ := [⟨8, 1, 2⟩, ⟨16, 1, 2⟩, ⟨24, 1, 2⟩, ⟨32, 1, 2⟩], indexes_ := [0, 0, 0, 0] }
      40 1 2 kRecycleNever = none :=
  ⟨by decide, add_entry_full_aborts _ 40 1 2 kRecycleNever (by decide)⟩

end pmwcas

namespace pmwcas

theorem dupLoop_iff (d : Descriptor) (addr n : Nat) :
    dupLoop d addr n = true ↔
      addr ≠ kAllocNullAddress ∧ ∃ i, i < n ∧ (d.word i).address_ = addr := by
  induction n with
  | zero => simp [dupLoop]
  | succ n ih =>
    unfold dupLoop
    split
    · rename_i h
      simp only [true_iff]
      exact ⟨h.1, n, by omega, h.2⟩
    · rename_i h
      rw [ih]
      constructor
      · rintro ⟨h0, i, hi, he⟩
        exact ⟨h0, i, by omega, he⟩
      · rintro ⟨h0, i, hi, he⟩
        refine ⟨h0, i, ?_, he⟩
        rcases Nat.lt_succ_iff_lt_or_eq.mp hi with h1 | h1
        · exact h1
        · subst h1
          exact absurd ⟨h0, he⟩ h

theorem getD_set_word (ws : List WordDescriptor) (j k : Nat) (w z : WordDescriptor) :
    (ws.set j w).getD k z = if j = k ∧ j < ws.length then w else ws.getD k z := by
  simp only [List.getD_eq_getElem?_getD, List.getElem?_set]
  by_cases h : j = k
  · subst h
    by_cases h2 : j < ws.length
    · simp [h2]
    · simp [h2, List.getElem?_eq_none (Nat.le_of_not_lt h2)]
  · simp [h]

/-- C17.  On an undecided descriptor holding fewer than `DESC_CAP` entries,
`AddEntry` with a non-null address already recorded returns -2 and leaves the
descriptor as it is; with an address not yet recorded it returns the previous
`count_`, stores the entry at that index (so that `GetOldValue` and
`GetNewValue` give back the two values), leaves every other word as it is and
increases `count_` by one.  The address is 8-byte aligned and the two values
are 64-bit words without management flags, as the `DCHECK`s of `AddEntry`
require. -/
theorem add_entry_duplicate_or_append (d : Descriptor)
    (addr oldval newval recycle_policy : Nat)
    (hs : d.status_ = kStatusUndecided) (hc : d.count_ < DESC_CAP)
    (hl : d.words_.length = DESC_CAP) (ha : addr % 8 = 0)
    (ho : oldval < 2 ^ 61) (hn : newval < 2 ^ 61) :
    ((addr ≠ kAllocNullAddress ∧ ∃ i, i < d.count_ ∧ (d.word i).address_ = addr) →
      d.AddEntry addr oldval newval recycle_policy = some (-2, d)) ∧
    ((∀ i, i < d.count_ → (d.word i).address_ ≠ addr) →
      ∃ d1, d.AddEntry addr oldval newval recycle_policy = some ((d.count_ : Int), d1) ∧
        d1.count_ = d.count_ + 1 ∧ d1.status_ = d.status_ ∧
        (d1.word d.count_).address_ = addr ∧
        (d1.word d.count_).GetOldValue = oldval ∧
        (d1.word d.count_).GetNewValue = newval ∧
        ∀ j, j ≠ d.count_ → d1.word j = d.word j) := by
  have hco : IsCleanPtr oldval = true := by
    rw [IsCleanPtr_iff]; have : oldval / 2 ^ 61 = 0 := Nat.div_eq_of_lt ho; omega
  have hcn : IsCleanPtr newval = true := by
    rw [IsCleanPtr_iff]; have : newval / 2 ^ 61 = 0 := Nat.div_eq_of_lt hn; omega
  constructor
  · intro hdup
    have hd : dupLoop d addr d.count_ = true := (dupLoop_iff d addr d.count_).mpr hdup
    have hg : d.GetInsertPosition addr = some (-2) := by
      unfold Descriptor.GetInsertPosition
      rw [if_neg (by omega), if_neg (by omega), if_pos hd]
    unfold Descriptor.AddEntry
    simp only [hco, hcn, hs, hg]
    simp
  · intro hnew
    have hd : ¬ dupLoop d addr d.count_ = true := by
      rw [dupLoop_iff]
      rintro ⟨_, i, hi, he⟩
      exact hnew i hi he
    have hg : d.GetInsertPosition addr = some (d.count_ : Int) := by
      unfold Descriptor.GetInsertPosition
      rw [if_neg (by omega), if_neg (by omega), if_neg hd]
    have hpos : ((d.count_ : Int) ≥ 0) := Int.ofNat_nonneg _
    have hlt : d.count_ < d.words_.length := by rw [hl]; exact hc
    unfold Descriptor.AddEntry
    simp only [hco, hcn, hs, hg]
    simp only [not_true_eq_false, if_false, true_or, ne_eq, not_true_eq_false, if_pos hpos,
      Int.toNat_ofNat]
    refine ⟨_, rfl, rfl, rfl, ?_, ?_, ?_, ?_⟩
    · simp only [Descriptor.word, getD_set_word, hlt, and_self, if_true]
    · simp only [Descriptor.word, getD_set_word, hlt, and_self, if_true,
        WordDescriptor.GetOldValue]
      split
      · exact andNot_setRecycle oldval (by omega)
      · exact andNot_recycle_of_lt oldval (by omega)
    · simp only [Descriptor.word, getD_set_word, hlt, and_self, if_true,
        WordDescriptor.GetNewValue]
      split
      · exact andNot_setRecycle newval (by omega)
      · exact andNot_recycle_of_lt newval (by omega)
    · intro j hj
      simp only [Descriptor.word, getD_set_word]
      rw [if_neg (fun h => hj h.1.symm)]

/-- The descriptor `{8 : 1 -> 2}`: adding address 8 again is refused with -2. -/
theorem add_entry_duplicate_or_append_witness :
    desc8.AddEntry 8 5 6 kRecycleNever = some (-2, desc8) :=
  (add_entry_duplicate_or_append desc8 8 5 6 kRecycleNever rfl (by decide) rfl (by decide)
    (by decide) (by decide)).1 ⟨by decide, 0, by decide, rfl⟩

end pmwcas

namespace pmwcas

/-- C20 (code defect).  An entry added with `kRecycleOnRecovery` is stored
without a recycle flag, exactly as with `kRecycleNever`: when the descriptor
`{8 : 1 -> 2}` is left undecided by a crash, `Recovery` hands nothing to the
free callback, and neither does `FreeDescriptor` after `Abort`.  With
`kRecycleNewOnFailure` the same run hands over the `new_value_` slot. -/
theorem recycle_on_recovery_hands_nothing :
    ((pool2 (memOf [(8, 1)])).bind fun st =>
      (prepare st 0 [⟨8, 1, 2, kRecycleOnRecovery⟩]).bind fun r =>
        (Recovery r.2 0 true).bind fun s =>
          (Abort r.2 r.1).bind fun a =>
            (FreeDescriptor a r.1).map fun f =>
              (((r.2.desc r.1).word 0).ShouldRecycleNewValue,
               ((r.2.desc r.1).word 0).ShouldRecycleOldValue, s.freed, f.freed)) =
      some (false, false, [], []) ∧
    ((pool2 (memOf [(8, 1)])).bind fun st =>
      (prepare st 0 [⟨8, 1, 2, kRecycleNewOnFailure⟩]).bind fun r =>
        (Recovery r.2 0 true).map fun s => s.freed) =
      some [⟨0, false, 2 + 2 ^ 63⟩] := by
  constructor <;> decide

end pmwcas

namespace pmwcas

theorem wordTag_eq (wptr : Nat) (h : wptr < 2 ^ 61) : wordTag wptr = 2 ^ 62 + wptr := by
  unfold wordTag SetFlags kCondCASFlag
  exact or_flag_of_lt wptr 62 (by omega)

theorem wordTag_mw_eq (wptr : Nat) (h : wptr < 2 ^ 61) :
    wordTag wptr ||| kMwCASFlag = 2 ^ 63 + 2 ^ 62 + wptr := by
  rw [wordTag_eq wptr h]
  unfold kMwCASFlag
  rw [or_flag_of_lt _ 63 (by omega)]
  omega

theorem descTag_eq (dptr : Nat) (h : dptr < 2 ^ 61) : descTag dptr = 2 ^ 63 + dptr := by
  unfold descTag SetFlags kMwCASFlag
  exact or_flag_of_lt dptr 63 (by omega)

/-- The roll-back decision of `Recovery` in terms of the value without its
Dirty bit. -/
theorem roll_back_cond (dptr wptr v : Nat) (hd : dptr < 2 ^ 61) (hw : wptr < 2 ^ 61)
    (hv : v < 2 ^ 64) :
    ((if IsCondCASDescriptorPtr v then decide (CleanPtr v = wptr)
      else if IsMwCASDescriptorPtr v then decide (CleanPtr v = dptr) else false) = true) ↔
    (andNot v kDirtyFlag = wordTag wptr ∨ andNot v kDirtyFlag = wordTag wptr ||| kMwCASFlag ∨
      andNot v kDirtyFlag = descTag dptr) := by
  rw [wordTag_mw_eq wptr hw, wordTag_eq wptr hw, descTag_eq dptr hd]
  unfold kDirtyFlag
  rw [andNot_flag]
  by_cases hc : IsCondCASDescriptorPtr v = true
  · rw [if_pos hc, decide_eq_true_iff, CleanPtr_eq]
    rw [IsCondCAS_iff] at hc
    omega
  · rw [if_neg hc]
    by_cases hm : IsMwCASDescriptorPtr v = true
    · rw [if_pos hm, decide_eq_true_iff, CleanPtr_eq]
      rw [IsCondCAS_iff] at hc
      rw [IsMwCAS_iff] at hm
      omega
    · rw [if_neg hm]
      rw [IsCondCAS_iff] at hc
      rw [IsMwCAS_iff] at hm
      simp only [Bool.false_eq_true, false_iff]
      omega

end pmwcas

namespace pmwcas

/-- The roll-forward decision of `Recovery` on a succeeded descriptor. -/
theorem roll_forward_cond (dptr v : Nat) (hd : dptr < 2 ^ 61) (hv : v < 2 ^ 64) :
    ((if IsCondCASDescriptorPtr v then false
      else if IsMwCASDescriptorPtr v then decide (CleanPtr v = dptr) else false) = true) ↔
    andNot v kDirtyFlag = descTag dptr := by
  rw [descTag_eq dptr hd]
  unfold kDirtyFlag
  rw [andNot_flag]
  by_cases hc : IsCondCASDescriptorPtr v = true
  · rw [if_pos hc]
    rw [IsCondCAS_iff] at hc
    simp only [Bool.false_eq_true, false_iff]
    omega
  · rw [if_neg hc]
    by_cases hm : IsMwCASDescriptorPtr v = true
    · rw [if_pos hm, decide_eq_true_iff, CleanPtr_eq]
      rw [IsCondCAS_iff] at hc
      rw [IsMwCAS_iff] at hm
      omega
    · rw [if_neg hm]
      rw [IsCondCAS_iff] at hc
      rw [IsMwCAS_iff] at hm
      simp only [Bool.false_eq_true, false_iff]
      omega

/-- The roll-back decision of `Recovery` on a succeeded descriptor. -/
theorem roll_back_cond_succeeded (wptr v : Nat) (hw : wptr < 2 ^ 61) (hv : v < 2 ^ 64) :
    ((if IsCondCASDescriptorPtr v then decide (CleanPtr v = wptr) else false) = true) ↔
    (andNot v kDirtyFlag = wordTag wptr ∨ andNot v kDirtyFlag = wordTag wptr ||| kMwCASFlag) := by
  rw [wordTag_mw_eq wptr hw, wordTag_eq wptr hw]
  unfold kDirtyFlag
  rw [andNot_flag]
  by_cases hc : IsCondCASDescriptorPtr v = true
  · rw [if_pos hc, decide_eq_true_iff, CleanPtr_eq]
    rw [IsCondCAS_iff] at hc
    omega
  · rw [if_neg hc]
    rw [IsCondCAS_iff] at hc
    simp only [Bool.false_eq_true, false_iff]
    omega

/-- The tag of a word and the tag of a descriptor differ. -/
theorem descTag_ne_wordTag (dptr wptr : Nat) (hd : dptr < 2 ^ 61) (hw : wptr < 2 ^ 61) :
    descTag dptr ≠ wordTag wptr ∧ descTag dptr ≠ wordTag wptr ||| kMwCASFlag := by
  rw [wordTag_mw_eq wptr hw, wordTag_eq wptr hw, descTag_eq dptr hd]
  omega

/-- C11 (counterexample).  Descriptor 1 is undecided with the entries
`{8 : 1 -> 2, 16 : 3 -> 4}`; word 8 holds the offset 4416 of its word
descriptor with both the CondCAS and the MwCAS bit set.  This value is neither
the entry's tag `4416 | kCondCASFlag` nor the descriptor's tag
`4352 | kMwCASFlag`, with or without the Dirty bit, yet `Recovery` replaces it
by the old value 1. -/
theorem recovery_rolls_back_doubly_flagged :
    (wordTag 4416 ||| kMwCASFlag ≠ wordTag 4416 ∧
     wordTag 4416 ||| kMwCASFlag ≠ wordTag 4416 ||| kDirtyFlag ∧
     wordTag 4416 ||| kMwCASFlag ≠ descTag 4352 ∧
     wordTag 4416 ||| kMwCASFlag ≠ descTag 4352 ||| kDirtyFlag) ∧
    andNot (wordTag 4416 ||| kMwCASFlag) kDirtyFlag = wordTag 4416 ||| kMwCASFlag ∧
    recoverAB kStatusUndecided (wordTag 4416 ||| kMwCASFlag) 3 = some (1, 3) := by
  decide

/-- C11 (amended).  The step of `Recovery` for one entry with a non-null
address of a descriptor whose status is `Undecided` or `Failed`: when the
target, its Dirty bit ignored, is the tag of the entry (also with the MwCAS
bit set in addition) or the tag of the descriptor, it receives the old value
of the entry; otherwise it keeps its value with the Dirty bit cleared.  No
other word changes. -/
theorem recovery_roll_back_word (dptr wptr : Nat) (w : WordDescriptor) (mem : Nat → Nat)
    (hd : dptr < 2 ^ 61) (hw : wptr < 2 ^ 61) (hv : mem w.address_ < 2 ^ 64)
    (ha : w.address_ ≠ kAllocNullAddress) :
    (∀ a, a ≠ w.address_ → rollBackWord dptr wptr w mem a = mem a) ∧
    rollBackWord dptr wptr w mem w.address_ =
      if andNot (mem w.address_) kDirtyFlag = wordTag wptr ∨
          andNot (mem w.address_) kDirtyFlag = wordTag wptr ||| kMwCASFlag ∨
          andNot (mem w.address_) kDirtyFlag = descTag dptr
      then w.GetOldValue else andNot (mem w.address_) kDirtyFlag := by
  have hcond := roll_back_cond dptr wptr (mem w.address_) hd hw hv
  unfold rollBackWord
  rw [if_neg ha]
  constructor
  · intro a hne
    split_ifs <;> first | rfl | simp only [Function.update_noteq hne]
  · by_cases hrb : (andNot (mem w.address_) kDirtyFlag = wordTag wptr ∨
        andNot (mem w.address_) kDirtyFlag = wordTag wptr ||| kMwCASFlag ∨
        andNot (mem w.address_) kDirtyFlag = descTag dptr)
    · rw [if_pos (hcond.mpr hrb), if_pos hrb, Function.update_same]
    · rw [if_neg (fun h => hrb (hcond.mp h)), if_neg hrb]
      by_cases hdirty : IsDirtyPtr (mem w.address_) = true
      · rw [if_pos hdirty, Function.update_same]
      · rw [if_neg hdirty]
        rw [IsDirtyPtr_iff] at hdirty
        unfold kDirtyFlag
        rw [andNot_flag]
        omega

/-- The scenario of the claim: the descriptor `{8 : 1 -> 2, 16 : 3 -> 4}` is
undecided, word 8 holds the tag of the descriptor and word 16 still holds 3;
the step for the first entry writes 1, and `Recovery` leaves 1 and 3. -/
theorem recovery_roll_back_word_witness :
    rollBackWord 4352 4416 ⟨8, 1, 2⟩ (memOf [(8, descTag 4352), (16, 3)]) 8 = 1 ∧
    recoverAB kStatusUndecided (descTag 4352) 3 = some (1, 3) ∧
    recoverAB kStatusUndecided (wordTag 4416) 3 = some (1, 3) :=
  ⟨(recovery_roll_back_word 4352 4416 ⟨8, 1, 2⟩ (memOf [(8, descTag 4352), (16, 3)])
      (by decide) (by decide) (by decide) (by decide)).2.trans (by decide),
    by decide, by decide⟩

/-- C12 (counterexample).  Descriptor 1 has succeeded with the entries
`{8 : 1 -> 2, 16 : 3 -> 4}`; word 16 holds the offset 4448 of its word
descriptor with both the CondCAS and the MwCAS bit set, which is neither the
tag of the descriptor nor the tag of the entry, with or without the Dirty
bit, yet `Recovery` replaces it by the old value 3. -/
theorem recovery_succeeded_doubly_flagged :
    (wordTag 4448 ||| kMwCASFlag ≠ wordTag 4448 ∧
     wordTag 4448 ||| kMwCASFlag ≠ wordTag 4448 ||| kDirtyFlag ∧
     wordTag 4448 ||| kMwCASFlag ≠ descTag 4352 ∧
     wordTag 4448 ||| kMwCASFlag ≠ descTag 4352 ||| kDirtyFlag) ∧
    andNot (wordTag 4448 ||| kMwCASFlag) kDirtyFlag = wordTag 4448 ||| kMwCASFlag ∧
    recoverAB kStatusSucceeded 2 (wordTag 4448 ||| kMwCASFlag) = some (2, 3) := by
  decide

/-- C12 (amended).  The step of `Recovery` for one entry with a non-null
address of a descriptor whose status is `Succeeded`: when the target, its Dirty
bit ignored, is the tag of the descriptor it receives the new value of the
entry; when it is the tag of the entry (also with the MwCAS bit set in
addition) it receives the old value; otherwise it keeps its value with the
Dirty bit cleared.  No other word changes. -/
theorem recovery_roll_forward_word (dptr wptr : Nat) (w : WordDescriptor) (mem : Nat → Nat)
    (hd : dptr < 2 ^ 61) (hw : wptr < 2 ^ 61) (hv : mem w.address_ < 2 ^ 64)
    (ha : w.address_ ≠ kAllocNullAddress) :
    (∀ a, a ≠ w.address_ → rollForwardWord dptr wptr w mem a = mem a) ∧
    rollForwardWord dptr wptr w mem w.address_ =
      if andNot (mem w.address_) kDirtyFlag = descTag dptr then w.GetNewValue
      else if andNot (mem w.address_) kDirtyFlag = wordTag wptr ∨
          andNot (mem w.address_) kDirtyFlag = wordTag wptr ||| kMwCASFlag
      then w.GetOldValue else andNot (mem w.address_) kDirtyFlag := by
  have hf := roll_forward_cond dptr (mem w.address_) hd hv
  have hb := roll_back_cond_succeeded wptr (mem w.address_) hw hv
  unfold rollForwardWord
  rw [if_neg ha]
  constructor
  · intro a hne
    split_ifs <;> first | rfl | simp only [Function.update_noteq hne]
  · by_cases hfw : andNot (mem w.address_) kDirtyFlag = descTag dptr
    · rw [if_pos (hf.mpr hfw), if_pos hfw, Function.update_same]
    · rw [if_neg (fun h => hfw (hf.mp h)), if_neg hfw]
      by_cases hrb : (andNot (mem w.address_) kDirtyFlag = wordTag wptr ∨
          andNot (mem w.address_) kDirtyFlag = wordTag wptr ||| kMwCASFlag)
      · rw [if_pos (hb.mpr hrb), if_pos hrb, Function.update_same]
      · rw [if_neg (fun h => hrb (hb.mp h)), if_neg hrb]
        by_cases hdirty : IsDirtyPtr (mem w.address_) = true
        · rw [if_pos hdirty, Function.update_same]
        · rw [if_neg hdirty]
          rw [IsDirtyPtr_iff] at hdirty
          unfold kDirtyFlag
          rw [andNot_flag]
          omega

/-- The scenario of the claim: the descriptor `{8 : 1 -> 2, 16 : 3 -> 4}` has
succeeded, word 8 already holds 2 and word 16 still holds the tag of the
descriptor; the step for the second entry writes 4, and `Recovery` leaves 2
and 4. -/
theorem recovery_roll_forward_word_witness :
    rollForwardWord 4352 4448 ⟨16, 3, 4⟩ (memOf [(8, 2), (16, descTag 4352)]) 16 = 4 ∧
    recoverAB kStatusSucceeded 2 (descTag 4352) = some (2, 4) :=
  ⟨(recovery_roll_forward_word 4352 4448 ⟨16, 3, 4⟩ (memOf [(8, 2), (16, descTag 4352)])
      (by decide) (by decide) (by decide) (by decide)).2.trans (by decide),
    by decide⟩

end pmwcas

namespace pmwcas

theorem recoverDescriptor_header (st st1 : State) (i : Nat)
    (h : recoverDescriptor st i = some st1) :
    { st1.pool with descriptors_ := [] } = { st.pool with descriptors_ := [] } := by
  unfold recoverDescriptor at h
  simp only [] at h
  split_ifs at h <;> (cases h; rfl)

theorem recoverLoop_header (n : Nat) (st st1 : State) (h : recoverLoop n st = some st1) :
    { st1.pool with descriptors_ := [] } = { st.pool with descriptors_ := [] } := by
  induction n generalizing st1 with
  | zero =>
    simp only [recoverLoop] at h
    cases h; rfl
  | succ n ih =>
    simp only [recoverLoop] at h
    cases hr : recoverLoop n st with
    | none => rw [hr] at h; cases h
    | some s =>
      rw [hr] at h
      rw [recoverDescriptor_header s st1 n h, ih s hr]

theorem recoverDescriptor_finished (st : State) (i : Nat) (h : (st.desc i).status_ = 0) :
    recoverDescriptor st i = some st := by
  have h0 : andNot 0 kStatusDirtyFlag = kStatusFinished := by decide
  unfold recoverDescriptor
  simp only [h, h0]
  simp

theorem recoverLoop_finished (n : Nat) (st : State) (h : ∀ i, (st.desc i).status_ = 0) :
    recoverLoop n st = some st := by
  induction n with
  | zero => rfl
  | succ n ih =>
    simp only [recoverLoop, ih]
    exact recoverDescriptor_finished st n (h n)

theorem construct_status (d d1 : Descriptor) (p : Nat) (h : d.construct p = some d1) :
    d1.status_ = 0 := by
  unfold Descriptor.construct at h
  split at h
  · cases h; rfl
  · cases h

theorem initPartition_status (dpp i n : Nat) (s s1 : List Descriptor × DescriptorPartition)
    (h : initPartition dpp i n s = some s1) (hs : ∀ d ∈ s.1, d.status_ = 0) :
    ∀ d ∈ s1.1, d.status_ = 0 := by
  induction n generalizing s1 with
  | zero =>
    simp only [initPartition] at h
    cases h; exact hs
  | succ n ih =>
    simp only [initPartition] at h
    cases hr : initPartition dpp i n s with
    | none => rw [hr] at h; cases h
    | some r =>
      rw [hr] at h
      obtain ⟨ds, part⟩ := r
      simp only [] at h
      cases hc : (ds.getD (i * dpp + n) Descriptor.zero).construct i with
      | none => rw [hc] at h; cases h
      | some desc =>
        rw [hc] at h
        cases h
        intro d hd
        rcases List.mem_or_eq_of_mem_set hd with h1 | h1
        · exact ih (ds, part) hr d h1
        · subst h1
          exact construct_status _ desc _ hc

theorem initPartitions_status (dpp n : Nat) (s s1 : List Descriptor × List DescriptorPartition)
    (h : initPartitions dpp n s = some s1) (hs : ∀ d ∈ s.1, d.status_ = 0) :
    ∀ d ∈ s1.1, d.status_ = 0 := by
  induction n generalizing s1 with
  | zero =>
    simp only [initPartitions] at h
    cases h; exact hs
  | succ n ih =>
    simp only [initPartitions] at h
    cases hr : initPartitions dpp n s with
    | none => rw [hr] at h; cases h
    | some r =>
      rw [hr] at h
      obtain ⟨ds, parts⟩ := r
      simp only [] at h
      cases hc : initPartition dpp n dpp (ds, parts.getD n ⟨none, [], 0⟩) with
      | none => rw [hc] at h; cases h
      | some r1 =>
        rw [hc] at h
        obtain ⟨ds1, part⟩ := r1
        cases h
        exact initPartition_status dpp n dpp _ _ hc (ih (ds, parts) hr)

theorem getD_status (ds : List Descriptor) (i : Nat) (h : ∀ d ∈ ds, d.status_ = 0) :
    (ds.getD i Descriptor.zero).status_ = 0 := by
  rw [List.getD_eq_getElem?_getD]
  cases hg : ds[i]? with
  | none => rfl
  | some d => exact h d (List.getElem?_mem hg)

/-- After `InitDescriptors` every descriptor is `Finished`. -/
theorem InitDescriptors_status (p p1 : DescriptorPool) (h : p.InitDescriptors = some p1) :
    ∀ i, (p1.descriptors_.getD i Descriptor.zero).status_ = 0 := by
  unfold DescriptorPool.InitDescriptors at h
  split at h
  · cases h
  · split at h
    · cases h
    · rename_i ds parts hi
      cases h
      intro i
      apply getD_status
      apply initPartitions_status _ _ _ _ hi
      intro d hd
      rw [List.eq_of_mem_replicate hd]
      rfl

/-- C13.  When `Recovery` runs to its end, a second run with the same arguments
runs to its end as well and leaves the pool, the target words and the record
of the slots handed to free callbacks exactly as the first run left them. -/
theorem recovery_idempotent (st st1 : State) (requested_partition_count : Nat)
    (clear_free_callbacks : Bool)
    (h : Recovery st requested_partition_count clear_free_callbacks = some st1) :
    Recovery st1 requested_partition_count clear_free_callbacks = some st1 := by
  unfold Recovery at h
  simp only [] at h
  generalize hpcdef : (if requested_partition_count ≠ 0 then
    roundPartitionCount requested_partition_count else st.pool.partition_count_) = pc at h
  by_cases hpc : pc = 0
  · rw [if_pos hpc] at h; cases h
  rw [if_neg hpc] at h
  by_cases hdpp : ¬ st.pool.pool_size_ / pc > 0
  · rw [if_pos hdpp] at h; cases h
  rw [if_neg hdpp] at h
  by_cases hps : ¬ st.pool.pool_size_ > 0
  · rw [if_pos hps] at h; cases h
  rw [if_neg hps] at h
  split at h
  · cases h
  rename_i sa hloop
  split at h
  · cases h
  rename_i pool2 hinit
  cases h
  -- header of the pool after the loop
  have hhead := recoverLoop_header _ _ _ hloop
  simp only [DescriptorPool.mk.injEq, true_and] at hhead
  obtain ⟨e1, e3, e2, e4, e6, e5, e7⟩ := hhead
  have hstat := InitDescriptors_status _ _ hinit
  -- shape of the pool after InitDescriptors
  have hinit2 := hinit
  unfold DescriptorPool.InitDescriptors at hinit2
  split at hinit2
  · cases hinit2
  rename_i hgt
  split at hinit2
  · cases hinit2
  rename_i ds parts hparts
  cases hinit2
  -- the second run
  have hpc2 : (if requested_partition_count ≠ 0 then roundPartitionCount requested_partition_count
      else pc) = pc := by
    rw [← hpcdef]
    split <;> rfl
  have hcb : (if clear_free_callbacks = true then 1
      else if clear_free_callbacks = true then 1 else st.pool.n_callbacks) =
      (if clear_free_callbacks = true then 1 else st.pool.n_callbacks) := by
    split <;> rfl
  unfold Recovery
  simp only [e1, e2, e3, e4, e5, e6, e7]
  rw [hpc2, hcb, if_neg hpc, if_neg hdpp, if_neg hps]
  rw [recoverLoop_finished]
  · simp only []
    unfold DescriptorPool.InitDescriptors
    simp only [e1, e2, e3, e4] at hgt hparts ⊢
    rw [if_neg hgt, hparts]
  · intro i
    exact hstat i

/-- `Recovery` on the crash state of the roll-back scenario runs to its end,
and a second run changes nothing. -/
theorem recovery_idempotent_witness :
    ∃ s1, Recovery (stateAB kStatusUndecided (descTag 4352) 3) 0 true = some s1 ∧
      Recovery s1 0 true = some s1 := by
  obtain ⟨s1, h⟩ := Option.isSome_iff_exists.mp
    (by decide : (Recovery (stateAB kStatusUndecided (descTag 4352) 3) 0 true).isSome = true)
  exact ⟨s1, h, recovery_idempotent _ _ _ _ h⟩

end pmwcas

namespace pmwcas

end pmwcas

namespace pmwcas

end pmwcas

namespace pmwcas

end pmwcas

namespace pmwcas

end pmwcas

namespace pmwcas

end pmwcas

namespace pmwcas

/-- Clearing the Dirty bit twice is clearing it once. -/
theorem andNot_dirty_idem (v : Nat) :
    andNot (andNot v kDirtyFlag) kDirtyFlag = andNot v kDirtyFlag := by
  unfold kDirtyFlag
  rw [andNot_flag, andNot_flag]
  omega

theorem isDirty_false_iff (x : Nat) : IsDirtyPtr x = false ↔ x / 2 ^ 61 % 2 = 0 := by
  have := IsDirtyPtr_iff x
  cases h : IsDirtyPtr x
  · rw [h] at this
    simp only [Bool.false_eq_true, false_iff, true_iff] at this ⊢
    omega
  · rw [h] at this
    simp only [true_iff, Bool.true_eq_false, false_iff] at this ⊢
    omega

theorem isCondCAS_false_iff (x : Nat) :
    IsCondCASDescriptorPtr x = false ↔ x / 2 ^ 62 % 2 = 0 := by
  have := IsCondCAS_iff x
  cases h : IsCondCASDescriptorPtr x
  · rw [h] at this
    simp only [Bool.false_eq_true, false_iff, true_iff] at this ⊢
    omega
  · rw [h] at this
    simp only [true_iff, Bool.true_eq_false, false_iff] at this ⊢
    omega

/-- A value without the Dirty and CondCAS bits, its recycle bit removed, is not
a tag. -/
theorem value_not_tag (x dptr wptr : Nat) (hd : dptr < 2 ^ 61) (hw : wptr < 2 ^ 61)
    (h1 : IsDirtyPtr x = false) (h2 : IsCondCASDescriptorPtr x = false) :
    andNot (andNot x kRecycleFlag) kDirtyFlag ≠ descTag dptr ∧
    andNot (andNot x kRecycleFlag) kDirtyFlag ≠ wordTag wptr := by
  rw [isDirty_false_iff] at h1
  rw [isCondCAS_false_iff] at h2
  rw [descTag_eq dptr hd, wordTag_eq wptr hw]
  unfold kRecycleFlag kDirtyFlag
  rw [andNot_flag, andNot_flag]
  constructor <;> omega

theorem andNot_le (x m : Nat) : andNot x m ≤ x := Nat.sub_le _ _

/-- The step of the roll-back pass for one entry. -/
theorem rollBackWord_at (dptr wptr : Nat) (w : WordDescriptor) (mem : Nat → Nat)
    (hd : dptr < 2 ^ 61) (hw : wptr < 2 ^ 61) (hv : mem w.address_ < 2 ^ 64)
    (ha : w.address_ ≠ kAllocNullAddress) :
    rollBackWord dptr wptr w mem w.address_ =
      if andNot (mem w.address_) kDirtyFlag = wordTag wptr ∨
          andNot (mem w.address_) kDirtyFlag = wordTag wptr ||| kMwCASFlag ∨
          andNot (mem w.address_) kDirtyFlag = descTag dptr
      then w.GetOldValue else andNot (mem w.address_) kDirtyFlag := by
  have hcond := roll_back_cond dptr wptr (mem w.address_) hd hw hv
  unfold rollBackWord
  rw [if_neg ha]
  by_cases hrb : (andNot (mem w.address_) kDirtyFlag = wordTag wptr ∨
      andNot (mem w.address_) kDirtyFlag = wordTag wptr ||| kMwCASFlag ∨
      andNot (mem w.address_) kDirtyFlag = descTag dptr)
  · rw [if_pos (hcond.mpr hrb), if_pos hrb, Function.update_same]
  · rw [if_neg (fun h => hrb (hcond.mp h)), if_neg hrb]
    by_cases hdirty : IsDirtyPtr (mem w.address_) = true
    · rw [if_pos hdirty, Function.update_same]
    · rw [if_neg hdirty]
      rw [IsDirtyPtr_iff] at hdirty
      unfold kDirtyFlag
      rw [andNot_flag]
      omega

/-- The step of the roll-forward pass for one entry. -/
theorem rollForwardWord_at (dptr wptr : Nat) (w : WordDescriptor) (mem : Nat → Nat)
    (hd : dptr < 2 ^ 61) (hw : wptr < 2 ^ 61) (hv : mem w.address_ < 2 ^ 64)
    (ha : w.address_ ≠ kAllocNullAddress) :
    rollForwardWord dptr wptr w mem w.address_ =
      if andNot (mem w.address_) kDirtyFlag = descTag dptr then w.GetNewValue
      else if andNot (mem w.address_) kDirtyFlag = wordTag wptr ∨
          andNot (mem w.address_) kDirtyFlag = wordTag wptr ||| kMwCASFlag
      then w.GetOldValue else andNot (mem w.address_) kDirtyFlag := by
  have hf := roll_forward_cond dptr (mem w.address_) hd hv
  have hb := roll_back_cond_succeeded wptr (mem w.address_) hw hv
  unfold rollForwardWord
  rw [if_neg ha]
  by_cases hfw : andNot (mem w.address_) kDirtyFlag = descTag dptr
  · rw [if_pos (hf.mpr hfw), if_pos hfw, Function.update_same]
  · rw [if_neg (fun h => hfw (hf.mp h)), if_neg hfw]
    by_cases hrb : (andNot (mem w.address_) kDirtyFlag = wordTag wptr ∨
        andNot (mem w.address_) kDirtyFlag = wordTag wptr ||| kMwCASFlag)
    · rw [if_pos (hb.mpr hrb), if_pos hrb, Function.update_same]
    · rw [if_neg (fun h => hrb (hb.mp h)), if_neg hrb]
      by_cases hdirty : IsDirtyPtr (mem w.address_) = true
      · rw [if_pos hdirty, Function.update_same]
      · rw [if_neg hdirty]
        rw [IsDirtyPtr_iff] at hdirty
        unfold kDirtyFlag
        rw [andNot_flag]
        omega

/-- The step for one entry changes no word but the target of the entry. -/
theorem rollBackWord_frame (dptr wptr : Nat) (w : WordDescriptor) (mem : Nat → Nat) (a : Nat)
    (h : w.address_ = kAllocNullAddress ∨ a ≠ w.address_) :
    rollBackWord dptr wptr w mem a = mem a := by
  unfold rollBackWord
  by_cases hn : w.address_ = kAllocNullAddress
  · rw [if_pos hn]
  · have hne : a ≠ w.address_ := by
      rcases h with h | h
      · exact absurd h hn
      · exact h
    rw [if_neg hn]
    split_ifs <;> first | rfl | simp only [Function.update_noteq hne]

theorem rollForwardWord_frame (dptr wptr : Nat) (w : WordDescriptor) (mem : Nat → Nat) (a : Nat)
    (h : w.address_ = kAllocNullAddress ∨ a ≠ w.address_) :
    rollForwardWord dptr wptr w mem a = mem a := by
  unfold rollForwardWord
  by_cases hn : w.address_ = kAllocNullAddress
  · rw [if_pos hn]
  · have hne : a ≠ w.address_ := by
      rcases h with h | h
      · exact absurd h hn
      · exact h
    rw [if_neg hn]
    split_ifs <;> first | rfl | simp only [Function.update_noteq hne]

theorem rollBackWord_bound (dptr wptr : Nat) (w : WordDescriptor) (mem : Nat → Nat)
    (hd : dptr < 2 ^ 61) (hw : wptr < 2 ^ 61) (hm : ∀ a, mem a < 2 ^ 64)
    (ho : w.old_value_ < 2 ^ 64) (a : Nat) : rollBackWord dptr wptr w mem a < 2 ^ 64 := by
  by_cases h : w.address_ = kAllocNullAddress ∨ a ≠ w.address_
  · rw [rollBackWord_frame dptr wptr w mem a h]
    exact hm a
  · have h1 : w.address_ ≠ kAllocNullAddress := fun e => h (Or.inl e)
    have h2 : a = w.address_ := by
      by_contra e
      exact h (Or.inr e)
    rw [h2, rollBackWord_at dptr wptr w mem hd hw (hm _) h1]
    split
    · exact lt_of_le_of_lt (andNot_le _ _) ho
    · exact lt_of_le_of_lt (andNot_le _ _) (hm _)

theorem rollForwardWord_bound (dptr wptr : Nat) (w : WordDescriptor) (mem : Nat → Nat)
    (hd : dptr < 2 ^ 61) (hw : wptr < 2 ^ 61) (hm : ∀ a, mem a < 2 ^ 64)
    (ho : w.old_value_ < 2 ^ 64) (hn : w.new_value_ < 2 ^ 64) (a : Nat) :
    rollForwardWord dptr wptr w mem a < 2 ^ 64 := by
  by_cases h : w.address_ = kAllocNullAddress ∨ a ≠ w.address_
  · rw [rollForwardWord_frame dptr wptr w mem a h]
    exact hm a
  · have h1 : w.address_ ≠ kAllocNullAddress := fun e => h (Or.inl e)
    have h2 : a = w.address_ := by
      by_contra e
      exact h (Or.inr e)
    rw [h2, rollForwardWord_at dptr wptr w mem hd hw (hm _) h1]
    split
    · exact lt_of_le_of_lt (andNot_le _ _) hn
    · split
      · exact lt_of_le_of_lt (andNot_le _ _) ho
      · exact lt_of_le_of_lt (andNot_le _ _) (hm _)

theorem rollBackWord_no_tag (dptr wptr : Nat) (w : WordDescriptor) (mem : Nat → Nat)
    (hd : dptr < 2 ^ 61) (hw : wptr < 2 ^ 61) (hv : mem w.address_ < 2 ^ 64)
    (ha : w.address_ ≠ kAllocNullAddress)
    (h1 : IsDirtyPtr w.old_value_ = false) (h2 : IsCondCASDescriptorPtr w.old_value_ = false) :
    andNot (rollBackWord dptr wptr w mem w.address_) kDirtyFlag ≠ descTag dptr ∧
    andNot (rollBackWord dptr wptr w mem w.address_) kDirtyFlag ≠ wordTag wptr := by
  rw [rollBackWord_at dptr wptr w mem hd hw hv ha]
  split
  · exact value_not_tag _ dptr wptr hd hw h1 h2
  · rename_i hc
    rw [andNot_dirty_idem]
    exact ⟨fun e => hc (Or.inr (Or.inr e)), fun e => hc (Or.inl e)⟩

theorem rollForwardWord_no_tag (dptr wptr : Nat) (w : WordDescriptor) (mem : Nat → Nat)
    (hd : dptr < 2 ^ 61) (hw : wptr < 2 ^ 61) (hv : mem w.address_ < 2 ^ 64)
    (ha : w.address_ ≠ kAllocNullAddress)
    (h1 : IsDirtyPtr w.old_value_ = false) (h2 : IsCondCASDescriptorPtr w.old_value_ = false)
    (h3 : IsDirtyPtr w.new_value_ = false) (h4 : IsCondCASDescriptorPtr w.new_value_ = false) :
    andNot (rollForwardWord dptr wptr w mem w.address_) kDirtyFlag ≠ descTag dptr ∧
    andNot (rollForwardWord dptr wptr w mem w.address_) kDirtyFlag ≠ wordTag wptr := by
  rw [rollForwardWord_at dptr wptr w mem hd hw hv ha]
  split
  · exact value_not_tag _ dptr wptr hd hw h3 h4
  · rename_i hc1
    split
    · exact value_not_tag _ dptr wptr hd hw h1 h2
    · rename_i hc2
      rw [andNot_dirty_idem]
      exact ⟨hc1, fun e => hc2 (Or.inl e)⟩

/-- A pass over the words leaves alone every word that is the target of none
of them. -/
theorem wordsLoop_frame (body : Nat → Nat → WordDescriptor → (Nat → Nat) → Nat → Nat)
    (base i a : Nat)
    (hframe : ∀ dptr wptr w mem, (w.address_ = kAllocNullAddress ∨ a ≠ w.address_) →
      body dptr wptr w mem a = mem a) :
    ∀ (ws : List WordDescriptor) (j : Nat) (mem : Nat → Nat),
    (∀ w ∈ ws, w.address_ = kAllocNullAddress ∨ a ≠ w.address_) →
    wordsLoop body base i ws j mem a = mem a
  | [], _, _, _ => rfl
  | w :: ws, j, mem, h => by
    simp only [wordsLoop]
    rw [wordsLoop_frame body base i a hframe ws (j + 1) _
      (fun w1 h1 => h w1 (List.mem_cons_of_mem _ h1))]
    exact hframe _ _ w mem (h w (List.mem_cons_self _ _))

/-- After a pass over entries whose non-null addresses are pairwise distinct
and which satisfy the condition `ok`, no target holds the tag of the
descriptor or of its entry. -/
theorem wordsLoop_no_tag (body : Nat → Nat → WordDescriptor → (Nat → Nat) → Nat → Nat)
    (ok : WordDescriptor → Prop) (base i : Nat) (hd : descPtr base i + DESC_SIZE ≤ 2 ^ 61)
    (hframe : ∀ dptr wptr w mem a, (w.address_ = kAllocNullAddress ∨ a ≠ w.address_) →
      body dptr wptr w mem a = mem a)
    (hbound : ∀ dptr wptr w mem, dptr < 2 ^ 61 → wptr < 2 ^ 61 → (∀ a, mem a < 2 ^ 64) → ok w →
      ∀ a, body dptr wptr w mem a < 2 ^ 64)
    (hat : ∀ dptr wptr w mem, dptr < 2 ^ 61 → wptr < 2 ^ 61 → mem w.address_ < 2 ^ 64 →
      w.address_ ≠ kAllocNullAddress → ok w →
      andNot (body dptr wptr w mem w.address_) kDirtyFlag ≠ descTag dptr ∧
      andNot (body dptr wptr w mem w.address_) kDirtyFlag ≠ wordTag wptr) :
    ∀ (ws : List WordDescriptor) (j : Nat) (mem : Nat → Nat), (∀ a, mem a < 2 ^ 64) →
    j + ws.length ≤ DESC_CAP →
    ws.Pairwise (fun w1 w2 => w1.address_ ≠ kAllocNullAddress → w1.address_ ≠ w2.address_) →
    (∀ w ∈ ws, ok w) →
    ∀ (k : Nat) (w : WordDescriptor), ws[k]? = some w → w.address_ ≠ kAllocNullAddress →
      andNot (wordsLoop body base i ws j mem w.address_) kDirtyFlag ≠ descTag (descPtr base i) ∧
      andNot (wordsLoop body base i ws j mem w.address_) kDirtyFlag ≠
        wordTag (wordPtr base i (j + k))
  | [], _, _, _, _, _, _, k, w, hk, _ => by simp at hk
  | w0 :: ws, j, mem, hm, hlen, hp, hok, k, w, hk, ha => by
    have hdl : descPtr base i < 2 ^ 61 := by
      unfold DESC_SIZE at hd
      omega
    have hwl : wordPtr base i j < 2 ^ 61 := by
      unfold wordPtr WORDS_OFFSET WORD_SIZE
      unfold DESC_SIZE at hd
      simp only [List.length_cons] at hlen
      unfold DESC_CAP at hlen
      omega
    simp only [wordsLoop]
    cases k with
    | zero =>
      simp only [List.getElem?_cons_zero, Option.some.injEq] at hk
      subst hk
      rw [wordsLoop_frame body base i w0.address_ (fun dptr wptr w mem h => hframe dptr wptr w mem _ h)
        ws (j + 1) _ (fun w1 h1 => by
          by_cases e : w1.address_ = kAllocNullAddress
          · exact Or.inl e
          · exact Or.inr ((List.pairwise_cons.1 hp).1 w1 h1 ha))]
      exact hat _ _ w0 mem hdl hwl (hm _) ha (hok w0 (List.mem_cons_self _ _))
    | succ k =>
      simp only [List.getElem?_cons_succ] at hk
      have ih := wordsLoop_no_tag body ok base i hd hframe hbound hat ws (j + 1)
        (body (descPtr base i) (wordPtr base i j) w0 mem)
        (hbound _ _ w0 mem hdl hwl hm (hok w0 (List.mem_cons_self _ _)))
        (by simp only [List.length_cons] at hlen; omega)
        (List.pairwise_cons.1 hp).2 (fun w1 h1 => hok w1 (List.mem_cons_of_mem _ h1)) k w hk ha
      have e : j + 1 + k = j + (k + 1) := by omega
      rw [e] at ih
      exact ih

theorem recycleLoop_address (old_slot : Bool) : ∀ (ws : List WordDescriptor) (j k : Nat)
    (w1 : WordDescriptor), (recycleLoop old_slot ws j).1[k]? = some w1 →
    ∃ w, ws[k]? = some w ∧ w1.address_ = w.address_
  | [], _, k, w1, h => by simp [recycleLoop] at h
  | w :: ws, j, k, w1, h => by
    have hcons : ∃ w2, (recycleLoop old_slot (w :: ws) j).1 =
        w2 :: (recycleLoop old_slot ws (j + 1)).1 ∧ w2.address_ = w.address_ := by
      simp only [recycleLoop]
      split
      · split
        · exact ⟨_, rfl, rfl⟩
        · exact ⟨_, rfl, rfl⟩
      · split
        · exact ⟨_, rfl, rfl⟩
        · exact ⟨_, rfl, rfl⟩
    obtain ⟨w2, e1, e2⟩ := hcons
    rw [e1] at h
    cases k with
    | zero =>
      simp only [List.getElem?_cons_zero, Option.some.injEq] at h
      subst h
      exact ⟨w, List.getElem?_cons_zero, e2⟩
    | succ k =>
      simp only [List.getElem?_cons_succ] at h ⊢
      exact recycleLoop_address old_slot ws (j + 1) k w1 h

theorem checkLoop_of (base i : Nat) (mem : Nat → Nat) : ∀ (ws : List WordDescriptor) (j : Nat),
    (∀ (k : Nat) (w : WordDescriptor), ws[k]? = some w → w.address_ ≠ kAllocNullAddress →
      andNot (mem w.address_) kDirtyFlag ≠ descTag (descPtr base i) ∧
      andNot (mem w.address_) kDirtyFlag ≠ wordTag (wordPtr base i (j + k))) →
    checkLoop base i mem ws j = true
  | [], _, _ => rfl
  | w :: ws, j, h => by
    simp only [checkLoop, Bool.and_eq_true, decide_eq_true_eq]
    refine ⟨?_, checkLoop_of base i mem ws (j + 1) (fun k w1 hk ha => ?_)⟩
    · by_cases e : w.address_ = kAllocNullAddress
      · exact Or.inl e
      · exact Or.inr (h 0 w List.getElem?_cons_zero e)
    · have := h (k + 1) w1 (by simpa using hk) ha
      have e : j + 1 + k = j + (k + 1) := by omega
      rw [e]
      exact this

/-- C31.  The check of `Recovery` after the entry scan of a descriptor does
not fail: for a descriptor with a valid status that is not `Finished`, whose
entries with a non-null address have pairwise distinct addresses and 64-bit
old and new values without the bits 61 and 62, and whatever the 64-bit target
words hold, the step of `Recovery` for the descriptor returns, and afterwards
no target word is, its Dirty bit ignored, the MwCAS tag of the descriptor or
the tag of the word descriptor of its entry. -/
theorem recovery_check_passes (st : State) (i : Nat)
    (hptr : descPtr st.pool.base i + DESC_SIZE ≤ 2 ^ 61)
    (hs : stableStatus (st.desc i).status_ = kStatusUndecided ∨
      stableStatus (st.desc i).status_ = kStatusFailed ∨
      stableStatus (st.desc i).status_ = kStatusSucceeded)
    (hcb : (st.desc i).callback_idx_ < st.pool.n_callbacks)
    (hmem : ∀ a, st.mem a < 2 ^ 64)
    (hdist : ((st.desc i).words_.take DESC_CAP).Pairwise
      (fun w1 w2 => w1.address_ ≠ kAllocNullAddress → w1.address_ ≠ w2.address_))
    (hvals : ∀ w ∈ (st.desc i).words_.take DESC_CAP,
      (w.old_value_ < 2 ^ 64 ∧ w.new_value_ < 2 ^ 64) ∧
      (IsDirtyPtr w.old_value_ = false ∧ IsCondCASDescriptorPtr w.old_value_ = false) ∧
      (IsDirtyPtr w.new_value_ = false ∧ IsCondCASDescriptorPtr w.new_value_ = false)) :
    ∃ st1, recoverDescriptor st i = some st1 ∧
      ∀ (j : Nat) (w : WordDescriptor), ((st.desc i).words_.take DESC_CAP)[j]? = some w →
        w.address_ ≠ kAllocNullAddress →
        andNot (st1.mem w.address_) kDirtyFlag ≠ descTag (descPtr st.pool.base i) ∧
        andNot (st1.mem w.address_) kDirtyFlag ≠ wordTag (wordPtr st.pool.base i j) := by
  have hlen : 0 + ((st.desc i).words_.take DESC_CAP).length ≤ DESC_CAP := by
    rw [List.length_take]
    omega
  have hback := wordsLoop_no_tag rollBackWord
    (fun w => (w.old_value_ < 2 ^ 64 ∧ w.new_value_ < 2 ^ 64) ∧
      (IsDirtyPtr w.old_value_ = false ∧ IsCondCASDescriptorPtr w.old_value_ = false) ∧
      (IsDirtyPtr w.new_value_ = false ∧ IsCondCASDescriptorPtr w.new_value_ = false))
    st.pool.base i hptr
    (fun dptr wptr w mem a h => rollBackWord_frame dptr wptr w mem a h)
    (fun dptr wptr w mem h1 h2 h3 h4 a => rollBackWord_bound dptr wptr w mem h1 h2 h3 h4.1.1 a)
    (fun dptr wptr w mem h1 h2 h3 h4 h5 =>
      rollBackWord_no_tag dptr wptr w mem h1 h2 h3 h4 h5.2.1.1 h5.2.1.2)
    ((st.desc i).words_.take DESC_CAP) 0 st.mem hmem hlen hdist hvals
  have hfwd := wordsLoop_no_tag rollForwardWord
    (fun w => (w.old_value_ < 2 ^ 64 ∧ w.new_value_ < 2 ^ 64) ∧
      (IsDirtyPtr w.old_value_ = false ∧ IsCondCASDescriptorPtr w.old_value_ = false) ∧
      (IsDirtyPtr w.new_value_ = false ∧ IsCondCASDescriptorPtr w.new_value_ = false))
    st.pool.base i hptr
    (fun dptr wptr w mem a h => rollForwardWord_frame dptr wptr w mem a h)
    (fun dptr wptr w mem h1 h2 h3 h4 a =>
      rollForwardWord_bound dptr wptr w mem h1 h2 h3 h4.1.1 h4.1.2 a)
    (fun dptr wptr w mem h1 h2 h3 h4 h5 =>
      rollForwardWord_no_tag dptr wptr w mem h1 h2 h3 h4 h5.2.1.1 h5.2.1.2 h5.2.2.1 h5.2.2.2)
    ((st.desc i).words_.take DESC_CAP) 0 st.mem hmem hlen hdist hvals
  simp only [Nat.zero_add] at hback hfwd
  have hs1 : andNot (st.desc i).status_ kStatusDirtyFlag = kStatusUndecided ∨
      andNot (st.desc i).status_ kStatusDirtyFlag = kStatusFailed ∨
      andNot (st.desc i).status_ kStatusDirtyFlag = kStatusSucceeded := hs
  have hne : ¬ andNot (st.desc i).status_ kStatusDirtyFlag = kStatusFinished := by
    rcases hs1 with h | h | h <;> rw [h] <;> decide
  have hvalid : (andNot (st.desc i).status_ kStatusDirtyFlag = kStatusFinished ∨
      andNot (st.desc i).status_ kStatusDirtyFlag = kStatusFailed ∨
      andNot (st.desc i).status_ kStatusDirtyFlag = kStatusSucceeded ∨
      andNot (st.desc i).status_ kStatusDirtyFlag = kStatusUndecided) := by
    rcases hs1 with h | h | h
    · exact Or.inr (Or.inr (Or.inr h))
    · exact Or.inr (Or.inl h)
    · exact Or.inr (Or.inr (Or.inl h))
  unfold recoverDescriptor
  simp only [hvalid, not_true_eq_false, if_false]
  simp only [hne, if_false, hcb, not_true_eq_false]
  by_cases hb : andNot (st.desc i).status_ kStatusDirtyFlag = kStatusUndecided ∨
      andNot (st.desc i).status_ kStatusDirtyFlag = kStatusFailed
  · simp only [hb, decide_True, if_true, Bool.not_true]
    have hchk := checkLoop_of st.pool.base i
      (wordsLoop rollBackWord st.pool.base i ((st.desc i).words_.take DESC_CAP) 0 st.mem)
      (recycleLoop false ((st.desc i).words_.take DESC_CAP) 0).1 0 (by
        intro k w1 hk ha
        obtain ⟨w, hw, e⟩ := recycleLoop_address false _ 0 k w1 hk
        rw [e] at ha ⊢
        rw [Nat.zero_add]
        exact hback k w hw ha)
    rw [if_pos hchk]
    exact ⟨_, rfl, hback⟩
  · simp only [hb, decide_False, if_false, Bool.not_false, Bool.false_eq_true]
    have hchk := checkLoop_of st.pool.base i
      (wordsLoop rollForwardWord st.pool.base i ((st.desc i).words_.take DESC_CAP) 0 st.mem)
      (recycleLoop true ((st.desc i).words_.take DESC_CAP) 0).1 0 (by
        intro k w1 hk ha
        obtain ⟨w, hw, e⟩ := recycleLoop_address true _ 0 k w1 hk
        rw [e] at ha ⊢
        rw [Nat.zero_add]
        exact hfwd k w hw ha)
    rw [if_pos hchk]
    exact ⟨_, rfl, hfwd⟩

/-- The undecided descriptor `{8 : 1 -> 2}` whose target holds the tag of the
descriptor. -/
theorem recovery_check_passes_witness :
    ∃ st1, recoverDescriptor stateTagged 0 = some st1 ∧
      andNot (st1.mem 8) kDirtyFlag ≠ descTag 4096 := by
  obtain ⟨st1, h1, h2⟩ := recovery_check_passes stateTagged 0 (by decide) (by decide) (by decide)
    (by
      intro a
      show (List.lookup a [(8, descTag 4096)]).getD 0 < 2 ^ 64
      by_cases h : a = 8
      · subst h
        decide
      · have : (a == 8) = false := by simpa using h
        simp [List.lookup, this])
    (by decide) (by decide)
  exact ⟨st1, h1, (h2 0 ⟨8, 1, 2⟩ rfl (by decide)).1⟩

end pmwcas

namespace BufferManager

/-- C26.  With two frames the pins of pages 1, 2, 1, 3, 2, all in read mode or
all in write mode, return the frames 0, 1, 0, 1, 0: the third pin is a hit on
page 1, the fourth evicts page 2 from frame 1, where page 3 then stays, and
the fifth evicts page 1. -/
theorem clock_trace_two_frames :
    create 2 3 Disk.empty = some (poolOf 2) ∧
    (pinAll (poolOf 2) (pagesOfFile PAGE_READ [1, 2])).map (fun r => heldPages r.2) =
      some [some 1, some 2] ∧
    (pinAll (poolOf 2) (pagesOfFile PAGE_READ [1, 2, 1, 3])).map (fun r => (r.1, heldPages r.2)) =
      some ([some 0, some 1, some 0, some 1], [some 1, some 3]) ∧
    (pinAll (poolOf 2) (pagesOfFile PAGE_READ [1, 2, 1, 3, 2])).map
        (fun r => (r.1, heldPages r.2)) =
      some ([some 0, some 1, some 0, some 1, some 0], [some 2, some 3]) ∧
    (pinAll (poolOf 2) (pagesOfFile PAGE_WRITE [1, 2, 1, 3])).map
        (fun r => (r.1, heldPages r.2)) =
      some ([some 0, some 1, some 0, some 1], [some 1, some 3]) ∧
    (pinAll (poolOf 2) (pagesOfFile PAGE_WRITE [1, 2, 1, 3, 2])).map
        (fun r => (r.1, heldPages r.2)) =
      some ([some 0, some 1, some 0, some 1, some 0], [some 2, some 3]) := by
  refine ⟨rfl, ?_, ?_, ?_, ?_, ?_⟩ <;> decide

/-- C24.  `PinPage` with a page identifier whose low 24 bits are not all zero
returns `nullptr` and leaves the pool as it is. -/
theorem pin_invalid_id (b : Pool) (page_id : PageId) (page_mode : Nat) (write_ok read_ok : Bool)
    (h : page_id.value &&& PAGE_ID_INVALID_MASK ≠ 0) :
    PinPage b page_id page_mode write_ok read_ok = some (none, b) := by
  unfold PinPage
  have : page_id.IsValid = false := by
    unfold PageId.IsValid
    simpa using h
  simp [this]

/-- The identifier with value 1 is refused by a pool of two frames. -/
theorem pin_invalid_id_witness :
    PinPage (poolOf 2) ⟨1⟩ PAGE_READ true true = some (none, poolOf 2) :=
  pin_invalid_id (poolOf 2) ⟨1⟩ PAGE_READ true true (by decide)

/-- C25 (counterexample).  Page 1 is pinned, modified and marked dirty in a
pool of one frame; the pin of page 2 has to write page 1 back.  When that
write fails `PinPage` does not return at all (`File::flush` stops the process
in `PCHECK`), and there is no return of `nullptr`; when it succeeds the frame
is returned. -/
theorem pin_with_failing_write_back :
    ((pinAll (poolOf 1) (pagesOfFile PAGE_WRITE [1])).bind fun r =>
      PinPage (markDirty r.2 0 77) (PageId.make 3 2) PAGE_READ false true).isNone = true ∧
    ((pinAll (poolOf 1) (pagesOfFile PAGE_WRITE [1])).bind fun r =>
      (PinPage (markDirty r.2 0 77) (PageId.make 3 2) PAGE_READ true true).map
        fun o => (o.1, (o.2.disk 1).page_data)) = some (some 0, 77) := by
  constructor <;> decide

/-- C25, amended: a failed write-back is never reported by `PinPage`.  When
the CLOCK victim of a miss is dirty and belongs to the registered file, a
failing write stops the process inside `File::flush` (`PCHECK`), so `PinPage`
does not return; and whenever `PinPage` returns although a write would fail,
no write was attempted: the result, `nullptr` included, is the one it returns
when writes succeed. -/
theorem write_back_failure_fatal (b : Pool) (page_id : PageId) (page_mode : Nat)
    (read_ok : Bool) :
    (∀ (frames : List Page) (cur adv : Nat) (pf : Page), page_id.IsValid = true →
      Table.find b.page_table page_id.GetValue = none →
      clockLoop (clockFuel b.page_count) b.page_count b.page_frames b.page_cur 0 =
        some (frames, cur, adv) →
      frames[cur]? = some pf → pf.IsDirty = true → pf.page_id.GetFileID = b.fid →
      PinPage b page_id page_mode false read_ok = none) ∧
    (∀ r, PinPage b page_id page_mode false read_ok = some r →
      PinPage b page_id page_mode true read_ok = some r) := by
  constructor
  · intro frames cur adv pf hv hf hl hp hd hfid
    unfold PinPage
    simp [hv, hf, hl, hp, hd, hfid, flush]
  · intro r h
    unfold PinPage at h ⊢
    by_cases hv : page_id.IsValid = true
    swap
    · simp only [hv] at h ⊢
      exact h
    simp only [hv, not_true_eq_false, if_false] at h ⊢
    cases hf : Table.find b.page_table page_id.GetValue with
    | some f =>
      simp only [hf] at h ⊢
      exact h
    | none =>
      simp only [hf] at h ⊢
      cases hl : clockLoop (clockFuel b.page_count) b.page_count b.page_frames b.page_cur 0 with
      | none => simp [hl] at h
      | some t =>
        obtain ⟨frames, cur, adv⟩ := t
        simp only [hl] at h ⊢
        cases hp : frames[cur]? with
        | none => simp [hp] at h
        | some pf =>
          simp only [hp] at h ⊢
          by_cases hd : pf.IsDirty = true
          · by_cases hfid : pf.page_id.GetFileID = b.fid
            · simp [hd, hfid, flush] at h
            · simp only [hd, hfid, ne_eq, not_false_eq_true, and_self, if_true] at h ⊢
              exact h
          · simp only [hd, Bool.false_eq_true, false_and, if_false] at h ⊢
            exact h

/-- Witness for C25: on the pool of one frame that holds the dirty page 1, the
pin of page 2 with a failing write does not return. -/
theorem write_back_failure_fatal_witness :
    PinPage dirtyOne (PageId.make 3 2) PAGE_READ false true = none :=
  (write_back_failure_fatal dirtyOne (PageId.make 3 2) PAGE_READ true).1
    [⟨PageId.make 3 1, 0, 0, true, 77⟩] 0 1 ⟨PageId.make 3 1, 0, 0, true, 77⟩
    (by decide) (by decide) (by decide) rfl rfl (by decide)

/-- C29 (counterexample).  A pin in read mode leaves the mark `last_used` of
its frame at 2, and the next miss, which passes over that frame once, leaves
it at 1: the mark is not cleared and is not confined to 0 and 1. -/
theorem used_mark_two :
    (pinAll (poolOf 2) (pagesOfFile PAGE_READ [1])).map (fun r => marks r.2) = some [2, 0] ∧
    (pinAll (poolOf 2) (pagesOfFile PAGE_READ [1, 2])).map (fun r => marks r.2) =
      some [1, 2] := by
  constructor <;> decide

/-- C22 (counterexample).  A pool of one frame holds page 1 of file 3; the pin
of page 2 of file 4 returns `nullptr` after the entry of the victim was erased
from the page table: the frame still has the identifier of page 1, and the
page table no longer maps it. -/
theorem failed_pin_orphans_frame :
    (pinAll (poolOf 1) [(PageId.make 3 1, PAGE_READ), (PageId.make 4 2, PAGE_READ)]).map
        (fun r => (r.1, r.2.page_frames.map (fun p => p.page_id), r.2.page_table,
          Table.find r.2.page_table (PageId.make 3 1).GetValue)) =
      some ([some 0, none], [PageId.make 3 1], [], none) := by
  decide

end BufferManager

namespace BufferManager

theorem and_shifted_mask (x a b : Nat) : x &&& (2 ^ a * (2 ^ b - 1)) = 2 ^ a * (x / 2 ^ a % 2 ^ b) := by
  apply Nat.eq_of_testBit_eq
  intro j
  rw [Nat.testBit_and, Nat.testBit_mul_pow_two, Nat.testBit_mul_pow_two,
    Nat.testBit_two_pow_sub_one, Nat.testBit_mod_two_pow, ← Nat.shiftRight_eq_div_pow,
    Nat.testBit_shiftRight]
  by_cases hj : j ≥ a
  · have : a + (j - a) = j := by omega
    rw [this]
    cases x.testBit j <;> simp [hj]
  · simp [hj]

theorem make_value (f p : Nat) (hf : f < 2 ^ 16) (hp : p < 2 ^ 24) :
    (PageId.make f p).value = 2 ^ 48 * f + 2 ^ 24 * p := by
  unfold PageId.make shift FILE_ID_SHIFT PAGE_NUM_SHIFT
  simp only [Nat.shiftLeft_eq]
  have h1 : f * 2 ^ 48 % 2 ^ 64 = 2 ^ 48 * f := by
    rw [Nat.mod_eq_of_lt (by omega)]; omega
  have h2 : p * 2 ^ 24 % 2 ^ 64 = 2 ^ 24 * p := by
    rw [Nat.mod_eq_of_lt (by omega)]; omega
  rw [h1, h2]
  exact (Nat.mul_add_lt_is_or (by omega) f).symm

/-- C28.  For a 16-bit file id `f` and a page number `p` below `2 ^ 24` the
identifier `PageId(f, p)` is valid, `GetFileID` returns `f` and `GetPageID`
returns `p`; two such identifiers with the same value have the same file id
and page number; the default-constructed identifier is not valid. -/
theorem page_id_round_trip (f p : Nat) (hf : f < 2 ^ 16) (hp : p < 2 ^ 24) :
    (PageId.make f p).IsValid = true ∧ (PageId.make f p).GetFileID = f ∧
    (PageId.make f p).GetPageID = p ∧
    (∀ f1 p1, f1 < 2 ^ 16 → p1 < 2 ^ 24 →
      (PageId.make f p).GetValue = (PageId.make f1 p1).GetValue → f = f1 ∧ p = p1) ∧
    PageId.invalid.IsValid = false := by
  have hv := make_value f p hf hp
  have m0 : PAGE_ID_INVALID_MASK = 2 ^ 0 * (2 ^ 24 - 1) := by decide
  have m1 : PAGE_NUM_MASK = 2 ^ 24 * (2 ^ 24 - 1) := by decide
  have m2 : FILE_ID_MASK = 2 ^ 48 * (2 ^ 16 - 1) := by decide
  refine ⟨?_, ?_, ?_, ?_, by decide⟩
  · unfold PageId.IsValid
    rw [hv, m0, and_shifted_mask]
    simp only [beq_iff_eq]
    omega
  · unfold PageId.GetFileID FILE_ID_SHIFT
    rw [hv, m2, and_shifted_mask, Nat.shiftRight_eq_div_pow]
    omega
  · unfold PageId.GetPageID PAGE_NUM_SHIFT
    rw [hv, m1, and_shifted_mask, Nat.shiftRight_eq_div_pow]
    omega
  · intro f1 p1 hf1 hp1 he
    unfold PageId.GetValue at he
    rw [hv, make_value f1 p1 hf1 hp1] at he
    omega

/-- File 3, page 5. -/
theorem page_id_round_trip_witness :
    (PageId.make 3 5).IsValid = true ∧ (PageId.make 3 5).GetFileID = 3 ∧
    (PageId.make 3 5).GetPageID = 5 :=
  ⟨(page_id_round_trip 3 5 (by decide) (by decide)).1,
    (page_id_round_trip 3 5 (by decide) (by decide)).2.1,
    (page_id_round_trip 3 5 (by decide) (by decide)).2.2.1⟩

end BufferManager

namespace BufferManager

theorem Table.find_after_erase (t : Table) (k k1 : Nat) :
    Table.find (Table.erase t k) k1 = if k1 = k then none else Table.find t k1 := by
  induction t with
  | nil => simp [Table.erase, Table.find]
  | cons e t ih =>
    obtain ⟨a, v⟩ := e
    by_cases ha : a = k
    · subst ha
      simp only [Table.erase, if_true, ih, Table.find]
      by_cases hk : k1 = a
      · simp [hk]
      · have : ¬ a = k1 := fun e => hk e.symm
        simp [hk, this]
    · simp only [Table.erase, ha, if_false, Table.find, ih]
      by_cases hk : k1 = k
      · subst hk
        simp [ha]
      · simp [hk]

theorem Table.find_after_emplace (t : Table) (k v k1 : Nat) (h : Table.find t k = none) :
    Table.find (Table.try_emplace t k v) k1 = if k1 = k then some v else Table.find t k1 := by
  simp only [Table.try_emplace, h, Table.find]
  by_cases hk : k1 = k
  · simp [hk]
  · have : ¬ k = k1 := fun e => hk e.symm
    simp [hk, this]

theorem LoopRel.same (frames : List Page) : LoopRel frames frames :=
  ⟨rfl, fun _ m h => ⟨m, h, rfl, rfl, rfl, rfl, fun _ => le_refl _⟩⟩

theorem setIdle_mark {m : Page} (h0 : m.last_used > 0) (h : m.last_used < 2 ^ 16) :
    m.SetIdle.last_used = m.last_used - 1 := by
  show (m.last_used + 2 ^ 16 - 1) % 2 ^ 16 = m.last_used - 1
  have : m.last_used + 2 ^ 16 - 1 = (m.last_used - 1) + 2 ^ 16 := by omega
  rw [this, Nat.add_mod_right, Nat.mod_eq_of_lt (by omega)]

theorem LoopRel.compose {a b c : List Page} (h1 : LoopRel a b) (h2 : LoopRel b c) :
    LoopRel a c := by
  refine ⟨h2.1.trans h1.1, fun f m hm => ?_⟩
  obtain ⟨m1, hm1, e1, e2, e3, e4, e5⟩ := h1.2 f m hm
  obtain ⟨m2, hm2, d1, d2, d3, d4, d5⟩ := h2.2 f m1 hm1
  refine ⟨m2, hm2, d1.trans e1, d2.trans e2, d3.trans e3, d4.trans e4, fun hlt => ?_⟩
  have := e5 hlt
  exact le_trans (d5 (by omega)) this

theorem LoopRel.set_idle {frames : List Page} {i : Nat} {m : Page}
    (hm : frames[i]? = some m) (hu : m.IsUsed = true) :
    LoopRel frames (frames.set i m.SetIdle) := by
  refine ⟨by simp, fun f m0 h0 => ?_⟩
  by_cases hf : i = f
  · subst hf
    have hlt : i < frames.length := (List.getElem?_eq_some_iff.1 hm).1
    have : m0 = m := by rw [hm] at h0; exact (Option.some.inj h0).symm
    subst this
    refine ⟨m0.SetIdle, by simp [List.getElem?_set, hlt], by simp only [Page.SetIdle],
      by simp only [Page.SetIdle], by simp only [Page.SetIdle], by simp only [Page.SetIdle],
      fun hl => ?_⟩
    have h1 : m0.last_used > 0 := by simpa [Page.IsUsed] using hu
    rw [setIdle_mark h1 hl]
    omega
  · exact ⟨m0, by simp [List.getElem?_set, hf, h0], rfl, rfl, rfl, rfl, fun _ => le_refl _⟩

/-- What a returning loop of `PinPage` guarantees: the hand is on a frame with
mark 0, only marks changed, and nothing changed at all when the frame under
the hand had mark 0 at the start. -/
theorem clock_exit : ∀ (fuel n : Nat) (frames : List Page) (cur adv : Nat)
    (frames1 : List Page) (cur1 adv1 : Nat), frames.length = n →
    clockLoop fuel n frames cur adv = some (frames1, cur1, adv1) →
    cur1 < n ∧ LoopRel frames frames1 ∧
      (∃ m, frames1[cur1]? = some m ∧ m.last_used = 0) ∧
      (∀ m0, frames[cur]? = some m0 → m0.last_used = 0 → cur1 = cur ∧ frames1 = frames)
  | 0, _, _, _, _, _, _, _, _, h => by simp [clockLoop] at h
  | fuel + 1, n, frames, cur, adv, frames1, cur1, adv1, hlen, h => by
    unfold clockLoop at h
    cases hm : frames[cur]? with
    | none => rw [hm] at h; cases h
    | some m =>
      rw [hm] at h
      have hcl : cur < n := hlen ▸ (List.getElem?_eq_some_iff.1 hm).1
      by_cases hu : m.IsUsed = true
      · simp only [hu, if_true] at h
        obtain ⟨h1, h2, h3, _⟩ := clock_exit fuel n _ _ _ _ _ _ (by simpa using hlen) h
        refine ⟨h1, (LoopRel.set_idle hm hu).compose h2, h3, ?_⟩
        intro m0 hm0 hz
        cases hm0
        simp [Page.IsUsed, hz] at hu
      · simp only [hu, Bool.false_eq_true, if_false, Option.some.injEq, Prod.mk.injEq] at h
        obtain ⟨e1, e2, _⟩ := h
        subst e1
        subst e2
        refine ⟨hcl, LoopRel.same _, ⟨m, hm, ?_⟩, fun _ _ _ => ⟨rfl, rfl⟩⟩
        simpa [Page.IsUsed] using hu

/-- The loop of `PinPage` on frames with 16-bit marks: the loop leaves at the
frame `u` whose visit time is least, after that many advances, and the mark of
every frame has been decremented once for every pass of the hand. -/
theorem clock_victim_char : ∀ (fuel n : Nat) (frames : List Page) (cur adv u : Nat) (pu : Page),
    frames.length = n → cur < n →
    (∀ (j : Nat) (m : Page), frames[j]? = some m → m.last_used < 2 ^ 16) →
    frames[u]? = some pu →
    (∀ (j : Nat) (m : Page), frames[j]? = some m → visitTime n cur u pu ≤ visitTime n cur j m) →
    visitTime n cur u pu < fuel →
    ∃ frames1, clockLoop fuel n frames cur adv = some (frames1, u, adv + visitTime n cur u pu) ∧
      frames1.length = n ∧
      ∀ (j : Nat) (m : Page), frames[j]? = some m →
        frames1[j]? =
          some { m with last_used := m.last_used - passes n cur j (visitTime n cur u pu) }
  | 0, _, _, _, _, _, _, _, _, _, _, _, hf => absurd hf (Nat.not_lt_zero _)
  | fuel + 1, n, frames, cur, adv, u, pu, hlen, hc, hmk, hu, hmin, hf => by
    have hcl : cur < frames.length := hlen ▸ hc
    have hul : u < n := hlen ▸ (List.getElem?_eq_some_iff.1 hu).1
    obtain ⟨m, hm⟩ : ∃ m, frames[cur]? = some m := ⟨frames[cur], List.getElem?_eq_getElem hcl⟩
    have hd0 : (cur + n - cur) % n = 0 := by
      have : cur + n - cur = n := by omega
      rw [this, Nat.mod_self]
    unfold clockLoop
    simp only [hm]
    by_cases hused : m.IsUsed = true
    · simp only [hused, if_true]
      have hm0 : m.last_used > 0 := by simpa [Page.IsUsed] using hused
      have hidle := setIdle_mark hm0 (hmk cur m hm)
      have hnext : (if cur + 1 ≥ n then 0 else cur + 1) < n := by
        split <;> omega
      -- every visit time drops by one
      have hdrop : ∀ (j : Nat) (mj mj1 : Page), frames[j]? = some mj →
          (frames.set cur m.SetIdle)[j]? = some mj1 →
          visitTime n (if cur + 1 ≥ n then 0 else cur + 1) j mj1 + 1 = visitTime n cur j mj ∧
          mj1 = (if j = cur then mj.SetIdle else mj) := by
        intro j mj mj1 hj hj1
        have hjl : j < n := hlen ▸ (List.getElem?_eq_some_iff.1 hj).1
        by_cases hjc : j = cur
        · subst hjc
          rw [hm] at hj
          cases hj
          have : (frames.set j m.SetIdle)[j]? = some m.SetIdle := by
            simp [List.getElem?_set, hcl]
          rw [this] at hj1
          cases hj1
          refine ⟨?_, by simp⟩
          have hd := HtBufferManager.dist_self_step hjl
          unfold visitTime
          rw [hidle, hd0]
          have hmul : (m.last_used - 1) * n + n = m.last_used * n := by
            have : m.last_used = (m.last_used - 1) + 1 := by omega
            conv_rhs => rw [this, Nat.add_mul, Nat.one_mul]
          omega
        · have : (frames.set cur m.SetIdle)[j]? = frames[j]? := by
            simp [List.getElem?_set, Ne.symm hjc]
          rw [this, hj] at hj1
          cases hj1
          refine ⟨?_, by simp [hjc]⟩
          have hd := HtBufferManager.dist_step hc hjl (Ne.symm hjc)
          unfold visitTime
          omega
      have hset : ∀ (j : Nat) (mj : Page), frames[j]? = some mj →
          (frames.set cur m.SetIdle)[j]? = some (if j = cur then mj.SetIdle else mj) := by
        intro j mj hj
        by_cases hjc : j = cur
        · subst hjc
          rw [hm] at hj
          cases hj
          simp [List.getElem?_set, hcl]
        · simp [List.getElem?_set, Ne.symm hjc, hj, hjc]
      have hback : ∀ (j : Nat) (mj1 : Page), (frames.set cur m.SetIdle)[j]? = some mj1 →
          ∃ mj, frames[j]? = some mj := by
        intro j mj1 hj1
        have hjl : j < frames.length := by
          have := (List.getElem?_eq_some_iff.1 hj1).1
          simpa using this
        exact ⟨_, List.getElem?_eq_getElem hjl⟩
      obtain ⟨hdu, hpu1⟩ := hdrop u pu _ hu (hset u pu hu)
      have hmk1 : ∀ (j : Nat) (mj1 : Page), (frames.set cur m.SetIdle)[j]? = some mj1 →
          mj1.last_used < 2 ^ 16 := by
        intro j mj1 hj1
        obtain ⟨mj, hj⟩ := hback j mj1 hj1
        have e := (hdrop j mj mj1 hj hj1).2
        have hb := hmk j mj hj
        rw [e]
        split
        · show (mj.last_used + 2 ^ 16 - 1) % 2 ^ 16 < 2 ^ 16
          exact Nat.mod_lt _ (by norm_num)
        · exact hb
      have hmin1 : ∀ (j : Nat) (mj1 : Page), (frames.set cur m.SetIdle)[j]? = some mj1 →
          visitTime n (if cur + 1 ≥ n then 0 else cur + 1) u (if u = cur then pu.SetIdle else pu) ≤
            visitTime n (if cur + 1 ≥ n then 0 else cur + 1) j mj1 := by
        intro j mj1 hj1
        obtain ⟨mj, hj⟩ := hback j mj1 hj1
        have h1 := (hdrop j mj mj1 hj hj1).1
        have h2 := hmin j mj hj
        omega
      obtain ⟨frames1, hr, hl1, hres⟩ :=
        clock_victim_char fuel n _ _ (adv + 1) u _ (by simpa using hlen) hnext hmk1
          (hset u pu hu) hmin1 (by omega)
      refine ⟨frames1, ?_, hl1, ?_⟩
      · rw [hr]
        have : adv + 1 + visitTime n (if cur + 1 ≥ n then 0 else cur + 1) u
            (if u = cur then pu.SetIdle else pu) = adv + visitTime n cur u pu := by omega
        rw [this]
      · intro j mj hj
        have hjl : j < n := hlen ▸ (List.getElem?_eq_some_iff.1 hj).1
        rw [hres j _ (hset j mj hj)]
        have hK : visitTime n (if cur + 1 ≥ n then 0 else cur + 1) u
            (if u = cur then pu.SetIdle else pu) = visitTime n cur u pu - 1 := by omega
        have hKpos : visitTime n cur u pu ≥ 1 := by omega
        rw [hK]
        by_cases hjc : j = cur
        · subst hjc
          rw [hm] at hj
          cases hj
          simp only [if_true]
          have hd := HtBufferManager.dist_self_step hjl
          have e : m.SetIdle.last_used -
              passes n (if j + 1 ≥ n then 0 else j + 1) j (visitTime n j u pu - 1) =
              m.last_used - passes n j j (visitTime n j u pu) := by
            unfold passes
            rw [hidle, hd0]
            have e1 : visitTime n j u pu - 1 + n - 1 -
                (j + n - (if j + 1 ≥ n then 0 else j + 1)) % n = visitTime n j u pu - 1 := by
              omega
            have e2 : visitTime n j u pu + n - 1 - 0 = (visitTime n j u pu - 1) + n := by omega
            rw [e1, e2, Nat.add_div_right _ (by omega : 0 < n)]
            omega
          show some ({ m.SetIdle with last_used := _ } : Page) = _
          rw [e]
          simp only [Page.SetIdle]
        · simp only [hjc, if_false]
          have hd := HtBufferManager.dist_step hc hjl (Ne.symm hjc)
          have hdl : (j + n - cur) % n < n := Nat.mod_lt _ (by omega)
          have e : passes n (if cur + 1 ≥ n then 0 else cur + 1) j (visitTime n cur u pu - 1) =
              passes n cur j (visitTime n cur u pu) := by
            unfold passes
            have e1 : visitTime n cur u pu - 1 + n - 1 -
                (j + n - (if cur + 1 ≥ n then 0 else cur + 1)) % n =
                visitTime n cur u pu + n - 1 - (j + n - cur) % n := by omega
            rw [e1]
          rw [e]
    · simp only [hused, Bool.false_eq_true, if_false]
      have hm0 : m.last_used = 0 := by simpa [Page.IsUsed] using hused
      have hK : visitTime n cur u pu = 0 := by
        have := hmin cur m hm
        unfold visitTime at this ⊢
        rw [hm0, hd0] at this
        omega
      have huc : u = cur := by
        unfold visitTime at hK
        have h1 : (u + n - cur) % n = 0 := by omega
        by_contra hne
        by_cases hlt : cur < u
        · have e2 : u + n - cur = (u - cur) + n := by omega
          rw [e2, Nat.add_mod_right, Nat.mod_eq_of_lt (by omega)] at h1
          omega
        · rw [Nat.mod_eq_of_lt (by omega)] at h1
          omega
      subst huc
      refine ⟨frames, by rw [hK, Nat.add_zero], hlen, ?_⟩
      intro j mj hj
      have hjl : j < n := hlen ▸ (List.getElem?_eq_some_iff.1 hj).1
      have hp : passes n u j (visitTime n u u pu) = 0 := by
        unfold passes
        rw [hK]
        have hdl : (j + n - u) % n < n := Nat.mod_lt _ (by omega)
        exact Nat.div_eq_of_lt (by omega)
      rw [hp, hj]
      rfl

end BufferManager

namespace BufferManager

/-- The ways in which `PinPage` returns on a miss: with `nullptr` before or after
the entry of the victim is erased, or with the victim frame reloaded. -/
theorem PinPage_miss {b b1 : Pool} {page_id : PageId} {page_mode : Nat} {write_ok read_ok : Bool}
    {r : Option Nat} (hv : page_id.IsValid = true)
    (hf : Table.find b.page_table page_id.GetValue = none)
    (h : PinPage b page_id page_mode write_ok read_ok = some (r, b1)) :
    ∃ (frames : List Page) (cur adv : Nat) (pf : Page),
      clockLoop (clockFuel b.page_count) b.page_count b.page_frames b.page_cur 0 =
        some (frames, cur, adv) ∧
      frames[cur]? = some pf ∧ b1.fid = b.fid ∧ b1.page_count = b.page_count ∧
      b1.page_cur = cur ∧
      ((r = none ∧ b1.page_frames = frames ∧ b1.page_table = b.page_table) ∨
       (r = none ∧ b1.page_frames = frames ∧
          b1.page_table = Table.erase b.page_table pf.page_id.GetValue) ∨
       (r = some cur ∧ page_id.GetFileID = b.fid ∧
          (pf.is_dirty = true → pf.page_id.GetFileID = b.fid) ∧
          ∃ reg : Page, b1.page_frames = frames.set cur reg ∧ reg.page_id = page_id ∧
          reg.last_used = page_mode ∧ reg.is_dirty = false ∧
          b1.page_table =
            Table.try_emplace (Table.erase b.page_table pf.page_id.GetValue)
              page_id.GetValue cur)) := by
  unfold PinPage at h
  simp only [hv, not_true_eq_false, if_false, hf] at h
  cases hl : clockLoop (clockFuel b.page_count) b.page_count b.page_frames b.page_cur 0 with
  | none => rw [hl] at h; cases h
  | some t =>
    obtain ⟨frames, cur, adv⟩ := t
    rw [hl] at h
    simp only at h
    cases hp : frames[cur]? with
    | none => rw [hp] at h; cases h
    | some pf =>
      rw [hp] at h
      simp only at h
      refine ⟨frames, cur, adv, pf, rfl, hp, ?_⟩
      split at h
      · cases h
        exact ⟨rfl, rfl, rfl, Or.inl ⟨rfl, rfl, rfl⟩⟩
      · rename_i hd
        split at h
        · cases h
        · rename_i disk1 hdisk
          split at h
          · cases h
            exact ⟨rfl, rfl, rfl, Or.inr (Or.inl ⟨rfl, rfl, rfl⟩)⟩
          · rename_i hfid
            split at h
            · cases h
            · rename_i loaded reg hload
              split at h
              · rename_i hnl
                exfalso
                unfold load at hload
                split at hload
                · cases hload
                  exact hnl rfl
                · cases hload
              · cases h
                refine ⟨rfl, rfl, rfl, Or.inr (Or.inr ⟨rfl, not_not.mp hfid, ?_, _, rfl, rfl, rfl, rfl, rfl⟩)⟩
                intro hdt
                by_contra hne
                exact hd ⟨hdt, hne⟩
theorem fresh_invalid : Page.fresh.page_id.IsValid = false := by decide

theorem pool_inv_create {n fid : Nat} {disk : Disk} {b : Pool} (h : create n fid disk = some b) :
    b.Inv := by
  unfold create at h
  split at h
  · cases h
    refine ⟨by simp, ?_, ?_, ?_⟩
    · show 0 < n ∨ n = 0
      omega
    · intro k f hk
      cases hk
    · intro f m hm hval
      have hmem : m ∈ List.replicate n Page.fresh := List.getElem?_mem hm
      rw [List.eq_of_mem_replicate hmem, fresh_invalid] at hval
      cases hval
  · cases h

/-- `PinPage` keeps the page table consistent with the frames. -/
theorem inv_pin {b b1 : Pool} {page_id : PageId} {page_mode : Nat} {write_ok read_ok : Bool}
    {r : Option Nat} (hI : b.Inv)
    (h : PinPage b page_id page_mode write_ok read_ok = some (r, b1)) : b1.Inv := by
  by_cases hv : page_id.IsValid = true
  swap
  · have hv1 : page_id.IsValid = false := by simpa using hv
    unfold PinPage at h
    rw [hv1, if_pos (by decide)] at h
    simp only [Option.some.injEq, Prod.mk.injEq] at h
    rw [← h.2]
    exact hI
  cases hf : Table.find b.page_table page_id.GetValue with
  | some f =>
    unfold PinPage at h
    simp only [hv, not_true_eq_false, if_false, hf, Option.some.injEq, Prod.mk.injEq] at h
    obtain ⟨_, hb1⟩ := h
    subst hb1
    refine ⟨by simpa using hI.frames_len, hI.cur_lt, ?_, ?_⟩
    · intro k f1 hk
      obtain ⟨m, hm, hmk⟩ := hI.table_sound k f1 hk
      refine ⟨_, HtBufferManager.getElem?_modify_of_some hm, ?_⟩
      split <;> exact hmk
    · intro j m1 hm1 hval
      obtain ⟨m, hm, e⟩ := HtBufferManager.getElem?_modify_some hm1
      have hid : m1.page_id = m.page_id := by
        rw [e]
        split <;> rfl
      rw [hid] at hval ⊢
      by_cases hjf : f = j
      · subst hjf
        left
        obtain ⟨m2, hm2, hmk⟩ := hI.table_sound _ _ hf
        rw [hm] at hm2
        cases hm2
        rw [hmk]
        exact hf
      · rcases hI.table_complete j m hm hval with h1 | ⟨h1, h2, h3⟩
        · left
          exact h1
        · right
          refine ⟨h1, ?_, h3⟩
          rw [e, if_neg hjf]
          exact h2
  | none =>
    obtain ⟨frames, cur, adv, pf, hl, hp, _, e2, e3, hcase⟩ := PinPage_miss hv hf h
    obtain ⟨hc1, hrel, ⟨m0, hm0, hpfz⟩, horph⟩ :=
      clock_exit _ _ _ _ _ _ _ _ hI.frames_len hl
    rw [hp] at hm0
    cases hm0
    have hfl : frames.length = b.page_count := hrel.1.trans hI.frames_len
    have hback : ∀ (j : Nat) (m1 : Page), frames[j]? = some m1 →
        ∃ m : Page, b.page_frames[j]? = some m ∧ m1.page_id = m.page_id := by
      intro j m1 hm1
      have hjl : j < b.page_frames.length := by
        rw [← hrel.1]
        exact (List.getElem?_eq_some_iff.1 hm1).1
      obtain ⟨m2, h2, e, _⟩ := hrel.2 j _ (List.getElem?_eq_getElem hjl)
      rw [hm1] at h2
      cases h2
      exact ⟨_, List.getElem?_eq_getElem hjl, e⟩
    have hsound : ∀ (k f : Nat), Table.find b.page_table k = some f →
        ∃ m1 : Page, frames[f]? = some m1 ∧ m1.page_id.GetValue = k := by
      intro k f hk
      obtain ⟨m, hm, hmk⟩ := hI.table_sound k f hk
      obtain ⟨m1, h1, e, _⟩ := hrel.2 f m hm
      exact ⟨m1, h1, by rw [e]; exact hmk⟩
    have hcomp : ∀ (j : Nat) (m1 : Page), frames[j]? = some m1 → m1.page_id.IsValid = true →
        Table.find b.page_table m1.page_id.GetValue = some j ∨
          (j = cur ∧ m1.last_used = 0 ∧
            Table.find b.page_table m1.page_id.GetValue = none) := by
      intro j m1 hm1 hval
      obtain ⟨m, hm, e⟩ := hback j m1 hm1
      rw [e] at hval ⊢
      rcases hI.table_complete j m hm hval with h1 | ⟨h1, h2, h3⟩
      · left
        exact h1
      · right
        subst h1
        obtain ⟨hcc, hff⟩ := horph m hm h2
        subst hff
        rw [hm] at hm1
        cases hm1
        exact ⟨hcc.symm, h2, h3⟩
    -- a valid frame other than the victim is in the table under another key
    have hother : ∀ (j : Nat) (m1 : Page), frames[j]? = some m1 → m1.page_id.IsValid = true →
        j ≠ cur → Table.find b.page_table m1.page_id.GetValue = some j ∧
          m1.page_id.GetValue ≠ pf.page_id.GetValue := by
      intro j m1 hm1 hval hj
      rcases hcomp j m1 hm1 hval with h1 | ⟨h1, _, _⟩
      · refine ⟨h1, fun e => ?_⟩
        have hpid : pf.page_id = m1.page_id := by
          cases hx : pf.page_id
          cases hy : m1.page_id
          simp only [PageId.GetValue, hx, hy] at e
          rw [e]
        rcases hcomp cur pf hp (hpid ▸ hval) with h2 | ⟨_, _, h2⟩
        · rw [← e, h1] at h2
          exact hj (Option.some.inj h2)
        · rw [← e, h1] at h2
          cases h2
      · exact absurd h1 hj
    have hcl : cur < frames.length := (List.getElem?_eq_some_iff.1 hp).1
    rcases hcase with ⟨_, hfr, htb⟩ | ⟨_, hfr, htb⟩ | ⟨_, _, _, reg, hfr, hreg, _, _, htb⟩
    · refine ⟨by rw [hfr, e2]; exact hfl, Or.inl (by rw [e3, e2]; exact hc1), ?_, ?_⟩
      · rw [hfr, htb]
        exact hsound
      · rw [hfr, htb, e3]
        exact hcomp
    · refine ⟨by rw [hfr, e2]; exact hfl, Or.inl (by rw [e3, e2]; exact hc1), ?_, ?_⟩
      · rw [hfr, htb]
        intro k f hk
        rw [Table.find_after_erase] at hk
        split at hk
        · cases hk
        · exact hsound k f hk
      · rw [hfr, htb, e3]
        intro j m1 hm1 hval
        rw [Table.find_after_erase]
        by_cases hj : j = cur
        · subst hj
          rw [hp] at hm1
          cases hm1
          right
          exact ⟨rfl, hpfz, by simp⟩
        · obtain ⟨h1, h2⟩ := hother j m1 hm1 hval hj
          left
          rw [if_neg h2]
          exact h1
    · have hfind1 : Table.find (Table.erase b.page_table pf.page_id.GetValue)
          page_id.GetValue = none := by
        rw [Table.find_after_erase, hf]
        simp
      have hs2v : (frames.set cur reg)[cur]? = some reg := by
        simp [List.getElem?_set, hcl]
      have hs2j : ∀ j, j ≠ cur → (frames.set cur reg)[j]? = frames[j]? := by
        intro j hj
        simp [List.getElem?_set, Ne.symm hj]
      refine ⟨by rw [hfr, e2, List.length_set]; exact hfl,
        Or.inl (by rw [e3, e2]; exact hc1), ?_, ?_⟩
      · rw [hfr, htb]
        intro k f hk
        rw [Table.find_after_emplace _ _ _ _ hfind1] at hk
        by_cases hkp : k = page_id.GetValue
        · simp only [hkp, if_true, Option.some.injEq] at hk
          subst hk
          exact ⟨reg, hs2v, by rw [hreg, hkp]⟩
        · rw [if_neg hkp, Table.find_after_erase] at hk
          by_cases hkq : k = pf.page_id.GetValue
          · rw [if_pos hkq] at hk
            cases hk
          · rw [if_neg hkq] at hk
            obtain ⟨m1, h1, e⟩ := hsound k f hk
            have hfc : f ≠ cur := by
              intro e0
              subst e0
              rw [hp] at h1
              cases h1
              exact hkq e.symm
            exact ⟨m1, (hs2j f hfc).trans h1, e⟩
      · rw [hfr, htb, e3]
        intro j m2 hm2 hval
        by_cases hj : j = cur
        · subst hj
          rw [hs2v] at hm2
          cases hm2
          left
          rw [Table.find_after_emplace _ _ _ _ hfind1, hreg]
          simp
        · rw [hs2j j hj] at hm2
          obtain ⟨h1, h2⟩ := hother j m2 hm2 hval hj
          left
          have h3 : m2.page_id.GetValue ≠ page_id.GetValue := by
            intro e
            rw [e, hf] at h1
            cases h1
          rw [Table.find_after_emplace _ _ _ _ hfind1, if_neg h3, Table.find_after_erase,
            if_neg h2]
          exact h1

theorem inv_pinAll : ∀ (pins : List (PageId × Nat)) (b b1 : Pool) (rs : List (Option Nat)),
    b.Inv → pinAll b pins = some (rs, b1) → b1.Inv
  | [], b, b1, rs, hI, h => by
    simp only [pinAll, Option.some.injEq, Prod.mk.injEq] at h
    rw [← h.2]
    exact hI
  | (page_id, page_mode) :: rest, b, b1, rs, hI, h => by
    simp only [pinAll] at h
    cases hp : PinPage b page_id page_mode true true with
    | none => rw [hp] at h; cases h
    | some t =>
      obtain ⟨r, b2⟩ := t
      rw [hp] at h
      simp only at h
      cases hq : pinAll b2 rest with
      | none => rw [hq] at h; cases h
      | some t2 =>
        obtain ⟨rs2, b3⟩ := t2
        rw [hq] at h
        simp only [Option.some.injEq, Prod.mk.injEq] at h
        rw [← h.2]
        exact inv_pinAll rest b2 b3 rs2 (inv_pin hI hp) hq

/-- C22, amended: after any sequence of `PinPage` calls on a pool, calls that
return `nullptr` included, no two frames have the same valid `page_id`; an
entry of `page_table` for a `PageId` value leads to a frame whose `page_id`
is that value; and a frame with a valid `page_id` has its entry in
`page_table`, except possibly the frame under the clock hand, when its mark is
0 and its `page_id` has no entry at all. -/
theorem page_table_consistent (n fid : Nat) (disk : Disk) (b0 b : Pool)
    (pins : List (PageId × Nat)) (rs : List (Option Nat))
    (hc : create n fid disk = some b0) (hr : pinAll b0 pins = some (rs, b)) :
    (∀ (f1 f2 : Nat) (m1 m2 : Page), b.page_frames[f1]? = some m1 →
      b.page_frames[f2]? = some m2 → m1.page_id.IsValid = true → m1.page_id = m2.page_id →
      f1 = f2) ∧
    (∀ (k f : Nat), Table.find b.page_table k = some f →
      ∃ m : Page, b.page_frames[f]? = some m ∧ m.page_id.GetValue = k) ∧
    (∀ (f : Nat) (m : Page), b.page_frames[f]? = some m → m.page_id.IsValid = true →
      Table.find b.page_table m.page_id.GetValue = some f ∨
        (f = b.page_cur ∧ m.last_used = 0 ∧
          Table.find b.page_table m.page_id.GetValue = none)) := by
  have hI : b.Inv := inv_pinAll pins b0 b rs (pool_inv_create hc) hr
  refine ⟨?_, hI.table_sound, hI.table_complete⟩
  intro f1 f2 m1 m2 h1 h2 hval e
  rcases hI.table_complete f1 m1 h1 hval with a1 | ⟨a1, _, a3⟩
  · rcases hI.table_complete f2 m2 h2 (e ▸ hval) with c1 | ⟨_, _, c3⟩
    · rw [← e, a1] at c1
      exact Option.some.inj c1
    · rw [← e, a1] at c3
      cases c3
  · rcases hI.table_complete f2 m2 h2 (e ▸ hval) with c1 | ⟨c1, _, _⟩
    · rw [← e, a3] at c1
      cases c1
    · rw [a1, c1]

/-- A pool of two frames after the pins of pages 1, 2, 1 and 3. -/
theorem page_table_consistent_witness :
    ∃ b, (pinAll (poolOf 2) (pagesOfFile PAGE_READ [1, 2, 1, 3])).map Prod.snd = some b ∧
      ∀ (k f : Nat), Table.find b.page_table k = some f →
        ∃ m : Page, b.page_frames[f]? = some m ∧ m.page_id.GetValue = k := by
  obtain ⟨t, ht⟩ := Option.isSome_iff_exists.mp
    (by decide : (pinAll (poolOf 2) (pagesOfFile PAGE_READ [1, 2, 1, 3])).isSome = true)
  obtain ⟨rs, b⟩ := t
  exact ⟨b, by rw [ht]; rfl,
    (page_table_consistent 2 3 Disk.empty (poolOf 2) b (pagesOfFile PAGE_READ [1, 2, 1, 3]) rs
      rfl ht).2.1⟩

end BufferManager

namespace BufferManager

/-- `PinPage` with a mode of at most `k` keeps every mark at most `k`. -/
theorem marks_pin {b b1 : Pool} {page_id : PageId} {page_mode : Nat} {write_ok read_ok : Bool}
    {r : Option Nat} (k : Nat) (hk : k < 2 ^ 16) (hlen : b.page_frames.length = b.page_count)
    (hmk : ∀ (j : Nat) (m : Page), b.page_frames[j]? = some m → m.last_used ≤ k)
    (hmode : page_mode ≤ k)
    (h : PinPage b page_id page_mode write_ok read_ok = some (r, b1)) :
    ∀ (j : Nat) (m : Page), b1.page_frames[j]? = some m → m.last_used ≤ k := by
  by_cases hv : page_id.IsValid = true
  swap
  · have hv1 : page_id.IsValid = false := by simpa using hv
    unfold PinPage at h
    rw [hv1, if_pos (by decide)] at h
    simp only [Option.some.injEq, Prod.mk.injEq] at h
    rw [← h.2]
    exact hmk
  cases hf : Table.find b.page_table page_id.GetValue with
  | some f =>
    unfold PinPage at h
    simp only [hv, not_true_eq_false, if_false, hf, Option.some.injEq, Prod.mk.injEq] at h
    obtain ⟨_, hb1⟩ := h
    subst hb1
    intro j m1 hm1
    obtain ⟨m, hm, e⟩ := HtBufferManager.getElem?_modify_some hm1
    rw [e]
    split
    · exact hmode
    · exact hmk j m hm
  | none =>
    obtain ⟨frames, cur, adv, pf, hl, hp, _, _, _, hcase⟩ := PinPage_miss hv hf h
    obtain ⟨_, hrel, _, _⟩ := clock_exit _ _ _ _ _ _ _ _ hlen hl
    have hfr : ∀ (j : Nat) (m1 : Page), frames[j]? = some m1 → m1.last_used ≤ k := by
      intro j m1 hm1
      have hjl : j < b.page_frames.length := by
        rw [← hrel.1]
        exact (List.getElem?_eq_some_iff.1 hm1).1
      obtain ⟨m2, h2, _, _, _, _, e⟩ := hrel.2 j _ (List.getElem?_eq_getElem hjl)
      rw [hm1] at h2
      cases h2
      have := hmk j _ (List.getElem?_eq_getElem hjl)
      exact le_trans (e (by omega)) this
    rcases hcase with ⟨_, hfrm, _⟩ | ⟨_, hfrm, _⟩ | ⟨_, _, _, reg, hfrm, _, hreg, _, _⟩
    · rw [hfrm]
      exact hfr
    · rw [hfrm]
      exact hfr
    · rw [hfrm]
      intro j m hm
      rw [List.getElem?_set] at hm
      split at hm
      · split at hm
        · cases hm
          rw [hreg]
          exact hmode
        · cases hm
      · exact hfr j m hm

theorem marks_pinAll (k : Nat) (hk : k < 2 ^ 16) :
    ∀ (pins : List (PageId × Nat)) (b b1 : Pool) (rs : List (Option Nat)), b.Inv →
    (∀ (j : Nat) (m : Page), b.page_frames[j]? = some m → m.last_used ≤ k) →
    (∀ e ∈ pins, e.2 ≤ k) → pinAll b pins = some (rs, b1) →
    ∀ (j : Nat) (m : Page), b1.page_frames[j]? = some m → m.last_used ≤ k
  | [], b, b1, rs, _, hmk, _, h => by
    simp only [pinAll, Option.some.injEq, Prod.mk.injEq] at h
    rw [← h.2]
    exact hmk
  | (page_id, page_mode) :: rest, b, b1, rs, hI, hmk, hmodes, h => by
    simp only [pinAll] at h
    cases hp : PinPage b page_id page_mode true true with
    | none => rw [hp] at h; cases h
    | some t =>
      obtain ⟨r, b2⟩ := t
      rw [hp] at h
      simp only at h
      cases hq : pinAll b2 rest with
      | none => rw [hq] at h; cases h
      | some t2 =>
        obtain ⟨rs2, b3⟩ := t2
        rw [hq] at h
        simp only [Option.some.injEq, Prod.mk.injEq] at h
        rw [← h.2]
        exact marks_pinAll k hk rest b2 b3 rs2 (inv_pin hI hp)
          (marks_pin k hk hI.frames_len hmk (hmodes (page_id, page_mode)
            (List.mem_cons_self _ _)) hp)
          (fun e he => hmodes e (List.mem_cons_of_mem _ he)) hq

theorem marks_create {n fid : Nat} {disk : Disk} {b : Pool} (h : create n fid disk = some b) :
    ∀ (j : Nat) (m : Page), b.page_frames[j]? = some m → m.last_used ≤ 2 := by
  unfold create at h
  split at h
  · cases h
    intro j m hm
    have hmem : m ∈ List.replicate n Page.fresh := List.getElem?_mem hm
    rw [List.eq_of_mem_replicate hmem]
    exact Nat.zero_le 2
  · cases h

/-- C29, amended: in a pool reached by pins in the modes `PAGE_WRITE` and
`PAGE_READ` every mark `last_used` is 0, 1 or 2; on a miss for a page of the
registered file, `PinPage` chooses as victim the frame `u` for which
`last_used * page_count` plus the cyclic distance from the clock hand is
least (the first frame in cyclic order whose mark is 0, if there is one)
and returns it with the requested page, the hand on it; the mark of every
other frame has been decremented once for every pass of the hand, not
cleared. -/
theorem clock_victim (n fid : Nat) (disk : Disk) (b0 b : Pool) (pins : List (PageId × Nat))
    (rs : List (Option Nat)) (page_id : PageId) (page_mode u : Nat) (pu : Page)
    (hc : create n fid disk = some b0)
    (hmodes : ∀ e ∈ pins, e.2 = PAGE_WRITE ∨ e.2 = PAGE_READ)
    (hr : pinAll b0 pins = some (rs, b))
    (hv : page_id.IsValid = true)
    (hf : Table.find b.page_table page_id.GetValue = none)
    (hfid : page_id.GetFileID = b.fid)
    (hu : b.page_frames[u]? = some pu)
    (hmin : ∀ (j : Nat) (m : Page), b.page_frames[j]? = some m →
      visitTime b.page_count b.page_cur u pu ≤ visitTime b.page_count b.page_cur j m)
    (hdirty : pu.is_dirty = true → pu.page_id.GetFileID = b.fid) :
    (∀ (j : Nat) (m : Page), b.page_frames[j]? = some m → m.last_used ≤ 2) ∧
    ∃ b1 reg, PinPage b page_id page_mode true true = some (some u, b1) ∧ b1.page_cur = u ∧
      b1.page_frames[u]? = some reg ∧ reg.page_id = page_id ∧ reg.last_used = page_mode ∧
      ∀ (j : Nat) (m : Page), j ≠ u → b.page_frames[j]? = some m →
        b1.page_frames[j]? = some { m with
          last_used := m.last_used -
            passes b.page_count b.page_cur j (visitTime b.page_count b.page_cur u pu) } := by
  have hI : b.Inv := inv_pinAll pins b0 b rs (pool_inv_create hc) hr
  have hmk : ∀ (j : Nat) (m : Page), b.page_frames[j]? = some m → m.last_used ≤ 2 := by
    refine marks_pinAll 2 (by norm_num) pins b0 b rs (pool_inv_create hc) (marks_create hc) ?_ hr
    intro e he
    rcases hmodes e he with h | h <;> rw [h] <;> decide
  refine ⟨hmk, ?_⟩
  have hul : u < b.page_count := hI.frames_len ▸ (List.getElem?_eq_some_iff.1 hu).1
  have hcur : b.page_cur < b.page_count := by
    rcases hI.cur_lt with h | h
    · exact h
    · omega
  have hfuel : visitTime b.page_count b.page_cur u pu < clockFuel b.page_count := by
    have h1 := hmk u pu hu
    have h2 : (u + b.page_count - b.page_cur) % b.page_count < b.page_count :=
      Nat.mod_lt _ (by omega)
    have h3 : pu.last_used * b.page_count ≤ 2 * b.page_count := Nat.mul_le_mul_right _ h1
    unfold visitTime clockFuel
    omega
  obtain ⟨frames1, hloop, hl1, hres⟩ :=
    clock_victim_char (clockFuel b.page_count) b.page_count b.page_frames b.page_cur 0 u pu
      hI.frames_len hcur (fun j m hm => lt_of_le_of_lt (hmk j m hm) (by norm_num)) hu hmin hfuel
  have hpf := hres u pu hu
  have hul1 : u < frames1.length := by rw [hl1]; exact hul
  have hpin : ∃ b1 reg, PinPage b page_id page_mode true true = some (some u, b1) ∧
      b1.page_cur = u ∧ b1.page_frames = frames1.set u reg ∧ reg.page_id = page_id ∧
      reg.last_used = page_mode := by
    cases hd : pu.is_dirty with
    | false =>
      unfold PinPage
      simp only [hv, not_true_eq_false, if_false, hf, hloop, hpf, Page.IsDirty, hd,
        Bool.false_eq_true, false_and, hfid, ne_eq, not_true_eq_false, load, if_true]
      exact ⟨_, _, rfl, rfl, rfl, rfl, rfl⟩
    | true =>
      have hvf := hdirty hd
      unfold PinPage
      simp only [hv, not_true_eq_false, if_false, hf, hloop, hpf, Page.IsDirty, hd, hvf,
        ne_eq, not_true_eq_false, and_false, flush, if_true, Option.map_some', hfid, load]
      exact ⟨_, _, rfl, rfl, rfl, rfl, rfl⟩
  obtain ⟨b1, reg, h1, h2, h3, h4, h5⟩ := hpin
  refine ⟨b1, reg, h1, h2, ?_, h4, h5, ?_⟩
  · rw [h3]
    simp only [List.getElem?_set, hul1, if_true]
  · intro j m hj hm
    rw [h3, List.getElem?_set, if_neg (Ne.symm hj)]
    exact hres j m hm

theorem some_pair_getD {α β : Type} (o : Option (α × β)) (a : α) (b : β)
    (h : o.isSome = true) : o = some ((o.map Prod.fst).getD a, (o.map Prod.snd).getD b) := by
  cases o with
  | none => cases h
  | some t => rfl

set_option maxRecDepth 100000 in
/-- After the pins of pages 1 and 2 in read mode the marks of the two frames
are 1 and 2 and the hand is on frame 1; the miss for page 3 passes frame 1,
frame 0 and frame 1 again and takes frame 0. -/
theorem clock_victim_witness :
    (∀ (j : Nat) (m : Page), pool12.page_frames[j]? = some m → m.last_used ≤ 2) ∧
    ∃ b1 reg, PinPage pool12 (PageId.make 3 3) PAGE_READ true true = some (some 0, b1) ∧
      b1.page_cur = 0 ∧ b1.page_frames[0]? = some reg ∧ reg.page_id = PageId.make 3 3 ∧
      reg.last_used = PAGE_READ ∧
      ∀ (j : Nat) (m : Page), j ≠ 0 → pool12.page_frames[j]? = some m →
        b1.page_frames[j]? = some { m with
          last_used := m.last_used -
            passes pool12.page_count pool12.page_cur j
              (visitTime pool12.page_count pool12.page_cur 0 (pool12.frame 0)) } :=
  clock_victim 2 3 Disk.empty (poolOf 2) pool12 (pagesOfFile PAGE_READ [1, 2]) frames12
    (PageId.make 3 3) PAGE_READ 0 (pool12.frame 0) rfl
    (by
      intro e he
      simp only [pagesOfFile, List.map_cons, List.map_nil, List.mem_cons, List.mem_singleton,
        List.not_mem_nil, or_false] at he
      rcases he with h | h <;> rw [h] <;> exact Or.inr rfl)
    (some_pair_getD _ _ _ (by decide))
    (by decide) (by decide) (by decide) (by decide)
    (by
      intro j m hm
      have hlen : pool12.page_frames.length = 2 := by decide
      have hj : j < 2 := hlen ▸ (List.getElem?_eq_some_iff.1 hm).1
      have h0 : pool12.page_frames[0]? = some (pool12.frame 0) := by decide
      have h1 : pool12.page_frames[1]? = some (pool12.frame 1) := by decide
      interval_cases j
      · rw [h0] at hm
        cases hm
        exact le_refl _
      · rw [h1] at hm
        cases hm
        decide)
    (by decide)

end BufferManager

namespace BufferManager

/-- A valid 64-bit identifier is determined by its file id and page number. -/
theorem pageId_ext {a b : PageId} (ha : a.IsValid = true) (hb : b.IsValid = true)
    (ha64 : a.value < 2 ^ 64) (hb64 : b.value < 2 ^ 64) (hf : a.GetFileID = b.GetFileID)
    (hp : a.GetPageID = b.GetPageID) : a = b := by
  have m0 : PAGE_ID_INVALID_MASK = 2 ^ 0 * (2 ^ 24 - 1) := by decide
  have m1 : PAGE_NUM_MASK = 2 ^ 24 * (2 ^ 24 - 1) := by decide
  have m2 : FILE_ID_MASK = 2 ^ 48 * (2 ^ 16 - 1) := by decide
  obtain ⟨x⟩ := a
  obtain ⟨y⟩ := b
  simp only [PageId.IsValid, m0, and_shifted_mask, beq_iff_eq] at ha hb
  simp only [PageId.GetFileID, FILE_ID_SHIFT, m2, and_shifted_mask,
    Nat.shiftRight_eq_div_pow] at hf
  simp only [PageId.GetPageID, PAGE_NUM_SHIFT, m1, and_shifted_mask,
    Nat.shiftRight_eq_div_pow] at hp
  simp only at ha64 hb64
  congr 1
  omega

/-- The ways in which `PinPage` returns on a miss, with the contents of the
file: a dirty victim has been written to its page before the load. -/
theorem PinPage_miss_disk {b b1 : Pool} {page_id : PageId} {page_mode : Nat}
    {write_ok read_ok : Bool} {r : Option Nat} (hv : page_id.IsValid = true)
    (hf : Table.find b.page_table page_id.GetValue = none)
    (h : PinPage b page_id page_mode write_ok read_ok = some (r, b1)) :
    ∃ (frames : List Page) (cur adv : Nat) (pf : Page),
      clockLoop (clockFuel b.page_count) b.page_count b.page_frames b.page_cur 0 =
        some (frames, cur, adv) ∧
      frames[cur]? = some pf ∧
      ((r = none ∧ b1.page_frames = frames ∧ b1.disk = b.disk) ∨
       (r = none ∧ b1.page_frames = frames ∧
          b1.disk = (if pf.is_dirty = true then
            Function.update b.disk pf.page_id.GetPageID pf else b.disk)) ∨
       (r = some cur ∧
          b1.disk = (if pf.is_dirty = true then
            Function.update b.disk pf.page_id.GetPageID pf else b.disk) ∧
          ∃ reg : Page, b1.page_frames = frames.set cur reg ∧ reg.page_id = page_id ∧
            reg.is_dirty = false ∧
            reg.page_data = (b1.disk page_id.GetPageID).page_data)) := by
  unfold PinPage at h
  simp only [hv, not_true_eq_false, if_false, hf] at h
  cases hl : clockLoop (clockFuel b.page_count) b.page_count b.page_frames b.page_cur 0 with
  | none => rw [hl] at h; cases h
  | some t =>
    obtain ⟨frames, cur, adv⟩ := t
    rw [hl] at h
    simp only at h
    cases hp : frames[cur]? with
    | none => rw [hp] at h; cases h
    | some pf =>
      rw [hp] at h
      simp only at h
      refine ⟨frames, cur, adv, pf, rfl, hp, ?_⟩
      split at h
      · cases h
        exact Or.inl ⟨rfl, rfl, rfl⟩
      · split at h
        · cases h
        · rename_i disk1 hdisk
          have hd1 : disk1 = (if pf.is_dirty = true then
              Function.update b.disk pf.page_id.GetPageID pf else b.disk) := by
            unfold Page.IsDirty flush at hdisk
            by_cases hd : pf.is_dirty = true
            · rw [if_pos hd] at hdisk ⊢
              split at hdisk
              · simp only [Option.map_some', Option.some.injEq] at hdisk
                exact hdisk.symm
              · cases hdisk
            · rw [if_neg hd] at hdisk ⊢
              exact (Option.some.inj hdisk).symm
          split at h
          · cases h
            exact Or.inr (Or.inl ⟨rfl, rfl, hd1⟩)
          · split at h
            · cases h
            · rename_i loaded reg hload
              split at h
              · rename_i hnl
                exfalso
                unfold load at hload
                split at hload
                · cases hload
                  exact hnl rfl
                · cases hload
              · cases h
                refine Or.inr (Or.inr ⟨rfl, hd1, _, rfl, rfl, rfl, ?_⟩)
                unfold load at hload
                split at hload
                · simp only [Option.some.injEq, Prod.mk.injEq] at hload
                  rw [← hload.2]
                  rfl
                · cases hload

/-- A change of one frame that keeps `page_id` and the mark keeps the page
table consistent. -/
theorem inv_modify {b : Pool} (hI : b.Inv) (g : Page → Page) (i : Nat)
    (hid : ∀ m, (g m).page_id = m.page_id) (hlu : ∀ m, (g m).last_used = m.last_used) :
    Pool.Inv { b with page_frames := b.page_frames.modify g i } := by
  refine ⟨by simpa using hI.frames_len, hI.cur_lt, ?_, ?_⟩
  · intro k f hk
    obtain ⟨m, hm, hmk⟩ := hI.table_sound k f hk
    refine ⟨_, HtBufferManager.getElem?_modify_of_some hm, ?_⟩
    split
    · rw [hid]
      exact hmk
    · exact hmk
  · intro j m1 hm1 hval
    obtain ⟨m, hm, e⟩ := HtBufferManager.getElem?_modify_some hm1
    have h1 : m1.page_id = m.page_id := by
      rw [e]
      split
      · exact hid m
      · rfl
    have h2 : m1.last_used = m.last_used := by
      rw [e]
      split
      · exact hlu m
      · rfl
    rw [h1] at hval ⊢
    rw [h2]
    exact hI.table_complete j m hm hval

/-- Two frames that hold the same page of the registered file are the same
frame. -/
theorem frames_distinct {t : Tracked} (hI : t.Inv) {f1 f2 : Nat} {m1 m2 : Page}
    (h1 : t.pool.page_frames[f1]? = some m1) (h2 : t.pool.page_frames[f2]? = some m2)
    (v1 : m1.page_id.IsValid = true) (v2 : m2.page_id.IsValid = true)
    (e : m1.page_id.GetPageID = m2.page_id.GetPageID) : f1 = f2 := by
  obtain ⟨a1, a2⟩ := (hI.held f1 m1 h1).2 v1
  obtain ⟨c1, c2⟩ := (hI.held f2 m2 h2).2 v2
  have hid : m1.page_id = m2.page_id := pageId_ext v1 v2 a2 c2 (a1.trans c1.symm) e
  rcases hI.inv.table_complete f1 m1 h1 v1 with x1 | ⟨x1, _, x3⟩
  · rcases hI.inv.table_complete f2 m2 h2 v2 with y1 | ⟨_, _, y3⟩
    · rw [← hid, x1] at y1
      exact Option.some.inj y1
    · rw [← hid, x1] at y3
      cases y3
  · rcases hI.inv.table_complete f2 m2 h2 v2 with y1 | ⟨y1, _, _⟩
    · rw [← hid, x3] at y1
      cases y1
    · rw [x1, y1]

/-- A marking of a frame that holds a page keeps the invariant. -/
theorem tracked_mark {t : Tracked} (hI : t.Inv) {f data : Nat} {m : Page}
    (hm : t.pool.page_frames[f]? = some m) (hv : m.page_id.IsValid = true) :
    Tracked.Inv
      { pool := markDirty t.pool f data
        marked := Function.update t.marked m.page_id.GetPageID (some data) } := by
  have hnew : ∀ (j : Nat) (m1 : Page),
      (t.pool.page_frames.modify (fun p => Page.SetDirty { p with page_data := data } true)
        f)[j]? = some m1 →
      ∃ m0 : Page, t.pool.page_frames[j]? = some m0 ∧ m1.page_id = m0.page_id ∧
        ((j = f ∧ m0 = m ∧ m1.is_dirty = true ∧ m1.page_data = data) ∨ (j ≠ f ∧ m1 = m0)) := by
    intro j m1 h1
    obtain ⟨m0, h0, e⟩ := HtBufferManager.getElem?_modify_some h1
    by_cases hj : f = j
    · subst hj
      rw [if_pos rfl] at e
      rw [hm] at h0
      cases h0
      exact ⟨m, hm, by rw [e]; rfl, Or.inl ⟨rfl, rfl, by rw [e]; rfl, by rw [e]; rfl⟩⟩
    · rw [if_neg hj] at e
      exact ⟨m0, h0, by rw [e], Or.inr ⟨Ne.symm hj, e⟩⟩
  refine ⟨inv_modify hI.inv _ f (fun _ => rfl) (fun _ => rfl), ?_, ?_, ?_⟩
  · intro j m1 h1
    obtain ⟨m0, h0, e, hc⟩ := hnew j m1 h1
    rw [e]
    refine ⟨fun hd => ?_, (hI.held j m0 h0).2⟩
    rcases hc with ⟨_, e0, _, _⟩ | ⟨_, e0⟩
    · rw [e0]
      exact hv
    · rw [e0] at hd
      exact (hI.held j m0 h0).1 hd
  · intro p d j m1 hmk h1 hval hp
    obtain ⟨m0, h0, e, hc⟩ := hnew j m1 h1
    rw [e] at hval hp
    rcases hc with ⟨_, e0, _, hdat⟩ | ⟨hj, e0⟩
    · subst e0
      have hmk1 : Function.update t.marked m0.page_id.GetPageID (some data) p = some d := hmk
      rw [← hp, Function.update_same] at hmk1
      rw [hdat]
      exact Option.some.inj hmk1
    · have hmk1 : Function.update t.marked m.page_id.GetPageID (some data) p = some d := hmk
      have hpp : p ≠ m.page_id.GetPageID := by
        intro e1
        exact hj (frames_distinct hI h0 hm hval hv (hp.trans e1))
      rw [Function.update_noteq hpp] at hmk1
      rw [e0]
      exact hI.in_frame p d j m0 hmk1 h0 hval hp
  · intro p d hmk hclean
    have hmk1 : Function.update t.marked m.page_id.GetPageID (some data) p = some d := hmk
    have hpp : p ≠ m.page_id.GetPageID := by
      intro e1
      have hf1 := HtBufferManager.getElem?_modify_of_some
        (f := fun p => Page.SetDirty { p with page_data := data } true) (i := f) hm
      rw [if_pos rfl] at hf1
      have := hclean f _ hf1 hv e1.symm
      cases this
    rw [Function.update_noteq hpp] at hmk1
    refine hI.on_disk p d hmk1 ?_
    intro j m0 h0 hval hp
    have hjf : f ≠ j := by
      intro e1
      subst e1
      rw [hm] at h0
      cases h0
      exact hpp hp.symm
    have hj1 := HtBufferManager.getElem?_modify_of_some
      (f := fun p => Page.SetDirty { p with page_data := data } true) (i := f) h0
    rw [if_neg hjf] at hj1
    exact hclean j m0 hj1 hval hp

end BufferManager

namespace BufferManager

/-- After the loop of a miss every frame with a valid identifier other than
the victim is in the page table. -/
theorem miss_other_mapped {b : Pool} (hI : b.Inv) {frames : List Page} {cur adv : Nat}
    (hl : clockLoop (clockFuel b.page_count) b.page_count b.page_frames b.page_cur 0 =
      some (frames, cur, adv)) (j : Nat) (m1 : Page) (hm1 : frames[j]? = some m1)
    (hval : m1.page_id.IsValid = true) (hj : j ≠ cur) :
    Table.find b.page_table m1.page_id.GetValue = some j := by
  obtain ⟨_, hrel, _, horph⟩ := clock_exit _ _ _ _ _ _ _ _ hI.frames_len hl
  have hjl : j < b.page_frames.length := by
    rw [← hrel.1]
    exact (List.getElem?_eq_some_iff.1 hm1).1
  obtain ⟨m2, h2, e, _⟩ := hrel.2 j _ (List.getElem?_eq_getElem hjl)
  rw [hm1] at h2
  cases h2
  rw [e] at hval ⊢
  rcases hI.table_complete j _ (List.getElem?_eq_getElem hjl) hval with h1 | ⟨h1, h2, _⟩
  · exact h1
  · exfalso
    subst h1
    exact hj (horph _ (List.getElem?_eq_getElem hjl) h2).1.symm

/-- `PinPage` of a 64-bit identifier keeps the invariant of the tracked pool. -/
theorem tracked_pin {t : Tracked} (hI : t.Inv) {page_id : PageId} {page_mode : Nat}
    {r : Option Nat} {b1 : Pool} (h64 : page_id.value < 2 ^ 64)
    (h : PinPage t.pool page_id page_mode true true = some (r, b1)) :
    Tracked.Inv { t with pool := b1 } := by
  have hinv1 : b1.Inv := inv_pin hI.inv h
  by_cases hv : page_id.IsValid = true
  swap
  · have hv1 : page_id.IsValid = false := by simpa using hv
    unfold PinPage at h
    rw [hv1, if_pos (by decide)] at h
    simp only [Option.some.injEq, Prod.mk.injEq] at h
    rw [← h.2]
    exact hI
  cases hf : Table.find t.pool.page_table page_id.GetValue with
  | some f =>
    unfold PinPage at h
    simp only [hv, not_true_eq_false, if_false, hf, Option.some.injEq, Prod.mk.injEq] at h
    obtain ⟨_, hb1⟩ := h
    subst hb1
    have hnew : ∀ (j : Nat) (m1 : Page),
        (t.pool.page_frames.modify (fun p => p.SetUsed page_mode) f)[j]? = some m1 →
        ∃ m0 : Page, t.pool.page_frames[j]? = some m0 ∧ m1.page_id = m0.page_id ∧
          m1.is_dirty = m0.is_dirty ∧ m1.page_data = m0.page_data := by
      intro j m1 h1
      obtain ⟨m0, h0, e⟩ := HtBufferManager.getElem?_modify_some h1
      refine ⟨m0, h0, ?_, ?_, ?_⟩ <;> rw [e] <;> split <;> rfl
    refine ⟨hinv1, ?_, ?_, ?_⟩
    · intro j m1 h1
      obtain ⟨m0, h0, e1, e2, _⟩ := hnew j m1 h1
      rw [e1, e2]
      exact hI.held j m0 h0
    · intro p d j m1 hmk h1 hval hp
      obtain ⟨m0, h0, e1, _, e3⟩ := hnew j m1 h1
      rw [e1] at hval hp
      rw [e3]
      exact hI.in_frame p d j m0 hmk h0 hval hp
    · intro p d hmk hclean
      refine hI.on_disk p d hmk ?_
      intro j m0 h0 hval hp
      have hj1 := HtBufferManager.getElem?_modify_of_some
        (f := fun p => p.SetUsed page_mode) (i := f) h0
      have := hclean j _ hj1 (by split <;> exact hval) (by split <;> exact hp)
      rw [← this]
      split <;> rfl
  | none =>
    obtain ⟨frames, cur, adv, pf, hl, hp, efid, _, _, hcase⟩ := PinPage_miss hv hf h
    obtain ⟨frames2, cur2, adv2, pf2, hl2, hp2, hdisk⟩ := PinPage_miss_disk hv hf h
    rw [hl] at hl2
    simp only [Option.some.injEq, Prod.mk.injEq] at hl2
    obtain ⟨ef, ec, _⟩ := hl2
    subst ef
    subst ec
    rw [hp] at hp2
    cases hp2
    obtain ⟨_, hrel, _, _⟩ := clock_exit _ _ _ _ _ _ _ _ hI.inv.frames_len hl
    have hcl : cur < frames.length := (List.getElem?_eq_some_iff.1 hp).1
    -- the frames after the loop hold what they held
    have hback : ∀ (j : Nat) (m1 : Page), frames[j]? = some m1 →
        ∃ m0 : Page, t.pool.page_frames[j]? = some m0 ∧ m1.page_id = m0.page_id ∧
          m1.is_dirty = m0.is_dirty ∧ m1.page_data = m0.page_data := by
      intro j m1 hm1
      have hjl : j < t.pool.page_frames.length := by
        rw [← hrel.1]
        exact (List.getElem?_eq_some_iff.1 hm1).1
      obtain ⟨m2, h2, e1, _, e3, e4, _⟩ := hrel.2 j _ (List.getElem?_eq_getElem hjl)
      rw [hm1] at h2
      cases h2
      exact ⟨_, List.getElem?_eq_getElem hjl, e1, e3, e4⟩
    have hheld : ∀ (j : Nat) (m1 : Page), frames[j]? = some m1 →
        (m1.is_dirty = true → m1.page_id.IsValid = true) ∧
        (m1.page_id.IsValid = true →
          m1.page_id.GetFileID = t.pool.fid ∧ m1.page_id.value < 2 ^ 64) := by
      intro j m1 hm1
      obtain ⟨m0, h0, e1, e2, _⟩ := hback j m1 hm1
      rw [e1, e2]
      exact hI.held j m0 h0
    have hin : ∀ (p d j : Nat) (m1 : Page), t.marked p = some d → frames[j]? = some m1 →
        m1.page_id.IsValid = true → m1.page_id.GetPageID = p → m1.page_data = d := by
      intro p d j m1 hmk hm1 hval hpp
      obtain ⟨m0, h0, e1, _, e3⟩ := hback j m1 hm1
      rw [e1] at hval hpp
      rw [e3]
      exact hI.in_frame p d j m0 hmk h0 hval hpp
    have hon : ∀ (p d : Nat), t.marked p = some d →
        (∀ (j : Nat) (m1 : Page), frames[j]? = some m1 → m1.page_id.IsValid = true →
          m1.page_id.GetPageID = p → m1.is_dirty = false) →
        (t.pool.disk p).page_data = d := by
      intro p d hmk hclean
      refine hI.on_disk p d hmk ?_
      intro j m0 h0 hval hpp
      obtain ⟨m1, h1, e1, _, e3, _⟩ := hrel.2 j m0 h0
      rw [← e3]
      exact hclean j m1 h1 (e1 ▸ hval) (e1 ▸ hpp)
    -- the file after the write-back of the victim
    have hD : ∀ (p d : Nat), t.marked p = some d →
        (∀ (j : Nat) (m1 : Page), frames[j]? = some m1 → j ≠ cur → m1.page_id.IsValid = true →
          m1.page_id.GetPageID = p → m1.is_dirty = false) →
        ((if pf.is_dirty = true then Function.update t.pool.disk pf.page_id.GetPageID pf
          else t.pool.disk) p).page_data = d := by
      intro p d hmk hclean
      by_cases hd : pf.is_dirty = true
      · rw [if_pos hd]
        have hpv := (hheld cur pf hp).1 hd
        by_cases hpp : pf.page_id.GetPageID = p
        · rw [← hpp, Function.update_same]
          exact hin p d cur pf hmk hp hpv hpp
        · rw [Function.update_noteq (Ne.symm hpp)]
          refine hon p d hmk ?_
          intro j m1 hm1 hval hq
          by_cases hj : j = cur
          · subst hj
            rw [hp] at hm1
            cases hm1
            exact absurd hq hpp
          · exact hclean j m1 hm1 hj hval hq
      · rw [if_neg hd]
        refine hon p d hmk ?_
        intro j m1 hm1 hval hq
        by_cases hj : j = cur
        · subst hj
          rw [hp] at hm1
          cases hm1
          simpa using hd
        · exact hclean j m1 hm1 hj hval hq
    rcases hdisk with ⟨_, hfr, hdk⟩ | ⟨_, hfr, hdk⟩ | ⟨hr, hdk, reg, hfr, hreg, hregd, hregdata⟩
    · refine ⟨hinv1, ?_, ?_, ?_⟩
      · show ∀ (f : Nat) (m : Page), b1.page_frames[f]? = some m → _
        rw [hfr, efid]
        exact hheld
      · show ∀ (p d f : Nat) (m : Page), t.marked p = some d → b1.page_frames[f]? = some m → _
        rw [hfr]
        exact hin
      · show ∀ (p d : Nat), t.marked p = some d →
          (∀ (f : Nat) (m : Page), b1.page_frames[f]? = some m → _) → (b1.disk p).page_data = d
        rw [hfr, hdk]
        exact hon
    · refine ⟨hinv1, ?_, ?_, ?_⟩
      · show ∀ (f : Nat) (m : Page), b1.page_frames[f]? = some m → _
        rw [hfr, efid]
        exact hheld
      · show ∀ (p d f : Nat) (m : Page), t.marked p = some d → b1.page_frames[f]? = some m → _
        rw [hfr]
        exact hin
      · show ∀ (p d : Nat), t.marked p = some d →
          (∀ (f : Nat) (m : Page), b1.page_frames[f]? = some m → _) → (b1.disk p).page_data = d
        rw [hfr, hdk]
        intro p d hmk hclean
        exact hD p d hmk (fun j m1 hm1 _ => hclean j m1 hm1)
    · have hfidreq : page_id.GetFileID = t.pool.fid := by
        rcases hcase with ⟨h1, _⟩ | ⟨h1, _⟩ | ⟨_, h2, _⟩
        · rw [hr] at h1
          cases h1
        · rw [hr] at h1
          cases h1
        · exact h2
      have hs2v : (frames.set cur reg)[cur]? = some reg := by
        simp [List.getElem?_set, hcl]
      have hs2j : ∀ j, j ≠ cur → (frames.set cur reg)[j]? = frames[j]? := by
        intro j hj
        simp [List.getElem?_set, Ne.symm hj]
      -- no other frame holds the requested page
      have hnone : ∀ (j : Nat) (m1 : Page), frames[j]? = some m1 → j ≠ cur →
          m1.page_id.IsValid = true → m1.page_id.GetPageID ≠ page_id.GetPageID := by
        intro j m1 hm1 hj hval e
        obtain ⟨a1, a2⟩ := (hheld j m1 hm1).2 hval
        have hid : m1.page_id = page_id :=
          pageId_ext hval hv a2 h64 (a1.trans hfidreq.symm) e
        have := miss_other_mapped hI.inv hl j m1 hm1 hval hj
        rw [hid, hf] at this
        cases this
      refine ⟨hinv1, ?_, ?_, ?_⟩
      · show ∀ (f : Nat) (m : Page), b1.page_frames[f]? = some m → _
        rw [hfr, efid]
        intro j m1 hm1
        by_cases hj : j = cur
        · subst hj
          rw [hs2v] at hm1
          cases hm1
          refine ⟨fun hd => ?_, fun _ => ?_⟩
          · rw [hregd] at hd
            cases hd
          · rw [hreg]
            exact ⟨hfidreq, h64⟩
        · rw [hs2j j hj] at hm1
          exact hheld j m1 hm1
      · show ∀ (p d f : Nat) (m : Page), t.marked p = some d → b1.page_frames[f]? = some m → _
        rw [hfr]
        intro p d j m1 hmk hm1 hval hpp
        by_cases hj : j = cur
        · subst hj
          rw [hs2v] at hm1
          cases hm1
          rw [hregdata, hdk]
          rw [hreg] at hpp
          rw [hpp]
          refine hD p d hmk ?_
          intro i m2 hm2 hi hval2 hq
          exact absurd (hq.trans hpp.symm) (hnone i m2 hm2 hi hval2)
        · rw [hs2j j hj] at hm1
          exact hin p d j m1 hmk hm1 hval hpp
      · show ∀ (p d : Nat), t.marked p = some d →
          (∀ (f : Nat) (m : Page), b1.page_frames[f]? = some m → _) → (b1.disk p).page_data = d
        rw [hfr, hdk]
        intro p d hmk hclean
        refine hD p d hmk ?_
        intro j m1 hm1 hj hval hq
        exact hclean j m1 ((hs2j j hj).trans hm1) hval hq

theorem tracked_create {n fid : Nat} {disk : Disk} {b : Pool} (h : create n fid disk = some b) :
    Tracked.Inv ⟨b, fun _ => none⟩ := by
  refine ⟨pool_inv_create h, ?_, ?_, ?_⟩
  · intro f m hm
    unfold create at h
    split at h
    · cases h
      have hmem : m ∈ List.replicate n Page.fresh := List.getElem?_mem hm
      rw [List.eq_of_mem_replicate hmem]
      exact ⟨fun hd => (by cases hd), fun hd => (by rw [fresh_invalid] at hd; cases hd)⟩
    · cases h
  · intro p d f m hmk
    cases hmk
  · intro p d hmk
    cases hmk

theorem tracked_run : ∀ (ops : List BufOp) (t t1 : Tracked), t.Inv →
    (∀ page_id page_mode, BufOp.pin page_id page_mode ∈ ops → page_id.value < 2 ^ 64) →
    t.run ops = some t1 → t1.Inv
  | [], t, t1, hI, _, h => by
    simp only [Tracked.run, Option.some.injEq] at h
    rw [← h]
    exact hI
  | op :: ops, t, t1, hI, h64, h => by
    simp only [Tracked.run] at h
    cases hs : t.step op with
    | none => rw [hs] at h; cases h
    | some t2 =>
      rw [hs] at h
      refine tracked_run ops t2 t1 ?_ (fun a c hm => h64 a c (List.mem_cons_of_mem _ hm)) h
      cases op with
      | pin page_id page_mode =>
        simp only [Tracked.step] at hs
        cases hp : PinPage t.pool page_id page_mode true true with
        | none => rw [hp] at hs; cases hs
        | some x =>
          obtain ⟨r, b1⟩ := x
          rw [hp] at hs
          simp only [Option.some.injEq] at hs
          rw [← hs]
          exact tracked_pin hI (h64 page_id page_mode (List.mem_cons_self _ _)) hp
      | mark f data =>
        simp only [Tracked.step] at hs
        cases hm : t.pool.page_frames[f]? with
        | none => rw [hm] at hs; cases hs
        | some m =>
          rw [hm] at hs
          simp only at hs
          by_cases hv : m.page_id.IsValid = true
          · rw [if_pos hv] at hs
            simp only [Option.some.injEq] at hs
            rw [← hs]
            exact tracked_mark hI hm hv
          · rw [if_neg hv] at hs
            cases hs

/-- The loop of `Finalize` with every write succeeding: it returns, and a
page of the file is the last dirty frame with its number, or is unchanged
when no dirty frame has its number. -/
theorem finalizeLoop_spec : ∀ (ps : List Page) (disk : Disk),
    ∃ disk1, finalizeLoop ps disk [] = some disk1 ∧
      ∀ p, (∃ m ∈ ps, m.is_dirty = true ∧ m.page_id.GetPageID = p ∧ disk1 p = m) ∨
        ((∀ m ∈ ps, m.is_dirty = true → m.page_id.GetPageID ≠ p) ∧ disk1 p = disk p)
  | [], disk => ⟨disk, rfl, fun _ => Or.inr ⟨fun _ hm => (by cases hm), rfl⟩⟩
  | m :: ps, disk => by
    by_cases hd : m.is_dirty = true
    · obtain ⟨disk1, h1, h2⟩ :=
        finalizeLoop_spec ps (Function.update disk m.page_id.GetPageID m)
      refine ⟨disk1, ?_, ?_⟩
      · simp only [finalizeLoop, Page.IsDirty, hd, if_true, flush, List.headD_nil, List.tail_nil]
        exact h1
      · intro p
        rcases h2 p with ⟨m1, hm1, a1, a2, a3⟩ | ⟨a1, a2⟩
        · exact Or.inl ⟨m1, List.mem_cons_of_mem _ hm1, a1, a2, a3⟩
        · by_cases hp : m.page_id.GetPageID = p
          · refine Or.inl ⟨m, List.mem_cons_self _ _, hd, hp, ?_⟩
            rw [a2, ← hp, Function.update_same]
          · refine Or.inr ⟨?_, ?_⟩
            · intro m1 hm1 hd1
              rcases List.mem_cons.1 hm1 with e | hm1
              · rw [e]
                exact hp
              · exact a1 m1 hm1 hd1
            · rw [a2, Function.update_noteq (Ne.symm hp)]
    · obtain ⟨disk1, h1, h2⟩ := finalizeLoop_spec ps disk
      refine ⟨disk1, ?_, ?_⟩
      · simp only [finalizeLoop, Page.IsDirty, hd, Bool.false_eq_true, if_false]
        exact h1
      · intro p
        rcases h2 p with ⟨m1, hm1, a1, a2, a3⟩ | ⟨a1, a2⟩
        · exact Or.inl ⟨m1, List.mem_cons_of_mem _ hm1, a1, a2, a3⟩
        · refine Or.inr ⟨?_, a2⟩
          intro m1 hm1 hd1
          rcases List.mem_cons.1 hm1 with e | hm1
          · rw [e] at hd1
            exact absurd hd1 hd
          · exact a1 m1 hm1 hd1

/-- C9.  For every sequence of `PinPage` calls with 64-bit identifiers and
markings `SetDirty(true)` of frames that hold a page, all transfers
succeeding, `Finalize` returns, and afterwards the file holds, for every page
that was ever marked dirty, the bytes its frame held when it was last marked
dirty. -/
theorem finalize_stores_marked (n fid : Nat) (disk : Disk) (b0 : Pool) (ops : List BufOp)
    (t : Tracked) (hc : create n fid disk = some b0)
    (h64 : ∀ page_id page_mode, BufOp.pin page_id page_mode ∈ ops → page_id.value < 2 ^ 64)
    (hr : Tracked.run ⟨b0, fun _ => none⟩ ops = some t) :
    ∃ disk1, Finalize t.pool [] = some disk1 ∧
      ∀ (p d : Nat), t.marked p = some d → (disk1 p).page_data = d := by
  have hI : t.Inv := tracked_run ops _ t (tracked_create hc) h64 hr
  obtain ⟨disk1, h1, h2⟩ := finalizeLoop_spec t.pool.page_frames t.pool.disk
  refine ⟨disk1, h1, ?_⟩
  intro p d hmk
  rcases h2 p with ⟨m, hm, a1, a2, a3⟩ | ⟨a1, a2⟩
  · obtain ⟨f, hf⟩ := List.mem_iff_getElem?.1 hm
    rw [a3]
    exact hI.in_frame p d f m hmk hf ((hI.held f m hf).1 a1) a2
  · rw [a2]
    refine hI.on_disk p d hmk ?_
    intro f m hf _ hp
    by_contra hd
    have hd1 : m.is_dirty = true := by simpa using hd
    exact a1 m (List.getElem?_mem hf) hd1 hp

set_option maxRecDepth 100000 in
/-- Pages 1 and 2 share the only frame of a pool; page 1 is marked with the
bytes 11 and later 12, page 2 with 22. -/
theorem finalize_stores_marked_witness :
    ∃ t disk1, Tracked.run ⟨poolOf 1, fun _ => none⟩ markCalls = some t ∧
      Finalize t.pool [] = some disk1 ∧
      ∀ (p d : Nat), t.marked p = some d → (disk1 p).page_data = d := by
  obtain ⟨t, ht⟩ := Option.isSome_iff_exists.mp
    (by decide : (Tracked.run ⟨poolOf 1, fun _ => none⟩ markCalls).isSome = true)
  obtain ⟨disk1, h1, h2⟩ := finalize_stores_marked 1 3 Disk.empty (poolOf 1) markCalls t rfl
    (by
      intro page_id page_mode hm
      simp only [markCalls, List.mem_cons, BufOp.pin.injEq, List.mem_singleton,
        List.not_mem_nil, or_false, false_or, reduceCtorEq] at hm
      rcases hm with ⟨h, _⟩ | ⟨h, _⟩ | ⟨h, _⟩ <;> rw [h] <;> decide)
    ht
  exact ⟨t, disk1, ht, h1, h2⟩

end BufferManager

/-! ## The pages pinned by an operation of the B-tree -/

namespace BufferManager

/-- Among the frames of a pool that has one, a frame of least visit time. -/
theorem exists_least_visit (n cur : Nat) (frames : List Page) (h : 0 < frames.length) :
    ∃ u pu, frames[u]? = some pu ∧
      ∀ (j : Nat) (m : Page), frames[j]? = some m → visitTime n cur u pu ≤ visitTime n cur j m := by
  obtain ⟨u, hu, hmin⟩ := Finset.exists_min_image (Finset.range frames.length)
    (fun j => visitTime n cur j (frames.getD j Page.fresh)) ⟨0, Finset.mem_range.2 h⟩
  have hul : u < frames.length := Finset.mem_range.1 hu
  refine ⟨u, frames[u], List.getElem?_eq_getElem hul, fun j m hm => ?_⟩
  have hjl : j < frames.length := (List.getElem?_eq_some_iff.1 hm).1
  have h1 := hmin j (Finset.mem_range.2 hjl)
  simp only [List.getD_eq_getElem?_getD, hm, List.getElem?_eq_getElem hul, Option.getD_some] at h1
  exact h1

/-- The frame with the least visit time has the least mark. -/
theorem mark_le_of_visit_le {n cur u j : Nat} {pu m : Page} (hn : 0 < n)
    (h : visitTime n cur u pu ≤ visitTime n cur j m) : pu.last_used ≤ m.last_used := by
  unfold visitTime at h
  have h2 : (j + n - cur) % n < n := Nat.mod_lt _ hn
  by_contra hc
  have h3 : m.last_used + 1 ≤ pu.last_used := by omega
  have h4 : (m.last_used + 1) * n ≤ pu.last_used * n := Nat.mul_le_mul_right _ h3
  have h5 : (m.last_used + 1) * n = m.last_used * n + n := by ring
  omega

/-- What a `PinPage` that returns frame `f` leaves of the frames: every other
frame keeps its page and its pin count, on a hit the returned frame does too,
and on a miss the returned frame is one of least visit time. -/
theorem pin_keeps_frames {b b2 : Pool} {page_id : PageId} {page_mode f : Nat}
    {write_ok read_ok : Bool}
    (hlen : b.page_frames.length = b.page_count) (hcur : b.page_cur < b.page_count)
    (hmk : ∀ m ∈ b.page_frames, m.last_used < 2 ^ 16)
    (hp : PinPage b page_id page_mode write_ok read_ok = some (some f, b2)) :
    b2.fid = b.fid ∧
    (∀ (j : Nat) (m : Page), j ≠ f → b.page_frames[j]? = some m →
      ∃ m1, b2.page_frames[j]? = some m1 ∧ m1.page_id = m.page_id ∧
        m1.pin_count = m.pin_count) ∧
    (Table.find b.page_table page_id.GetValue ≠ none → ∀ (m : Page),
      b.page_frames[f]? = some m →
      ∃ m1, b2.page_frames[f]? = some m1 ∧ m1.page_id = m.page_id ∧
        m1.pin_count = m.pin_count) ∧
    (Table.find b.page_table page_id.GetValue = none →
      ∃ mf, b.page_frames[f]? = some mf ∧ ∀ (j : Nat) (m : Page), b.page_frames[j]? = some m →
        visitTime b.page_count b.page_cur f mf ≤ visitTime b.page_count b.page_cur j m) := by
  have hv : page_id.IsValid = true := by
    by_contra hv
    unfold PinPage at hp
    rw [if_pos hv] at hp
    cases hp
  have hmk1 : ∀ (j : Nat) (m : Page), b.page_frames[j]? = some m → m.last_used < 2 ^ 16 :=
    fun j m hm => hmk m (List.getElem?_mem hm)
  cases hfind : Table.find b.page_table page_id.GetValue with
  | some g =>
    unfold PinPage at hp
    simp only [hv, not_true_eq_false, if_false, hfind, Option.some.injEq, Prod.mk.injEq] at hp
    obtain ⟨e1, e2⟩ := hp
    subst e1
    subst e2
    refine ⟨rfl, fun j m hj hm => ?_, fun _ m hm => ?_, fun h => by cases h⟩
    · refine ⟨m, ?_, rfl, rfl⟩
      show (b.page_frames.modify (fun p => p.SetUsed page_mode) g)[j]? = some m
      rw [List.getElem?_modify, hm]
      simp [Ne.symm hj]
    · refine ⟨m.SetUsed page_mode, ?_, rfl, rfl⟩
      show (b.page_frames.modify (fun p => p.SetUsed page_mode) g)[g]? = _
      rw [List.getElem?_modify, hm]
      simp
  | none =>
    obtain ⟨frames, cur, adv, pf, hloop, hpf, hfid, _, _, hres⟩ := PinPage_miss hv hfind hp
    obtain ⟨_, hrel, _, _⟩ := clock_exit _ _ _ _ _ _ _ _ hlen hloop
    rcases hres with ⟨h1, _⟩ | ⟨h1, _⟩ | ⟨h1, _, _, reg, hfr, _⟩
    · cases h1
    · cases h1
    · have hfc : f = cur := Option.some.inj h1
      subst hfc
      refine ⟨hfid, fun j m hj hm => ?_, fun h => absurd rfl h, fun _ => ?_⟩
      · obtain ⟨m1, hm1, e1, e2, _⟩ := hrel.2 j m hm
        refine ⟨m1, ?_, e1, e2⟩
        rw [hfr, List.getElem?_set, if_neg (Ne.symm hj)]
        exact hm1
      · obtain ⟨u, pu, hu, hmin⟩ := exists_least_visit b.page_count b.page_cur b.page_frames
          (by rw [hlen]; omega)
        obtain ⟨m0, hm0⟩ : ∃ m0, b.page_frames[b.page_cur]? = some m0 :=
          ⟨_, List.getElem?_eq_getElem (by rw [hlen]; exact hcur)⟩
        have hfuel : visitTime b.page_count b.page_cur u pu < clockFuel b.page_count := by
          have h2 := hmin _ _ hm0
          have h3 := hmk1 _ _ hm0
          have h4 : (b.page_cur + b.page_count - b.page_cur) % b.page_count = 0 := by
            rw [Nat.add_sub_cancel_left, Nat.mod_self]
          have h5 : m0.last_used * b.page_count ≤ 65535 * b.page_count :=
            Nat.mul_le_mul_right _ (by omega)
          unfold visitTime at h2 ⊢
          unfold clockFuel
          rw [h4] at h2
          omega
        obtain ⟨frames1, hloop1, _, _⟩ :=
          clock_victim_char (clockFuel b.page_count) b.page_count b.page_frames b.page_cur 0 u pu
            hlen hcur hmk1 hu hmin hfuel
        rw [hloop] at hloop1
        simp only [Option.some.injEq, Prod.mk.injEq] at hloop1
        obtain ⟨_, e, _⟩ := hloop1
        subst e
        exact ⟨pu, hu, hmin⟩

end BufferManager

namespace Btree

open BufferManager (Pool Page PageId PAGE_READ PAGE_WRITE PinPage Table visitTime heldPages)

/-- The entries of `pagelist` are intact when each of them is. -/
theorem intact_iff (b : Pool) (pagelist : List (Nat × Nat)) :
    intact b pagelist = true ↔ ∀ e ∈ pagelist,
      (b.page_frames[e.2]?).map (fun q => q.page_id.value) =
        some (PageId.make b.fid e.1).value := by
  simp [intact, List.all_eq_true]

/-- `SetDirty` on a frame changes the page of no frame. -/
theorem setDirty_page (l : List Page) (f j : Nat) :
    ((l.modify (fun q => q.SetDirty true) f)[j]?).map (fun q => q.page_id.value) =
      (l[j]?).map (fun q => q.page_id.value) := by
  rw [List.getElem?_modify]
  cases l[j]? with
  | none => rfl
  | some m =>
    by_cases h : f = j
    · simp [h, Page.SetDirty]
    · simp [h]

/-- The pool and the list of pages after `pinStep`, from the result of
`PinPage`. -/
theorem pinStep_some {b b1 : Pool} {pagelist pagelist1 : List (Nat × Nat)} {p page_mode : Nat}
    (hp : pinStep b pagelist p page_mode = some (b1, pagelist1)) :
    ∃ f b2, PinPage b (PageId.make b.fid p) page_mode true true = some (some f, b2) ∧
      pagelist1 = pagelist ++ [(p, f)] ∧ b1.fid = b2.fid ∧
      ∀ j : Nat, (b1.page_frames[j]?).map (fun q : Page => q.page_id.value) =
        (b2.page_frames[j]?).map (fun q : Page => q.page_id.value) := by
  unfold pinStep at hp
  split at hp
  · rename_i f b2 hpin
    simp only [Option.some.injEq, Prod.mk.injEq] at hp
    obtain ⟨e1, e2⟩ := hp
    refine ⟨f, b2, hpin, e2.symm, ?_, fun j => ?_⟩
    · rw [← e1]; split <;> rfl
    · rw [← e1]
      split
      · exact setDirty_page _ _ _
      · rfl
  · cases hp

/-- An entry of `pagelist` stays intact when its frame keeps its page. -/
theorem entry_kept {b b1 b2 : Pool} {e : Nat × Nat} (hfid : b1.fid = b.fid)
    (hids : ∀ j : Nat, (b1.page_frames[j]?).map (fun q : Page => q.page_id.value) =
      (b2.page_frames[j]?).map (fun q : Page => q.page_id.value))
    (hk : ∀ m : Page, b.page_frames[e.2]? = some m →
      ∃ m1, b2.page_frames[e.2]? = some m1 ∧ m1.page_id = m.page_id ∧
        m1.pin_count = m.pin_count)
    (h : (b.page_frames[e.2]?).map (fun q : Page => q.page_id.value) =
      some (PageId.make b.fid e.1).value) :
    (b1.page_frames[e.2]?).map (fun q : Page => q.page_id.value) =
      some (PageId.make b1.fid e.1).value := by
  obtain ⟨m, hm, hv⟩ := Option.map_eq_some'.1 h
  obtain ⟨m1, hm1, e1, _⟩ := hk m hm
  rw [hids, hm1, hfid, ← hv, Option.map_some', e1]

/-- A value of an option of triples from its components. -/
theorem some_triple_getD {α β γ : Type} (o : Option (α × β × γ)) (a : α) (b : β) (c : γ)
    (h : o.map (fun r => r.2.2) = some c) :
    o = some ((o.map fun r => r.1).getD a, (o.map fun r => r.2.1).getD b, c) := by
  cases o with
  | none => cases h
  | some r =>
    obtain ⟨x, y, z⟩ := r
    simp only [Option.map_some', Option.some.injEq] at h
    simp [h]

set_option maxRecDepth 1000000 in
set_option maxHeartbeats 0 in
/-- C30 (counterexample).  A B-tree of order 22 (`PAGE_SIZE = 512`) with a pool
of 5 frames is created on an empty file and the keys 1 to 44 are inserted in
ascending order: every call returns, and in every operation each page pinned
was still in its frame after every later pin.  The frames then hold the pages
0 to 4.  The insert of key 45 pins the root, the leaf in page 4, the header
and the new page 5, and the root, the two leaves and the header again: four
pages, fewer than the five frames.  After its first six pins all entries of
`pagelist` are intact, the header page 0 being in frame 0; the seventh, the
pin of the new page 5 in `new_node`, is a miss that takes frame 0: the header,
pinned two calls before in the same operation, is evicted before
`UnpinAllPages`, and its entries of `pagelist` refer to the frame of page 5. -/
theorem header_evicted_by_split :
    session 22 5 (ascending 44) = some (tree44, pool44, true) ∧
    heldPages pool44 = [some 0, some 1, some 2, some 3, some 4] ∧
    tree44.pins (.insert ⟨45, 44⟩) =
      some (pins45 ++ [(5, PAGE_WRITE), (1, PAGE_WRITE), (4, PAGE_WRITE), (5, PAGE_WRITE),
        (0, PAGE_READ), (0, PAGE_WRITE)]) ∧
    ((pins45 ++ [(5, PAGE_WRITE), (1, PAGE_WRITE), (4, PAGE_WRITE), (5, PAGE_WRITE),
        (0, PAGE_READ), (0, PAGE_WRITE)]).map Prod.fst).dedup.length = 4 ∧
    (pinSteps pool44 [] pins45).map (fun r => (heldPages r.1, r.2.1, r.2.2)) =
      some ([some 0, some 1, some 2, some 3, some 4], pagelist45, true) ∧
    (pinSteps pool44 [] (pins45 ++ [(5, PAGE_WRITE)])).map
        (fun r => (heldPages r.1, r.2.1, r.2.2)) =
      some ([some 5, some 1, some 2, some 3, some 4], pagelist45 ++ [(5, 0)], false) :=
  ⟨some_triple_getD _ _ _ _ (by decide!), by decide!, by decide!, by decide!, by decide!,
    by decide!⟩

/-- C30 (amended).  The buffer manager of the B-tree keeps no page for the
sake of a pin; what a call of `BufMgrPinPage` leaves of the pages pinned
before in the same operation is this.  The call appends the page and the frame
`f` it returns to `pagelist`.  Every entry that refers to another frame stays
intact.  If the page is in the page table (a hit) all entries stay intact.  If
it is not (a miss), `f` is the frame whose visit time, its mark `last_used`
times the number of frames plus its cyclic distance from the clock hand, is
least, so that its mark is at most the mark of every frame: the page in it is
evicted, pinned or not. -/
theorem pinned_page_kept_unless_least (b b1 : Pool) (pagelist pagelist1 : List (Nat × Nat))
    (p page_mode : Nat)
    (hlen : b.page_frames.length = b.page_count) (hcur : b.page_cur < b.page_count)
    (hmk : ∀ m ∈ b.page_frames, m.last_used < 2 ^ 16)
    (hp : pinStep b pagelist p page_mode = some (b1, pagelist1)) :
    ∃ f, pagelist1 = pagelist ++ [(p, f)] ∧
      (∀ e ∈ pagelist, e.2 ≠ f → intact b [e] = true → intact b1 [e] = true) ∧
      (Table.find b.page_table (PageId.make b.fid p).GetValue ≠ none →
        intact b pagelist = true → intact b1 pagelist = true) ∧
      (Table.find b.page_table (PageId.make b.fid p).GetValue = none →
        ∃ mf, b.page_frames[f]? = some mf ∧
          ∀ (j : Nat) (m : Page), b.page_frames[j]? = some m →
            visitTime b.page_count b.page_cur f mf ≤ visitTime b.page_count b.page_cur j m ∧
            mf.last_used ≤ m.last_used) := by
  obtain ⟨f, b2, hpin, hl, hfid2, hids⟩ := pinStep_some hp
  obtain ⟨hfid, hothers, hhit, hmiss⟩ := BufferManager.pin_keeps_frames hlen hcur hmk hpin
  have hf1 : b1.fid = b.fid := hfid2.trans hfid
  refine ⟨f, hl, fun e _ hne hi => ?_, fun hh hi => ?_, fun hm => ?_⟩
  · rw [intact_iff] at hi ⊢
    intro e1 he1
    rw [List.mem_singleton] at he1
    subst he1
    exact entry_kept hf1 hids (fun m hm => hothers _ m hne hm) (hi e1 (List.mem_singleton.2 rfl))
  · rw [intact_iff] at hi ⊢
    intro e he
    by_cases hne : e.2 = f
    · exact entry_kept hf1 hids (fun m hm => by rw [hne] at hm ⊢; exact hhit hh m hm) (hi e he)
    · exact entry_kept hf1 hids (fun m hm => hothers _ m hne hm) (hi e he)
  · obtain ⟨mf, hmf, hmin⟩ := hmiss hm
    exact ⟨mf, hmf, fun j m hj =>
      ⟨hmin j m hj, BufferManager.mark_le_of_visit_le (by omega) (hmin j m hj)⟩⟩

set_option maxRecDepth 1000000 in
set_option maxHeartbeats 0 in
/-- C30 (amended), on the pool `pool45`, reached in the insert of key 45 after
six pins, with the entries `pagelist45`: the pin of page 5 returns, and the
entries other than those of the returned frame stay intact; the pin is a miss,
and the returned frame had the least mark. -/
theorem pinned_page_kept_unless_least_witness :
    ∃ b1 pagelist1 f, pinStep pool45 pagelist45 5 PAGE_WRITE = some (b1, pagelist1) ∧
      pagelist1 = pagelist45 ++ [(5, f)] ∧
      (∀ e ∈ pagelist45, e.2 ≠ f → intact pool45 [e] = true → intact b1 [e] = true) ∧
      ∃ mf, pool45.page_frames[f]? = some mf ∧
        ∀ (j : Nat) (m : Page), pool45.page_frames[j]? = some m →
          visitTime pool45.page_count pool45.page_cur f mf ≤
            visitTime pool45.page_count pool45.page_cur j m ∧
          mf.last_used ≤ m.last_used := by
  have h : ∃ r, pinStep pool45 pagelist45 5 PAGE_WRITE = some r :=
    Option.isSome_iff_exists.1 (by decide!)
  obtain ⟨⟨b1, pagelist1⟩, hr⟩ := h
  obtain ⟨f, h1, h2, _, h4⟩ :=
    pinned_page_kept_unless_least pool45 b1 pagelist45 pagelist1 5 PAGE_WRITE
      (by decide!) (by decide!) (by decide!) hr
  exact ⟨b1, pagelist1, f, hr, h1, h2, h4 (by decide!)⟩

end Btree

/-! ## The key numbers of the YCSB driver -/

namespace ycsbc

theorem loadNums_eq : ∀ (n : Nat) (w : CoreWorkload),
    w.sequence_key_generator_.counter_ + n < 2 ^ 64 →
    (CoreWorkload.loadNums n w).1 =
      (List.range n).map (fun i => w.sequence_key_generator_.counter_ + 1 + i)
  | 0, _, _ => rfl
  | n + 1, w, h => by
    have hc : (w.sequence_key_generator_.counter_ + 1) % 2 ^ 64 =
        w.sequence_key_generator_.counter_ + 1 := Nat.mod_eq_of_lt (by omega)
    have ih := loadNums_eq n w.nextSequenceNum.2 (by
      show (w.sequence_key_generator_.counter_ + 1) % 2 ^ 64 + n < 2 ^ 64
      rw [hc]
      omega)
    have h1 : w.nextSequenceNum.1 = w.sequence_key_generator_.counter_ + 1 := hc
    have h2 : w.nextSequenceNum.2.sequence_key_generator_.counter_ =
        w.sequence_key_generator_.counter_ + 1 := hc
    simp only [CoreWorkload.loadNums, ih, h1, h2, List.range_succ_eq_map, List.map_cons,
      List.map_map, Nat.add_zero, List.cons.injEq, true_and]
    apply List.map_congr_left
    intro i _
    simp only [Function.comp_apply]
    omega

/-- C38 (code defect).  `Next()` returns the incremented counter and `Last()`
the counter minus one, so after a call of `Next()` the call `Last()` returns
one less than the value `Next()` returned, never that value.  In
`CoreWorkload` with `insert_start + record_count_ < 2 ^ 64` and at least one
record, the `record_count_` calls of `NextSequenceKey` of the load phase draw
the key numbers `insert_start + 1, ..., insert_start + record_count_`, while
`NextTransactionKey` accepts the number `insert_start` from its chooser, which
was not loaded. -/
theorem transaction_key_not_loaded (insert_start record_count : Nat) (ordered : Bool)
    (hash : Nat → Nat) (rest : List Nat) (g : CounterGenerator)
    (hr : 1 ≤ record_count) (hb : insert_start + record_count < 2 ^ 64) :
    g.Next.2.Last = (g.Next.1 + 2 ^ 64 - 1) % 2 ^ 64 ∧ g.Next.2.Last ≠ g.Next.1 ∧
    ((CoreWorkload.init insert_start record_count ordered hash).loadNums record_count).1 =
      (List.range record_count).map (fun i => insert_start + 1 + i) ∧
    (CoreWorkload.init insert_start record_count ordered hash).nextTransactionNum
      (insert_start :: rest) = some (insert_start, rest) ∧
    insert_start ∉
      ((CoreWorkload.init insert_start record_count ordered hash).loadNums record_count).1 := by
  have hs : insert_start % 2 ^ 64 = insert_start := Nat.mod_eq_of_lt (by omega)
  have hload : ((CoreWorkload.init insert_start record_count ordered hash).loadNums
      record_count).1 = (List.range record_count).map (fun i => insert_start + 1 + i) := by
    rw [loadNums_eq record_count _ (by
      show insert_start % 2 ^ 64 + record_count < 2 ^ 64
      rw [hs]
      exact hb)]
    show List.map (fun i => insert_start % 2 ^ 64 + 1 + i) _ = _
    rw [hs]
  refine ⟨rfl, ?_, hload, ?_, ?_⟩
  · show (((g.counter_ + 1) % 2 ^ 64) + 2 ^ 64 - 1) % 2 ^ 64 ≠ (g.counter_ + 1) % 2 ^ 64
    have := Nat.mod_lt (g.counter_ + 1) (by norm_num : 2 ^ 64 > 0)
    omega
  · have hlast : (CoreWorkload.init insert_start record_count ordered hash).insert_key_sequence_.Last
        = insert_start + record_count - 1 := by
      show ((insert_start + record_count) % 2 ^ 64 % 2 ^ 64 + 2 ^ 64 - 1) % 2 ^ 64 = _
      omega
    unfold CoreWorkload.nextTransactionNum
    rw [hlast, if_neg (by omega)]
  · rw [hload]
    intro hm
    obtain ⟨i, _, hi⟩ := List.mem_map.1 hm
    omega

/-- With `insert_start = 0` and three records the load phase draws the key
numbers 1, 2, 3 and a transaction accepts the key number 0. -/
theorem transaction_key_not_loaded_witness :
    (CounterGenerator.new 0).Next.1 = 1 ∧ (CounterGenerator.new 0).Next.2.Last = 0 ∧
    ((CoreWorkload.init 0 3 true id).loadNums 3).1 = [1, 2, 3] ∧
    (CoreWorkload.init 0 3 true id).NextTransactionKey [0] = some (0, []) ∧
    0 ∉ ((CoreWorkload.init 0 3 true id).loadNums 3).1 :=
  ⟨by decide, by decide,
    (transaction_key_not_loaded 0 3 true id [] (CounterGenerator.new 0) (by decide)
      (by decide)).2.2.1.trans (by decide),
    by decide,
    (transaction_key_not_loaded 0 3 true id [] (CounterGenerator.new 0) (by decide)
      (by decide)).2.2.2.2⟩

end ycsbc

